import Mathlib

/-!
# Basic-block profiler with interval slicing (isimpoint_inst.H)

A shallow embedding of the block key, the block record, the per-thread
profile, the image registry and the slicing engine of `isimpoint_inst.H`,
and of the loop record of `loop-tracker.H`, followed by theorems about
them.

Conventions of the embedding:

* `ADDRINT` values are natural numbers below `ADDRINT_MOD`; unsigned
  subtraction is written with an explicit `% ADDRINT_MOD`.
* `INT32` / `INT64` counters are integers.  The 32-bit arithmetic on the
  per-slice counter of a block, its `++` (`BLOCK::Execute`) and its product
  with the static count (`BLOCK::SliceInstructionCount`), is wrapped
  explicitly by `wrapINT32`; the 64-bit counters are not wrapped.
* A `BLOCK *` is a natural number addressing the block heap
  `ISIMPOINT.blocks`; `NULL` is `none`.
* An output stream is the list of records written to it so far.
-/

namespace ISimPoint

/-! ## Definitions -/

/-- Modelled from the spec: the address type `ADDRINT` is declared in `pin.H`,
which is not among the sources; addresses are unsigned machine words, taken
here to be 64 bits wide.  This is the number of distinct address values. -/
def ADDRINT_MOD : Nat := 2 ^ 64

/-- The class `BLOCK_KEY`: `(_start, _end, _size)`. -/
structure BLOCK_KEY where
  _start : Nat
  _end : Nat
  _size : Nat
deriving DecidableEq, Repr

namespace BLOCK_KEY

/-- Both address fields are representable `ADDRINT` values. -/
def WF (k : BLOCK_KEY) : Prop := k._start < ADDRINT_MOD ∧ k._end < ADDRINT_MOD

instance (k : BLOCK_KEY) : Decidable k.WF := by unfold WF; infer_instance

/-- The method `IsPoint`: `(_start - _end) == 1` in unsigned arithmetic. -/
def IsPoint (k : BLOCK_KEY) : Bool :=
  (k._start + ADDRINT_MOD - k._end) % ADDRINT_MOD == 1

/-- The accessor `Start`. -/
def Start (k : BLOCK_KEY) : Nat := k._start

/-- The accessor `End`. -/
def End (k : BLOCK_KEY) : Nat := k._end

/-- The accessor `Size`. -/
def Size (k : BLOCK_KEY) : Nat := k._size

/-- The method `Contains`. -/
def Contains (k : BLOCK_KEY) (address : Nat) : Bool :=
  if address ≥ k._start && address ≤ k._end then true else false

end BLOCK_KEY

/-- The friend function `operator<` on two keys. -/
def operator_lt (p1 p2 : BLOCK_KEY) : Bool :=
  if p1.IsPoint then decide (p1._start < p2._start)
  else if p2.IsPoint then decide (p1._end ≤ p2._start)
  else if p1._start = p2._start then decide (p1._end < p2._end)
  else decide (p1._start < p2._start)

/-- Two keys are equivalent for the sorted map when neither is less than the
other. -/
def keyEquiv (p1 p2 : BLOCK_KEY) : Bool :=
  !operator_lt p1 p2 && !operator_lt p2 p1

/-- A range key is usable next to point probes when it is a point itself or
its bounds are in order. -/
def rangeOrdered (k : BLOCK_KEY) : Prop := k.IsPoint = true ∨ k._start ≤ k._end

/-- Two keys do not conflict when one is a point, or they have the same
bounds, or their ranges share no address. -/
def rangesApart (k1 k2 : BLOCK_KEY) : Prop :=
  k1.IsPoint = true ∨ k2.IsPoint = true ∨
  (k1._start = k2._start ∧ k1._end = k2._end) ∨
  k1._end < k2._start ∨ k2._end < k1._start

/-! ### Machine integers -/

/-- The value of an integer after truncation to a signed 32-bit word. -/
def wrapINT32 (x : Int) : Int := (x + 2 ^ 31) % 2 ^ 32 - 2 ^ 31

/-- The cast `(INT64)` applied to a `UINT64` value. -/
def INT64_of_UINT64 (x : Nat) : Int :=
  if x % 2 ^ 64 < 2 ^ 63 then ((x % 2 ^ 64 : Nat) : Int)
  else ((x % 2 ^ 64 : Nat) : Int) - 2 ^ 64

/-- Overwrite one slot of an array indexed by natural numbers. -/
def upd {α : Type} (f : Nat → α) (i : Nat) (v : α) : Nat → α :=
  fun j => if j = i then v else f j

/-! ### Output records -/

/-- One record of the per-thread `.bb` stream. -/
inductive Line where
  /-- The record `I: 0`. -/
  | I0
  /-- The record `P: tid`. -/
  | P (tid : Nat)
  /-- The record `C: sum:dummy Command:` followed by the command line. -/
  | C (commandLine : String)
  /-- The record `M: endMarker markerCount` (non-symbolic marker). -/
  | M (endMarker : Nat) (markerCount : Int)
  /-- The record `M: endMarker markerCount no_image 0`. -/
  | M_no_image (endMarker : Nat) (markerCount : Int)
  /-- The record `S: endMarker markerCount name low + offset`. -/
  | S (endMarker : Nat) (markerCount : Int) (name : String) (low : Nat) (offset : Nat)
  /-- The comment `# Slice ending at count`. -/
  | SliceEnding (count : Int)
  /-- One slice body: `T` followed by the `:id:count` pairs. -/
  | T (pairs : List (Int × Int))
  /-- The record `Dynamic instruction count n`. -/
  | DynamicInstructionCount (n : Int)
  /-- The record `SliceSize: n`. -/
  | SliceSize (n : Int)
  /-- One `Block id:` record of the program-end summary. -/
  | BlockSummary (id : Int) (start stop : Nat) (static : Int) (count : Int)
      (size : Nat) (prev : Option (List (Int × Int)))
  /-- The terminator `End of bb`. -/
  | EndOfBb
  /-- The record `G: name LowAddress: low LoadOffset: offset` of an image load. -/
  | G (name : String) (lowAddress : Nat) (loadOffset : Nat)
deriving DecidableEq, Repr

/-! ### Image registry -/

/-- The class `IMG_INFO`. -/
structure IMG_INFO where
  _name : String
  _low_address : Nat
  _imgId : Int
deriving DecidableEq, Repr

/-- The accessor `Name`. -/
def IMG_INFO.Name (i : IMG_INFO) : String := i._name

/-- The accessor `LowAddress`. -/
def IMG_INFO.LowAddress (i : IMG_INFO) : Nat := i._low_address

/-- The class `IMG_MANAGER`: the array `img_info` and the next free id. -/
structure IMG_MANAGER where
  img_info : Nat → IMG_INFO
  _currentImgId : Nat

/-- The method `GetImageInfo`. -/
def IMG_MANAGER.GetImageInfo (m : IMG_MANAGER) (id : Nat) : IMG_INFO := m.img_info id

/-! ### Reuse histogram -/

/-- The enumeration `LDV_TYPE`. -/
inductive LDV_TYPE where
  | LDV_TYPE_NONE
  | LDV_TYPE_APPROXIMATE
  | LDV_TYPE_EXACT
deriving DecidableEq, Repr

/-- The constant `LDV::MAX_BINS`. -/
def MAX_BINS : Nat := 30

/-- The class `LDV`, without the external distance tracker `_rd`. -/
structure LDV where
  _counts : List Nat
deriving DecidableEq, Repr

/-- The method `LDV::emit`: the pairs written and the histogram afterwards. -/
def LDV.emit (l : LDV) : List (Nat × Nat) × LDV :=
  (List.range (MAX_BINS + 1)).foldl
    (fun (acc : List (Nat × Nat) × LDV) (bin : Nat) =>
      let value := acc.2._counts.getD bin 0
      (if value ≠ 0 then acc.1 ++ [(bin, value)] else acc.1,
        { _counts := acc.2._counts.set bin 0 }))
    ([], l)

/-! ### Blocks -/

/-- The class `BLOCK`; the per-thread arrays are functions of the thread id. -/
structure BLOCK where
  _staticInstructionCount : Int
  _id : Int
  _key : BLOCK_KEY
  _sliceBlockCount : Nat → Int
  _globalBlockCount : Nat → Int
  _imgId : Nat
  _blockCountMap : Nat → List (Int × Int)

namespace BLOCK

/-- The constructor `BLOCK::BLOCK`. -/
def new (key : BLOCK_KEY) (instructionCount : Int) (id : Int) (imgId : Nat) : BLOCK :=
  { _staticInstructionCount := instructionCount
    _id := id
    _key := key
    _sliceBlockCount := fun _ => 0
    _globalBlockCount := fun _ => 0
    _imgId := imgId
    _blockCountMap := fun _ => [] }

/-- The accessor `StaticInstructionCount`. -/
def StaticInstructionCount (b : BLOCK) : Int := b._staticInstructionCount

/-- The accessor `ImgId`. -/
def ImgId (b : BLOCK) : Nat := b._imgId

/-- The accessor `Key`. -/
def Key (b : BLOCK) : BLOCK_KEY := b._key

/-- The accessor `Id`. -/
def Id (b : BLOCK) : Int := b._id

/-- The one-argument `Execute`: `_sliceBlockCount[tid]++` on an `INT32`. -/
def Execute (b : BLOCK) (tid : Nat) : BLOCK :=
  { b with
    _sliceBlockCount := upd b._sliceBlockCount tid (wrapINT32 (b._sliceBlockCount tid + 1)) }

/-- The method `GlobalBlockCount`. -/
def GlobalBlockCount (b : BLOCK) (tid : Nat) : Int :=
  b._globalBlockCount tid + b._sliceBlockCount tid

/-- The method `SliceInstructionCount`, a product of two `INT32` values. -/
def SliceInstructionCount (b : BLOCK) (tid : Nat) : Int :=
  wrapINT32 (b._sliceBlockCount tid * b._staticInstructionCount)

/-- The method `BLOCK::EmitSliceEnd`: the pairs written to the slice body
and the block afterwards. -/
def EmitSliceEnd (b : BLOCK) (tid : Nat) : List (Int × Int) × BLOCK :=
  if b._sliceBlockCount tid = 0 then ([], b)
  else
    ([(b.Id, b.SliceInstructionCount tid)],
      { b with
        _globalBlockCount :=
          upd b._globalBlockCount tid (b._globalBlockCount tid + b._sliceBlockCount tid)
        _sliceBlockCount := upd b._sliceBlockCount tid 0 })

/-- The method `BLOCK::EmitProgramEnd`: the records written. -/
def EmitProgramEnd (b : BLOCK) (key : BLOCK_KEY) (tid : Nat)
    (KnobEmitPrevBlockCounts : Bool) : List Line :=
  if b._globalBlockCount tid = 0 then []
  else
    [Line.BlockSummary b._id key.Start key.End b._staticInstructionCount
      (b._globalBlockCount tid) key.Size
      (if KnobEmitPrevBlockCounts then some (b._blockCountMap tid) else none)]

end BLOCK

/-- The statement `m[k]++` on a `BLOCK_COUNT_MAP`, kept sorted by key. -/
def blockCountMap_incr : List (Int × Int) → Int → List (Int × Int)
  | [], k => [(k, 1)]
  | (k1, v) :: rest, k =>
    if k < k1 then (k, 1) :: (k1, v) :: rest
    else if k = k1 then (k1, v + 1) :: rest
    else (k1, v) :: blockCountMap_incr rest k

/-! ### Thread profiles -/

/-- The class `PROFILE`. -/
structure PROFILE where
  BbFile : List Line
  LdvFile : List (List (Nat × Nat))
  GlobalInstructionCount : Int
  first_eip : Nat
  first : Bool
  active : Bool
  SliceTimer : Int
  CurrentSliceSize : Int
  last_block : Option Nat
  _ldvState : LDV
  length_queue : List Nat

/-- The constructor `PROFILE::PROFILE`. -/
def PROFILE.new (slice_size : Int) : PROFILE :=
  { BbFile := []
    LdvFile := []
    GlobalInstructionCount := 0
    first_eip := 0
    first := true
    active := false
    SliceTimer := slice_size
    CurrentSliceSize := slice_size
    last_block := none
    _ldvState := { _counts := List.replicate (MAX_BINS + 1) 0 }
    length_queue := [] }

/-- The method `EmitLDV`. -/
def PROFILE.EmitLDV (p : PROFILE) : PROFILE :=
  { p with LdvFile := p.LdvFile ++ [p._ldvState.emit.1], _ldvState := p._ldvState.emit.2 }

/-! ### The engine -/

/-- The class `ISIMPOINT`: the block heap, the block map (keys with block
pointers, in key order), the profiles, the image registry, the id counters
and the knobs.  `PIN_MAX_THREADS` is a constant of `pin.H`. -/
structure ISIMPOINT where
  blocks : Nat → BLOCK
  block_map : List (BLOCK_KEY × Nat)
  commandLine : String
  profiles : Nat → PROFILE
  img_manager : IMG_MANAGER
  _currentId : Nat → Nat
  PIN_MAX_THREADS : Nat
  KnobSliceSize : Int
  KnobNoSymbolic : Bool
  KnobEmitFirstSlice : Bool
  KnobEmitLastSlice : Bool
  KnobEmitPrevBlockCounts : Bool
  _ldv_type : LDV_TYPE

namespace ISIMPOINT

/-- The record written by `EmitSliceStartInfo`. -/
def EmitSliceStartInfo (s : ISIMPOINT) (endMarker : Nat) (markerCount : Int)
    (imgId : Nat) : Line :=
  if imgId = 0 then Line.M_no_image endMarker markerCount
  else
    let img_info := s.img_manager.GetImageInfo imgId
    Line.S endMarker markerCount img_info.Name img_info.LowAddress
      ((endMarker + ADDRINT_MOD - img_info.LowAddress) % ADDRINT_MOD)

/-- The loop over `block_map` inside `EmitSliceEnd`: it accumulates
`markerCount`, and when `emit` holds lets every block write its pair. -/
def EmitSliceEnd_loop (tid endMarker : Nat) (emit : Bool) :
    List (BLOCK_KEY × Nat) → (Nat → BLOCK) → Int → List (Int × Int) →
      (Nat → BLOCK) × Int × List (Int × Int)
  | [], blocks, markerCount, out => (blocks, markerCount, out)
  | (key, block) :: rest, blocks, markerCount, out =>
    let markerCount1 :=
      if key.Contains endMarker then markerCount + (blocks block).GlobalBlockCount tid
      else markerCount
    if emit then
      EmitSliceEnd_loop tid endMarker emit rest
        (upd blocks block ((blocks block).EmitSliceEnd tid).2) markerCount1
        (out ++ ((blocks block).EmitSliceEnd tid).1)
    else
      EmitSliceEnd_loop tid endMarker emit rest blocks markerCount1 out

/-- The method `ISIMPOINT::EmitSliceEnd`. -/
def EmitSliceEnd (s : ISIMPOINT) (endMarker : Nat) (imgId : Nat) (tid : Nat) : ISIMPOINT :=
  let pr := s.profiles tid
  let emit : Bool := !pr.first || s.KnobEmitFirstSlice
  let preamble : List Line :=
    if pr.first then
      [Line.I0, Line.P tid, Line.C s.commandLine, s.EmitSliceStartInfo pr.first_eip 1 imgId]
    else []
  let r := EmitSliceEnd_loop tid endMarker emit s.block_map s.blocks 0 []
  let body : List Line := if emit then [Line.T r.2.2] else []
  let pr1 : PROFILE :=
    if s._ldv_type ≠ LDV_TYPE.LDV_TYPE_NONE ∧ emit then pr.EmitLDV else pr
  let marker : List Line :=
    if pr.active then
      [if s.KnobNoSymbolic then Line.M endMarker r.2.1
       else s.EmitSliceStartInfo endMarker r.2.1 imgId]
    else []
  { s with
    blocks := r.1
    profiles := upd s.profiles tid
      { pr1 with
        BbFile := pr.BbFile ++ preamble ++ [Line.SliceEnding pr.GlobalInstructionCount]
          ++ body ++ marker
        first := false } }

/-- The analysis routine `CountBlock_If`: the state afterwards and the value
returned. -/
def CountBlock_If (s : ISIMPOINT) (block tid : Nat) : ISIMPOINT × Bool :=
  let blocks1 := upd s.blocks block ((s.blocks block).Execute tid)
  let pr := s.profiles tid
  let pr1 : PROFILE :=
    { pr with
      SliceTimer := pr.SliceTimer - (blocks1 block).StaticInstructionCount
      last_block := some block }
  ({ s with blocks := blocks1, profiles := upd s.profiles tid pr1 },
    decide (pr1.SliceTimer < 0))

/-- The method `getNextCurrentId`; `none` when one of its assertions fails. -/
def getNextCurrentId (s : ISIMPOINT) (tid : Nat) : Option (Nat × ISIMPOINT) :=
  if tid < s.PIN_MAX_THREADS ∧ s.KnobEmitPrevBlockCounts = true then
    some (s._currentId tid, { s with _currentId := upd s._currentId tid (s._currentId tid + 1) })
  else none

/-- The three-argument `BLOCK::Execute(tid, prev_block, isimpoint)` applied to
the block at pointer `block`. -/
def BLOCK_Execute (s : ISIMPOINT) (block tid : Nat) (prev_block : Option Nat) :
    Option ISIMPOINT :=
  let s1 : ISIMPOINT := { s with blocks := upd s.blocks block ((s.blocks block).Execute tid) }
  let r : Option ISIMPOINT :=
    if (s1.blocks block)._id = 0 then
      (s1.getNextCurrentId tid).map fun x =>
        { x.2 with blocks := upd x.2.blocks block { x.2.blocks block with _id := (x.1 : Int) } }
    else some s1
  r.map fun s3 =>
    if s3.KnobEmitPrevBlockCounts then
      let prevBlockId : Int :=
        match prev_block with
        | some pb => (s3.blocks pb)._id
        | none => 0
      { s3 with
        blocks := upd s3.blocks block
          { s3.blocks block with
            _blockCountMap := upd (s3.blocks block)._blockCountMap tid
              (blockCountMap_incr ((s3.blocks block)._blockCountMap tid) prevBlockId) } }
    else s3

/-- The analysis routine `CountBlockAndTrackPrevious_If`. -/
def CountBlockAndTrackPrevious_If (s : ISIMPOINT) (block tid : Nat) :
    Option (ISIMPOINT × Bool) :=
  (s.BLOCK_Execute block tid (s.profiles tid).last_block).map fun s1 =>
    let pr := s1.profiles tid
    let pr1 : PROFILE :=
      { pr with
        SliceTimer := pr.SliceTimer - (s1.blocks block).StaticInstructionCount
        last_block := some block }
    ({ s1 with profiles := upd s1.profiles tid pr1 }, decide (pr1.SliceTimer < 0))

/-- The analysis routine `CountBlock_Then`. -/
def CountBlock_Then (s : ISIMPOINT) (block tid : Nat) : ISIMPOINT :=
  let pr := s.profiles tid
  let pr1 : PROFILE :=
    match pr.length_queue with
    | front :: rest =>
      { pr with
        GlobalInstructionCount :=
          pr.GlobalInstructionCount + (pr.CurrentSliceSize - pr.SliceTimer)
        CurrentSliceSize := INT64_of_UINT64 front
        SliceTimer := INT64_of_UINT64 front
        length_queue := rest }
    | [] =>
      { pr with
        GlobalInstructionCount :=
          pr.GlobalInstructionCount + (pr.CurrentSliceSize - pr.SliceTimer)
        CurrentSliceSize := s.KnobSliceSize
        SliceTimer := s.KnobSliceSize }
  let s1 : ISIMPOINT := { s with profiles := upd s.profiles tid pr1 }
  s1.EmitSliceEnd (s1.blocks block).Key.End (s1.blocks block).ImgId tid

/-- The method `LookupBlock(INT32 id)`: the first map entry whose block has
the id, or `none` for `block_map.end()`. -/
def LookupBlock_id (s : ISIMPOINT) (id : Int) : Option (BLOCK_KEY × Nat) :=
  s.block_map.find? fun e => decide ((s.blocks e.2).Id = id)

/-- The method `ISIMPOINT::EmitProgramEnd`. -/
def EmitProgramEnd (s : ISIMPOINT) (tid : Nat) : ISIMPOINT :=
  let pr := s.profiles tid
  let head : List Line :=
    [Line.DynamicInstructionCount pr.GlobalInstructionCount, Line.SliceSize s.KnobSliceSize]
  let body : List Line :=
    if s.KnobEmitPrevBlockCounts then
      (List.range' 1 (s._currentId tid - 1)).flatMap fun id =>
        match s.LookupBlock_id (id : Int) with
        | some bi => (s.blocks bi.2).EmitProgramEnd bi.1 tid s.KnobEmitPrevBlockCounts
        | none => []
    else
      s.block_map.flatMap fun bi =>
        (s.blocks bi.2).EmitProgramEnd bi.1 tid s.KnobEmitPrevBlockCounts
  { s with profiles := upd s.profiles tid { pr with BbFile := pr.BbFile ++ head ++ body } }

/-- The callback `ThreadStart`; `none` when its assertion fails. -/
def ThreadStart (s : ISIMPOINT) (tid : Nat) : Option ISIMPOINT :=
  if tid < s.PIN_MAX_THREADS then
    some { s with profiles := upd s.profiles tid { s.profiles tid with active := true } }
  else none

/-- The callback `ThreadFini`; `none` when the forced last slice would
dereference a null `last_block`. -/
def ThreadFini (s : ISIMPOINT) (tid : Nat) : Option ISIMPOINT :=
  let pr := s.profiles tid
  let r : Option ISIMPOINT :=
    if s.KnobEmitLastSlice = true ∧ pr.SliceTimer ≠ pr.CurrentSliceSize then
      match pr.last_block with
      | some b => some (s.CountBlock_Then b tid)
      | none => none
    else some s
  r.map fun s1 =>
    let s2 : ISIMPOINT :=
      { s1 with profiles := upd s1.profiles tid { s1.profiles tid with active := false } }
    let s3 := s2.EmitProgramEnd tid
    { s3 with
      profiles := upd s3.profiles tid
        { s3.profiles tid with BbFile := (s3.profiles tid).BbFile ++ [Line.EndOfBb] } }

/-- The `If` routine that `Trace` attaches to a block: the one with
previous-block tracking when the knob is set, the plain one otherwise. -/
def countIf (s : ISIMPOINT) (block tid : Nat) : Option (ISIMPOINT × Bool) :=
  if s.KnobEmitPrevBlockCounts then s.CountBlockAndTrackPrevious_If block tid
  else some (s.CountBlock_If block tid)

/-- One block-execution event of thread `tid` as instrumented by `Trace`: the
`If` routine runs, and when it returns true the `Then` routine runs. -/
def onBlockExecuted (s : ISIMPOINT) (block tid : Nat) : Option ISIMPOINT :=
  (s.countIf block tid).map fun r =>
    if r.2 then r.1.CountBlock_Then block tid else r.1

/-- A sequence of block-execution events of one thread. -/
def runThread (s : ISIMPOINT) (tid : Nat) : List Nat → Option ISIMPOINT
  | [] => some s
  | block :: rest => (s.onBlockExecuted block tid).bind fun s1 => runThread s1 tid rest

/-- A sequence of block-execution events of one thread followed by its
thread end. -/
def runThreadToEnd (s : ISIMPOINT) (tid : Nat) (trace : List Nat) : Option ISIMPOINT :=
  (s.runThread tid trace).bind fun s1 => s1.ThreadFini tid

end ISIMPOINT

/-! ### A concrete engine -/

/-- Three blocks of 40, 30 and 50 instructions. -/
def exampleBlocks : Nat → BLOCK
  | 0 => BLOCK.new ⟨1000, 1039, 40⟩ 40 1 0
  | 1 => BLOCK.new ⟨2000, 2029, 30⟩ 30 2 0
  | _ => BLOCK.new ⟨3000, 3049, 50⟩ 50 3 0

/-- An engine with slice size 60 holding the three example blocks, every
thread freshly constructed and started. -/
def exampleEngine : ISIMPOINT :=
  { blocks := exampleBlocks
    block_map := [(⟨1000, 1039, 40⟩, 0), (⟨2000, 2029, 30⟩, 1), (⟨3000, 3049, 50⟩, 2)]
    commandLine := ""
    profiles := fun _ => { PROFILE.new 60 with active := true }
    img_manager := { img_info := fun _ => ⟨"", 0, 0⟩, _currentImgId := 0 }
    _currentId := fun _ => 4
    PIN_MAX_THREADS := 16
    KnobSliceSize := 60
    KnobNoSymbolic := false
    KnobEmitFirstSlice := true
    KnobEmitLastSlice := true
    KnobEmitPrevBlockCounts := false
    _ldv_type := LDV_TYPE.LDV_TYPE_NONE }

/-- The example engine after thread 0 executed block 0 and then counted
block 1, at the moment `CountBlock_If` has returned true. -/
def exampleAtBoundary : ISIMPOINT :=
  ((exampleEngine.CountBlock_If 0 0).1.CountBlock_If 1 0).1

/-- The example engine at the boundary, with two lengths queued for every
thread. -/
def exampleQueued : ISIMPOINT :=
  { exampleAtBoundary with
    profiles := fun _ => { exampleAtBoundary.profiles 0 with length_queue := [100, 200] } }

/-! ### Reading the output -/

/-- The dynamic count a slice body reports under block id `id`. -/
def pairsCount (id : Int) (pairs : List (Int × Int)) : Int :=
  (pairs.map fun x => if x.1 = id then x.2 else 0).sum

/-- The dynamic count one record reports under block id `id`: only `T`
records report any. -/
def Line.countOf (id : Int) : Line → Int
  | Line.T pairs => pairsCount id pairs
  | _ => 0

/-- The sum over all slice bodies in a stream of the dynamic count reported
under block id `id`. -/
def emittedCount (id : Int) (out : List Line) : Int :=
  (out.map (Line.countOf id)).sum

/-- The block pointers held by the map. -/
def ISIMPOINT.pointers (s : ISIMPOINT) : List Nat := s.block_map.map Prod.snd

/-- The pairs a slice body lists in state `s` for thread `tid`: one pair
for every block of the map with a nonzero slice-local count, in map order. -/
def ISIMPOINT.sliceBody (s : ISIMPOINT) (tid : Nat) : List (Int × Int) :=
  s.pointers.flatMap fun p => ((s.blocks p).EmitSliceEnd tid).1

/-- The value `markerCount` that `EmitSliceEnd` computes in state `s`. -/
def ISIMPOINT.markerCount (s : ISIMPOINT) (endMarker tid : Nat) : Int :=
  (ISIMPOINT.EmitSliceEnd_loop tid endMarker
    (!(s.profiles tid).first || s.KnobEmitFirstSlice) s.block_map s.blocks 0 []).2.1

/-- The first half of `CountBlock_Then`: the engine after the budget of
thread `tid` has been renewed, before `EmitSliceEnd` is called. -/
def ISIMPOINT.withNextBudget (s : ISIMPOINT) (tid : Nat) : ISIMPOINT :=
  { s with
    profiles := upd s.profiles tid
      (match (s.profiles tid).length_queue with
      | front :: rest =>
        { s.profiles tid with
          GlobalInstructionCount :=
            (s.profiles tid).GlobalInstructionCount +
              ((s.profiles tid).CurrentSliceSize - (s.profiles tid).SliceTimer)
          CurrentSliceSize := INT64_of_UINT64 front
          SliceTimer := INT64_of_UINT64 front
          length_queue := rest }
      | [] =>
        { s.profiles tid with
          GlobalInstructionCount :=
            (s.profiles tid).GlobalInstructionCount +
              ((s.profiles tid).CurrentSliceSize - (s.profiles tid).SliceTimer)
          CurrentSliceSize := s.KnobSliceSize
          SliceTimer := s.KnobSliceSize }) }

/-- The second half of `ThreadFini`: the thread is marked inactive, the
program-end summary and the terminator are written. -/
def ISIMPOINT.finishThread (s1 : ISIMPOINT) (tid : Nat) : ISIMPOINT :=
  let s2 : ISIMPOINT :=
    { s1 with profiles := upd s1.profiles tid { s1.profiles tid with active := false } }
  let s3 := s2.EmitProgramEnd tid
  { s3 with
    profiles := upd s3.profiles tid
      { s3.profiles tid with BbFile := (s3.profiles tid).BbFile ++ [Line.EndOfBb] } }

/-- The number of instructions thread code executes when it runs the
blocks of `tr`: the sum of their static instruction counts. -/
def ISIMPOINT.staticSum (s : ISIMPOINT) (tr : List Nat) : Int :=
  (tr.map fun p => (s.blocks p)._staticInstructionCount).sum

/-- The engine `s1` has the configuration and the static block data of `s`. -/
structure SameConfig (s s1 : ISIMPOINT) : Prop where
  block_map : s1.block_map = s.block_map
  commandLine : s1.commandLine = s.commandLine
  img_manager : s1.img_manager = s.img_manager
  maxThreads : s1.PIN_MAX_THREADS = s.PIN_MAX_THREADS
  sliceSize : s1.KnobSliceSize = s.KnobSliceSize
  noSymbolic : s1.KnobNoSymbolic = s.KnobNoSymbolic
  emitFirst : s1.KnobEmitFirstSlice = s.KnobEmitFirstSlice
  emitLast : s1.KnobEmitLastSlice = s.KnobEmitLastSlice
  prevCounts : s1.KnobEmitPrevBlockCounts = s.KnobEmitPrevBlockCounts
  ldvType : s1._ldv_type = s._ldv_type
  static : ∀ p, (s1.blocks p)._staticInstructionCount = (s.blocks p)._staticInstructionCount
  key : ∀ p, (s1.blocks p)._key = (s.blocks p)._key
  imgId : ∀ p, (s1.blocks p)._imgId = (s.blocks p)._imgId

/-- The bookkeeping invariant of thread `tid` after it has executed the
blocks of `tr`, when the first slice is emitted: under every id, what the
slice bodies have reported so far is, summed over the blocks of the map that
hold the id, the static count times the executions that are no longer
pending; the per-slice counter of a block holds between 0 and its number of
executions; the counter of remaining instructions equals the budget only
when no execution is pending; and with previous-block tracking a block
without an id has not been executed. -/
structure SliceInv (s : ISIMPOINT) (tid : Nat) (tr : List Nat) : Prop where
  emitFirst : s.KnobEmitFirstSlice = true
  nodup : s.pointers.Nodup
  staticPos : ∀ p ∈ s.pointers, 0 < (s.blocks p)._staticInstructionCount
  account : ∀ i : Int,
    emittedCount i (s.profiles tid).BbFile =
      (s.pointers.map fun p =>
        if (s.blocks p)._id = i then
          (s.blocks p)._staticInstructionCount *
            ((tr.count p : Int) - (s.blocks p)._sliceBlockCount tid)
        else 0).sum
  sliceBound : ∀ p ∈ s.pointers,
    0 ≤ (s.blocks p)._sliceBlockCount tid ∧
      (s.blocks p)._sliceBlockCount tid ≤ (tr.count p : Int)
  timerLe : (s.profiles tid).SliceTimer ≤ (s.profiles tid).CurrentSliceSize
  timerEq : (s.profiles tid).SliceTimer = (s.profiles tid).CurrentSliceSize →
    ∀ p ∈ s.pointers, (s.blocks p)._sliceBlockCount tid = 0
  timerLt : (s.profiles tid).SliceTimer ≠ (s.profiles tid).CurrentSliceSize →
    (s.profiles tid).last_block ≠ none
  tracking : s.KnobEmitPrevBlockCounts = true →
    tid < s.PIN_MAX_THREADS ∧ 1 ≤ s._currentId tid ∧
    ∀ p ∈ s.pointers, (s.blocks p)._id = 0 → tr.count p = 0

/-- Every product that a slice body written in state `s` for thread `tid`
holds is a representable `INT32` value: for every block of the map, the
per-slice counter times the static count lies between -2^31 and 2^31 - 1. -/
def ISIMPOINT.productsFit (s : ISIMPOINT) (tid : Nat) : Bool :=
  s.pointers.all fun p =>
    decide
      (-(2 ^ 31) ≤ (s.blocks p)._sliceBlockCount tid * (s.blocks p)._staticInstructionCount ∧
        (s.blocks p)._sliceBlockCount tid * (s.blocks p)._staticInstructionCount < 2 ^ 31)

/-- No 32-bit value overflows while thread `tid` executes the blocks of the
trace from state `s` and then ends: every `++` on a per-slice counter finds
it below 2^31 - 1, and whenever a slice body is written, at a boundary that
emits or in the forced last slice at thread end, its products are
representable. -/
def ISIMPOINT.noOverflow (s : ISIMPOINT) (tid : Nat) : List Nat → Bool
  | [] =>
    if s.KnobEmitLastSlice = true ∧
        (s.profiles tid).SliceTimer ≠ (s.profiles tid).CurrentSliceSize ∧
        (s.profiles tid).last_block ≠ none ∧
        (!(s.profiles tid).first || s.KnobEmitFirstSlice) = true then
      s.productsFit tid
    else true
  | b :: rest =>
    decide ((s.blocks b)._sliceBlockCount tid < 2 ^ 31 - 1) &&
      match s.countIf b tid with
      | some (s1, true) =>
        (if (!(s1.profiles tid).first || s1.KnobEmitFirstSlice) = true then s1.productsFit tid
          else true) &&
          noOverflow (s1.CountBlock_Then b tid) tid rest
      | some (s1, false) => noOverflow s1 tid rest
      | none => true

/-- The sum of the counts of a list of `id:count` pairs. -/
def pairsTotal (pairs : List (Int × Int)) : Int := (pairs.map Prod.snd).sum

/-- The states in which thread `tid` writes a slice body while it executes
the blocks of the trace from state `s` and then ends: at every boundary that
emits, the state in which the `If` routine has returned true, and at thread
end the state in which the last slice is forced. -/
def ISIMPOINT.sliceEnds (s : ISIMPOINT) (tid : Nat) : List Nat → List ISIMPOINT
  | [] =>
    if s.KnobEmitLastSlice = true ∧
        (s.profiles tid).SliceTimer ≠ (s.profiles tid).CurrentSliceSize ∧
        (s.profiles tid).last_block ≠ none ∧
        (!(s.profiles tid).first || s.KnobEmitFirstSlice) = true then
      [s]
    else []
  | b :: rest =>
    match s.countIf b tid with
    | some (s1, true) =>
      (if (!(s1.profiles tid).first || s1.KnobEmitFirstSlice) = true then [s1] else []) ++
        sliceEnds (s1.CountBlock_Then b tid) tid rest
    | some (s1, false) => sliceEnds s1 tid rest
    | none => []

/-- The per-slice counter of `block` for thread `tid` does not overflow
while the thread executes the blocks of the trace from state `s`: every
`++` on it finds it below 2^31 - 1. -/
def ISIMPOINT.counterFits (s : ISIMPOINT) (tid block : Nat) : List Nat → Bool
  | [] => true
  | b :: rest =>
    (decide (b ≠ block) || decide ((s.blocks block)._sliceBlockCount tid < 2 ^ 31 - 1)) &&
      match s.onBlockExecuted b tid with
      | some s1 => counterFits s1 tid block rest
      | none => true

/-- The example engine with a slice size of 2^31 * 40 - 1 instructions: the
budget of a thread is first exceeded by the 2^31-th execution of block 0. -/
def exampleLongSlice : ISIMPOINT :=
  { exampleEngine with
    profiles := fun _ => { PROFILE.new (2 ^ 31 * 40 - 1) with active := true }
    KnobSliceSize := 2 ^ 31 * 40 - 1 }

/-! ### Memory accesses -/

/-- The macro `ADDRESS64_MASK`, `(~63)`: the complement of the `int` 63. -/
def ADDRESS64_MASK : Int := ~~~63

/-- The conversion of a signed integer operand to `ADDRINT`. -/
def ADDRINT_of_Int (x : Int) : Nat := (x % (ADDRINT_MOD : Int)).toNat

/-- The method `LDV::access`.  The distance tracker `_rd` is an external
collaborator: `none` stands for a null tracker, on which the assertion
fails, and `some reference` for a tracker whose `reference` call answers
`reference address` at this moment. -/
def LDV.access (l : LDV) (_rd : Option (Nat → Nat)) (address : Nat) : Option LDV :=
  match _rd with
  | none => none
  | some reference =>
    let dist_log2 := reference address
    let dist_log2 := if dist_log2 > MAX_BINS then MAX_BINS else dist_log2
    some { _counts := l._counts.set dist_log2 (l._counts.getD dist_log2 0 + 1) }

/-- The method `PROFILE::ExecuteMemory`. -/
def PROFILE.ExecuteMemory (p : PROFILE) (_rd : Option (Nat → Nat)) (address : Nat) :
    Option PROFILE :=
  (p._ldvState.access _rd (address &&& ADDRINT_of_Int ADDRESS64_MASK)).map fun l =>
    { p with _ldvState := l }

/-- The analysis routine `CountMemory`. -/
def ISIMPOINT.CountMemory (s : ISIMPOINT) (_rd : Option (Nat → Nat)) (address tid : Nat) :
    Option ISIMPOINT :=
  ((s.profiles tid).ExecuteMemory _rd address).map fun p =>
    { s with profiles := upd s.profiles tid p }

/-- The histogram built by the constructor `LDV::LDV`. -/
def LDV.new : LDV := { _counts := List.replicate (MAX_BINS + 1) 0 }

/-! ### Reading the records of a stream -/

/-- The slice body that `EmitSliceEnd` writes in state `s` when it writes
one: the pairs collected by its loop over the block map. -/
def ISIMPOINT.loopBody (s : ISIMPOINT) (endMarker tid : Nat) : List (Int × Int) :=
  (ISIMPOINT.EmitSliceEnd_loop tid endMarker
    (!(s.profiles tid).first || s.KnobEmitFirstSlice) s.block_map s.blocks 0 []).2.2

/-- A record is a slice body. -/
def Line.isT : Line → Bool
  | Line.T _ => true
  | _ => false

/-- A record is the comment `# Slice ending at`. -/
def Line.isSliceEnding : Line → Bool
  | Line.SliceEnding _ => true
  | _ => false

/-- A record is the trace-start record `I: 0`. -/
def Line.isI0 : Line → Bool
  | Line.I0 => true
  | _ => false

/-- A record is one of the three preamble records `I:`, `P:`, `C:`. -/
def Line.isPreamble : Line → Bool
  | Line.I0 => true
  | Line.P _ => true
  | Line.C _ => true
  | _ => false

/-- The address of a marker record (`M:` or `S:`). -/
def Line.markerAddress : Line → Option Nat
  | Line.M endMarker _ => some endMarker
  | Line.M_no_image endMarker _ => some endMarker
  | Line.S endMarker _ _ _ _ => some endMarker
  | _ => none

/-- The cumulative instruction counts reported by the `# Slice ending at`
comments of a stream, in the order written. -/
def sliceEndings : List Line → List Int
  | [] => []
  | Line.SliceEnding count :: rest => count :: sliceEndings rest
  | _ :: rest => sliceEndings rest

/-- The marker addresses of a stream, in the order written. -/
def markerAddresses (out : List Line) : List Nat := out.filterMap Line.markerAddress

/-- The records `EmitSliceEnd` writes first when the thread has not emitted
yet. -/
def ISIMPOINT.preamble (s : ISIMPOINT) (tid imgId : Nat) : List Line :=
  if (s.profiles tid).first = true then
    [Line.I0, Line.P tid, Line.C s.commandLine,
      s.EmitSliceStartInfo (s.profiles tid).first_eip 1 imgId]
  else []

/-- The closing marker `EmitSliceEnd` writes for an active thread. -/
def ISIMPOINT.closingMarker (s : ISIMPOINT) (endMarker : Nat) (markerCount : Int)
    (imgId tid : Nat) : List Line :=
  if (s.profiles tid).active = true then
    [if s.KnobNoSymbolic = true then Line.M endMarker markerCount
     else s.EmitSliceStartInfo endMarker markerCount imgId]
  else []

/-- The example engine with the first slice not emitted. -/
def exampleNoFirst : ISIMPOINT := { exampleEngine with KnobEmitFirstSlice := false }

/-- The example engine with the first slice not emitted, after thread 0 has
executed block 0 once. -/
def exampleNoFirstPartial : ISIMPOINT := (exampleNoFirst.CountBlock_If 0 0).1

/-- The number of preamble records thread `tid` has written, plus one while
its `first` flag is still set. -/
def ISIMPOINT.preamblesDue (s : ISIMPOINT) (tid : Nat) : Nat :=
  (s.profiles tid).BbFile.countP Line.isI0 + if (s.profiles tid).first = true then 1 else 0

/-- The invariant of thread `tid` behind the growth of the reported
cumulative counts: the counter never exceeds the budget, budgets are not
negative, a pending partial slice has a last block, and the counts reported
so far increase and stay at or below `GlobalInstructionCount`. -/
structure CountInv (s : ISIMPOINT) (tid : Nat) : Prop where
  timerLe : (s.profiles tid).SliceTimer ≤ (s.profiles tid).CurrentSliceSize
  budgetNonneg : 0 ≤ (s.profiles tid).CurrentSliceSize
  knobNonneg : 0 ≤ s.KnobSliceSize
  queueNonneg : ∀ q ∈ (s.profiles tid).length_queue, q < 2 ^ 63
  lastBlock : (s.profiles tid).SliceTimer ≠ (s.profiles tid).CurrentSliceSize →
    (s.profiles tid).last_block ≠ none
  increasing : (sliceEndings (s.profiles tid).BbFile).Pairwise fun a b => a < b
  bounded : ∀ v ∈ sliceEndings (s.profiles tid).BbFile,
    v ≤ (s.profiles tid).GlobalInstructionCount

/-- The three example blocks as created with previous-block tracking: every
id is 0. -/
def exampleTrackingBlocks : Nat → BLOCK :=
  fun p => { exampleBlocks p with _id := 0 }

/-- The example engine with previous-block tracking: ids are assigned on
first execution, every thread's next id is 1. -/
def exampleTracking : ISIMPOINT :=
  { exampleEngine with
    blocks := exampleTrackingBlocks
    KnobEmitPrevBlockCounts := true
    _currentId := fun _ => 1 }

/-- The tracking example after thread 0 has executed blocks 0 and 1, which
it has numbered 1 and 2; block 2 has no id yet and the next id of every
other thread is still 1. -/
def exampleTrackingLater : ISIMPOINT :=
  (exampleTracking.runThread 0 [0, 1]).getD exampleTracking

/-- Thread 0 executes blocks 0 and 1 (one boundary), then thread 1 executes
blocks 0 and 1 (one boundary), then thread 1 ends. -/
def twoThreadsThenEnd (s : ISIMPOINT) : Option ISIMPOINT :=
  ((s.runThread 0 [0, 1]).bind fun s1 => s1.runThread 1 [0, 1]).bind fun s2 =>
    s2.ThreadFini 1

/-! ### Block discovery -/

/-- What `LookupBlock` reads from a Pin basic block: the addresses of its
first and last instruction, its size, its number of instructions, and the
low address of the valid image that holds its routine (`none` when the
routine, section or image is not valid). -/
structure BBL where
  head : Nat
  tail : Nat
  size : Nat
  numIns : Nat
  img : Option Nat
deriving DecidableEq, Repr

/-- The loop of `FindImgInfoId`, from index `i` down to 1. -/
def IMG_MANAGER.FindImgInfoId_loop (m : IMG_MANAGER) (low_address : Nat) : Nat → Nat
  | 0 => 0
  | i + 1 =>
    if (m.img_info (i + 1)).LowAddress = low_address then i + 1
    else m.FindImgInfoId_loop low_address i

/-- The method `FindImgInfoId`; the loop index is a `UINT32` that starts at
`_currentImgId - 1`. -/
def IMG_MANAGER.FindImgInfoId (m : IMG_MANAGER) (img : Option Nat) : Nat :=
  match img with
  | none => 0
  | some low_address =>
    m.FindImgInfoId_loop low_address ((m._currentImgId + 2 ^ 32 - 1) % 2 ^ 32)

/-- The call `block_map.find(key)` of the sorted map: the entry equivalent
to the key. -/
def BLOCK_MAP_find (m : List (BLOCK_KEY × Nat)) (key : BLOCK_KEY) :
    Option (BLOCK_KEY × Nat) :=
  m.find? fun e => keyEquiv key e.1

/-- The call `block_map.insert(pair)` of the sorted map: the pair goes in
front of the first entry with a greater key; an entry with an equivalent
key keeps its place and the pair is dropped. -/
def BLOCK_MAP_insert (e : BLOCK_KEY × Nat) : List (BLOCK_KEY × Nat) → List (BLOCK_KEY × Nat)
  | [] => [e]
  | x :: rest =>
    if operator_lt e.1 x.1 then e :: x :: rest
    else if operator_lt x.1 e.1 then x :: BLOCK_MAP_insert e rest
    else x :: rest

/-- The address returned by `new BLOCK`: one that no block of the map
occupies. -/
def freshPointer (m : List (BLOCK_KEY × Nat)) : Nat :=
  (m.map Prod.snd).foldl max 0 + 1

/-- The block map after `LookupBlock(bbl)`. -/
def lookupMap (m : List (BLOCK_KEY × Nat)) (bbl : BBL) : List (BLOCK_KEY × Nat) :=
  match BLOCK_MAP_find m ⟨bbl.head, bbl.tail, bbl.size⟩ with
  | none => BLOCK_MAP_insert (⟨bbl.head, bbl.tail, bbl.size⟩, freshPointer m) m
  | some _ => m

/-- The method `LookupBlock(BBL)`: the block pointer returned and the engine
afterwards. -/
def ISIMPOINT.LookupBlock (s : ISIMPOINT) (bbl : BBL) : Nat × ISIMPOINT :=
  let key : BLOCK_KEY := ⟨bbl.head, bbl.tail, bbl.size⟩
  match BLOCK_MAP_find s.block_map key with
  | none =>
    let block := freshPointer s.block_map
    if s.KnobEmitPrevBlockCounts then
      (block,
        { s with
          blocks := upd s.blocks block
            (BLOCK.new key bbl.numIns 0 (s.img_manager.FindImgInfoId bbl.img))
          block_map := BLOCK_MAP_insert (key, block) s.block_map })
    else
      (block,
        { s with
          blocks := upd s.blocks block
            (BLOCK.new key bbl.numIns (s._currentId 0) (s.img_manager.FindImgInfoId bbl.img))
          _currentId := upd s._currentId 0 (s._currentId 0 + 1)
          block_map := BLOCK_MAP_insert (key, block) s.block_map })
  | some bi => (bi.2, s)

/-- What the monitoring layer makes the engine do: discover a basic block
(`Trace` calls `LookupBlock`), or run the instrumentation of a block. -/
inductive Event where
  | discover (bbl : BBL)
  | execute (block : Nat)
deriving DecidableEq, Repr

/-- A sequence of discoveries and of block executions of thread `tid`. -/
def ISIMPOINT.runEvents (s : ISIMPOINT) (tid : Nat) : List Event → Option ISIMPOINT
  | [] => some s
  | Event.discover bbl :: rest => runEvents (s.LookupBlock bbl).2 tid rest
  | Event.execute block :: rest =>
    (s.onBlockExecuted block tid).bind fun s1 => runEvents s1 tid rest

/-- Every execution in the sequence is of a block that the map holds when the
execution happens. -/
def knownBlocks (m : List (BLOCK_KEY × Nat)) : List Event → Bool
  | [] => true
  | Event.discover bbl :: rest => knownBlocks (lookupMap m bbl) rest
  | Event.execute block :: rest => decide (block ∈ m.map Prod.snd) && knownBlocks m rest

/-- The blocks executed by a sequence of events, in order. -/
def executions : List Event → List Nat
  | [] => []
  | Event.discover _ :: rest => executions rest
  | Event.execute block :: rest => block :: executions rest

/-- The distinct blocks of a trace in the order of their first execution. -/
def firstExecuted (trace : List Nat) : List Nat :=
  trace.foldl (fun acc b => if b ∈ acc then acc else acc ++ [b]) []

/-- The invariant of lazy id assignment for one thread that has executed the
blocks of `pre`: the thread's next id is one more than the number of
distinct blocks executed, every executed block is in the map, and a block of
the map carries its rank in the order of first execution, or 0 when it has
not been executed. -/
structure IdInv (s : ISIMPOINT) (tid : Nat) (pre : List Nat) : Prop where
  tracking : s.KnobEmitPrevBlockCounts = true
  maxThreads : tid < s.PIN_MAX_THREADS
  nextId : s._currentId tid = (firstExecuted pre).length + 1
  executedKnown : ∀ p ∈ firstExecuted pre, p ∈ s.pointers
  ids : ∀ p ∈ s.pointers,
    (s.blocks p)._id =
      if p ∈ firstExecuted pre then ((firstExecuted pre).indexOf p : Int) + 1 else 0

/-! ### Comparing the two identifier modes -/

/-- Two slice bodies list the same blocks with the same dynamic counts, in
the same order; the first names a block by `ids1`, the second by `ids2`,
and every block listed has a nonzero second id. -/
def pairsRel (ids1 ids2 : Nat → Int) (ps pt : List (Int × Int)) : Prop :=
  ∃ l : List (Nat × Int),
    ps = l.map (fun x => (ids1 x.1, x.2)) ∧ pt = l.map (fun x => (ids2 x.1, x.2)) ∧
      ∀ x ∈ l, ids2 x.1 ≠ 0

/-- Two records agree up to the block ids of a slice body. -/
def LineRel (ids1 ids2 : Nat → Int) : Line → Line → Prop
  | Line.T ps, Line.T pt => pairsRel ids1 ids2 ps pt
  | Line.T _, _ => False
  | _, Line.T _ => False
  | a, b => a = b

/-- The first half of `ThreadFini`: the forced last slice, when there is
one; `none` when it would dereference a null `last_block`. -/
def ISIMPOINT.lastSlice (s : ISIMPOINT) (tid : Nat) : Option ISIMPOINT :=
  if s.KnobEmitLastSlice = true ∧
      (s.profiles tid).SliceTimer ≠ (s.profiles tid).CurrentSliceSize then
    match (s.profiles tid).last_block with
    | some b => some (s.CountBlock_Then b tid)
    | none => none
  else some s

/-- Engine `s` runs without previous-block tracking, engine `t` with it, and
for thread `tid` they are otherwise in the same state: same configuration,
same static block data and counters, same profile fields, and streams that
agree up to the block ids in the slice bodies. -/
structure ModeRel (s t : ISIMPOINT) (tid : Nat) : Prop where
  plain : s.KnobEmitPrevBlockCounts = false
  tracking : t.KnobEmitPrevBlockCounts = true
  maxThreads : tid < t.PIN_MAX_THREADS
  nextId : 1 ≤ t._currentId tid
  block_map : t.block_map = s.block_map
  commandLine : t.commandLine = s.commandLine
  img_manager : t.img_manager = s.img_manager
  sliceSize : t.KnobSliceSize = s.KnobSliceSize
  noSymbolic : t.KnobNoSymbolic = s.KnobNoSymbolic
  emitFirst : t.KnobEmitFirstSlice = s.KnobEmitFirstSlice
  emitLast : t.KnobEmitLastSlice = s.KnobEmitLastSlice
  static : ∀ p, (t.blocks p)._staticInstructionCount = (s.blocks p)._staticInstructionCount
  key : ∀ p, (t.blocks p)._key = (s.blocks p)._key
  imgId : ∀ p, (t.blocks p)._imgId = (s.blocks p)._imgId
  slice : ∀ p, (t.blocks p)._sliceBlockCount tid = (s.blocks p)._sliceBlockCount tid
  global : ∀ p, (t.blocks p)._globalBlockCount tid = (s.blocks p)._globalBlockCount tid
  gic : (t.profiles tid).GlobalInstructionCount = (s.profiles tid).GlobalInstructionCount
  first_eip : (t.profiles tid).first_eip = (s.profiles tid).first_eip
  first : (t.profiles tid).first = (s.profiles tid).first
  active : (t.profiles tid).active = (s.profiles tid).active
  timer : (t.profiles tid).SliceTimer = (s.profiles tid).SliceTimer
  budget : (t.profiles tid).CurrentSliceSize = (s.profiles tid).CurrentSliceSize
  last_block : (t.profiles tid).last_block = (s.profiles tid).last_block
  length_queue : (t.profiles tid).length_queue = (s.profiles tid).length_queue
  executed : ∀ p, (t.blocks p)._sliceBlockCount tid ≠ 0 → (t.blocks p)._id ≠ 0
  lines : List.Forall₂
    (LineRel (fun p => (s.blocks p)._id) (fun p => (t.blocks p)._id))
    (s.profiles tid).BbFile (t.profiles tid).BbFile

/-! ### The loop tracker (loop-tracker.H) -/

/-- The number of distinct `UINT64` values. -/
def UINT64_MOD : Nat := 2 ^ 64

/-- The dynamic part of `struct LoopInfo`: the flag, the counters and the two
entry-source pointers.  The descriptive fields `lineNumber`, `fileName` and
`entryAddr` are never written by the analysis routines and are left out. -/
structure LoopInfo where
  insideLoop : Bool
  lastEntrySourceInfo : Option Nat
  entryCounter : Nat
  tempEntryCounter : Nat
  startEntrySourceInfo : Option Nat
  startCounter : Nat
  endCounter : Nat
deriving DecidableEq, Repr

namespace LOOP_TRACKER

/-- The record as `processDcfg` sets it up: flag cleared, `entryCounter`,
`startCounter` and `endCounter` zero.  `tempEntryCounter` and the pointers
are not assigned there; `temp` stands for whatever `tempEntryCounter`
holds. -/
def newLoopInfo (temp : Nat) : LoopInfo :=
  { insideLoop := false
    lastEntrySourceInfo := none
    entryCounter := 0
    tempEntryCounter := temp
    startEntrySourceInfo := none
    startCounter := 0
    endCounter := 0 }

/-- The analysis routine `enterLoop`. -/
def enterLoop (li : LoopInfo) : LoopInfo :=
  let li1 : LoopInfo := { li with entryCounter := (li.entryCounter + 1) % UINT64_MOD }
  if !li1.insideLoop then
    { li1 with tempEntryCounter := li1.entryCounter, insideLoop := true }
  else li1

/-- The analysis routine `enterLoopExitSink`. -/
def enterLoopExitSink (li : LoopInfo) : LoopInfo :=
  if li.insideLoop then
    let li1 : LoopInfo := { li with insideLoop := false }
    if (li1.endCounter + UINT64_MOD - li1.startCounter) % UINT64_MOD <
        (li1.entryCounter + UINT64_MOD - li1.tempEntryCounter) % UINT64_MOD then
      { li1 with
        startCounter := li1.tempEntryCounter
        endCounter := li1.entryCounter
        startEntrySourceInfo := li1.lastEntrySourceInfo }
    else li1
  else li

/-- The analysis routine `enterLoopEntrySource`, as far as the loop record is
concerned: `bi` is the pointer to the entry-source record. -/
def enterLoopEntrySource (li : LoopInfo) (bi : Nat) : LoopInfo :=
  { li with lastEntrySourceInfo := some bi }

end LOOP_TRACKER

/-- What the instrumentation can make happen to one loop record. -/
inductive LoopEvent where
  /-- The loop entry block executes (`enterLoop`). -/
  | enter
  /-- The target block of an exit edge executes (`enterLoopExitSink`). -/
  | exitSink
  /-- The source block of an entry edge executes (`enterLoopEntrySource`). -/
  | entrySource (bi : Nat)
deriving DecidableEq, Repr

/-- One event applied to a loop record. -/
def LoopEvent.apply (li : LoopInfo) : LoopEvent → LoopInfo
  | LoopEvent.enter => LOOP_TRACKER.enterLoop li
  | LoopEvent.exitSink => LOOP_TRACKER.enterLoopExitSink li
  | LoopEvent.entrySource bi => LOOP_TRACKER.enterLoopEntrySource li bi

/-- A sequence of events applied to a loop record. -/
def LoopInfo.run (li : LoopInfo) (events : List LoopEvent) : LoopInfo :=
  events.foldl LoopEvent.apply li

/-- One completed visit of a loop: the number of executions of the entry
block counted so far when the visit executed the entry block for the first
time (`first`) and when it left the loop (`last`), and the number of
executions of the entry block during the visit (`executions`). -/
structure LoopVisit where
  first : Nat
  last : Nat
  executions : Nat
deriving DecidableEq, Repr

/-- The completed visits of an event sequence, read off the events alone:
`count` is the number of executions of the entry block so far and `current`
describes the visit in progress, if any, by its `first` value and its
executions so far.  A visit starts with an execution of the entry block
while outside the loop and is completed by the next exit. -/
def loopVisits : Nat → Option (Nat × Nat) → List LoopEvent → List LoopVisit
  | _, _, [] => []
  | count, none, LoopEvent.enter :: rest => loopVisits (count + 1) (some (count + 1, 1)) rest
  | count, some (f, k), LoopEvent.enter :: rest => loopVisits (count + 1) (some (f, k + 1)) rest
  | count, none, LoopEvent.exitSink :: rest => loopVisits count none rest
  | count, some (f, k), LoopEvent.exitSink :: rest =>
    ⟨f, count, k⟩ :: loopVisits count none rest
  | count, current, LoopEvent.entrySource _ :: rest => loopVisits count current rest

/-! ### Image loads -/

/-- The constant `ISIMPOINT_MAX_IMAGES`. -/
def ISIMPOINT_MAX_IMAGES : Nat := 250

/-- What the engine reads from a Pin image: `IMG_Name`, `IMG_LowAddress` and
`IMG_LoadOffset`. -/
structure IMG where
  name : String
  lowAddress : Nat
  loadOffset : Nat
deriving DecidableEq, Repr

/-- The constructor `IMG_INFO::IMG_INFO`. -/
def IMG_INFO.new (img : IMG) (Id : Int) : IMG_INFO :=
  { _name := img.name, _low_address := img.lowAddress, _imgId := Id }

/-- The method `AddImage`; `none` when its assertion fails. -/
def IMG_MANAGER.AddImage (m : IMG_MANAGER) (img : IMG) : Option IMG_MANAGER :=
  if m._currentImgId < ISIMPOINT_MAX_IMAGES - 1 then
    some
      { img_info := upd m.img_info m._currentImgId (IMG_INFO.new img m._currentImgId)
        _currentImgId := m._currentImgId + 1 }
  else none

/-- A sequence of `AddImage` calls, in load order. -/
def IMG_MANAGER.addImages (m : IMG_MANAGER) : List IMG → Option IMG_MANAGER
  | [] => some m
  | img :: rest => (m.AddImage img).bind fun m1 => m1.addImages rest

/-- The registry before any image is loaded.  `IMG_MANAGER` has no
constructor and `ISIMPOINT` does not initialise it, so `_currentImgId` is
what zero-initialised storage holds. -/
def IMG_MANAGER.zeroed : IMG_MANAGER :=
  { img_info := fun _ => ⟨"", 0, 0⟩, _currentImgId := 0 }

/-- The callback `Image`: the image is registered and its `G:` record is
written to the stream of thread 0. -/
def ISIMPOINT.Image (s : ISIMPOINT) (img : IMG) : Option ISIMPOINT :=
  (s.img_manager.AddImage img).map fun m =>
    { s with
      img_manager := m
      profiles := upd s.profiles 0
        { s.profiles 0 with
          BbFile := (s.profiles 0).BbFile ++ [Line.G img.name img.lowAddress img.loadOffset] } }

/-- An engine with slice size 60 before any image is loaded and before any
block is discovered, every thread started. -/
def exampleEmpty : ISIMPOINT :=
  { exampleEngine with
    blocks := fun _ => BLOCK.new ⟨0, 0, 0⟩ 0 0 0
    block_map := []
    img_manager := IMG_MANAGER.zeroed
    _currentId := fun _ => 1 }

/-- The program image, loaded first, and a library, loaded second. -/
def exampleImages : List IMG := [⟨"a.out", 4096, 0⟩, ⟨"libc.so", 8192, 0⟩]

/-- The example engine after both images are loaded and one basic block of
70 instructions of each has been discovered: block 1 lies in the program
image, block 2 in the library. -/
def exampleLoaded : Option ISIMPOINT :=
  ((exampleEmpty.Image ⟨"a.out", 4096, 0⟩).bind fun s =>
    s.Image ⟨"libc.so", 8192, 0⟩).map fun s =>
      ((s.LookupBlock ⟨4100, 4110, 14, 70, some 4096⟩).2.LookupBlock
        ⟨8200, 8210, 14, 70, some 8192⟩).2

/-- The block map as `LookupBlock` builds it: no key is a point and the
entries are in strictly increasing key order. -/
def rangeMap (m : List (BLOCK_KEY × Nat)) : Prop :=
  (∀ e ∈ m, e.1.IsPoint = false) ∧ m.Pairwise fun a b => operator_lt a.1 b.1 = true

instance (m : List (BLOCK_KEY × Nat)) : Decidable (rangeMap m) := by
  unfold rangeMap
  infer_instance

/-- The ranges of the map are pairwise disjoint: of any two entries one ends
below the start of the other. -/
def disjointRanges (m : List (BLOCK_KEY × Nat)) : Prop :=
  m.Pairwise fun a b => a.1._end < b.1._start ∨ b.1._end < a.1._start

instance (m : List (BLOCK_KEY × Nat)) : Decidable (disjointRanges m) := by
  unfold disjointRanges
  infer_instance

/-- The sum that `EmitSliceEnd` accumulates into `markerCount`: the total
block counts of the entries whose range contains the end marker. -/
def markerSum (blocks : Nat → BLOCK) (tid endMarker : Nat) (m : List (BLOCK_KEY × Nat)) :
    Int :=
  (m.map fun e => if e.1.Contains endMarker = true then (blocks e.2).GlobalBlockCount tid
    else 0).sum

/-! ### Several threads -/

/-- One step of the instrumented program: the monitoring layer discovers a
basic block (`Trace` calls `LookupBlock`), or the instrumentation of a block
runs in thread `tid`. -/
inductive Step where
  | discover (bbl : BBL)
  | execute (tid block : Nat)
deriving DecidableEq, Repr

/-- A sequence of steps of the instrumented program, threads interleaved. -/
def ISIMPOINT.runSteps (s : ISIMPOINT) : List Step → Option ISIMPOINT
  | [] => some s
  | Step.discover bbl :: rest => runSteps (s.LookupBlock bbl).2 rest
  | Step.execute tid block :: rest =>
    (s.onBlockExecuted block tid).bind fun s1 => runSteps s1 rest

/-- The blocks that thread `tid` executes in a sequence of steps, in order. -/
def threadTrace (tid : Nat) : List Step → List Nat
  | [] => []
  | Step.discover _ :: rest => threadTrace tid rest
  | Step.execute t block :: rest =>
    if t = tid then block :: threadTrace tid rest else threadTrace tid rest

/-- Every execution in the sequence is by a thread below `maxThreads` and of a
block that the map holds when the execution happens. -/
def knownSteps (maxThreads : Nat) (m : List (BLOCK_KEY × Nat)) : List Step → Bool
  | [] => true
  | Step.discover bbl :: rest => knownSteps maxThreads (lookupMap m bbl) rest
  | Step.execute tid block :: rest =>
    decide (tid < maxThreads) && decide (block ∈ m.map Prod.snd) &&
      knownSteps maxThreads m rest

/-- The count that a `BLOCK_COUNT_MAP` holds under key `k` (0 when the key
is absent). -/
def blockCountMap_get (m : List (Int × Int)) (k : Int) : Int :=
  (m.map fun x => if x.1 = k then x.2 else 0).sum

/-- The invariant of previous-block tracking for thread `tid` after it has
executed the blocks of `pre`: its last block is the last block of `pre` and
carries a nonzero id, the blocks of `pre` are in the map, and the count
under predecessor id 0 in the histogram of a block for this thread is 1 for
the first block of `pre` and 0 for every other block. -/
structure PrevInv (s : ISIMPOINT) (tid : Nat) (pre : List Nat) : Prop where
  tracking : s.KnobEmitPrevBlockCounts = true
  nextIds : ∀ t, 1 ≤ s._currentId t
  last : (s.profiles tid).last_block = pre.getLast?
  lastId : ∀ b, (s.profiles tid).last_block = some b → (s.blocks b)._id ≠ 0
  known : ∀ b ∈ pre, b ∈ s.pointers
  zero : ∀ p, blockCountMap_get ((s.blocks p)._blockCountMap tid) 0 =
    if pre.head? = some p then 1 else 0

/-- The invariant of id assignment at instrumentation time (no previous-block
tracking): the ids of the blocks of the map lie between 1 and the counter of
thread 0, which hands them out, and no two blocks have the same id. -/
structure PlainIds (s : ISIMPOINT) : Prop where
  plain : s.KnobEmitPrevBlockCounts = false
  nextId : 1 ≤ s._currentId 0
  ids : ∀ p ∈ s.pointers, 1 ≤ (s.blocks p)._id ∧ (s.blocks p)._id < (s._currentId 0 : Int)
  distinct : ∀ p ∈ s.pointers, ∀ q ∈ s.pointers,
    (s.blocks p)._id = (s.blocks q)._id → p = q

/-- With previous-block tracking every id below a thread's next id is held
by a block of the map. -/
structure IdsHeld (s : ISIMPOINT) : Prop where
  tracking : s.KnobEmitPrevBlockCounts = true
  held : ∀ (t i : Nat), 1 ≤ i → i < s._currentId t →
    ∃ p ∈ s.pointers, (s.blocks p)._id = (i : Int)

/-! ## Theorems -/

theorem isPoint_iff (k : BLOCK_KEY) (h : k.WF) :
    k.IsPoint = true ↔
      (k._start = k._end + 1 ∨ (k._start = 0 ∧ k._end = ADDRINT_MOD - 1)) := by
  unfold BLOCK_KEY.WF at h
  unfold BLOCK_KEY.IsPoint
  simp only [ADDRINT_MOD, beq_iff_eq] at *
  omega

/-- Unfolding of `operator_lt` into the four branches of the source. -/
theorem operator_lt_eq (p1 p2 : BLOCK_KEY) :
    operator_lt p1 p2 =
      if p1.IsPoint then decide (p1._start < p2._start)
      else if p2.IsPoint then decide (p1._end ≤ p2._start)
      else if p1._start = p2._start then decide (p1._end < p2._end)
      else decide (p1._start < p2._start) := rfl

/-- C4: a point probe is equivalent to a non-point key exactly when the
probed address lies at or above the key's start and strictly below its end;
the probe for the end address itself is ordered after the key and is not
equivalent to it.  For the range `[100,150]` the address 150 is contained
according to `Contains`, yet the probe for 150 is not equivalent to the
range, so a sorted-map find with that probe does not reach the entry. -/
theorem C4_probe_at_end_not_equivalent (p r : BLOCK_KEY)
    (hp : p.IsPoint = true) (hr : r.IsPoint = false) :
    (keyEquiv p r = true ↔ (r._start ≤ p._start ∧ p._start < r._end)) ∧
    (p._start = r._end → operator_lt r p = true ∧ keyEquiv p r = false) ∧
    ((BLOCK_KEY.mk 100 150 51).WF ∧ (100 : Nat) ≤ 150 ∧
      (BLOCK_KEY.mk 100 150 51).IsPoint = false ∧
      (BLOCK_KEY.mk 100 150 51).Contains 150 = true ∧
      (BLOCK_KEY.mk 150 149 0).IsPoint = true ∧
      operator_lt (BLOCK_KEY.mk 100 150 51) (BLOCK_KEY.mk 150 149 0) = true ∧
      keyEquiv (BLOCK_KEY.mk 150 149 0) (BLOCK_KEY.mk 100 150 51) = false) := by
  refine ⟨?_, ?_, by decide⟩
  · simp only [keyEquiv, operator_lt_eq, hp, hr]
    simp
  · intro he
    simp only [keyEquiv, operator_lt_eq, hp, hr]
    simp [he]

theorem C4_probe_at_end_not_equivalent_witness :
    (BLOCK_KEY.mk 150 149 0).IsPoint = true ∧
    (BLOCK_KEY.mk 100 150 51).IsPoint = false ∧
    (BLOCK_KEY.mk 100 150 51).Contains 150 = true ∧
    operator_lt (BLOCK_KEY.mk 100 150 51) (BLOCK_KEY.mk 150 149 0) = true ∧
    keyEquiv (BLOCK_KEY.mk 150 149 0) (BLOCK_KEY.mk 100 150 51) = false :=
  ⟨by decide, by decide, by decide,
    (C4_probe_at_end_not_equivalent (BLOCK_KEY.mk 150 149 0) (BLOCK_KEY.mk 100 150 51)
      (by decide) (by decide)).2.1 rfl⟩

/-- C5: a point probe that is equivalent to a non-point key lies inside that
key (`Contains` of the probed address holds), hence it cannot be equivalent
to two keys that share no address; and for the ranges `[100,150]` and
`[151,200]` the probe for `175` is equivalent to the second and not to the
first. -/
theorem C5_probe_equiv_implies_contains (p r r2 : BLOCK_KEY)
    (hp : p.IsPoint = true) (hr : r.IsPoint = false) (h : keyEquiv p r = true) :
    r.Contains p._start = true ∧
    (r2.IsPoint = false → keyEquiv p r2 = true →
      ¬ (∀ x, ¬ (r.Contains x = true ∧ r2.Contains x = true))) ∧
    keyEquiv (BLOCK_KEY.mk 175 174 0) (BLOCK_KEY.mk 151 200 50) = true ∧
    keyEquiv (BLOCK_KEY.mk 175 174 0) (BLOCK_KEY.mk 100 150 51) = false := by
  have key : ∀ q : BLOCK_KEY, q.IsPoint = false → keyEquiv p q = true →
      q.Contains p._start = true := by
    intro q hq hpq
    simp [keyEquiv, operator_lt_eq, hp, hq] at hpq
    simp [BLOCK_KEY.Contains]
    omega
  refine ⟨key r hr h, ?_, by decide, by decide⟩
  intro hr2 h2 hdis
  exact hdis p._start ⟨key r hr h, key r2 hr2 h2⟩

theorem C5_probe_equiv_implies_contains_witness :
    (BLOCK_KEY.mk 175 174 0).IsPoint = true ∧
    (BLOCK_KEY.mk 151 200 50).IsPoint = false ∧
    keyEquiv (BLOCK_KEY.mk 175 174 0) (BLOCK_KEY.mk 151 200 50) = true ∧
    (BLOCK_KEY.mk 151 200 50).Contains 175 = true :=
  ⟨by decide, by decide, by decide,
    (C5_probe_equiv_implies_contains (BLOCK_KEY.mk 175 174 0)
      (BLOCK_KEY.mk 151 200 50) (BLOCK_KEY.mk 100 150 51)
      (by decide) (by decide) (by decide)).1⟩

/-- C6 fails as stated: the probes for `110` and `120` are both equivalent
to the range `[100,150]`, but the first probe is less than the second, so
incomparability is not transitive once point probes take part. -/
theorem C6_incomparability_not_transitive :
    (BLOCK_KEY.mk 110 109 0).IsPoint = true ∧
    (BLOCK_KEY.mk 120 119 0).IsPoint = true ∧
    (BLOCK_KEY.mk 100 150 51).IsPoint = false ∧
    keyEquiv (BLOCK_KEY.mk 110 109 0) (BLOCK_KEY.mk 100 150 51) = true ∧
    keyEquiv (BLOCK_KEY.mk 100 150 51) (BLOCK_KEY.mk 120 119 0) = true ∧
    operator_lt (BLOCK_KEY.mk 110 109 0) (BLOCK_KEY.mk 120 119 0) = true ∧
    keyEquiv (BLOCK_KEY.mk 110 109 0) (BLOCK_KEY.mk 120 119 0) = false := by
  decide

/-- C6 (amended): `operator<` is irreflexive on all keys; on non-point keys
it is transitive and its incomparability is transitive (a strict weak
ordering); with point probes included it is still transitive as long as
the range keys involved have ordered bounds and are pairwise equal or
disjoint. -/
theorem C6_strict_weak_on_ranges (a b c : BLOCK_KEY) :
    operator_lt a a = false ∧
    (a.IsPoint = false → b.IsPoint = false → c.IsPoint = false →
      (operator_lt a b = true → operator_lt b c = true → operator_lt a c = true) ∧
      (keyEquiv a b = true → keyEquiv b c = true → keyEquiv a c = true)) ∧
    (rangeOrdered a → rangeOrdered b → rangesApart a b →
      operator_lt a b = true → operator_lt b c = true → operator_lt a c = true) := by
  refine ⟨?_, ?_, ?_⟩
  · cases ha : a.IsPoint <;> simp [operator_lt_eq, ha]
  · intro ha hb hc
    constructor
    · simp only [operator_lt_eq, ha, hb, hc]
      simp only [Bool.false_eq_true, if_false]
      split_ifs <;> simp <;> omega
    · simp only [keyEquiv, operator_lt_eq, ha, hb, hc]
      simp only [Bool.false_eq_true, if_false]
      split_ifs <;> simp <;> omega
  · intro oa ob hab
    unfold rangeOrdered at oa ob
    unfold rangesApart at hab
    cases ha : a.IsPoint <;> cases hb : b.IsPoint <;> cases hc : c.IsPoint <;>
      simp only [operator_lt_eq, ha, hb, hc] at * <;>
      simp at * <;> first | omega | (split_ifs <;> omega)

theorem C6_strict_weak_on_ranges_witness :
    operator_lt (BLOCK_KEY.mk 100 150 51) (BLOCK_KEY.mk 151 200 50) = true ∧
    operator_lt (BLOCK_KEY.mk 151 200 50) (BLOCK_KEY.mk 300 299 0) = true ∧
    operator_lt (BLOCK_KEY.mk 100 150 51) (BLOCK_KEY.mk 300 299 0) = true :=
  ⟨by decide, by decide,
    (C6_strict_weak_on_ranges (BLOCK_KEY.mk 100 150 51) (BLOCK_KEY.mk 151 200 50)
      (BLOCK_KEY.mk 300 299 0)).2.2 (Or.inr (by decide)) (Or.inr (by decide))
      (Or.inr (Or.inr (Or.inr (Or.inl (by decide))))) (by decide) (by decide)⟩

/-- C7: on two non-point keys `operator<` is the lexicographic order on
`(start, end)`; the two keys are equivalent exactly when both bounds agree;
and the size field never influences the comparison. -/
theorem C7_range_keys_lexicographic (k1 k2 : BLOCK_KEY)
    (h1 : k1.IsPoint = false) (h2 : k2.IsPoint = false) :
    (operator_lt k1 k2 = true ↔
      (k1._start < k2._start ∨ (k1._start = k2._start ∧ k1._end < k2._end))) ∧
    (keyEquiv k1 k2 = true ↔ (k1._start = k2._start ∧ k1._end = k2._end)) ∧
    (∀ z1 z2 : Nat,
      operator_lt ⟨k1._start, k1._end, z1⟩ ⟨k2._start, k2._end, z2⟩ =
        operator_lt k1 k2) := by
  refine ⟨?_, ?_, ?_⟩
  · simp only [operator_lt_eq, h1, h2]
    simp only [Bool.false_eq_true, if_false]
    split_ifs <;> simp <;> omega
  · simp only [keyEquiv, operator_lt_eq, h1, h2]
    simp only [Bool.false_eq_true, if_false]
    split_ifs <;> simp <;> omega
  · intro z1 z2
    rfl

theorem C7_range_keys_lexicographic_witness :
    (BLOCK_KEY.mk 100 150 51).IsPoint = false ∧
    (BLOCK_KEY.mk 100 160 61).IsPoint = false ∧
    operator_lt (BLOCK_KEY.mk 100 150 51) (BLOCK_KEY.mk 100 160 61) = true :=
  ⟨by decide, by decide,
    (C7_range_keys_lexicographic (BLOCK_KEY.mk 100 150 51) (BLOCK_KEY.mk 100 160 61)
      (by decide) (by decide)).1.mpr (Or.inr ⟨rfl, by decide⟩)⟩

/-- C8 fails as stated: the key `(5, 6)` has end minus start equal to one,
and `IsPoint` is false on it; the key `(6, 5)` is a point although its end
minus start is not one. -/
theorem C8_end_minus_start_one_is_not_point :
    (BLOCK_KEY.mk 5 6 2).WF ∧
    (BLOCK_KEY.mk 5 6 2)._end - (BLOCK_KEY.mk 5 6 2)._start = 1 ∧
    (BLOCK_KEY.mk 5 6 2).IsPoint = false ∧
    (BLOCK_KEY.mk 6 5 0).IsPoint = true ∧
    ((BLOCK_KEY.mk 6 5 0)._end + ADDRINT_MOD - (BLOCK_KEY.mk 6 5 0)._start)
      % ADDRINT_MOD ≠ 1 := by
  decide

/-- C8 (amended): on representable keys `IsPoint` is true exactly when start
minus end equals one, that is when start is the successor of end in machine
arithmetic; in particular it is false whenever end is start plus one. -/
theorem C8_isPoint_iff_start_minus_end_one (k : BLOCK_KEY) (h : k.WF) :
    (k.IsPoint = true ↔ k._start = (k._end + 1) % ADDRINT_MOD) ∧
    (k._end = k._start + 1 → k.IsPoint = false) := by
  unfold BLOCK_KEY.WF at h
  unfold BLOCK_KEY.IsPoint
  simp only [ADDRINT_MOD] at *
  constructor
  · simp only [beq_iff_eq]
    omega
  · intro he
    simp only [beq_eq_false_iff_ne, ne_eq]
    omega

theorem C8_isPoint_iff_start_minus_end_one_witness :
    (BLOCK_KEY.mk 6 5 0).WF ∧ (BLOCK_KEY.mk 6 5 0).IsPoint = true :=
  ⟨by decide,
    (C8_isPoint_iff_start_minus_end_one (BLOCK_KEY.mk 6 5 0) (by decide)).1.mpr
      (by decide)⟩

/-! ### Arrays and machine integers -/

@[simp] theorem upd_same {α : Type} (f : Nat → α) (i : Nat) (v : α) : upd f i v i = v := by
  simp [upd]

theorem upd_other {α : Type} (f : Nat → α) (i j : Nat) (v : α) (h : j ≠ i) :
    upd f i v j = f j := by
  simp [upd, h]

theorem upd_apply {α : Type} (f : Nat → α) (i j : Nat) (v : α) :
    upd f i v j = if j = i then v else f j := rfl

theorem wrapINT32_of_fits (x : Int) (h1 : -(2 ^ 31) ≤ x) (h2 : x < 2 ^ 31) :
    wrapINT32 x = x := by
  unfold wrapINT32
  omega

/-- Truncation to 32 bits keeps the value modulo 2^32. -/
theorem wrapINT32_modEq (x : Int) : wrapINT32 x ≡ x [ZMOD 2 ^ 32] := by
  unfold wrapINT32 Int.ModEq
  omega

/-- Truncation to 32 bits depends on the value modulo 2^32 alone. -/
theorem wrapINT32_congr (x y : Int) (h : x ≡ y [ZMOD 2 ^ 32]) : wrapINT32 x = wrapINT32 y := by
  unfold wrapINT32
  have h1 : x + 2 ^ 31 ≡ y + 2 ^ 31 [ZMOD 2 ^ 32] := Int.ModEq.add_right _ h
  unfold Int.ModEq at h1
  rw [h1]

theorem wrapINT32_add_wrap (x y : Int) : wrapINT32 (wrapINT32 x + y) = wrapINT32 (x + y) :=
  wrapINT32_congr _ _ (Int.ModEq.add_right _ (wrapINT32_modEq x))

/-- The value of an `INT32` counter that starts at `x` after `n` increments. -/
theorem wrapINT32_incr (x : Int) (n : Nat) :
    (if n = 0 then wrapINT32 (x + 1) else wrapINT32 (wrapINT32 (x + 1) + (n : Int))) =
      wrapINT32 (x + ((n + 1 : Nat) : Int)) := by
  split_ifs with h
  · subst h
    simp
  · rw [wrapINT32_add_wrap]
    push_cast
    congr 1
    ring

/-- The per-slice counter of block `p` after the execution of `b` and then
of the blocks of `rest`, from the value `x`. -/
theorem sliceCount_cons (x : Int) (p b : Nat) (rest : List Nat) :
    (if rest.count p = 0 then (if p = b then wrapINT32 (x + 1) else x)
      else wrapINT32 ((if p = b then wrapINT32 (x + 1) else x) + (rest.count p : Int))) =
    if (b :: rest).count p = 0 then x else wrapINT32 (x + ((b :: rest).count p : Int)) := by
  by_cases hp : p = b
  · subst hp
    have h1 : (p :: rest).count p = rest.count p + 1 := by simp
    have h0 : ¬ (p :: rest).count p = 0 := by omega
    rw [if_neg h0, h1]
    simp only [if_true]
    exact wrapINT32_incr x (rest.count p)
  · have h1 : (b :: rest).count p = rest.count p := by
      rw [List.count_cons]
      have : ¬ (b == p) = true := by
        simp only [beq_iff_eq]
        exact fun h => hp h.symm
      simp [this]
    rw [h1]
    simp only [hp, if_false]

/-- The per-slice counter of block `p` after the blocks of `pre` and then
`b`, from the value `x`. -/
theorem sliceCount_snoc (x : Int) (p b : Nat) (pre : List Nat) :
    (if p = b then
        wrapINT32 ((if pre.count p = 0 then x else wrapINT32 (x + (pre.count p : Int))) + 1)
      else (if pre.count p = 0 then x else wrapINT32 (x + (pre.count p : Int)))) =
    if (pre ++ [b]).count p = 0 then x else wrapINT32 (x + ((pre ++ [b]).count p : Int)) := by
  by_cases hp : p = b
  · subst hp
    have h1 : (pre ++ [p]).count p = pre.count p + 1 := by simp
    have h0 : ¬ (pre ++ [p]).count p = 0 := by omega
    rw [if_neg h0, h1]
    simp only [if_true]
    split_ifs with h
    · rw [h]
      simp
    · rw [wrapINT32_add_wrap]
      push_cast
      congr 1
      ring
  · have h1 : (pre ++ [b]).count p = pre.count p := by
      rw [List.count_append]
      have : [b].count p = 0 := by
        simp [List.count_cons]
        exact fun h => hp h.symm
      omega
    rw [h1]
    simp only [hp, if_false]

theorem INT64_of_UINT64_of_small (x : Nat) (h : x < 2 ^ 63) :
    INT64_of_UINT64 x = (x : Int) := by
  unfold INT64_of_UINT64
  have h1 : x % 2 ^ 64 = x := Nat.mod_eq_of_lt (by omega)
  rw [h1, if_pos h]

/-! ### The slice-end step of one block -/

@[simp] theorem EmitSliceEnd_block_map (s : ISIMPOINT) (em img tid : Nat) :
    (s.EmitSliceEnd em img tid).block_map = s.block_map := rfl

@[simp] theorem EmitSliceEnd_KnobSliceSize (s : ISIMPOINT) (em img tid : Nat) :
    (s.EmitSliceEnd em img tid).KnobSliceSize = s.KnobSliceSize := rfl

theorem EmitSliceEnd_profiles_other (s : ISIMPOINT) (em img tid t : Nat) (h : t ≠ tid) :
    (s.EmitSliceEnd em img tid).profiles t = s.profiles t := by
  simp [ISIMPOINT.EmitSliceEnd, upd_other _ _ _ _ h]

theorem EmitLDV_fields (p : PROFILE) :
    p.EmitLDV.SliceTimer = p.SliceTimer ∧
    p.EmitLDV.CurrentSliceSize = p.CurrentSliceSize ∧
    p.EmitLDV.GlobalInstructionCount = p.GlobalInstructionCount ∧
    p.EmitLDV.length_queue = p.length_queue ∧
    p.EmitLDV.last_block = p.last_block ∧
    p.EmitLDV.active = p.active ∧
    p.EmitLDV.first_eip = p.first_eip := by
  simp [PROFILE.EmitLDV]

/-- The fields that `EmitSliceEnd` leaves alone in the profile of `tid`. -/
theorem EmitSliceEnd_profile_fields (s : ISIMPOINT) (em img tid : Nat) :
    ((s.EmitSliceEnd em img tid).profiles tid).SliceTimer = (s.profiles tid).SliceTimer ∧
    ((s.EmitSliceEnd em img tid).profiles tid).CurrentSliceSize =
      (s.profiles tid).CurrentSliceSize ∧
    ((s.EmitSliceEnd em img tid).profiles tid).GlobalInstructionCount =
      (s.profiles tid).GlobalInstructionCount ∧
    ((s.EmitSliceEnd em img tid).profiles tid).length_queue = (s.profiles tid).length_queue ∧
    ((s.EmitSliceEnd em img tid).profiles tid).last_block = (s.profiles tid).last_block ∧
    ((s.EmitSliceEnd em img tid).profiles tid).active = (s.profiles tid).active ∧
    ((s.EmitSliceEnd em img tid).profiles tid).first = false := by
  simp only [ISIMPOINT.EmitSliceEnd, upd_same]
  split_ifs <;> simp [EmitLDV_fields]

/-- The profile of `tid` right before `CountBlock_Then` calls `EmitSliceEnd`. -/
theorem CountBlock_Then_fields (s : ISIMPOINT) (block tid : Nat) :
    ((s.CountBlock_Then block tid).profiles tid).SliceTimer =
      (match (s.profiles tid).length_queue with
        | front :: _ => INT64_of_UINT64 front
        | [] => s.KnobSliceSize) ∧
    ((s.CountBlock_Then block tid).profiles tid).CurrentSliceSize =
      (match (s.profiles tid).length_queue with
        | front :: _ => INT64_of_UINT64 front
        | [] => s.KnobSliceSize) ∧
    ((s.CountBlock_Then block tid).profiles tid).GlobalInstructionCount =
      (s.profiles tid).GlobalInstructionCount +
        ((s.profiles tid).CurrentSliceSize - (s.profiles tid).SliceTimer) ∧
    ((s.CountBlock_Then block tid).profiles tid).length_queue =
      (s.profiles tid).length_queue.tail ∧
    ((s.CountBlock_Then block tid).profiles tid).last_block = (s.profiles tid).last_block ∧
    ((s.CountBlock_Then block tid).profiles tid).active = (s.profiles tid).active := by
  unfold ISIMPOINT.CountBlock_Then
  simp only [EmitSliceEnd_profile_fields, upd_same]
  cases (s.profiles tid).length_queue <;> simp

theorem CountBlock_Then_profiles_other (s : ISIMPOINT) (block tid t : Nat) (h : t ≠ tid) :
    (s.CountBlock_Then block tid).profiles t = s.profiles t := by
  unfold ISIMPOINT.CountBlock_Then
  rw [EmitSliceEnd_profiles_other _ _ _ _ _ h]
  simp [upd_other _ _ _ _ h]

/-! ### The slice budget at a boundary -/

/-- C3 fails as stated: in the example engine (slice size 60, no queued
lengths) the counter is -10 when the boundary fires, and after
`CountBlock_Then` it is 60, the full budget, not 60 + (-10) = 50. -/
theorem C3_timer_reset_not_rolled_over :
    (exampleAtBoundary.profiles 0).SliceTimer = -10 ∧
    exampleAtBoundary.KnobSliceSize = 60 ∧
    (exampleAtBoundary.profiles 0).length_queue = [] ∧
    ((exampleAtBoundary.CountBlock_Then 1 0).profiles 0).SliceTimer = 60 ∧
    ((exampleAtBoundary.CountBlock_Then 1 0).profiles 0).SliceTimer ≠
      exampleAtBoundary.KnobSliceSize + (exampleAtBoundary.profiles 0).SliceTimer := by
  decide

/-- C3 (amended): after `CountBlock_Then` the counter equals the full next
budget (the front of the length queue when there is one, else the fixed
slice size) and equals `CurrentSliceSize`; the overshoot of the triggering
block is not carried into the counter but into `GlobalInstructionCount`,
which grows by the old budget minus the old (negative) counter value. -/
theorem C3_timer_reset_to_full_budget (s : ISIMPOINT) (block tid : Nat) :
    ((s.CountBlock_Then block tid).profiles tid).SliceTimer =
      (match (s.profiles tid).length_queue with
        | front :: _ => INT64_of_UINT64 front
        | [] => s.KnobSliceSize) ∧
    ((s.CountBlock_Then block tid).profiles tid).SliceTimer =
      ((s.CountBlock_Then block tid).profiles tid).CurrentSliceSize ∧
    ((s.CountBlock_Then block tid).profiles tid).GlobalInstructionCount =
      (s.profiles tid).GlobalInstructionCount +
        ((s.profiles tid).CurrentSliceSize - (s.profiles tid).SliceTimer) := by
  have h := CountBlock_Then_fields s block tid
  exact ⟨h.1, h.1.trans h.2.1.symm, h.2.2.1⟩

/-- C10: at a slice boundary (`CountBlock_Then`) with a non-empty length
queue the next budget is the front element (cast to `INT64`, which is the
element itself below 2^63) and the queue loses exactly that element; with
an empty queue the next budget is the fixed slice size and the queue stays
empty; the queues of the other threads are untouched. -/
theorem C10_next_budget_from_queue (s : ISIMPOINT) (block tid : Nat) :
    (∀ front rest, (s.profiles tid).length_queue = front :: rest →
      ((s.CountBlock_Then block tid).profiles tid).CurrentSliceSize = INT64_of_UINT64 front ∧
      ((s.CountBlock_Then block tid).profiles tid).SliceTimer = INT64_of_UINT64 front ∧
      (front < 2 ^ 63 →
        ((s.CountBlock_Then block tid).profiles tid).CurrentSliceSize = (front : Int)) ∧
      ((s.CountBlock_Then block tid).profiles tid).length_queue = rest) ∧
    ((s.profiles tid).length_queue = [] →
      ((s.CountBlock_Then block tid).profiles tid).CurrentSliceSize = s.KnobSliceSize ∧
      ((s.CountBlock_Then block tid).profiles tid).SliceTimer = s.KnobSliceSize ∧
      ((s.CountBlock_Then block tid).profiles tid).length_queue = []) ∧
    (∀ t, t ≠ tid →
      ((s.CountBlock_Then block tid).profiles t).length_queue =
        (s.profiles t).length_queue) := by
  have h := CountBlock_Then_fields s block tid
  refine ⟨?_, ?_, ?_⟩
  · intro front rest hq
    rw [hq] at h
    refine ⟨h.2.1, h.1, ?_, h.2.2.2.1⟩
    intro hf
    rw [h.2.1]
    exact INT64_of_UINT64_of_small front hf
  · intro hq
    rw [hq] at h
    exact ⟨h.2.1, h.1, h.2.2.2.1⟩
  · intro t ht
    rw [CountBlock_Then_profiles_other _ _ _ _ ht]

theorem C10_next_budget_from_queue_witness :
    ((exampleQueued.CountBlock_Then 1 0).profiles 0).CurrentSliceSize = 100 ∧
    ((exampleQueued.CountBlock_Then 1 0).profiles 0).length_queue = [200] :=
  ⟨((C10_next_budget_from_queue exampleQueued 1 0).1 100 [200] rfl).2.2.1 (by decide),
    ((C10_next_budget_from_queue exampleQueued 1 0).1 100 [200] rfl).2.2.2⟩

/-! ### The loop over the block map -/

theorem BLOCK_EmitSliceEnd_fst (b : BLOCK) (tid : Nat) :
    (b.EmitSliceEnd tid).1 =
      if b._sliceBlockCount tid = 0 then []
      else [(b._id, wrapINT32 (b._sliceBlockCount tid * b._staticInstructionCount))] := by
  unfold BLOCK.EmitSliceEnd
  split_ifs <;> rfl

theorem BLOCK_EmitSliceEnd_snd (b : BLOCK) (tid : Nat) :
    (b.EmitSliceEnd tid).2._id = b._id ∧
    (b.EmitSliceEnd tid).2._staticInstructionCount = b._staticInstructionCount ∧
    (b.EmitSliceEnd tid).2._key = b._key ∧
    (b.EmitSliceEnd tid).2._imgId = b._imgId ∧
    (b.EmitSliceEnd tid).2._blockCountMap = b._blockCountMap ∧
    (b.EmitSliceEnd tid).2._sliceBlockCount tid = 0 ∧
    (b.EmitSliceEnd tid).2._globalBlockCount tid =
      b._globalBlockCount tid + b._sliceBlockCount tid ∧
    (∀ t, t ≠ tid →
      (b.EmitSliceEnd tid).2._sliceBlockCount t = b._sliceBlockCount t ∧
      (b.EmitSliceEnd tid).2._globalBlockCount t = b._globalBlockCount t) := by
  unfold BLOCK.EmitSliceEnd
  split_ifs with h
  · simp [h]
  · refine ⟨rfl, rfl, rfl, rfl, rfl, by simp, by simp, ?_⟩
    intro t ht
    simp [upd_other _ _ _ _ ht]

theorem EmitSliceEnd_loop_emit (tid em : Nat) (entries : List (BLOCK_KEY × Nat))
    (blocks : Nat → BLOCK) (mc : Int) (out : List (Int × Int))
    (hnd : (entries.map Prod.snd).Nodup) :
    (∀ p, (ISIMPOINT.EmitSliceEnd_loop tid em true entries blocks mc out).1 p =
      if p ∈ entries.map Prod.snd then ((blocks p).EmitSliceEnd tid).2 else blocks p) ∧
    (ISIMPOINT.EmitSliceEnd_loop tid em true entries blocks mc out).2.2 =
      out ++ (entries.map Prod.snd).flatMap fun p => ((blocks p).EmitSliceEnd tid).1 := by
  induction entries generalizing blocks mc out with
  | nil => simp [ISIMPOINT.EmitSliceEnd_loop]
  | cons e rest ih =>
    obtain ⟨key, block⟩ := e
    simp only [List.map_cons, List.nodup_cons] at hnd
    obtain ⟨hnot, hrest⟩ := hnd
    simp only [ISIMPOINT.EmitSliceEnd_loop, if_true]
    obtain ⟨ih1, ih2⟩ := ih (upd blocks block ((blocks block).EmitSliceEnd tid).2)
      (if key.Contains em = true then mc + (blocks block).GlobalBlockCount tid else mc)
      (out ++ ((blocks block).EmitSliceEnd tid).1) hrest
    constructor
    · intro p
      rw [ih1 p]
      by_cases hp : p ∈ rest.map Prod.snd
      · have hne : p ≠ block := fun h => hnot (h ▸ hp)
        simp [hp, upd_other _ _ _ _ hne]
      · by_cases hpb : p = block
        · subst hpb
          simp [hp]
        · simp [hp, hpb, upd_other _ _ _ _ hpb]
    · rw [ih2]
      simp only [List.map_cons, List.flatMap_cons, List.append_assoc]
      congr 2
      apply List.flatMap_congr
      intro q hq
      have hne : q ≠ block := fun h => hnot (h ▸ hq)
      rw [upd_other _ _ _ _ hne]

/-! ### The effect of `EmitSliceEnd` -/

theorem pointers_eq (s s1 : ISIMPOINT) (h : s1.block_map = s.block_map) :
    s1.pointers = s.pointers := by
  simp [ISIMPOINT.pointers, h]

theorem EmitSliceEnd_blocks (s : ISIMPOINT) (em img tid : Nat) (hnd : s.pointers.Nodup)
    (hemit : (!(s.profiles tid).first || s.KnobEmitFirstSlice) = true) (p : Nat) :
    (s.EmitSliceEnd em img tid).blocks p =
      if p ∈ s.pointers then ((s.blocks p).EmitSliceEnd tid).2 else s.blocks p := by
  have h := (EmitSliceEnd_loop_emit tid em s.block_map s.blocks 0 [] hnd).1 p
  simp only [ISIMPOINT.EmitSliceEnd, hemit]
  exact h

theorem EmitSliceEnd_BbFile (s : ISIMPOINT) (em img tid : Nat) (hnd : s.pointers.Nodup)
    (hemit : (!(s.profiles tid).first || s.KnobEmitFirstSlice) = true) :
    ((s.EmitSliceEnd em img tid).profiles tid).BbFile =
      (s.profiles tid).BbFile ++
        (if (s.profiles tid).first = true then
          [Line.I0, Line.P tid, Line.C s.commandLine,
            s.EmitSliceStartInfo (s.profiles tid).first_eip 1 img]
        else []) ++
        [Line.SliceEnding (s.profiles tid).GlobalInstructionCount] ++
        [Line.T (s.sliceBody tid)] ++
        (if (s.profiles tid).active = true then
          [if s.KnobNoSymbolic = true then Line.M em (s.markerCount em tid)
           else s.EmitSliceStartInfo em (s.markerCount em tid) img]
        else []) := by
  have h := (EmitSliceEnd_loop_emit tid em s.block_map s.blocks 0 [] hnd).2
  simp only [List.nil_append] at h
  simp only [ISIMPOINT.EmitSliceEnd, upd_same, ISIMPOINT.markerCount, ISIMPOINT.sliceBody,
    ISIMPOINT.pointers, hemit, h, if_true]

/-! ### Counting what the slice bodies report -/

theorem pairsCount_nil (i : Int) : pairsCount i [] = 0 := rfl

theorem pairsCount_append (i : Int) (a b : List (Int × Int)) :
    pairsCount i (a ++ b) = pairsCount i a + pairsCount i b := by
  simp [pairsCount]

theorem pairsCount_flatMap (i : Int) (l : List Nat) (g : Nat → List (Int × Int)) :
    pairsCount i (l.flatMap g) = (l.map fun p => pairsCount i (g p)).sum := by
  induction l with
  | nil => rfl
  | cons a rest ih => simp [List.flatMap_cons, pairsCount_append, ih]

theorem emittedCount_append (i : Int) (a b : List Line) :
    emittedCount i (a ++ b) = emittedCount i a + emittedCount i b := by
  simp [emittedCount]

theorem sum_map_eq_zero (l : List Nat) (f : Nat → Int) (h : ∀ x ∈ l, f x = 0) :
    (l.map f).sum = 0 := by
  induction l with
  | nil => rfl
  | cons a rest ih =>
    simp only [List.map_cons, List.sum_cons]
    rw [h a (List.mem_cons_self _ _), ih fun x hx => h x (List.mem_cons_of_mem _ hx)]
    rfl

theorem sum_map_eq_single (l : List Nat) (f : Nat → Int) (a : Nat) (hnd : l.Nodup)
    (ha : a ∈ l) (h : ∀ x ∈ l, x ≠ a → f x = 0) : (l.map f).sum = f a := by
  induction l with
  | nil => cases ha
  | cons b rest ih =>
    simp only [List.nodup_cons] at hnd
    simp only [List.map_cons, List.sum_cons]
    by_cases hba : b = a
    · subst hba
      rw [sum_map_eq_zero rest f]
      · omega
      · intro x hx
        exact h x (List.mem_cons_of_mem _ hx) (fun hxb => hnd.1 (hxb ▸ hx))
    · have har : a ∈ rest := by
        rcases List.mem_cons.mp ha with h1 | h1
        · exact absurd h1.symm hba
        · exact h1
      rw [h b (List.mem_cons_self _ _) hba,
        ih hnd.2 har fun x hx hxa => h x (List.mem_cons_of_mem _ hx) hxa]
      omega

theorem emittedCount_EmitSliceEnd (s : ISIMPOINT) (em img tid : Nat) (i : Int)
    (hnd : s.pointers.Nodup)
    (hemit : (!(s.profiles tid).first || s.KnobEmitFirstSlice) = true) :
    emittedCount i ((s.EmitSliceEnd em img tid).profiles tid).BbFile =
      emittedCount i (s.profiles tid).BbFile + pairsCount i (s.sliceBody tid) := by
  rw [EmitSliceEnd_BbFile s em img tid hnd hemit]
  simp only [emittedCount_append]
  have h1 : emittedCount i
      (if (s.profiles tid).first = true then
        [Line.I0, Line.P tid, Line.C s.commandLine,
          s.EmitSliceStartInfo (s.profiles tid).first_eip 1 img]
      else []) = 0 := by
    unfold ISIMPOINT.EmitSliceStartInfo
    split_ifs <;> simp [emittedCount, Line.countOf]
  have h2 : emittedCount i
      (if (s.profiles tid).active = true then
        [if s.KnobNoSymbolic = true then Line.M em (s.markerCount em tid)
         else s.EmitSliceStartInfo em (s.markerCount em tid) img]
      else []) = 0 := by
    unfold ISIMPOINT.EmitSliceStartInfo
    split_ifs <;> simp [emittedCount, Line.countOf]
  rw [h1, h2]
  simp [emittedCount, Line.countOf]

/-! ### The effect of the `If` routines -/

theorem SameConfig.refl (s : ISIMPOINT) : SameConfig s s :=
  ⟨rfl, rfl, rfl, rfl, rfl, rfl, rfl, rfl, rfl, rfl, fun _ => rfl, fun _ => rfl, fun _ => rfl⟩

theorem SameConfig.trans {a b c : ISIMPOINT} (h1 : SameConfig a b) (h2 : SameConfig b c) :
    SameConfig a c :=
  ⟨h2.block_map.trans h1.block_map, h2.commandLine.trans h1.commandLine,
    h2.img_manager.trans h1.img_manager, h2.maxThreads.trans h1.maxThreads,
    h2.sliceSize.trans h1.sliceSize, h2.noSymbolic.trans h1.noSymbolic,
    h2.emitFirst.trans h1.emitFirst, h2.emitLast.trans h1.emitLast,
    h2.prevCounts.trans h1.prevCounts, h2.ldvType.trans h1.ldvType,
    fun p => (h2.static p).trans (h1.static p), fun p => (h2.key p).trans (h1.key p),
    fun p => (h2.imgId p).trans (h1.imgId p)⟩

/-- What one run of the `If` routine does to the engine. -/
theorem countIf_spec (s : ISIMPOINT) (block tid : Nat)
    (hok : s.KnobEmitPrevBlockCounts = true → tid < s.PIN_MAX_THREADS) :
    ∃ s1, s.countIf block tid =
        some (s1, decide ((s.profiles tid).SliceTimer -
          (s.blocks block)._staticInstructionCount < 0)) ∧
      SameConfig s s1 ∧
      (∀ p, (s1.blocks p)._sliceBlockCount tid =
        if p = block then wrapINT32 ((s.blocks p)._sliceBlockCount tid + 1)
        else (s.blocks p)._sliceBlockCount tid) ∧
      (∀ p t, t ≠ tid → (s1.blocks p)._sliceBlockCount t = (s.blocks p)._sliceBlockCount t) ∧
      (∀ p, (s1.blocks p)._globalBlockCount = (s.blocks p)._globalBlockCount) ∧
      (∀ t, t ≠ tid → s1.profiles t = s.profiles t) ∧
      s1.profiles tid =
        { s.profiles tid with
          SliceTimer := (s.profiles tid).SliceTimer - (s.blocks block)._staticInstructionCount
          last_block := some block } ∧
      (∀ p, (s1.blocks p)._id =
        if s.KnobEmitPrevBlockCounts = true ∧ p = block ∧ (s.blocks p)._id = 0 then
          (s._currentId tid : Int)
        else (s.blocks p)._id) ∧
      s1._currentId tid =
        (if s.KnobEmitPrevBlockCounts = true ∧ (s.blocks block)._id = 0 then
          s._currentId tid + 1
        else s._currentId tid) := by
  by_cases hk : s.KnobEmitPrevBlockCounts = true
  · have hlt : tid < s.PIN_MAX_THREADS := hok hk
    by_cases hid : (s.blocks block)._id = 0
    · simp only [ISIMPOINT.countIf, hk, ISIMPOINT.CountBlockAndTrackPrevious_If,
        ISIMPOINT.BLOCK_Execute, ISIMPOINT.getNextCurrentId, upd_same, BLOCK.Execute, hid,
        hlt, and_self, if_true, Option.map_some', BLOCK.StaticInstructionCount]
      refine ⟨_, rfl, ?_, ?_, ?_, ?_, ?_, ?_, ?_, ?_⟩
      · constructor <;>
          first
          | rfl
          | (intro p; simp only [upd_apply]; split_ifs with h <;> simp [h])
          | simp [hk]
      · intro p
        simp only [upd_apply]
        split_ifs with h <;> simp [h]
      · intro p t ht
        simp only [upd_apply]
        split_ifs with h <;> simp [h, upd_apply, ht]
      · intro p
        simp only [upd_apply]
        split_ifs with h <;> simp [h]
      · intro t ht
        simp [upd_apply, ht]
      · simp
      · intro p
        simp only [upd_apply]
        split_ifs with h <;> simp_all
      · simp
    · simp only [ISIMPOINT.countIf, hk, ISIMPOINT.CountBlockAndTrackPrevious_If,
        ISIMPOINT.BLOCK_Execute, upd_same, BLOCK.Execute, hid,
        if_true, if_false, Option.map_some', BLOCK.StaticInstructionCount]
      refine ⟨_, rfl, ?_, ?_, ?_, ?_, ?_, ?_, ?_, ?_⟩
      · constructor <;>
          first
          | rfl
          | (intro p; simp only [upd_apply]; split_ifs with h <;> simp [h])
          | simp [hk]
      · intro p
        simp only [upd_apply]
        split_ifs with h <;> simp [h]
      · intro p t ht
        simp only [upd_apply]
        split_ifs with h <;> simp [h, upd_apply, ht]
      · intro p
        simp only [upd_apply]
        split_ifs with h <;> simp [h]
      · intro t ht
        simp [upd_apply, ht]
      · simp
      · intro p
        by_cases hp : p = block
        · subst hp
          simp [hk, hid]
        · simp [upd_apply, hp]
      · simp [hid]
  · have hk2 : s.KnobEmitPrevBlockCounts = false := by
      cases h : s.KnobEmitPrevBlockCounts
      · rfl
      · exact absurd h hk
    refine ⟨(s.CountBlock_If block tid).1, ?_, ?_, ?_, ?_, ?_, ?_, ?_, ?_, ?_⟩
    · simp [ISIMPOINT.countIf, hk2, ISIMPOINT.CountBlock_If, BLOCK.StaticInstructionCount,
        BLOCK.Execute]
    · constructor <;>
        first
        | rfl
        | (intro p; simp only [ISIMPOINT.CountBlock_If, upd_apply];
           split_ifs with h <;> simp [BLOCK.Execute, h])
    · intro p
      simp only [ISIMPOINT.CountBlock_If, upd_apply]
      split_ifs with h <;> simp [BLOCK.Execute, h]
    · intro p t ht
      simp only [ISIMPOINT.CountBlock_If, upd_apply]
      split_ifs with h <;> simp [BLOCK.Execute, h, upd_apply, ht]
    · intro p
      simp only [ISIMPOINT.CountBlock_If, upd_apply]
      split_ifs with h <;> simp [BLOCK.Execute, h]
    · intro t ht
      simp [ISIMPOINT.CountBlock_If, upd_apply, ht]
    · simp [ISIMPOINT.CountBlock_If, BLOCK.StaticInstructionCount, BLOCK.Execute]
    · intro p
      simp only [ISIMPOINT.CountBlock_If, upd_apply]
      split_ifs with h <;> simp_all [BLOCK.Execute]
    · simp [ISIMPOINT.CountBlock_If, hk2]

/-! ### The effect of `CountBlock_Then` -/

/-- The loop of `EmitSliceEnd` never touches the static data or the id of a
block. -/
theorem EmitSliceEnd_loop_static (tid em : Nat) (emit : Bool)
    (entries : List (BLOCK_KEY × Nat)) (blocks : Nat → BLOCK) (mc : Int)
    (out : List (Int × Int)) (p : Nat) :
    ((ISIMPOINT.EmitSliceEnd_loop tid em emit entries blocks mc out).1 p)._id =
        (blocks p)._id ∧
    ((ISIMPOINT.EmitSliceEnd_loop tid em emit entries blocks mc out).1 p)._staticInstructionCount
        = (blocks p)._staticInstructionCount ∧
    ((ISIMPOINT.EmitSliceEnd_loop tid em emit entries blocks mc out).1 p)._key =
        (blocks p)._key ∧
    ((ISIMPOINT.EmitSliceEnd_loop tid em emit entries blocks mc out).1 p)._imgId =
        (blocks p)._imgId := by
  induction entries generalizing blocks mc out with
  | nil => exact ⟨rfl, rfl, rfl, rfl⟩
  | cons e rest ih =>
    obtain ⟨key, block⟩ := e
    cases emit
    · simp only [ISIMPOINT.EmitSliceEnd_loop, Bool.false_eq_true, if_false]
      exact ih _ _ _
    · simp only [ISIMPOINT.EmitSliceEnd_loop, if_true]
      have h := ih (upd blocks block ((blocks block).EmitSliceEnd tid).2)
        (if key.Contains em = true then mc + (blocks block).GlobalBlockCount tid else mc)
        (out ++ ((blocks block).EmitSliceEnd tid).1)
      have hb := BLOCK_EmitSliceEnd_snd (blocks block) tid
      by_cases hp : p = block
      · subst hp
        rw [upd_same] at h
        exact ⟨h.1.trans hb.1, h.2.1.trans hb.2.1, h.2.2.1.trans hb.2.2.1,
          h.2.2.2.trans hb.2.2.2.1⟩
      · rw [upd_other _ _ _ _ hp] at h
        exact h

theorem EmitSliceEnd_sameConfig (s : ISIMPOINT) (em img tid : Nat) :
    SameConfig s (s.EmitSliceEnd em img tid) :=
  ⟨rfl, rfl, rfl, rfl, rfl, rfl, rfl, rfl, rfl, rfl,
    fun p => (EmitSliceEnd_loop_static tid em _ s.block_map s.blocks 0 [] p).2.1,
    fun p => (EmitSliceEnd_loop_static tid em _ s.block_map s.blocks 0 [] p).2.2.1,
    fun p => (EmitSliceEnd_loop_static tid em _ s.block_map s.blocks 0 [] p).2.2.2⟩

theorem EmitSliceEnd_id (s : ISIMPOINT) (em img tid p : Nat) :
    ((s.EmitSliceEnd em img tid).blocks p)._id = (s.blocks p)._id :=
  (EmitSliceEnd_loop_static tid em _ s.block_map s.blocks 0 [] p).1

theorem CountBlock_Then_eq (s : ISIMPOINT) (block tid : Nat) :
    s.CountBlock_Then block tid =
      (s.withNextBudget tid).EmitSliceEnd (s.blocks block)._key._end
        (s.blocks block)._imgId tid := rfl

theorem withNextBudget_profile (s : ISIMPOINT) (tid : Nat) :
    ((s.withNextBudget tid).profiles tid).first = (s.profiles tid).first ∧
    ((s.withNextBudget tid).profiles tid).BbFile = (s.profiles tid).BbFile ∧
    ((s.withNextBudget tid).profiles tid).active = (s.profiles tid).active ∧
    ((s.withNextBudget tid).profiles tid).first_eip = (s.profiles tid).first_eip ∧
    ((s.withNextBudget tid).profiles tid).GlobalInstructionCount =
      (s.profiles tid).GlobalInstructionCount +
        ((s.profiles tid).CurrentSliceSize - (s.profiles tid).SliceTimer) := by
  simp only [ISIMPOINT.withNextBudget, upd_same]
  cases (s.profiles tid).length_queue <;> simp

theorem CountBlock_Then_sameConfig (s : ISIMPOINT) (block tid : Nat) :
    SameConfig s (s.CountBlock_Then block tid) := by
  rw [CountBlock_Then_eq]
  have h1 : SameConfig s (s.withNextBudget tid) :=
    ⟨rfl, rfl, rfl, rfl, rfl, rfl, rfl, rfl, rfl, rfl, fun _ => rfl, fun _ => rfl, fun _ => rfl⟩
  exact SameConfig.trans h1 (EmitSliceEnd_sameConfig (s.withNextBudget tid) _ _ _)

theorem CountBlock_Then_id (s : ISIMPOINT) (block tid p : Nat) :
    ((s.CountBlock_Then block tid).blocks p)._id = (s.blocks p)._id := by
  rw [CountBlock_Then_eq]
  exact EmitSliceEnd_id (s.withNextBudget tid) _ _ _ _

theorem CountBlock_Then_currentId (s : ISIMPOINT) (block tid : Nat) :
    (s.CountBlock_Then block tid)._currentId = s._currentId := rfl

/-- The blocks, and the slice body written, at a boundary where the body is
emitted. -/
theorem CountBlock_Then_spec (s : ISIMPOINT) (block tid : Nat) (hnd : s.pointers.Nodup)
    (hemit : (!(s.profiles tid).first || s.KnobEmitFirstSlice) = true) :
    (∀ p, (s.CountBlock_Then block tid).blocks p =
      if p ∈ s.pointers then ((s.blocks p).EmitSliceEnd tid).2 else s.blocks p) ∧
    (∀ i, emittedCount i ((s.CountBlock_Then block tid).profiles tid).BbFile =
      emittedCount i (s.profiles tid).BbFile + pairsCount i (s.sliceBody tid)) := by
  have hnd1 : (s.withNextBudget tid).pointers.Nodup := hnd
  have hemit1 : (!((s.withNextBudget tid).profiles tid).first ||
      (s.withNextBudget tid).KnobEmitFirstSlice) = true := by
    rw [(withNextBudget_profile s tid).1]
    exact hemit
  rw [CountBlock_Then_eq]
  constructor
  · intro p
    rw [EmitSliceEnd_blocks _ _ _ _ hnd1 hemit1]
    rfl
  · intro i
    rw [emittedCount_EmitSliceEnd _ _ _ _ _ hnd1 hemit1, (withNextBudget_profile s tid).2.1]
    rfl

/-! ### The accounting invariant -/

theorem pairsCount_body_entry (b : BLOCK) (tid : Nat) (i : Int) :
    pairsCount i (b.EmitSliceEnd tid).1 =
      if b._sliceBlockCount tid = 0 then 0
      else if b._id = i then wrapINT32 (b._sliceBlockCount tid * b._staticInstructionCount)
      else 0 := by
  rw [BLOCK_EmitSliceEnd_fst]
  split_ifs <;> simp_all [pairsCount]

theorem productsFit_iff (s : ISIMPOINT) (tid : Nat) :
    s.productsFit tid = true ↔
      ∀ p ∈ s.pointers,
        -(2 ^ 31) ≤ (s.blocks p)._sliceBlockCount tid * (s.blocks p)._staticInstructionCount ∧
        (s.blocks p)._sliceBlockCount tid * (s.blocks p)._staticInstructionCount < 2 ^ 31 := by
  unfold ISIMPOINT.productsFit
  rw [List.all_eq_true]
  constructor
  · intro h p hp
    exact of_decide_eq_true (h p hp)
  · intro h p hp
    exact decide_eq_true (h p hp)

/-- When the products are representable the next slice body reports, under
every id, the static count times the pending executions of the blocks that
hold the id. -/
theorem pairsCount_sliceBody (s : ISIMPOINT) (tid : Nat) (i : Int)
    (hfit : s.productsFit tid = true) :
    pairsCount i (s.sliceBody tid) =
      (s.pointers.map fun p =>
        if (s.blocks p)._id = i then
          (s.blocks p)._staticInstructionCount * (s.blocks p)._sliceBlockCount tid
        else 0).sum := by
  unfold ISIMPOINT.sliceBody
  rw [pairsCount_flatMap]
  congr 1
  apply List.map_congr_left
  intro p hp
  obtain ⟨h1, h2⟩ := (productsFit_iff s tid).mp hfit p hp
  rw [pairsCount_body_entry, wrapINT32_of_fits _ h1 h2]
  by_cases h0 : (s.blocks p)._sliceBlockCount tid = 0
  · rw [if_pos h0, h0]
    simp
  · rw [if_neg h0, Int.mul_comm]

theorem sum_map_add (l : List Nat) (f g : Nat → Int) :
    (l.map f).sum + (l.map g).sum = (l.map fun p => f p + g p).sum := by
  induction l with
  | nil => rfl
  | cons a rest ih =>
    simp only [List.map_cons, List.sum_cons]
    rw [← ih]
    ring

theorem SliceInv_CountBlock_Then (s : ISIMPOINT) (block tid : Nat) (tr : List Nat)
    (inv : SliceInv s tid tr) (hfit : s.productsFit tid = true) :
    SliceInv (s.CountBlock_Then block tid) tid tr ∧
    ∀ p ∈ s.pointers, ((s.CountBlock_Then block tid).blocks p)._sliceBlockCount tid = 0 := by
  have hcfg := CountBlock_Then_sameConfig s block tid
  have hptr : (s.CountBlock_Then block tid).pointers = s.pointers :=
    pointers_eq _ _ hcfg.block_map
  have hemit : (!(s.profiles tid).first || s.KnobEmitFirstSlice) = true := by
    simp [inv.emitFirst]
  obtain ⟨hblocks, hout⟩ := CountBlock_Then_spec s block tid inv.nodup hemit
  have hfields := CountBlock_Then_fields s block tid
  have hslice : ∀ p ∈ s.pointers,
      ((s.CountBlock_Then block tid).blocks p)._sliceBlockCount tid = 0 := by
    intro p hp
    rw [hblocks p, if_pos hp]
    exact (BLOCK_EmitSliceEnd_snd _ tid).2.2.2.2.2.1
  have hid : ∀ p, ((s.CountBlock_Then block tid).blocks p)._id = (s.blocks p)._id :=
    CountBlock_Then_id s block tid
  refine ⟨?_, hslice⟩
  constructor
  · rw [hcfg.emitFirst]
    exact inv.emitFirst
  · rw [hptr]
    exact inv.nodup
  · intro p hp
    rw [hptr] at hp
    rw [hcfg.static]
    exact inv.staticPos p hp
  · intro i
    rw [hout, inv.account i, pairsCount_sliceBody s tid i hfit, sum_map_add, hptr]
    congr 1
    apply List.map_congr_left
    intro p hp
    rw [hid, hslice p hp, hcfg.static]
    split_ifs
    · ring
    · rfl
  · intro p hp
    rw [hptr] at hp
    rw [hslice p hp]
    exact ⟨le_refl _, by exact_mod_cast Nat.zero_le _⟩
  · rw [hfields.1, hfields.2.1]
  · intro _ p hp
    rw [hptr] at hp
    exact hslice p hp
  · intro h
    exact absurd (hfields.1.trans hfields.2.1.symm) h
  · intro hk
    rw [hcfg.prevCounts] at hk
    obtain ⟨h1, h2, h3⟩ := inv.tracking hk
    refine ⟨by rw [hcfg.maxThreads]; exact h1, h2, ?_⟩
    intro p hp
    rw [hptr] at hp
    rw [hid]
    exact h3 p hp

theorem count_snoc (tr : List Nat) (b p : Nat) :
    (((tr ++ [b]).count p : Nat) : Int) = (tr.count p : Int) + if p = b then 1 else 0 := by
  rw [List.count_append]
  by_cases h : p = b
  · subst h
    simp
  · have h0 : [b].count p = 0 := by
      simp [List.count_cons]
      exact fun hb => h hb.symm
    simp [h0, h]

theorem SliceInv_countIf (s : ISIMPOINT) (b tid : Nat) (tr : List Nat)
    (inv : SliceInv s tid tr) (hb : b ∈ s.pointers)
    (hcnt : (s.blocks b)._sliceBlockCount tid < 2 ^ 31 - 1) :
    ∃ s1, s.countIf b tid =
        some (s1, decide ((s.profiles tid).SliceTimer -
          (s.blocks b)._staticInstructionCount < 0)) ∧
      SameConfig s s1 ∧ SliceInv s1 tid (tr ++ [b]) ∧
      (∀ p, s.KnobEmitPrevBlockCounts = false ∨ (s.blocks p)._id ≠ 0 →
        (s1.blocks p)._id = (s.blocks p)._id) ∧
      (∀ p, (s1.blocks p)._sliceBlockCount tid =
        (s.blocks p)._sliceBlockCount tid + if p = b then 1 else 0) ∧
      (s1.profiles tid).BbFile = (s.profiles tid).BbFile := by
  obtain ⟨s1, heq, hcfg, hslice0, -, -, -, hprof, hid, hcur⟩ :=
    countIf_spec s b tid (fun hk => (inv.tracking hk).1)
  have hslice : ∀ p, (s1.blocks p)._sliceBlockCount tid =
      (s.blocks p)._sliceBlockCount tid + if p = b then 1 else 0 := by
    intro p
    rw [hslice0]
    by_cases hp : p = b
    · subst hp
      have := (inv.sliceBound p hb).1
      rw [if_pos rfl, if_pos rfl, wrapINT32_of_fits _ (by omega) (by omega)]
    · rw [if_neg hp, if_neg hp, add_zero]
  refine ⟨s1, heq, hcfg, ?_, fun p hp => by
    rw [hid, if_neg]
    rintro ⟨h1, -, h3⟩
    rcases hp with hp | hp
    · rw [hp] at h1
      cases h1
    · exact hp h3, hslice, by rw [hprof]⟩
  have hptr : s1.pointers = s.pointers := pointers_eq _ _ hcfg.block_map
  have hout : (s1.profiles tid).BbFile = (s.profiles tid).BbFile := by rw [hprof]
  have htimer : (s1.profiles tid).SliceTimer =
      (s.profiles tid).SliceTimer - (s.blocks b)._staticInstructionCount := by rw [hprof]
  have hcss : (s1.profiles tid).CurrentSliceSize = (s.profiles tid).CurrentSliceSize := by
    rw [hprof]
  have hlast : (s1.profiles tid).last_block = some b := by rw [hprof]
  have hbpos := inv.staticPos b hb
  constructor
  · rw [hcfg.emitFirst]
    exact inv.emitFirst
  · rw [hptr]
    exact inv.nodup
  · intro p hp
    rw [hptr] at hp
    rw [hcfg.static]
    exact inv.staticPos p hp
  · intro i
    rw [hout, inv.account i, hptr]
    congr 1
    apply List.map_congr_left
    intro p hp
    rw [hcfg.static, hslice, count_snoc, hid]
    have hsame : ((tr.count p : Int) + (if p = b then 1 else 0)) -
        ((s.blocks p)._sliceBlockCount tid + if p = b then 1 else 0) =
        (tr.count p : Int) - (s.blocks p)._sliceBlockCount tid := by ring
    rw [hsame]
    by_cases hcp : s.KnobEmitPrevBlockCounts = true ∧ p = b ∧ (s.blocks p)._id = 0
    · have hc0 := (inv.tracking hcp.1).2.2 p hp hcp.2.2
      have hs0 := inv.sliceBound p hp
      have hz : (tr.count p : Int) - (s.blocks p)._sliceBlockCount tid = 0 := by
        rw [hc0] at hs0 ⊢
        simp only [Nat.cast_zero] at hs0 ⊢
        omega
      rw [hz]
      simp
    · rw [if_neg hcp]
  · intro p hp
    rw [hptr] at hp
    rw [hslice, count_snoc]
    have h := inv.sliceBound p hp
    split_ifs <;> omega
  · rw [htimer, hcss]
    have := inv.timerLe
    omega
  · intro h
    rw [htimer, hcss] at h
    have := inv.timerLe
    omega
  · intro _
    rw [hlast]
    exact Option.some_ne_none b
  · intro hk
    rw [hcfg.prevCounts] at hk
    obtain ⟨h1, h2, h3⟩ := inv.tracking hk
    have hcle : s._currentId tid ≤ s1._currentId tid := by
      rw [hcur]
      split_ifs <;> omega
    refine ⟨by rw [hcfg.maxThreads]; exact h1, le_trans h2 hcle, ?_⟩
    intro p hp h0
    rw [hptr] at hp
    rw [hid] at h0
    by_cases hpb : p = b
    · exfalso
      by_cases hz : (s.blocks p)._id = 0
      · rw [if_pos ⟨hk, hpb, hz⟩] at h0
        omega
      · rw [if_neg (fun h => hz h.2.2)] at h0
        exact hz h0
    · rw [if_neg (fun h => hpb h.2.1)] at h0
      have := h3 p hp h0
      rw [List.count_append, this]
      simp [List.count_cons]
      exact fun h => hpb h.symm

theorem SliceInv_runThread (tid : Nat) (rest : List Nat) :
    ∀ (s : ISIMPOINT) (pre : List Nat), SliceInv s tid pre →
      (∀ b ∈ rest, b ∈ s.pointers) → s.noOverflow tid rest = true →
      ∃ s1, s.runThread tid rest = some s1 ∧ SameConfig s s1 ∧
        SliceInv s1 tid (pre ++ rest) ∧ s1.noOverflow tid [] = true ∧
        ∀ p, s.KnobEmitPrevBlockCounts = false ∨ (s.blocks p)._id ≠ 0 →
          (s1.blocks p)._id = (s.blocks p)._id := by
  induction rest with
  | nil =>
    intro s pre inv _ hfit
    exact ⟨s, rfl, SameConfig.refl s, by simpa using inv, hfit, fun _ _ => rfl⟩
  | cons b rest ih =>
    intro s pre inv hmem hfit
    have hb : b ∈ s.pointers := hmem b (List.mem_cons_self _ _)
    simp only [ISIMPOINT.noOverflow, Bool.and_eq_true, decide_eq_true_eq] at hfit
    obtain ⟨hcnt, hrest⟩ := hfit
    obtain ⟨s1, heq, hcfg, inv1, hid1, -, -⟩ := SliceInv_countIf s b tid pre inv hb hcnt
    have hptr : s1.pointers = s.pointers := pointers_eq _ _ hcfg.block_map
    have hemit1 : (!(s1.profiles tid).first || s1.KnobEmitFirstSlice) = true := by
      simp [inv1.emitFirst]
    have hkeep : ∀ (s2 s3 : ISIMPOINT), SameConfig s s2 →
        (∀ p, (s2.blocks p)._id = (s1.blocks p)._id) →
        (∀ p, s2.KnobEmitPrevBlockCounts = false ∨ (s2.blocks p)._id ≠ 0 →
          (s3.blocks p)._id = (s2.blocks p)._id) →
        ∀ p, s.KnobEmitPrevBlockCounts = false ∨ (s.blocks p)._id ≠ 0 →
          (s3.blocks p)._id = (s.blocks p)._id := by
      intro s2 s3 c2 h12 h23 p hp
      have h1 := hid1 p hp
      rw [h23 p (by
        rw [c2.prevCounts, h12, h1]
        exact hp), h12, h1]
    by_cases hneg : (s.profiles tid).SliceTimer - (s.blocks b)._staticInstructionCount < 0
    · rw [decide_eq_true hneg] at heq
      rw [heq] at hrest
      simp only [hemit1, if_true, Bool.and_eq_true] at hrest
      obtain ⟨inv2, -⟩ := SliceInv_CountBlock_Then s1 b tid _ inv1 hrest.1
      have hcfg2 := SameConfig.trans hcfg (CountBlock_Then_sameConfig s1 b tid)
      obtain ⟨s3, heq3, hcfg3, inv3, hfit3, hid3⟩ :=
        ih (s1.CountBlock_Then b tid) (pre ++ [b]) inv2
          (fun x hx => by
            rw [pointers_eq _ _ hcfg2.block_map]
            exact hmem x (List.mem_cons_of_mem _ hx))
          hrest.2
      refine ⟨s3, ?_, SameConfig.trans hcfg2 hcfg3, by simpa using inv3, hfit3,
        hkeep _ s3 hcfg2 (CountBlock_Then_id s1 b tid) hid3⟩
      simp only [ISIMPOINT.runThread, ISIMPOINT.onBlockExecuted, heq, Option.map_some',
        if_true, Option.some_bind]
      exact heq3
    · rw [decide_eq_false hneg] at heq
      rw [heq] at hrest
      simp only at hrest
      obtain ⟨s3, heq3, hcfg3, inv3, hfit3, hid3⟩ := ih s1 (pre ++ [b]) inv1
        (fun x hx => by
          rw [hptr]
          exact hmem x (List.mem_cons_of_mem _ hx))
        hrest
      refine ⟨s3, ?_, SameConfig.trans hcfg hcfg3, by simpa using inv3, hfit3,
        hkeep s1 s3 hcfg (fun _ => rfl) hid3⟩
      simp only [ISIMPOINT.runThread, ISIMPOINT.onBlockExecuted, heq, Option.map_some',
        Bool.false_eq_true, if_false, Option.some_bind]
      exact heq3

/-! ### Thread end -/

theorem ThreadFini_eq (s : ISIMPOINT) (tid : Nat) :
    s.ThreadFini tid =
      (if s.KnobEmitLastSlice = true ∧
          (s.profiles tid).SliceTimer ≠ (s.profiles tid).CurrentSliceSize then
        match (s.profiles tid).last_block with
        | some b => some (s.CountBlock_Then b tid)
        | none => none
      else some s).map fun s1 => s1.finishThread tid := rfl

theorem emittedCount_eq_zero (i : Int) (out : List Line)
    (h : ∀ l ∈ out, ∀ pairs, l ≠ Line.T pairs) : emittedCount i out = 0 := by
  induction out with
  | nil => rfl
  | cons l rest ih =>
    have hl := h l (List.mem_cons_self _ _)
    have hr := ih fun x hx => h x (List.mem_cons_of_mem _ hx)
    unfold emittedCount at hr ⊢
    simp only [List.map_cons, List.sum_cons, hr]
    cases l <;> simp_all [Line.countOf]

theorem BLOCK_EmitProgramEnd_no_T (b : BLOCK) (key : BLOCK_KEY) (tid : Nat) (k : Bool) :
    ∀ l ∈ b.EmitProgramEnd key tid k, ∀ pairs, l ≠ Line.T pairs := by
  intro l hl pairs
  unfold BLOCK.EmitProgramEnd at hl
  by_cases h0 : b._globalBlockCount tid = 0
  · rw [if_pos h0] at hl
    cases hl
  · rw [if_neg h0, List.mem_singleton] at hl
    rw [hl]
    intro h
    cases h

theorem EmitProgramEnd_emitted (s : ISIMPOINT) (tid : Nat) (i : Int) :
    emittedCount i ((s.EmitProgramEnd tid).profiles tid).BbFile =
      emittedCount i (s.profiles tid).BbFile := by
  have key : ∀ x y z : Int, y = 0 → z = 0 → x + y + z = x := by
    intro x y z hy hz
    omega
  simp only [ISIMPOINT.EmitProgramEnd, upd_same, emittedCount_append]
  apply key
  · exact emittedCount_eq_zero i _ (by simp)
  · apply emittedCount_eq_zero
    intro l hl pairs
    split_ifs at hl
    · obtain ⟨id, -, hid⟩ := List.mem_flatMap.mp hl
      split at hid
      · exact BLOCK_EmitProgramEnd_no_T _ _ _ _ l hid pairs
      · cases hid
    · obtain ⟨bi, -, hbi⟩ := List.mem_flatMap.mp hl
      exact BLOCK_EmitProgramEnd_no_T _ _ _ _ l hbi pairs

/-- The closing part of `ThreadFini` leaves the blocks alone and writes no
slice body. -/
theorem finishThread_spec (s : ISIMPOINT) (tid : Nat) :
    (s.finishThread tid).blocks = s.blocks ∧
    (s.finishThread tid).block_map = s.block_map ∧
    ∀ i, emittedCount i ((s.finishThread tid).profiles tid).BbFile =
      emittedCount i (s.profiles tid).BbFile := by
  refine ⟨rfl, rfl, ?_⟩
  intro i
  simp only [ISIMPOINT.finishThread, upd_same, emittedCount_append]
  rw [EmitProgramEnd_emitted, emittedCount_eq_zero i [Line.EndOfBb] (by simp)]
  simp

theorem SliceInv_ThreadFini (s : ISIMPOINT) (tid : Nat) (tr : List Nat)
    (inv : SliceInv s tid tr) (hlast : s.KnobEmitLastSlice = true)
    (hfit : s.noOverflow tid [] = true) :
    ∃ s1, s.ThreadFini tid = some s1 ∧ s1.pointers = s.pointers ∧
      (∀ p, (s1.blocks p)._id = (s.blocks p)._id) ∧
      ∀ i : Int,
        emittedCount i (s1.profiles tid).BbFile =
          (s.pointers.map fun p =>
            if (s.blocks p)._id = i then
              (s.blocks p)._staticInstructionCount * (tr.count p : Int)
            else 0).sum := by
  have hdone : ∀ s2 : ISIMPOINT, SameConfig s s2 → SliceInv s2 tid tr →
      (∀ p, (s2.blocks p)._id = (s.blocks p)._id) →
      (s2.profiles tid).SliceTimer = (s2.profiles tid).CurrentSliceSize →
      (s2.finishThread tid).pointers = s.pointers ∧
      (∀ p, ((s2.finishThread tid).blocks p)._id = (s.blocks p)._id) ∧
      ∀ i : Int,
        emittedCount i ((s2.finishThread tid).profiles tid).BbFile =
          (s.pointers.map fun p =>
            if (s.blocks p)._id = i then
              (s.blocks p)._staticInstructionCount * (tr.count p : Int)
            else 0).sum := by
    intro s2 hcfg inv2 hid2 heq
    have hptr : s2.pointers = s.pointers := pointers_eq _ _ hcfg.block_map
    obtain ⟨hb, hm, he⟩ := finishThread_spec s2 tid
    refine ⟨(pointers_eq _ _ hm).trans hptr, fun p => by rw [hb]; exact hid2 p, ?_⟩
    intro i
    rw [he, inv2.account i, hptr]
    congr 1
    apply List.map_congr_left
    intro p hp
    rw [inv2.timerEq heq p (by rw [hptr]; exact hp), hid2, hcfg.static, sub_zero]
  rw [ThreadFini_eq]
  by_cases hne : (s.profiles tid).SliceTimer = (s.profiles tid).CurrentSliceSize
  · rw [if_neg (fun h => h.2 hne)]
    exact ⟨_, rfl, hdone s (SameConfig.refl s) inv (fun _ => rfl) hne⟩
  · rw [if_pos ⟨hlast, hne⟩]
    have hemit : (!(s.profiles tid).first || s.KnobEmitFirstSlice) = true := by
      simp [inv.emitFirst]
    have hprod : s.productsFit tid = true := by
      simp only [ISIMPOINT.noOverflow] at hfit
      rw [if_pos ⟨hlast, hne, inv.timerLt hne, hemit⟩] at hfit
      exact hfit
    cases hlb : (s.profiles tid).last_block with
    | none => exact absurd hlb (inv.timerLt hne)
    | some b =>
      obtain ⟨inv2, -⟩ := SliceInv_CountBlock_Then s b tid tr inv hprod
      refine ⟨_, rfl, hdone _ (CountBlock_Then_sameConfig s b tid) inv2
        (CountBlock_Then_id s b tid) ?_⟩
      have h := CountBlock_Then_fields s b tid
      exact h.1.trans h.2.1.symm

/-! ### The first slice boundary -/

theorem runThread_append (tid : Nat) (l1 l2 : List Nat) :
    ∀ s : ISIMPOINT, s.runThread tid (l1 ++ l2) =
      (s.runThread tid l1).bind fun s1 => s1.runThread tid l2 := by
  induction l1 with
  | nil => intro s; rfl
  | cons b rest ih =>
    intro s
    simp only [List.cons_append, ISIMPOINT.runThread]
    cases s.onBlockExecuted b tid with
    | none => rfl
    | some s1 => exact ih s1

theorem staticSum_congr (s s1 : ISIMPOINT) (h : SameConfig s s1) (tr : List Nat) :
    s1.staticSum tr = s.staticSum tr := by
  unfold ISIMPOINT.staticSum
  congr 1
  apply List.map_congr_left
  intro p _
  exact h.static p

theorem EmitSliceStartInfo_congr (s s1 : ISIMPOINT) (h : s1.img_manager = s.img_manager)
    (em : Nat) (mc : Int) (img : Nat) :
    s1.EmitSliceStartInfo em mc img = s.EmitSliceStartInfo em mc img := by
  simp [ISIMPOINT.EmitSliceStartInfo, h]

/-- C17: on a histogram of 31 buckets, `LDV::access` with a tracker that
answers bucket `d` returns a histogram in which the bucket `min d 30`,
which lies inside the table, is one higher and every other bucket is the
same; with a null tracker the assertion fails. -/
theorem C17_access_increments_clamped_bucket (l : LDV) (reference : Nat → Nat)
    (address : Nat) (hlen : l._counts.length = MAX_BINS + 1) :
    l.access none address = none ∧
    ∃ l1, l.access (some reference) address = some l1 ∧
      min (reference address) 30 < l._counts.length ∧
      l1._counts.length = MAX_BINS + 1 ∧
      l1._counts.getD (min (reference address) 30) 0 =
        l._counts.getD (min (reference address) 30) 0 + 1 ∧
      ∀ j, j ≠ min (reference address) 30 → l1._counts.getD j 0 = l._counts.getD j 0 := by
  refine ⟨rfl, _, rfl, ?_, ?_, ?_, ?_⟩
  · rw [hlen]
    simp only [MAX_BINS]
    omega
  · simp [hlen]
  · have hmin : (if reference address > MAX_BINS then MAX_BINS else reference address) =
        min (reference address) 30 := by
      simp only [MAX_BINS]
      split_ifs <;> omega
    simp only [hmin]
    have hlt : min (reference address) 30 < l._counts.length := by
      rw [hlen]
      simp only [MAX_BINS]
      omega
    simp [List.getD_eq_getElem?_getD, List.getElem?_set, hlt]
  · intro j hj
    have hmin : (if reference address > MAX_BINS then MAX_BINS else reference address) =
        min (reference address) 30 := by
      simp only [MAX_BINS]
      split_ifs <;> omega
    simp only [hmin]
    simp [List.getD_eq_getElem?_getD, List.getElem?_set, Ne.symm hj]

theorem C17_access_increments_clamped_bucket_witness :
    ∃ l1, LDV.new.access (some fun _ => 45) 4096 = some l1 ∧
      l1._counts.getD 30 0 = 1 :=
  have h := (C17_access_increments_clamped_bucket LDV.new (fun _ => 45) 4096 (by decide)).2
  h.elim fun l1 h1 => ⟨l1, h1.1, h1.2.2.2.1⟩

theorem emit_step_list (counts : List Nat) (n : Nat) (hn : n < counts.length) :
    (List.replicate n 0 ++ counts.drop n).getD n 0 = counts.getD n 0 ∧
    (List.replicate n 0 ++ counts.drop n).set n 0 =
      List.replicate (n + 1) 0 ++ counts.drop (n + 1) := by
  constructor
  · rw [List.getD_eq_getElem?_getD, List.getD_eq_getElem?_getD,
      List.getElem?_append_right (by simp)]
    simp
  · rw [List.set_append_right _ _ (by simp)]
    simp only [List.length_replicate, Nat.sub_self]
    rw [List.drop_eq_getElem_cons hn]
    simp only [List.set_cons_zero, List.replicate_succ', List.append_assoc,
      List.singleton_append]

/-- The loop of `LDV::emit` after its first `n` rounds. -/
theorem LDV_emit_range (l : LDV) (n : Nat) (hn : n ≤ l._counts.length) :
    (List.range n).foldl
      (fun (acc : List (Nat × Nat) × LDV) (bin : Nat) =>
        let value := acc.2._counts.getD bin 0
        (if value ≠ 0 then acc.1 ++ [(bin, value)] else acc.1,
          { _counts := acc.2._counts.set bin 0 }))
      ([], l) =
    (((List.range n).filter fun bin => l._counts.getD bin 0 ≠ 0).map
        fun bin => (bin, l._counts.getD bin 0),
      { _counts := List.replicate n 0 ++ l._counts.drop n }) := by
  induction n with
  | zero => simp
  | succ n ih =>
    rw [List.range_succ, List.foldl_append, ih (by omega)]
    obtain ⟨h1, h2⟩ := emit_step_list l._counts n (by omega)
    simp only [List.foldl_cons, List.foldl_nil, h1, h2, List.filter_append, List.map_append]
    by_cases h0 : l._counts.getD n 0 = 0
    · have h0c := h0
      rw [List.getD_eq_getElem?_getD] at h0c
      simp [h0c]
    · have h0c := h0
      rw [List.getD_eq_getElem?_getD] at h0c
      simp [h0c]

theorem LDV_emit_eq (l : LDV) (hlen : l._counts.length = MAX_BINS + 1) :
    l.emit =
      (((List.range (MAX_BINS + 1)).filter fun bin => l._counts.getD bin 0 ≠ 0).map
          fun bin => (bin, l._counts.getD bin 0),
        { _counts := List.replicate (MAX_BINS + 1) 0 }) := by
  unfold LDV.emit
  rw [LDV_emit_range l (MAX_BINS + 1) (by omega)]
  have hdrop : l._counts.drop (MAX_BINS + 1) = [] := by
    apply List.drop_eq_nil_of_le
    omega
  rw [hdrop, List.append_nil]

/-- C18: on a histogram of 31 buckets `LDV::emit` writes, in ascending
bucket order, the pair (bucket, count) of every bucket whose count is not
zero and nothing else, and leaves every bucket at zero; an emit that
follows an emit, or the construction, without an access in between writes
no pair. -/
theorem C18_emit_writes_nonzero_buckets_and_resets (l : LDV)
    (hlen : l._counts.length = MAX_BINS + 1) :
    l.emit.1 =
      ((List.range (MAX_BINS + 1)).filter fun bin => l._counts.getD bin 0 ≠ 0).map
        (fun bin => (bin, l._counts.getD bin 0)) ∧
    l.emit.2._counts = List.replicate (MAX_BINS + 1) 0 ∧
    (∀ bin, l.emit.2._counts.getD bin 0 = 0) ∧
    l.emit.2.emit.1 = [] ∧
    LDV.new.emit.1 = [] := by
  have hzero : ∀ l0 : LDV, l0._counts = List.replicate (MAX_BINS + 1) 0 → l0.emit.1 = [] := by
    intro l0 h0
    rw [LDV_emit_eq l0 (by simp [h0])]
    simp only [h0]
    decide
  rw [LDV_emit_eq l hlen]
  refine ⟨rfl, rfl, ?_, hzero _ rfl, hzero _ rfl⟩
  intro bin
  simp [List.getD_eq_getElem?_getD, List.getElem?_replicate]
  split_ifs <;> rfl

theorem C18_emit_writes_nonzero_buckets_and_resets_witness :
    (LDV.mk ((List.replicate 30 0).set 3 7 ++ [2])).emit.1 = [(3, 7), (30, 2)] :=
  (C18_emit_writes_nonzero_buckets_and_resets (LDV.mk ((List.replicate 30 0).set 3 7 ++ [2]))
    (by decide)).1.trans (by decide)

/-! ### The address forwarded to the histogram -/

theorem ADDRINT_of_Int_mask : ADDRINT_of_Int ADDRESS64_MASK = 2 ^ 64 - 64 := by decide

theorem land_mask (a : Nat) (ha : a < 2 ^ 64) : a &&& (2 ^ 64 - 64) = a - a % 64 := by
  apply Nat.eq_of_testBit_eq
  intro i
  have h1 : (2 : Nat) ^ 64 - 64 = 2 ^ 6 * (2 ^ 58 - 1) := by norm_num
  have h2 : a - a % 64 = 2 ^ 6 * (a >>> 6) := by
    rw [Nat.shiftRight_eq_div_pow]
    have := Nat.div_add_mod a 64
    norm_num
    omega
  rw [Nat.testBit_land, h1, h2, Nat.testBit_mul_pow_two, Nat.testBit_mul_pow_two,
    Nat.testBit_two_pow_sub_one, Nat.testBit_shiftRight]
  by_cases h6 : 6 ≤ i
  · have hi : 6 + (i - 6) = i := by omega
    simp only [ge_iff_le, h6, decide_True, Bool.true_and, hi]
    by_cases h58 : i - 6 < 58
    · simp [h58]
    · have hlt : a < 2 ^ i :=
        lt_of_lt_of_le ha (Nat.pow_le_pow_right (by norm_num) (by omega))
      simp [h58, Nat.testBit_lt_two_pow hlt]
  · simp [h6]

/-- C19: `PROFILE::ExecuteMemory` hands the histogram the address minus its
remainder modulo 64, computed over the whole address word; two addresses of
the same 64-byte line give the same value, addresses of different lines
give different values, and masking a masked address changes nothing. -/
theorem C19_ExecuteMemory_forwards_line_address (p : PROFILE) (_rd : Option (Nat → Nat))
    (a b : Nat) (ha : a < ADDRINT_MOD) (hb : b < ADDRINT_MOD) :
    p.ExecuteMemory _rd a =
      (p._ldvState.access _rd (a - a % 64)).map (fun l => { p with _ldvState := l }) ∧
    a &&& ADDRINT_of_Int ADDRESS64_MASK = a - a % 64 ∧
    (a / 64 = b / 64 →
      a &&& ADDRINT_of_Int ADDRESS64_MASK = b &&& ADDRINT_of_Int ADDRESS64_MASK) ∧
    (a / 64 ≠ b / 64 →
      a &&& ADDRINT_of_Int ADDRESS64_MASK ≠ b &&& ADDRINT_of_Int ADDRESS64_MASK) ∧
    (a &&& ADDRINT_of_Int ADDRESS64_MASK) &&& ADDRINT_of_Int ADDRESS64_MASK =
      a &&& ADDRINT_of_Int ADDRESS64_MASK := by
  have hma : a &&& ADDRINT_of_Int ADDRESS64_MASK = a - a % 64 := by
    rw [ADDRINT_of_Int_mask]
    exact land_mask a ha
  have hmb : b &&& ADDRINT_of_Int ADDRESS64_MASK = b - b % 64 := by
    rw [ADDRINT_of_Int_mask]
    exact land_mask b hb
  have hmm : (a - a % 64) &&& ADDRINT_of_Int ADDRESS64_MASK = a - a % 64 := by
    rw [ADDRINT_of_Int_mask, land_mask _ (by unfold ADDRINT_MOD at ha; omega)]
    omega
  refine ⟨?_, hma, ?_, ?_, ?_⟩
  · unfold PROFILE.ExecuteMemory
    rw [hma]
  · intro h
    rw [hma, hmb]
    omega
  · intro h
    rw [hma, hmb]
    omega
  · rw [hma, hmm]

theorem C19_ExecuteMemory_forwards_line_address_witness :
    (4100 : Nat) &&& ADDRINT_of_Int ADDRESS64_MASK = 4096 ∧
    (18446744073709551615 : Nat) &&& ADDRINT_of_Int ADDRESS64_MASK =
      18446744073709551552 :=
  ⟨(C19_ExecuteMemory_forwards_line_address (PROFILE.new 60) none 4100 4100
      (by decide) (by decide)).2.1,
    (C19_ExecuteMemory_forwards_line_address (PROFILE.new 60) none 18446744073709551615 0
      (by decide) (by decide)).2.1⟩

/-! ### The records of one slice boundary -/

/-- The records `EmitSliceEnd` appends, whether or not it writes a body. -/
theorem EmitSliceEnd_BbFile_general (s : ISIMPOINT) (em img tid : Nat) :
    ((s.EmitSliceEnd em img tid).profiles tid).BbFile =
      (s.profiles tid).BbFile ++ s.preamble tid img ++
        [Line.SliceEnding (s.profiles tid).GlobalInstructionCount] ++
        (if (!(s.profiles tid).first || s.KnobEmitFirstSlice) = true then
          [Line.T (s.loopBody em tid)]
        else []) ++
        s.closingMarker em (s.markerCount em tid) img tid := by
  simp only [ISIMPOINT.EmitSliceEnd, upd_same, ISIMPOINT.markerCount, ISIMPOINT.loopBody,
    ISIMPOINT.preamble, ISIMPOINT.closingMarker]

/-- The records `CountBlock_Then` appends. -/
theorem CountBlock_Then_BbFile_general (s : ISIMPOINT) (block tid : Nat) :
    ((s.CountBlock_Then block tid).profiles tid).BbFile =
      (s.profiles tid).BbFile ++ s.preamble tid (s.blocks block)._imgId ++
        [Line.SliceEnding ((s.profiles tid).GlobalInstructionCount +
          ((s.profiles tid).CurrentSliceSize - (s.profiles tid).SliceTimer))] ++
        (if (!(s.profiles tid).first || s.KnobEmitFirstSlice) = true then
          [Line.T ((s.withNextBudget tid).loopBody (s.blocks block)._key._end tid)]
        else []) ++
        s.closingMarker (s.blocks block)._key._end
          ((s.withNextBudget tid).markerCount (s.blocks block)._key._end tid)
          (s.blocks block)._imgId tid := by
  have hp := withNextBudget_profile s tid
  rw [CountBlock_Then_eq, EmitSliceEnd_BbFile_general]
  simp only [ISIMPOINT.preamble, ISIMPOINT.closingMarker, hp.1, hp.2.1, hp.2.2.1, hp.2.2.2.1,
    hp.2.2.2.2]
  rfl

theorem EmitSliceStartInfo_isT (s : ISIMPOINT) (em : Nat) (mc : Int) (img : Nat) :
    (s.EmitSliceStartInfo em mc img).isT = false := by
  unfold ISIMPOINT.EmitSliceStartInfo
  split_ifs <;> rfl

theorem EmitSliceStartInfo_isSliceEnding (s : ISIMPOINT) (em : Nat) (mc : Int) (img : Nat) :
    (s.EmitSliceStartInfo em mc img).isSliceEnding = false := by
  unfold ISIMPOINT.EmitSliceStartInfo
  split_ifs <;> rfl

theorem EmitSliceStartInfo_isPreamble (s : ISIMPOINT) (em : Nat) (mc : Int) (img : Nat) :
    (s.EmitSliceStartInfo em mc img).isPreamble = false := by
  unfold ISIMPOINT.EmitSliceStartInfo
  split_ifs <;> rfl

theorem EmitSliceStartInfo_isI0 (s : ISIMPOINT) (em : Nat) (mc : Int) (img : Nat) :
    (s.EmitSliceStartInfo em mc img).isI0 = false := by
  unfold ISIMPOINT.EmitSliceStartInfo
  split_ifs <;> rfl

theorem EmitSliceStartInfo_markerAddress (s : ISIMPOINT) (em : Nat) (mc : Int) (img : Nat) :
    (s.EmitSliceStartInfo em mc img).markerAddress = some em := by
  unfold ISIMPOINT.EmitSliceStartInfo
  split_ifs <;> rfl

theorem EmitSliceStartInfo_sliceEndings (s : ISIMPOINT) (em : Nat) (mc : Int) (img : Nat)
    (rest : List Line) :
    sliceEndings (s.EmitSliceStartInfo em mc img :: rest) = sliceEndings rest := by
  unfold ISIMPOINT.EmitSliceStartInfo
  split_ifs <;> rfl

/-- The kinds of records a list of lines holds none of. -/
theorem plainLines_counts (extra : List Line)
    (h : ∀ l ∈ extra, l.isT = false ∧ l.isSliceEnding = false ∧ l.isPreamble = false ∧
      l.isI0 = false ∧ l.markerAddress = none) :
    extra.countP Line.isT = 0 ∧ extra.countP Line.isSliceEnding = 0 ∧
    extra.countP Line.isPreamble = 0 ∧ extra.countP Line.isI0 = 0 ∧
    markerAddresses extra = [] ∧ sliceEndings extra = [] := by
  induction extra with
  | nil => exact ⟨rfl, rfl, rfl, rfl, rfl, rfl⟩
  | cons l rest ih =>
    obtain ⟨h1, h2, h3, h4, h5⟩ := h l (List.mem_cons_self _ _)
    obtain ⟨i1, i2, i3, i4, i5, i6⟩ := ih fun x hx => h x (List.mem_cons_of_mem _ hx)
    refine ⟨?_, ?_, ?_, ?_, ?_, ?_⟩
    · simp [List.countP_cons, h1, i1]
    · simp [List.countP_cons, h2, i2]
    · simp [List.countP_cons, h3, i3]
    · simp [List.countP_cons, h4, i4]
    · unfold markerAddresses at i5 ⊢
      simp [List.filterMap_cons, h5, i5]
    · cases l <;> simp_all [sliceEndings, Line.isSliceEnding]

theorem sliceEndings_append (a b : List Line) :
    sliceEndings (a ++ b) = sliceEndings a ++ sliceEndings b := by
  induction a with
  | nil => rfl
  | cons l rest ih => cases l <;> simp [sliceEndings, ih]

theorem markerAddresses_append (a b : List Line) :
    markerAddresses (a ++ b) = markerAddresses a ++ markerAddresses b := by
  simp [markerAddresses]

theorem BLOCK_EmitProgramEnd_plain (b : BLOCK) (key : BLOCK_KEY) (tid : Nat) (k : Bool) :
    ∀ l ∈ b.EmitProgramEnd key tid k, l.isT = false ∧ l.isSliceEnding = false ∧
      l.isPreamble = false ∧ l.isI0 = false ∧ l.markerAddress = none := by
  intro l hl
  unfold BLOCK.EmitProgramEnd at hl
  by_cases h0 : b._globalBlockCount tid = 0
  · rw [if_pos h0] at hl
    cases hl
  · rw [if_neg h0, List.mem_singleton] at hl
    rw [hl]
    exact ⟨rfl, rfl, rfl, rfl, rfl⟩

/-- The closing part of `ThreadFini` appends only summary records. -/
theorem finishThread_BbFile (s : ISIMPOINT) (tid : Nat) :
    ∃ extra, ((s.finishThread tid).profiles tid).BbFile = (s.profiles tid).BbFile ++ extra ∧
      ∀ l ∈ extra, l.isT = false ∧ l.isSliceEnding = false ∧ l.isPreamble = false ∧
        l.isI0 = false ∧ l.markerAddress = none := by
  simp only [ISIMPOINT.finishThread, ISIMPOINT.EmitProgramEnd, upd_same, List.append_assoc]
  refine ⟨_, rfl, ?_⟩
  intro l hl
  simp only [List.mem_append, List.mem_cons, List.mem_singleton, List.not_mem_nil,
    or_false] at hl
  rcases hl with (h | h) | h | h
  · rw [h]
    exact ⟨rfl, rfl, rfl, rfl, rfl⟩
  · rw [h]
    exact ⟨rfl, rfl, rfl, rfl, rfl⟩
  · split_ifs at h
    · obtain ⟨id, -, hid⟩ := List.mem_flatMap.mp h
      split at hid
      · exact BLOCK_EmitProgramEnd_plain _ _ _ _ l hid
      · cases hid
    · obtain ⟨bi, -, hbi⟩ := List.mem_flatMap.mp h
      exact BLOCK_EmitProgramEnd_plain _ _ _ _ l hbi
  · rw [h]
    exact ⟨rfl, rfl, rfl, rfl, rfl⟩

theorem finishThread_first (s : ISIMPOINT) (tid : Nat) :
    ((s.finishThread tid).profiles tid).first = (s.profiles tid).first := by
  simp [ISIMPOINT.finishThread, ISIMPOINT.EmitProgramEnd]

/-- What the records of one boundary add to the counts read off the stream. -/
theorem CountBlock_Then_counts (s : ISIMPOINT) (block tid : Nat) :
    ((s.CountBlock_Then block tid).profiles tid).BbFile.countP Line.isT =
      (s.profiles tid).BbFile.countP Line.isT +
        (if (!(s.profiles tid).first || s.KnobEmitFirstSlice) = true then 1 else 0) ∧
    ((s.CountBlock_Then block tid).profiles tid).BbFile.countP Line.isSliceEnding =
      (s.profiles tid).BbFile.countP Line.isSliceEnding + 1 ∧
    ((s.CountBlock_Then block tid).profiles tid).BbFile.countP Line.isI0 =
      (s.profiles tid).BbFile.countP Line.isI0 +
        (if (s.profiles tid).first = true then 1 else 0) ∧
    ((s.CountBlock_Then block tid).profiles tid).BbFile.countP Line.isPreamble =
      (s.profiles tid).BbFile.countP Line.isPreamble +
        (if (s.profiles tid).first = true then 3 else 0) ∧
    sliceEndings ((s.CountBlock_Then block tid).profiles tid).BbFile =
      sliceEndings (s.profiles tid).BbFile ++
        [(s.profiles tid).GlobalInstructionCount +
          ((s.profiles tid).CurrentSliceSize - (s.profiles tid).SliceTimer)] ∧
    markerAddresses ((s.CountBlock_Then block tid).profiles tid).BbFile =
      markerAddresses (s.profiles tid).BbFile ++
        (if (s.profiles tid).first = true then [(s.profiles tid).first_eip] else []) ++
        (if (s.profiles tid).active = true then [(s.blocks block)._key._end] else []) := by
  rw [CountBlock_Then_BbFile_general]
  simp only [List.countP_append, sliceEndings_append, markerAddresses_append,
    ISIMPOINT.preamble, ISIMPOINT.closingMarker]
  refine ⟨?_, ?_, ?_, ?_, ?_, ?_⟩
  · split_ifs <;>
      simp only [List.countP_cons, List.countP_nil, EmitSliceStartInfo_isT] <;> simp [Line.isT]
  · split_ifs <;>
      simp only [List.countP_cons, List.countP_nil, EmitSliceStartInfo_isSliceEnding] <;>
      simp [Line.isSliceEnding]
  · split_ifs <;>
      simp only [List.countP_cons, List.countP_nil, EmitSliceStartInfo_isI0] <;>
      simp [Line.isI0]
  · split_ifs <;>
      simp only [List.countP_cons, List.countP_nil, EmitSliceStartInfo_isPreamble] <;>
      simp [Line.isPreamble]
  · split_ifs <;>
      simp only [sliceEndings, EmitSliceStartInfo_sliceEndings, List.append_nil,
        List.append_assoc, List.nil_append]
  · unfold markerAddresses
    split_ifs <;>
      simp only [List.filterMap_cons, List.filterMap_nil, EmitSliceStartInfo_markerAddress] <;>
      simp [Line.markerAddress]

/-! ### Thread end with a partial slice -/

/-- C11 fails as stated: with the first slice not emitted, thread 0 of the
example engine has executed one block of 40 instructions (counter 20,
budget 60) when it ends with emit-last enabled; the forced slice writes the
preamble, the comment and the marker at the end address 1039 of the last
block, and no slice body. -/
theorem C11_forced_slice_without_body :
    (exampleNoFirstPartial.profiles 0).SliceTimer ≠
      (exampleNoFirstPartial.profiles 0).CurrentSliceSize ∧
    exampleNoFirstPartial.KnobEmitLastSlice = true ∧
    (exampleNoFirstPartial.profiles 0).last_block = some 0 ∧
    ((exampleNoFirstPartial.ThreadFini 0).map fun s => (s.profiles 0).BbFile) =
      some [Line.I0, Line.P 0, Line.C "", Line.M_no_image 0 1, Line.SliceEnding 40,
        Line.M_no_image 1039 1, Line.DynamicInstructionCount 40, Line.SliceSize 60,
        Line.EndOfBb] ∧
    ((exampleNoFirstPartial.ThreadFini 0).map fun s =>
      (s.profiles 0).BbFile.countP Line.isT) = some 0 := by
  decide

/-- C11 (amended): at thread end with a pending partial slice (counter
different from the budget) and a last executed block, `ThreadFini` returns;
with emit-last enabled it writes exactly one more slice-end comment, the
closing marker of an active thread at the end address of the last executed
block, and exactly one more slice body unless the thread has not emitted
before and the first slice is not emitted, in which case it writes no body;
with emit-last disabled it writes no slice-end comment, no body and no
marker. -/
theorem C11_forced_last_slice (s : ISIMPOINT) (tid b : Nat)
    (hpending : (s.profiles tid).SliceTimer ≠ (s.profiles tid).CurrentSliceSize)
    (hlastb : (s.profiles tid).last_block = some b) :
    (s.KnobEmitLastSlice = true →
      ∃ s1, s.ThreadFini tid = some s1 ∧
        (s1.profiles tid).BbFile.countP Line.isSliceEnding =
          (s.profiles tid).BbFile.countP Line.isSliceEnding + 1 ∧
        (s1.profiles tid).BbFile.countP Line.isT =
          (s.profiles tid).BbFile.countP Line.isT +
            (if (!(s.profiles tid).first || s.KnobEmitFirstSlice) = true then 1 else 0) ∧
        markerAddresses (s1.profiles tid).BbFile =
          markerAddresses (s.profiles tid).BbFile ++
            (if (s.profiles tid).first = true then [(s.profiles tid).first_eip] else []) ++
            (if (s.profiles tid).active = true then [(s.blocks b)._key._end] else [])) ∧
    (s.KnobEmitLastSlice = false →
      ∃ s1, s.ThreadFini tid = some s1 ∧
        (s1.profiles tid).BbFile.countP Line.isSliceEnding =
          (s.profiles tid).BbFile.countP Line.isSliceEnding ∧
        (s1.profiles tid).BbFile.countP Line.isT =
          (s.profiles tid).BbFile.countP Line.isT ∧
        markerAddresses (s1.profiles tid).BbFile =
          markerAddresses (s.profiles tid).BbFile) := by
  have hfin : ∀ s2 : ISIMPOINT,
      ((s2.finishThread tid).profiles tid).BbFile.countP Line.isSliceEnding =
        (s2.profiles tid).BbFile.countP Line.isSliceEnding ∧
      ((s2.finishThread tid).profiles tid).BbFile.countP Line.isT =
        (s2.profiles tid).BbFile.countP Line.isT ∧
      markerAddresses ((s2.finishThread tid).profiles tid).BbFile =
        markerAddresses (s2.profiles tid).BbFile := by
    intro s2
    obtain ⟨extra, heq, hplain⟩ := finishThread_BbFile s2 tid
    obtain ⟨h1, h2, -, -, h5, -⟩ := plainLines_counts extra hplain
    rw [heq, List.countP_append, List.countP_append, markerAddresses_append, h1, h2, h5]
    simp
  rw [ThreadFini_eq]
  constructor
  · intro hl
    rw [if_pos ⟨hl, hpending⟩, hlastb]
    refine ⟨_, rfl, ?_, ?_, ?_⟩
    · rw [(hfin _).1, (CountBlock_Then_counts s b tid).2.1]
    · rw [(hfin _).2.1, (CountBlock_Then_counts s b tid).1]
    · rw [(hfin _).2.2, (CountBlock_Then_counts s b tid).2.2.2.2.2]
  · intro hl
    have hno : ¬ (s.KnobEmitLastSlice = true ∧
        (s.profiles tid).SliceTimer ≠ (s.profiles tid).CurrentSliceSize) := by
      rw [hl]
      exact fun h => absurd h.1 (by decide)
    rw [if_neg hno]
    exact ⟨_, rfl, (hfin s).1, (hfin s).2.1, (hfin s).2.2⟩

theorem C11_forced_last_slice_witness :
    ∃ s1, exampleAtBoundary.ThreadFini 0 = some s1 ∧
      (s1.profiles 0).BbFile.countP Line.isSliceEnding =
        (exampleAtBoundary.profiles 0).BbFile.countP Line.isSliceEnding + 1 ∧
      (s1.profiles 0).BbFile.countP Line.isT =
        (exampleAtBoundary.profiles 0).BbFile.countP Line.isT +
          (if (!(exampleAtBoundary.profiles 0).first ||
            exampleAtBoundary.KnobEmitFirstSlice) = true then 1 else 0) ∧
      markerAddresses (s1.profiles 0).BbFile =
        markerAddresses (exampleAtBoundary.profiles 0).BbFile ++
          (if (exampleAtBoundary.profiles 0).first = true then
            [(exampleAtBoundary.profiles 0).first_eip] else []) ++
          (if (exampleAtBoundary.profiles 0).active = true then
            [(exampleAtBoundary.blocks 1)._key._end] else []) :=
  (C11_forced_last_slice exampleAtBoundary 0 1 (by decide) (by decide)).1 (by decide)

/-! ### End markers -/

/-- C15 fails as stated: thread 0 of the example engine executes blocks 0,
1, 0, 0; the first boundary closes at the end address 2029 of block 1, the
second at the end address 1039 of block 0, which is lower. -/
theorem C15_end_markers_not_monotonic :
    ((exampleEngine.runThread 0 [0, 1, 0, 0]).map fun s => (s.profiles 0).BbFile) =
      some [Line.I0, Line.P 0, Line.C "", Line.M_no_image 0 1, Line.SliceEnding 70,
        Line.T [(1, 40), (2, 30)], Line.M_no_image 2029 1, Line.SliceEnding 150,
        Line.T [(1, 80)], Line.M_no_image 1039 3] ∧
    ¬ ((2029 : Nat) ≤ 1039) := by
  decide

/-- C15 (amended): at every slice boundary of an active thread the closing
marker is the last record written and its address is the end address of
the triggering block, so the end markers of successive boundaries follow
the blocks that triggered them, in execution order, whatever their
addresses. -/
theorem C15_end_marker_of_triggering_block (s : ISIMPOINT) (block tid : Nat)
    (hactive : (s.profiles tid).active = true) :
    (((s.CountBlock_Then block tid).profiles tid).BbFile.getLast?).bind Line.markerAddress =
      some (s.blocks block)._key._end ∧
    markerAddresses ((s.CountBlock_Then block tid).profiles tid).BbFile =
      markerAddresses (s.profiles tid).BbFile ++
        (if (s.profiles tid).first = true then [(s.profiles tid).first_eip] else []) ++
        [(s.blocks block)._key._end] := by
  constructor
  · rw [CountBlock_Then_BbFile_general]
    simp only [ISIMPOINT.closingMarker, hactive, if_true, List.getLast?_append,
      List.getLast?_singleton]
    split_ifs <;> first | rfl | exact EmitSliceStartInfo_markerAddress s _ _ _
  · rw [(CountBlock_Then_counts s block tid).2.2.2.2.2, hactive, if_pos rfl]

theorem C15_end_marker_of_triggering_block_witness :
    (((exampleAtBoundary.CountBlock_Then 1 0).profiles 0).BbFile.getLast?).bind
      Line.markerAddress = some (exampleAtBoundary.blocks 1)._key._end :=
  (C15_end_marker_of_triggering_block exampleAtBoundary 1 0 (by decide)).1

/-! ### The cumulative counts at successive boundaries -/

theorem CountInv_countIf (s : ISIMPOINT) (b tid : Nat) (inv : CountInv s tid)
    (hok : s.KnobEmitPrevBlockCounts = true → tid < s.PIN_MAX_THREADS)
    (hb : 0 ≤ (s.blocks b)._staticInstructionCount) :
    ∃ s1, s.countIf b tid =
        some (s1, decide ((s.profiles tid).SliceTimer -
          (s.blocks b)._staticInstructionCount < 0)) ∧
      SameConfig s s1 ∧ CountInv s1 tid ∧
      (s1.profiles tid).SliceTimer =
        (s.profiles tid).SliceTimer - (s.blocks b)._staticInstructionCount := by
  obtain ⟨s1, heq, hcfg, -, -, -, -, hprof, -, -⟩ := countIf_spec s b tid hok
  refine ⟨s1, heq, hcfg, ?_, by rw [hprof]⟩
  constructor
  · rw [hprof]
    have := inv.timerLe
    simp only
    omega
  · rw [hprof]
    exact inv.budgetNonneg
  · rw [hcfg.sliceSize]
    exact inv.knobNonneg
  · rw [hprof]
    exact inv.queueNonneg
  · intro _
    rw [hprof]
    exact Option.some_ne_none b
  · rw [hprof]
    exact inv.increasing
  · rw [hprof]
    exact inv.bounded

theorem CountInv_CountBlock_Then (s : ISIMPOINT) (b tid : Nat) (inv : CountInv s tid)
    (hlt : (s.profiles tid).SliceTimer < (s.profiles tid).CurrentSliceSize) :
    CountInv (s.CountBlock_Then b tid) tid := by
  have hf := CountBlock_Then_fields s b tid
  have hc := (CountBlock_Then_counts s b tid).2.2.2.2.1
  have hbudget : 0 ≤ (match (s.profiles tid).length_queue with
      | front :: _ => INT64_of_UINT64 front
      | [] => s.KnobSliceSize) := by
    cases hq : (s.profiles tid).length_queue with
    | nil => exact inv.knobNonneg
    | cons front rest =>
      have hfr := inv.queueNonneg front (by rw [hq]; exact List.mem_cons_self _ _)
      simp only
      rw [INT64_of_UINT64_of_small front hfr]
      exact Int.natCast_nonneg front
  constructor
  · rw [hf.1, hf.2.1]
  · rw [hf.2.1]
    exact hbudget
  · rw [(CountBlock_Then_sameConfig s b tid).sliceSize]
    exact inv.knobNonneg
  · intro q hq
    rw [hf.2.2.2.1] at hq
    exact inv.queueNonneg q (List.mem_of_mem_tail hq)
  · intro h
    exact absurd (hf.1.trans hf.2.1.symm) h
  · rw [hc, List.pairwise_append]
    refine ⟨inv.increasing, List.pairwise_singleton _ _, ?_⟩
    intro v hv w hw
    rw [List.mem_singleton] at hw
    have := inv.bounded v hv
    omega
  · intro v hv
    rw [hc, List.mem_append, List.mem_singleton] at hv
    rw [hf.2.2.1]
    rcases hv with h | h
    · have := inv.bounded v h
      omega
    · omega

theorem CountInv_runThread (tid : Nat) (trace : List Nat) :
    ∀ s : ISIMPOINT, CountInv s tid →
      (s.KnobEmitPrevBlockCounts = true → tid < s.PIN_MAX_THREADS) →
      (∀ b ∈ trace, 0 ≤ (s.blocks b)._staticInstructionCount) →
      ∃ s1, s.runThread tid trace = some s1 ∧ SameConfig s s1 ∧ CountInv s1 tid := by
  induction trace with
  | nil =>
    intro s inv _ _
    exact ⟨s, rfl, SameConfig.refl s, inv⟩
  | cons b rest ih =>
    intro s inv hok hstatic
    obtain ⟨s1, heq, hcfg, inv1, ht⟩ := CountInv_countIf s b tid inv hok
      (hstatic b (List.mem_cons_self _ _))
    have hnext : ∃ s2, s.onBlockExecuted b tid = some s2 ∧ SameConfig s s2 ∧
        CountInv s2 tid := by
      unfold ISIMPOINT.onBlockExecuted
      rw [heq]
      simp only [Option.map_some']
      split_ifs with hfire
      · refine ⟨_, rfl, SameConfig.trans hcfg (CountBlock_Then_sameConfig s1 b tid), ?_⟩
        apply CountInv_CountBlock_Then s1 b tid inv1
        have hneg : (s1.profiles tid).SliceTimer < 0 := by
          rw [ht]
          simpa using hfire
        have := inv1.budgetNonneg
        omega
      · exact ⟨_, rfl, hcfg, inv1⟩
    obtain ⟨s2, hstep, hcfg2, inv2⟩ := hnext
    obtain ⟨s3, hrun, hcfg3, inv3⟩ := ih s2 inv2
      (by rw [hcfg2.prevCounts, hcfg2.maxThreads]; exact hok)
      (fun x hx => by rw [hcfg2.static]; exact hstatic x (List.mem_cons_of_mem _ hx))
    refine ⟨s3, ?_, SameConfig.trans hcfg2 hcfg3, inv3⟩
    simp only [ISIMPOINT.runThread, hstep, Option.some_bind]
    exact hrun

/-- C14: a thread starts with its counter equal to a non-negative budget
and no slice-end comment written; the fixed slice size and the queued
lengths are non-negative and the blocks it executes have non-negative
static counts.  Then the run returns, with or without thread end, and the
cumulative counts of the `# Slice ending at` comments in its stream, the
forced final one included, are strictly increasing. -/
theorem C14_cumulative_counts_strictly_increase (s : ISIMPOINT) (tid : Nat)
    (trace : List Nat)
    (hok : s.KnobEmitPrevBlockCounts = true → tid < s.PIN_MAX_THREADS)
    (htimer : (s.profiles tid).SliceTimer = (s.profiles tid).CurrentSliceSize)
    (hbudget : 0 ≤ (s.profiles tid).CurrentSliceSize)
    (hknob : 0 ≤ s.KnobSliceSize)
    (hqueue : ∀ q ∈ (s.profiles tid).length_queue, q < 2 ^ 63)
    (hstatic : ∀ b ∈ trace, 0 ≤ (s.blocks b)._staticInstructionCount)
    (hnone : sliceEndings (s.profiles tid).BbFile = []) :
    (∃ s1, s.runThread tid trace = some s1 ∧
      (sliceEndings (s1.profiles tid).BbFile).Pairwise fun a b => a < b) ∧
    (∃ s2, s.runThreadToEnd tid trace = some s2 ∧
      (sliceEndings (s2.profiles tid).BbFile).Pairwise fun a b => a < b) := by
  have inv0 : CountInv s tid := by
    constructor
    · rw [htimer]
    · exact hbudget
    · exact hknob
    · exact hqueue
    · exact fun h => absurd htimer h
    · rw [hnone]
      exact List.Pairwise.nil
    · rw [hnone]
      intro v hv
      cases hv
  obtain ⟨s1, hrun, -, inv1⟩ := CountInv_runThread tid trace s inv0 hok hstatic
  refine ⟨⟨s1, hrun, inv1.increasing⟩, ?_⟩
  have hfin : ∀ s2 : ISIMPOINT, CountInv s2 tid →
      (sliceEndings ((s2.finishThread tid).profiles tid).BbFile).Pairwise
        fun a b => a < b := by
    intro s2 inv2
    obtain ⟨extra, heq, hplain⟩ := finishThread_BbFile s2 tid
    rw [heq, sliceEndings_append, (plainLines_counts extra hplain).2.2.2.2.2,
      List.append_nil]
    exact inv2.increasing
  simp only [ISIMPOINT.runThreadToEnd, hrun, Option.some_bind]
  rw [ThreadFini_eq]
  by_cases hlast : s1.KnobEmitLastSlice = true ∧
      (s1.profiles tid).SliceTimer ≠ (s1.profiles tid).CurrentSliceSize
  · rw [if_pos hlast]
    cases hlb : (s1.profiles tid).last_block with
    | none => exact absurd hlb (inv1.lastBlock hlast.2)
    | some b =>
      refine ⟨_, rfl, hfin _ (CountInv_CountBlock_Then s1 b tid inv1 ?_)⟩
      have := inv1.timerLe
      have := hlast.2
      omega
  · rw [if_neg hlast]
    exact ⟨_, rfl, hfin s1 inv1⟩

theorem C14_cumulative_counts_strictly_increase_witness :
    ∃ s2, exampleEngine.runThreadToEnd 0 [0, 1, 0, 0, 2] = some s2 ∧
      (sliceEndings (s2.profiles 0).BbFile).Pairwise fun a b => a < b :=
  (C14_cumulative_counts_strictly_increase exampleEngine 0 [0, 1, 0, 0, 2] (by decide)
    (by decide) (by decide) (by decide) (by decide) (by decide) (by decide)).2

/-! ### The preamble -/

theorem preamblesDue_congr (s s1 : ISIMPOINT) (tid : Nat)
    (hb : (s1.profiles tid).BbFile = (s.profiles tid).BbFile)
    (hf : (s1.profiles tid).first = (s.profiles tid).first) :
    s1.preamblesDue tid = s.preamblesDue tid := by
  unfold ISIMPOINT.preamblesDue
  rw [hb, hf]

theorem CountBlock_Then_preamblesDue (s : ISIMPOINT) (block tid : Nat) :
    (s.CountBlock_Then block tid).preamblesDue tid = s.preamblesDue tid ∧
    ((s.CountBlock_Then block tid).profiles tid).first = false := by
  have hfirst : ((s.CountBlock_Then block tid).profiles tid).first = false := by
    rw [CountBlock_Then_eq]
    exact (EmitSliceEnd_profile_fields _ _ _ _).2.2.2.2.2.2
  refine ⟨?_, hfirst⟩
  unfold ISIMPOINT.preamblesDue
  rw [(CountBlock_Then_counts s block tid).2.2.1, hfirst]
  simp

theorem preamblesDue_runThread (tid : Nat) (trace : List Nat) :
    ∀ s : ISIMPOINT, (s.KnobEmitPrevBlockCounts = true → tid < s.PIN_MAX_THREADS) →
      ∃ s1, s.runThread tid trace = some s1 ∧ s1.preamblesDue tid = s.preamblesDue tid ∧
        ((s1.profiles tid).first = true → (s.profiles tid).first = true) := by
  induction trace with
  | nil =>
    intro s _
    exact ⟨s, rfl, rfl, fun h => h⟩
  | cons b rest ih =>
    intro s hok
    obtain ⟨s1, heq, hcfg, -, -, -, -, hprof, -, -⟩ := countIf_spec s b tid hok
    have hd1 : s1.preamblesDue tid = s.preamblesDue tid :=
      preamblesDue_congr s s1 tid (by rw [hprof]) (by rw [hprof])
    have hf1 : (s1.profiles tid).first = (s.profiles tid).first := by rw [hprof]
    have hnext : ∃ s2, s.onBlockExecuted b tid = some s2 ∧ SameConfig s s2 ∧
        s2.preamblesDue tid = s.preamblesDue tid ∧
        ((s2.profiles tid).first = true → (s.profiles tid).first = true) := by
      unfold ISIMPOINT.onBlockExecuted
      rw [heq]
      simp only [Option.map_some']
      split_ifs with hfire
      · refine ⟨_, rfl, SameConfig.trans hcfg (CountBlock_Then_sameConfig s1 b tid),
          (CountBlock_Then_preamblesDue s1 b tid).1.trans hd1, ?_⟩
        intro h
        rw [(CountBlock_Then_preamblesDue s1 b tid).2] at h
        cases h
      · exact ⟨_, rfl, hcfg, hd1, fun h => hf1 ▸ h⟩
    obtain ⟨s2, hstep, hcfg2, hd2, hf2⟩ := hnext
    obtain ⟨s3, hrun, hd3, hf3⟩ := ih s2
      (by rw [hcfg2.prevCounts, hcfg2.maxThreads]; exact hok)
    refine ⟨s3, ?_, hd3.trans hd2, fun h => hf2 (hf3 h)⟩
    simp only [ISIMPOINT.runThread, hstep, Option.some_bind]
    exact hrun

/-- C16: `EmitSliceEnd` writes the preamble (the records `I:`, `P:`, `C:`
and the initial marker) exactly when the `first` flag of the thread is set,
and clears the flag.  Over any run of block executions, and over thread
end, the number of `I:` records written plus one for a flag still set
stays the same and a cleared flag is never set again: a thread that starts
with the flag set and no preamble has written exactly one preamble once the
flag is cleared and none before. -/
theorem C16_preamble_written_once (s : ISIMPOINT) (tid : Nat)
    (hok : s.KnobEmitPrevBlockCounts = true → tid < s.PIN_MAX_THREADS) :
    (∀ em img,
      ((s.EmitSliceEnd em img tid).profiles tid).first = false ∧
      ∃ rest, ((s.EmitSliceEnd em img tid).profiles tid).BbFile =
          (s.profiles tid).BbFile ++
            (if (s.profiles tid).first = true then
              [Line.I0, Line.P tid, Line.C s.commandLine,
                s.EmitSliceStartInfo (s.profiles tid).first_eip 1 img]
            else []) ++ rest ∧
        rest.countP Line.isPreamble = 0) ∧
    (∀ trace, ∃ s1, s.runThread tid trace = some s1 ∧
      s1.preamblesDue tid = s.preamblesDue tid ∧
      ((s1.profiles tid).first = true → (s.profiles tid).first = true)) ∧
    (∀ s1, s.ThreadFini tid = some s1 →
      s1.preamblesDue tid = s.preamblesDue tid ∧
      ((s1.profiles tid).first = true → (s.profiles tid).first = true)) := by
  refine ⟨?_, fun trace => preamblesDue_runThread tid trace s hok, ?_⟩
  · intro em img
    refine ⟨(EmitSliceEnd_profile_fields s em img tid).2.2.2.2.2.2, ?_⟩
    rw [EmitSliceEnd_BbFile_general]
    refine ⟨[Line.SliceEnding (s.profiles tid).GlobalInstructionCount] ++
      (if (!(s.profiles tid).first || s.KnobEmitFirstSlice) = true then
        [Line.T (s.loopBody em tid)] else []) ++
      s.closingMarker em (s.markerCount em tid) img tid, ?_, ?_⟩
    · simp only [ISIMPOINT.preamble, List.append_assoc]
    · simp only [List.countP_append, ISIMPOINT.closingMarker]
      split_ifs <;>
        simp only [List.countP_cons, List.countP_nil, EmitSliceStartInfo_isPreamble] <;>
        simp [Line.isPreamble]
  · intro s1 hfini
    rw [ThreadFini_eq] at hfini
    have hfin : ∀ s2 : ISIMPOINT, (s2.finishThread tid).preamblesDue tid =
        s2.preamblesDue tid := by
      intro s2
      obtain ⟨extra, heq, hplain⟩ := finishThread_BbFile s2 tid
      unfold ISIMPOINT.preamblesDue
      rw [heq, List.countP_append, (plainLines_counts extra hplain).2.2.2.1,
        finishThread_first]
      simp
    split_ifs at hfini with hc
    · cases hlb : (s.profiles tid).last_block with
      | none =>
        rw [hlb] at hfini
        cases hfini
      | some b =>
        rw [hlb] at hfini
        simp only [Option.map_some', Option.some.injEq] at hfini
        subst hfini
        refine ⟨(hfin _).trans (CountBlock_Then_preamblesDue s b tid).1, ?_⟩
        intro h
        rw [finishThread_first, (CountBlock_Then_preamblesDue s b tid).2] at h
        cases h
    · simp only [Option.map_some', Option.some.injEq] at hfini
      subst hfini
      exact ⟨hfin s, fun h => by rw [finishThread_first] at h; exact h⟩

theorem C16_preamble_written_once_witness :
    ∃ s1, exampleEngine.runThread 0 [0, 1, 0, 0] = some s1 ∧
      s1.preamblesDue 0 = exampleEngine.preamblesDue 0 ∧
      ((s1.profiles 0).first = true → (exampleEngine.profiles 0).first = true) :=
  (C16_preamble_written_once exampleEngine 0 (by decide)).2.1 [0, 1, 0, 0]

/-! ### The program-end summary -/

theorem flatMap_if_singleton {α β : Type} (l : List α) (c : α → Prop) [DecidablePred c]
    (f : α → β) :
    (l.flatMap fun x => if c x then [] else [f x]) =
      (l.filter fun x => decide (¬ c x)).map f := by
  induction l with
  | nil => rfl
  | cons a rest ih =>
    rw [List.flatMap_cons, ih]
    by_cases h : c a
    · simp [h]
    · simp [h]

/-- C20: without previous-block tracking the summary written by
`EmitProgramEnd` for thread `tid` holds, after its two header records, one
record for every map entry whose block has a nonzero cumulative count for
`tid`, in map order, and none for the other entries.  With tracking the
summary walks the ids below the thread's own next id: after thread 0 has
executed blocks 0 and 1 and thread 1 has executed the same two blocks, both
with one boundary, the blocks have cumulative count 1 for thread 1 and the
summary of thread 1 lists neither of them, whereas the run without tracking
lists both. -/
theorem C20_summary_lists_blocks_with_nonzero_count (s : ISIMPOINT) (tid : Nat) :
    (s.KnobEmitPrevBlockCounts = false →
      ((s.EmitProgramEnd tid).profiles tid).BbFile =
        (s.profiles tid).BbFile ++
          [Line.DynamicInstructionCount (s.profiles tid).GlobalInstructionCount,
            Line.SliceSize s.KnobSliceSize] ++
          (s.block_map.filter fun bi =>
            decide (¬ (s.blocks bi.2)._globalBlockCount tid = 0)).map fun bi =>
              Line.BlockSummary (s.blocks bi.2)._id bi.1._start bi.1._end
                (s.blocks bi.2)._staticInstructionCount
                ((s.blocks bi.2)._globalBlockCount tid) bi.1._size none) ∧
    ((twoThreadsThenEnd exampleTracking).map fun s1 =>
        ((s1.blocks 0)._globalBlockCount 1, (s1.blocks 1)._globalBlockCount 1,
          (s1.profiles 1).BbFile)) =
      some (1, 1,
        [Line.I0, Line.P 1, Line.C "", Line.M_no_image 0 1, Line.SliceEnding 70,
          Line.T [(1, 40), (2, 30)], Line.M_no_image 2029 1,
          Line.DynamicInstructionCount 70, Line.SliceSize 60, Line.EndOfBb]) ∧
    ((twoThreadsThenEnd exampleEngine).map fun s1 =>
        ((s1.blocks 0)._globalBlockCount 1, (s1.blocks 1)._globalBlockCount 1,
          (s1.profiles 1).BbFile)) =
      some (1, 1,
        [Line.I0, Line.P 1, Line.C "", Line.M_no_image 0 1, Line.SliceEnding 70,
          Line.T [(1, 40), (2, 30)], Line.M_no_image 2029 1,
          Line.DynamicInstructionCount 70, Line.SliceSize 60,
          Line.BlockSummary 1 1000 1039 40 1 40 none,
          Line.BlockSummary 2 2000 2029 30 1 30 none, Line.EndOfBb]) := by
  refine ⟨?_, by decide, by decide⟩
  intro hk
  simp only [ISIMPOINT.EmitProgramEnd, upd_same, hk, Bool.false_eq_true, if_false,
    BLOCK.EmitProgramEnd, BLOCK_KEY.Start, BLOCK_KEY.End, BLOCK_KEY.Size]
  rw [flatMap_if_singleton]

theorem C20_summary_lists_blocks_with_nonzero_count_witness :
    ((exampleAtBoundary.EmitProgramEnd 0).profiles 0).BbFile =
      (exampleAtBoundary.profiles 0).BbFile ++
        [Line.DynamicInstructionCount (exampleAtBoundary.profiles 0).GlobalInstructionCount,
          Line.SliceSize exampleAtBoundary.KnobSliceSize] ++
        (exampleAtBoundary.block_map.filter fun bi =>
          decide (¬ (exampleAtBoundary.blocks bi.2)._globalBlockCount 0 = 0)).map fun bi =>
            Line.BlockSummary (exampleAtBoundary.blocks bi.2)._id bi.1._start bi.1._end
              (exampleAtBoundary.blocks bi.2)._staticInstructionCount
              ((exampleAtBoundary.blocks bi.2)._globalBlockCount 0) bi.1._size none :=
  (C20_summary_lists_blocks_with_nonzero_count exampleAtBoundary 0).1 (by decide)

/-! ### Block discovery and lazy ids -/

theorem foldl_max_bounds (l : List Nat) :
    ∀ init : Nat, init ≤ l.foldl max init ∧ ∀ p ∈ l, p ≤ l.foldl max init := by
  induction l with
  | nil =>
    intro init
    exact ⟨le_refl _, fun p hp => by cases hp⟩
  | cons a rest ih =>
    intro init
    obtain ⟨h1, h2⟩ := ih (max init a)
    simp only [List.foldl_cons]
    refine ⟨le_trans (le_max_left _ _) h1, ?_⟩
    intro p hp
    rcases List.mem_cons.mp hp with h | h
    · rw [h]
      exact le_trans (le_max_right _ _) h1
    · exact h2 p h

theorem freshPointer_not_mem (m : List (BLOCK_KEY × Nat)) :
    freshPointer m ∉ m.map Prod.snd := by
  intro h
  have := (foldl_max_bounds (m.map Prod.snd) 0).2 _ h
  unfold freshPointer at this
  omega

theorem BLOCK_MAP_insert_pointers (e : BLOCK_KEY × Nat) (m : List (BLOCK_KEY × Nat)) :
    (∀ p, p ∈ (BLOCK_MAP_insert e m).map Prod.snd → p = e.2 ∨ p ∈ m.map Prod.snd) ∧
    (∀ p, p ∈ m.map Prod.snd → p ∈ (BLOCK_MAP_insert e m).map Prod.snd) := by
  induction m with
  | nil =>
    constructor
    · intro p hp
      simp [BLOCK_MAP_insert] at hp
      exact Or.inl hp
    · intro p hp
      simp at hp
  | cons x rest ih =>
    unfold BLOCK_MAP_insert
    split_ifs with h1 h2
    · constructor
      · intro p hp
        simp only [List.map_cons, List.mem_cons] at hp ⊢
        exact hp
      · intro p hp
        simp only [List.map_cons, List.mem_cons] at hp ⊢
        exact Or.inr hp
    · constructor
      · intro p hp
        simp only [List.map_cons, List.mem_cons] at hp ⊢
        rcases hp with h | h
        · exact Or.inr (Or.inl h)
        · rcases ih.1 p h with h3 | h3
          · exact Or.inl h3
          · exact Or.inr (Or.inr h3)
      · intro p hp
        simp only [List.map_cons, List.mem_cons] at hp ⊢
        rcases hp with h | h
        · exact Or.inl h
        · exact Or.inr (ih.2 p h)
    · exact ⟨fun p hp => Or.inr hp, fun p hp => hp⟩

theorem lookupMap_pointers (m : List (BLOCK_KEY × Nat)) (bbl : BBL) :
    (∀ p, p ∈ (lookupMap m bbl).map Prod.snd → p = freshPointer m ∨ p ∈ m.map Prod.snd) ∧
    (∀ p, p ∈ m.map Prod.snd → p ∈ (lookupMap m bbl).map Prod.snd) := by
  unfold lookupMap
  split
  · exact BLOCK_MAP_insert_pointers _ m
  · exact ⟨fun p hp => Or.inr hp, fun p hp => hp⟩

theorem LookupBlock_hit (s : ISIMPOINT) (bbl : BBL) (bi : BLOCK_KEY × Nat)
    (h : BLOCK_MAP_find s.block_map ⟨bbl.head, bbl.tail, bbl.size⟩ = some bi) :
    s.LookupBlock bbl = (bi.2, s) ∧ lookupMap s.block_map bbl = s.block_map := by
  simp only [ISIMPOINT.LookupBlock, lookupMap, h, and_self]

theorem LookupBlock_miss_tracking (s : ISIMPOINT) (bbl : BBL)
    (h : BLOCK_MAP_find s.block_map ⟨bbl.head, bbl.tail, bbl.size⟩ = none)
    (hk : s.KnobEmitPrevBlockCounts = true) :
    s.LookupBlock bbl =
      (freshPointer s.block_map,
        { s with
          blocks := upd s.blocks (freshPointer s.block_map)
            (BLOCK.new ⟨bbl.head, bbl.tail, bbl.size⟩ bbl.numIns 0
              (s.img_manager.FindImgInfoId bbl.img))
          block_map := BLOCK_MAP_insert (⟨bbl.head, bbl.tail, bbl.size⟩,
            freshPointer s.block_map) s.block_map }) ∧
    lookupMap s.block_map bbl =
      BLOCK_MAP_insert (⟨bbl.head, bbl.tail, bbl.size⟩, freshPointer s.block_map)
        s.block_map := by
  simp only [ISIMPOINT.LookupBlock, lookupMap, h, hk, if_true, and_self]

theorem LookupBlock_miss_plain (s : ISIMPOINT) (bbl : BBL)
    (h : BLOCK_MAP_find s.block_map ⟨bbl.head, bbl.tail, bbl.size⟩ = none)
    (hk : ¬ s.KnobEmitPrevBlockCounts = true) :
    s.LookupBlock bbl =
      (freshPointer s.block_map,
        { s with
          blocks := upd s.blocks (freshPointer s.block_map)
            (BLOCK.new ⟨bbl.head, bbl.tail, bbl.size⟩ bbl.numIns (s._currentId 0)
              (s.img_manager.FindImgInfoId bbl.img))
          _currentId := upd s._currentId 0 (s._currentId 0 + 1)
          block_map := BLOCK_MAP_insert (⟨bbl.head, bbl.tail, bbl.size⟩,
            freshPointer s.block_map) s.block_map }) ∧
    lookupMap s.block_map bbl =
      BLOCK_MAP_insert (⟨bbl.head, bbl.tail, bbl.size⟩, freshPointer s.block_map)
        s.block_map := by
  unfold ISIMPOINT.LookupBlock lookupMap
  simp only [h]
  rw [if_neg hk]
  exact ⟨rfl, trivial⟩

/-- What `LookupBlock` changes: the map, and on a miss the heap cell of the
new block and, without tracking, the id counter of thread 0. -/
theorem LookupBlock_spec (s : ISIMPOINT) (bbl : BBL) :
    (s.LookupBlock bbl).2.block_map = lookupMap s.block_map bbl ∧
    (s.LookupBlock bbl).2.KnobEmitPrevBlockCounts = s.KnobEmitPrevBlockCounts ∧
    (s.LookupBlock bbl).2.PIN_MAX_THREADS = s.PIN_MAX_THREADS ∧
    (s.LookupBlock bbl).2.profiles = s.profiles ∧
    (∀ p, p ≠ freshPointer s.block_map → (s.LookupBlock bbl).2.blocks p = s.blocks p) ∧
    (s.KnobEmitPrevBlockCounts = true →
      (s.LookupBlock bbl).2._currentId = s._currentId ∧
      (BLOCK_MAP_find s.block_map ⟨bbl.head, bbl.tail, bbl.size⟩ = none →
        (s.LookupBlock bbl).1 = freshPointer s.block_map ∧
        (s.LookupBlock bbl).2.blocks (freshPointer s.block_map) =
          BLOCK.new ⟨bbl.head, bbl.tail, bbl.size⟩ bbl.numIns 0
            (s.img_manager.FindImgInfoId bbl.img)) ∧
      (BLOCK_MAP_find s.block_map ⟨bbl.head, bbl.tail, bbl.size⟩ ≠ none →
        (s.LookupBlock bbl).2 = s)) := by
  cases hfind : BLOCK_MAP_find s.block_map ⟨bbl.head, bbl.tail, bbl.size⟩ with
  | some bi =>
    obtain ⟨h1, h2⟩ := LookupBlock_hit s bbl bi hfind
    rw [h1, h2]
    refine ⟨rfl, rfl, rfl, rfl, fun _ _ => rfl, fun _ => ⟨rfl, ?_, fun _ => rfl⟩⟩
    intro h
    cases h
  | none =>
    by_cases hk : s.KnobEmitPrevBlockCounts = true
    · obtain ⟨h1, h2⟩ := LookupBlock_miss_tracking s bbl hfind hk
      rw [h1, h2]
      refine ⟨rfl, rfl, rfl, rfl, fun p hp => upd_other _ _ _ _ hp,
        fun _ => ⟨rfl, fun _ => ⟨rfl, upd_same _ _ _⟩, fun h => absurd rfl h⟩⟩
    · obtain ⟨h1, h2⟩ := LookupBlock_miss_plain s bbl hfind hk
      rw [h1, h2]
      refine ⟨rfl, rfl, rfl, rfl, fun p hp => upd_other _ _ _ _ hp, fun h => absurd h hk⟩

theorem firstExecuted_snoc (tr : List Nat) (b : Nat) :
    firstExecuted (tr ++ [b]) =
      if b ∈ firstExecuted tr then firstExecuted tr else firstExecuted tr ++ [b] := by
  unfold firstExecuted
  rw [List.foldl_append]
  rfl

theorem indexOf_snoc_new (l : List Nat) (b : Nat) (hb : b ∉ l) :
    (l ++ [b]).indexOf b = l.length := by
  rw [List.indexOf_append_of_not_mem hb]
  simp

theorem IdInv_LookupBlock (s : ISIMPOINT) (tid : Nat) (pre : List Nat) (bbl : BBL)
    (inv : IdInv s tid pre) : IdInv (s.LookupBlock bbl).2 tid pre := by
  obtain ⟨hmap, hk, hmax, -, hblocks, htr⟩ := LookupBlock_spec s bbl
  obtain ⟨hcur, hnone, hsome⟩ := htr inv.tracking
  have hptr : (s.LookupBlock bbl).2.pointers = (lookupMap s.block_map bbl).map Prod.snd := by
    unfold ISIMPOINT.pointers
    rw [hmap]
  obtain ⟨hsub, hsup⟩ := lookupMap_pointers s.block_map bbl
  have hfresh : freshPointer s.block_map ∉ s.pointers := freshPointer_not_mem s.block_map
  constructor
  · rw [hk]
    exact inv.tracking
  · rw [hmax]
    exact inv.maxThreads
  · rw [hcur]
    exact inv.nextId
  · intro p hp
    rw [hptr]
    exact hsup p (inv.executedKnown p hp)
  · intro p hp
    rw [hptr] at hp
    by_cases hfind : BLOCK_MAP_find s.block_map ⟨bbl.head, bbl.tail, bbl.size⟩ = none
    · rcases hsub p hp with h | h
      · rw [h, (hnone hfind).2]
        have hne : freshPointer s.block_map ∉ firstExecuted pre :=
          fun hm => hfresh (inv.executedKnown _ hm)
        rw [if_neg hne]
        rfl
      · have hne : p ≠ freshPointer s.block_map := fun he => hfresh (he ▸ h)
        rw [hblocks p hne]
        exact inv.ids p h
    · rw [hsome hfind]
      have hp2 : p ∈ s.pointers := by
        have := hsome hfind
        rw [hptr.symm, this] at hp
        exact hp
      exact inv.ids p hp2

theorem IdInv_onBlockExecuted (s : ISIMPOINT) (tid : Nat) (pre : List Nat) (b : Nat)
    (inv : IdInv s tid pre) (hb : b ∈ s.pointers) :
    ∃ s1, s.onBlockExecuted b tid = some s1 ∧ s1.block_map = s.block_map ∧
      IdInv s1 tid (pre ++ [b]) := by
  obtain ⟨s1, heq, hcfg, -, -, -, -, -, hid, hcur⟩ :=
    countIf_spec s b tid (fun _ => inv.maxThreads)
  have hidb := inv.ids b hb
  have hzero : (s.blocks b)._id = 0 ↔ b ∉ firstExecuted pre := by
    rw [hidb]
    split_ifs with h
    · constructor
      · intro h0
        omega
      · intro hn
        exact absurd h hn
    · simp [h]
  have inv1 : IdInv s1 tid (pre ++ [b]) := by
    have hptr : s1.pointers = s.pointers := pointers_eq _ _ hcfg.block_map
    by_cases hin : b ∈ firstExecuted pre
    · have hfe : firstExecuted (pre ++ [b]) = firstExecuted pre := by
        rw [firstExecuted_snoc, if_pos hin]
      have hnz : ¬ (s.blocks b)._id = 0 := fun h0 => (hzero.mp h0) hin
      constructor
      · rw [hcfg.prevCounts]
        exact inv.tracking
      · rw [hcfg.maxThreads]
        exact inv.maxThreads
      · rw [hcur, hfe, if_neg (fun h => hnz h.2)]
        exact inv.nextId
      · intro p hp
        rw [hfe] at hp
        rw [hptr]
        exact inv.executedKnown p hp
      · intro p hp
        rw [hptr] at hp
        rw [hid, hfe]
        have hno : ¬ (s.KnobEmitPrevBlockCounts = true ∧ p = b ∧ (s.blocks p)._id = 0) := by
          intro h
          exact hnz (h.2.1 ▸ h.2.2)
        rw [if_neg hno]
        exact inv.ids p hp
    · have hfe : firstExecuted (pre ++ [b]) = firstExecuted pre ++ [b] := by
        rw [firstExecuted_snoc, if_neg hin]
      have hz : (s.blocks b)._id = 0 := hzero.mpr hin
      constructor
      · rw [hcfg.prevCounts]
        exact inv.tracking
      · rw [hcfg.maxThreads]
        exact inv.maxThreads
      · rw [hcur, hfe, if_pos ⟨inv.tracking, hz⟩, inv.nextId]
        simp
      · intro p hp
        rw [hfe, List.mem_append, List.mem_singleton] at hp
        rw [hptr]
        rcases hp with h | h
        · exact inv.executedKnown p h
        · rw [h]
          exact hb
      · intro p hp
        rw [hptr] at hp
        rw [hid, hfe]
        by_cases hpb : p = b
        · subst hpb
          rw [if_pos ⟨inv.tracking, rfl, hz⟩, if_pos (by simp), indexOf_snoc_new _ _ hin,
            inv.nextId]
          push_cast
          rfl
        · have hno : ¬ (s.KnobEmitPrevBlockCounts = true ∧ p = b ∧ (s.blocks p)._id = 0) :=
            fun h => hpb h.2.1
          rw [if_neg hno, inv.ids p hp]
          by_cases hpin : p ∈ firstExecuted pre
          · rw [if_pos hpin, if_pos (List.mem_append_left _ hpin),
              List.indexOf_append_of_mem hpin]
          · have hpn : p ∉ firstExecuted pre ++ [b] := by
              simp [hpin, hpb]
            rw [if_neg hpin, if_neg hpn]
  unfold ISIMPOINT.onBlockExecuted
  rw [heq]
  simp only [Option.map_some']
  split_ifs with hfire
  · refine ⟨_, rfl, (CountBlock_Then_sameConfig s1 b tid).block_map.trans hcfg.block_map, ?_⟩
    have hc2 := CountBlock_Then_sameConfig s1 b tid
    have hptr2 : (s1.CountBlock_Then b tid).pointers = s1.pointers :=
      pointers_eq _ _ hc2.block_map
    constructor
    · rw [hc2.prevCounts]
      exact inv1.tracking
    · rw [hc2.maxThreads]
      exact inv1.maxThreads
    · rw [CountBlock_Then_currentId]
      exact inv1.nextId
    · intro p hp
      rw [hptr2]
      exact inv1.executedKnown p hp
    · intro p hp
      rw [hptr2] at hp
      rw [CountBlock_Then_id]
      exact inv1.ids p hp
  · exact ⟨_, rfl, hcfg.block_map, inv1⟩

theorem IdInv_runEvents (tid : Nat) (events : List Event) :
    ∀ (s : ISIMPOINT) (pre : List Nat), IdInv s tid pre →
      knownBlocks s.block_map events = true →
      ∃ s1, s.runEvents tid events = some s1 ∧ IdInv s1 tid (pre ++ executions events) := by
  induction events with
  | nil =>
    intro s pre inv _
    exact ⟨s, rfl, by simpa [executions] using inv⟩
  | cons e rest ih =>
    intro s pre inv hknown
    cases e with
    | discover bbl =>
      have h1 := IdInv_LookupBlock s tid pre bbl inv
      have hmap := (LookupBlock_spec s bbl).1
      obtain ⟨s1, hrun, inv1⟩ := ih _ pre h1 (by rw [hmap]; exact hknown)
      exact ⟨s1, hrun, inv1⟩
    | execute b =>
      simp only [knownBlocks, Bool.and_eq_true, decide_eq_true_eq] at hknown
      obtain ⟨hb, hrest⟩ := hknown
      obtain ⟨s1, hstep, hmap, inv1⟩ := IdInv_onBlockExecuted s tid pre b inv hb
      obtain ⟨s2, hrun, inv2⟩ := ih s1 (pre ++ [b]) inv1 (by rw [hmap]; exact hrest)
      refine ⟨s2, ?_, by simpa [executions] using inv2⟩
      simp only [ISIMPOINT.runEvents, hstep, Option.some_bind]
      exact hrun

/-- C13: with previous-block tracking, in an engine whose blocks all carry
id 0 and whose thread `tid` has next id 1, `LookupBlock` creates a block
with id 0; after any sequence of discoveries and of executions by thread
`tid` of blocks known to the map, the run returns a state in which the
`k`-th distinct block in the order of first execution carries id `k`
(counting from 1), every block not executed carries id 0 and the thread's
next id is the number of distinct executed blocks plus one, whatever the
discoveries in between; and neither an execution nor a discovery changes an
id that is not 0. -/
theorem C13_ids_follow_first_execution_order (s : ISIMPOINT) (tid : Nat)
    (events : List Event)
    (hk : s.KnobEmitPrevBlockCounts = true) (hmax : tid < s.PIN_MAX_THREADS)
    (hids : ∀ p ∈ s.pointers, (s.blocks p)._id = 0) (hcur : s._currentId tid = 1)
    (hknown : knownBlocks s.block_map events = true) :
    (∀ bbl, BLOCK_MAP_find s.block_map ⟨bbl.head, bbl.tail, bbl.size⟩ = none →
      ((s.LookupBlock bbl).2.blocks (s.LookupBlock bbl).1)._id = 0) ∧
    (∃ s1, s.runEvents tid events = some s1 ∧
      s1._currentId tid = (firstExecuted (executions events)).length + 1 ∧
      (∀ p ∈ s1.pointers,
        (s1.blocks p)._id =
          if p ∈ firstExecuted (executions events) then
            ((firstExecuted (executions events)).indexOf p : Int) + 1
          else 0) ∧
      (∀ k p, (firstExecuted (executions events)).get? k = some p →
        (s1.blocks p)._id = (k : Int) + 1)) ∧
    (∀ (s0 : ISIMPOINT) (b : Nat), s0.KnobEmitPrevBlockCounts = true →
      tid < s0.PIN_MAX_THREADS →
      ∃ s1, s0.onBlockExecuted b tid = some s1 ∧
        ∀ p, (s0.blocks p)._id ≠ 0 → (s1.blocks p)._id = (s0.blocks p)._id) ∧
    (∀ (s0 : ISIMPOINT) (bbl : BBL), ∀ p ∈ s0.pointers,
      ((s0.LookupBlock bbl).2.blocks p)._id = (s0.blocks p)._id) := by
  refine ⟨?_, ?_, ?_, ?_⟩
  · intro bbl hfind
    obtain ⟨h1, h2⟩ := ((LookupBlock_spec s bbl).2.2.2.2.2 hk).2.1 hfind
    rw [h1, h2]
    rfl
  · have inv0 : IdInv s tid [] := by
      constructor
      · exact hk
      · exact hmax
      · rw [hcur]
        rfl
      · intro p hp
        cases hp
      · intro p hp
        rw [hids p hp]
        rfl
    obtain ⟨s1, hrun, inv1⟩ := IdInv_runEvents tid events s [] inv0 hknown
    simp only [List.nil_append] at inv1
    refine ⟨s1, hrun, inv1.nextId, inv1.ids, ?_⟩
    intro k p hkp
    have hmem : p ∈ firstExecuted (executions events) := List.get?_mem hkp
    have hnd : (firstExecuted (executions events)).Nodup := by
      generalize executions events = tr
      induction tr using List.reverseRecOn with
      | nil => exact List.nodup_nil
      | append_singleton tr b ih =>
        rw [firstExecuted_snoc]
        split_ifs with hb
        · exact ih
        · exact List.Nodup.append ih (List.nodup_singleton b) (by simpa using hb)
    rw [inv1.ids p (inv1.executedKnown p hmem), if_pos hmem]
    have hidx : (firstExecuted (executions events)).indexOf p = k := by
      have hk2 : k < (firstExecuted (executions events)).length := by
        by_contra hge
        rw [List.get?_eq_none.mpr (by omega)] at hkp
        cases hkp
      have hget : (firstExecuted (executions events)).get ⟨k, hk2⟩ = p := by
        rw [List.get?_eq_get hk2] at hkp
        exact Option.some.inj hkp
      rw [← hget]
      exact List.get_indexOf hnd ⟨k, hk2⟩
    rw [hidx]
  · intro s0 b hk0 hmax0
    obtain ⟨s1, heq, -, -, -, -, -, -, hid, -⟩ := countIf_spec s0 b tid (fun _ => hmax0)
    have hkeep : ∀ p, (s0.blocks p)._id ≠ 0 → (s1.blocks p)._id = (s0.blocks p)._id := by
      intro p hp
      rw [hid, if_neg (fun h => hp h.2.2)]
    unfold ISIMPOINT.onBlockExecuted
    rw [heq]
    simp only [Option.map_some']
    split_ifs
    · refine ⟨_, rfl, ?_⟩
      intro p hp
      rw [CountBlock_Then_id]
      exact hkeep p hp
    · exact ⟨_, rfl, hkeep⟩
  · intro s0 bbl p hp
    have hne : p ≠ freshPointer s0.block_map :=
      fun he => freshPointer_not_mem s0.block_map (he ▸ hp)
    rw [(LookupBlock_spec s0 bbl).2.2.2.2.1 p hne]

theorem C13_ids_follow_first_execution_order_witness :
    ∃ s1, exampleTracking.runEvents 0
        [Event.execute 2, Event.discover ⟨500, 520, 21, 7, none⟩, Event.execute 3,
          Event.execute 2, Event.execute 0] = some s1 ∧
      s1._currentId 0 = 4 ∧ (s1.blocks 2)._id = 1 ∧ (s1.blocks 3)._id = 2 ∧
      (s1.blocks 0)._id = 3 :=
  have h := (C13_ids_follow_first_execution_order exampleTracking 0
    [Event.execute 2, Event.discover ⟨500, 520, 21, 7, none⟩, Event.execute 3,
      Event.execute 2, Event.execute 0] (by decide) (by decide) (by decide) (by decide)
    (by decide)).2.1
  h.elim fun s1 h1 =>
    ⟨s1, h1.1, h1.2.1, h1.2.2.2 0 2 (by decide), h1.2.2.2 1 3 (by decide),
      h1.2.2.2 2 0 (by decide)⟩

/-! ### The two identifier modes slice alike -/

theorem pairsRel_nil (ids1 ids2 : Nat → Int) : pairsRel ids1 ids2 [] [] :=
  ⟨[], rfl, rfl, fun x hx => by cases hx⟩

theorem pairsRel_append (ids1 ids2 : Nat → Int) (a b c d : List (Int × Int))
    (h1 : pairsRel ids1 ids2 a b) (h2 : pairsRel ids1 ids2 c d) :
    pairsRel ids1 ids2 (a ++ c) (b ++ d) := by
  obtain ⟨l1, ha, hb, hl1⟩ := h1
  obtain ⟨l2, hc, hd, hl2⟩ := h2
  refine ⟨l1 ++ l2, by rw [ha, hc, List.map_append], by rw [hb, hd, List.map_append], ?_⟩
  intro x hx
  rcases List.mem_append.mp hx with h | h
  · exact hl1 x h
  · exact hl2 x h

theorem pairsRel_congr (ids1 ids2 ids3 ids4 : Nat → Int) (ps pt : List (Int × Int))
    (h13 : ∀ p, ids3 p = ids1 p) (h24 : ∀ p, ids2 p ≠ 0 → ids4 p = ids2 p)
    (h : pairsRel ids1 ids2 ps pt) : pairsRel ids3 ids4 ps pt := by
  obtain ⟨l, hs, ht, hl⟩ := h
  refine ⟨l, ?_, ?_, ?_⟩
  · rw [hs]
    apply List.map_congr_left
    intro x _
    rw [h13]
  · rw [ht]
    apply List.map_congr_left
    intro x hx
    rw [h24 x.1 (hl x hx)]
  · intro x hx
    rw [h24 x.1 (hl x hx)]
    exact hl x hx

theorem LineRel_congr (ids1 ids2 ids3 ids4 : Nat → Int)
    (h13 : ∀ p, ids3 p = ids1 p) (h24 : ∀ p, ids2 p ≠ 0 → ids4 p = ids2 p) (a b : Line)
    (h : LineRel ids1 ids2 a b) : LineRel ids3 ids4 a b := by
  cases a <;> cases b <;> first
    | exact h
    | exact pairsRel_congr ids1 ids2 ids3 ids4 _ _ h13 h24 h

theorem LineRel_refl (ids1 ids2 : Nat → Int) (a : Line) (h : a.isT = false) :
    LineRel ids1 ids2 a a := by
  cases a <;> first
    | rfl
    | cases h

theorem LinesRel_refl (ids1 ids2 : Nat → Int) (l : List Line)
    (h : ∀ a ∈ l, a.isT = false) : List.Forall₂ (LineRel ids1 ids2) l l := by
  induction l with
  | nil => exact List.Forall₂.nil
  | cons a rest ih =>
    exact List.Forall₂.cons (LineRel_refl ids1 ids2 a (h a (List.mem_cons_self _ _)))
      (ih fun x hx => h x (List.mem_cons_of_mem _ hx))

theorem LineRel_readings (ids1 ids2 : Nat → Int) (a b : Line) (h : LineRel ids1 ids2 a b) :
    sliceEndings [a] = sliceEndings [b] ∧ a.markerAddress = b.markerAddress ∧
    a.isT = b.isT := by
  cases a <;> cases b <;>
    first
    | exact absurd h id
    | exact ⟨rfl, rfl, rfl⟩
    | (cases h
       exact ⟨rfl, rfl, rfl⟩)
    | cases h

/-- Streams that agree up to block ids report the same cumulative counts,
the same marker addresses and equally many slice bodies. -/
theorem LinesRel_readings (ids1 ids2 : Nat → Int) (l1 l2 : List Line)
    (h : List.Forall₂ (LineRel ids1 ids2) l1 l2) :
    sliceEndings l1 = sliceEndings l2 ∧ markerAddresses l1 = markerAddresses l2 ∧
    l1.countP Line.isT = l2.countP Line.isT ∧ l1.length = l2.length := by
  induction h with
  | nil => exact ⟨rfl, rfl, rfl, rfl⟩
  | @cons a b r1 r2 hab _ ih =>
    obtain ⟨i1, i2, i3, i4⟩ := ih
    obtain ⟨j1, j2, j3⟩ := LineRel_readings ids1 ids2 a b hab
    refine ⟨?_, ?_, ?_, ?_⟩
    · have e1 := sliceEndings_append [a] r1
      have e2 := sliceEndings_append [b] r2
      rw [List.singleton_append] at e1 e2
      rw [e1, e2, i1, j1]
    · unfold markerAddresses at i2 ⊢
      rw [List.filterMap_cons, List.filterMap_cons, j2, i2]
    · rw [List.countP_cons, List.countP_cons, i3, j3]
    · rw [List.length_cons, List.length_cons, i4]

/-- The loop of `EmitSliceEnd` on two heaps that agree on the counters of
`tid` and on the static counts computes the same marker count and bodies
that agree up to ids, and leaves heaps that still agree. -/
theorem EmitSliceEnd_loop_rel (tid em : Nat) (emit : Bool) (ids1 ids2 : Nat → Int)
    (entries : List (BLOCK_KEY × Nat)) :
    ∀ (bs bt : Nat → BLOCK) (mc : Int) (outs outt : List (Int × Int)),
      (∀ p, (bs p)._id = ids1 p ∧ (bt p)._id = ids2 p ∧
        (bt p)._staticInstructionCount = (bs p)._staticInstructionCount ∧
        (bt p)._sliceBlockCount tid = (bs p)._sliceBlockCount tid ∧
        (bt p)._globalBlockCount tid = (bs p)._globalBlockCount tid) →
      (∀ p, (bt p)._sliceBlockCount tid ≠ 0 → ids2 p ≠ 0) →
      pairsRel ids1 ids2 outs outt →
      (ISIMPOINT.EmitSliceEnd_loop tid em emit entries bt mc outt).2.1 =
        (ISIMPOINT.EmitSliceEnd_loop tid em emit entries bs mc outs).2.1 ∧
      pairsRel ids1 ids2 (ISIMPOINT.EmitSliceEnd_loop tid em emit entries bs mc outs).2.2
        (ISIMPOINT.EmitSliceEnd_loop tid em emit entries bt mc outt).2.2 ∧
      ∀ p,
        ((ISIMPOINT.EmitSliceEnd_loop tid em emit entries bt mc outt).1 p)._sliceBlockCount tid =
          ((ISIMPOINT.EmitSliceEnd_loop tid em emit entries bs mc outs).1 p)._sliceBlockCount
            tid ∧
        ((ISIMPOINT.EmitSliceEnd_loop tid em emit entries bt mc outt).1 p)._globalBlockCount
            tid =
          ((ISIMPOINT.EmitSliceEnd_loop tid em emit entries bs mc outs).1 p)._globalBlockCount
            tid := by
  induction entries with
  | nil =>
    intro bs bt mc outs outt hrel _ hout
    exact ⟨rfl, hout, fun p => ⟨(hrel p).2.2.2.1, (hrel p).2.2.2.2⟩⟩
  | cons e rest ih =>
    intro bs bt mc outs outt hrel hex hout
    obtain ⟨key, block⟩ := e
    obtain ⟨hi1, hi2, hst, hsl, hgl⟩ := hrel block
    have hmc : (if key.Contains em = true then mc + (bt block).GlobalBlockCount tid else mc) =
        (if key.Contains em = true then mc + (bs block).GlobalBlockCount tid else mc) := by
      simp only [BLOCK.GlobalBlockCount, hsl, hgl]
    cases emit
    · simp only [ISIMPOINT.EmitSliceEnd_loop, Bool.false_eq_true, if_false]
      rw [hmc]
      exact ih bs bt _ outs outt hrel hex hout
    · simp only [ISIMPOINT.EmitSliceEnd_loop, if_true]
      rw [hmc]
      apply ih
      · intro p
        have es := BLOCK_EmitSliceEnd_snd (bs block) tid
        have et := BLOCK_EmitSliceEnd_snd (bt block) tid
        by_cases hp : p = block
        · subst hp
          rw [upd_same, upd_same]
          refine ⟨es.1.trans hi1, et.1.trans hi2, ?_, ?_, ?_⟩
          · rw [es.2.1, et.2.1, hst]
          · rw [es.2.2.2.2.2.1, et.2.2.2.2.2.1]
          · rw [es.2.2.2.2.2.2.1, et.2.2.2.2.2.2.1, hsl, hgl]
        · rw [upd_other _ _ _ _ hp, upd_other _ _ _ _ hp]
          exact hrel p
      · intro p hne
        by_cases hp : p = block
        · subst hp
          rw [upd_same] at hne
          exact absurd (BLOCK_EmitSliceEnd_snd (bt p) tid).2.2.2.2.2.1 hne
        · rw [upd_other _ _ _ _ hp] at hne
          exact hex p hne
      · apply pairsRel_append _ _ _ _ _ _ hout
        rw [BLOCK_EmitSliceEnd_fst, BLOCK_EmitSliceEnd_fst, hsl, hst, hi1, hi2]
        by_cases h0 : (bs block)._sliceBlockCount tid = 0
        · rw [if_pos h0, if_pos h0]
          exact pairsRel_nil _ _
        · rw [if_neg h0, if_neg h0]
          refine ⟨[(block, wrapINT32 ((bs block)._sliceBlockCount tid *
            (bs block)._staticInstructionCount))], rfl, rfl, ?_⟩
          intro x hx
          rw [List.mem_singleton] at hx
          rw [hx]
          exact hex block (by rw [hsl]; exact h0)

/-- Counting one block keeps the two modes in step, and decides the same
way whether a boundary is due. -/
theorem ModeRel_countIf (s t : ISIMPOINT) (tid block : Nat) (h : ModeRel s t tid) :
    ∃ s1 t1 fire, s.countIf block tid = some (s1, fire) ∧
      t.countIf block tid = some (t1, fire) ∧ ModeRel s1 t1 tid := by
  obtain ⟨s1, hs, cs, sls, _, gls, _, prs, ids, _⟩ :=
    countIf_spec s block tid (fun hk => by rw [h.plain] at hk; cases hk)
  obtain ⟨t1, ht, ct, slt, _, glt, _, prt, idt, curt⟩ :=
    countIf_spec t block tid (fun _ => h.maxThreads)
  refine ⟨s1, t1, _, hs, ?_, ?_⟩
  · rw [ht, h.timer, h.static]
  · have hids : ∀ p, (s1.blocks p)._id = (s.blocks p)._id := by
      intro p
      rw [ids, h.plain]
      simp
    have hidt : ∀ p, (t.blocks p)._id ≠ 0 → (t1.blocks p)._id = (t.blocks p)._id := by
      intro p hne
      rw [idt, if_neg]
      exact fun hc => hne hc.2.2
    exact
      { plain := cs.prevCounts.trans h.plain
        tracking := ct.prevCounts.trans h.tracking
        maxThreads := by rw [ct.maxThreads]; exact h.maxThreads
        nextId := by
          rw [curt]
          have := h.nextId
          split_ifs <;> omega
        block_map := by rw [ct.block_map, cs.block_map, h.block_map]
        commandLine := by rw [ct.commandLine, cs.commandLine, h.commandLine]
        img_manager := by rw [ct.img_manager, cs.img_manager, h.img_manager]
        sliceSize := by rw [ct.sliceSize, cs.sliceSize, h.sliceSize]
        noSymbolic := by rw [ct.noSymbolic, cs.noSymbolic, h.noSymbolic]
        emitFirst := by rw [ct.emitFirst, cs.emitFirst, h.emitFirst]
        emitLast := by rw [ct.emitLast, cs.emitLast, h.emitLast]
        static := fun p => by rw [ct.static, cs.static, h.static]
        key := fun p => by rw [ct.key, cs.key, h.key]
        imgId := fun p => by rw [ct.imgId, cs.imgId, h.imgId]
        slice := fun p => by rw [slt, sls, h.slice]
        global := fun p => by rw [glt, gls, h.global]
        gic := by rw [prt, prs]; exact h.gic
        first_eip := by rw [prt, prs]; exact h.first_eip
        first := by rw [prt, prs]; exact h.first
        active := by rw [prt, prs]; exact h.active
        timer := by
          rw [prt, prs]
          show (t.profiles tid).SliceTimer - _ = (s.profiles tid).SliceTimer - _
          rw [h.timer, h.static]
        budget := by rw [prt, prs]; exact h.budget
        last_block := by rw [prt, prs]
        length_queue := by rw [prt, prs]; exact h.length_queue
        executed := by
          intro p hne
          by_cases h0 : (t.blocks p)._id = 0
          · by_cases hp : p = block
            · rw [idt, if_pos ⟨h.tracking, hp, h0⟩]
              have := h.nextId
              omega
            · rw [slt, if_neg hp] at hne
              exact absurd h0 (h.executed p hne)
          · rw [hidt p h0]
            exact h0
        lines := by
          rw [prt, prs]
          exact List.Forall₂.imp
            (fun a b hab => LineRel_congr _ _ _ _ hids hidt a b hab) h.lines }

theorem EmitSliceEnd_first_eip (s : ISIMPOINT) (em img tid : Nat) :
    ((s.EmitSliceEnd em img tid).profiles tid).first_eip = (s.profiles tid).first_eip := by
  simp only [ISIMPOINT.EmitSliceEnd, upd_same]
  split_ifs <;> simp [EmitLDV_fields]

theorem CountBlock_Then_first (s : ISIMPOINT) (block tid : Nat) :
    ((s.CountBlock_Then block tid).profiles tid).first = false ∧
    ((s.CountBlock_Then block tid).profiles tid).first_eip = (s.profiles tid).first_eip := by
  rw [CountBlock_Then_eq]
  exact ⟨(EmitSliceEnd_profile_fields _ _ _ _).2.2.2.2.2.2,
    (EmitSliceEnd_first_eip _ _ _ _).trans (withNextBudget_profile s tid).2.2.2.1⟩

theorem preamble_plain (s : ISIMPOINT) (tid img : Nat) :
    ∀ a ∈ s.preamble tid img, a.isT = false := by
  intro a ha
  unfold ISIMPOINT.preamble at ha
  split_ifs at ha
  · simp only [List.mem_cons, List.mem_singleton, List.not_mem_nil, or_false] at ha
    rcases ha with rfl | rfl | rfl | rfl
    · rfl
    · rfl
    · rfl
    · exact EmitSliceStartInfo_isT s _ _ _
  · cases ha

theorem closingMarker_plain (s : ISIMPOINT) (em : Nat) (mc : Int) (img tid : Nat) :
    ∀ a ∈ s.closingMarker em mc img tid, a.isT = false := by
  intro a ha
  unfold ISIMPOINT.closingMarker at ha
  split_ifs at ha
  · rw [List.mem_singleton] at ha
    rw [ha]
    rfl
  · rw [List.mem_singleton] at ha
    rw [ha]
    exact EmitSliceStartInfo_isT s _ _ _
  · cases ha

/-- The loop of `EmitSliceEnd` leaves a slice-local counter alone or clears
it. -/
theorem EmitSliceEnd_loop_slice (tid em : Nat) (emit : Bool)
    (entries : List (BLOCK_KEY × Nat)) (blocks : Nat → BLOCK) (mc : Int)
    (out : List (Int × Int)) (p : Nat) :
    ((ISIMPOINT.EmitSliceEnd_loop tid em emit entries blocks mc out).1 p)._sliceBlockCount tid =
        (blocks p)._sliceBlockCount tid ∨
    ((ISIMPOINT.EmitSliceEnd_loop tid em emit entries blocks mc out).1 p)._sliceBlockCount tid =
        0 := by
  induction entries generalizing blocks mc out with
  | nil => exact Or.inl rfl
  | cons e rest ih =>
    obtain ⟨key, block⟩ := e
    cases emit
    · simp only [ISIMPOINT.EmitSliceEnd_loop, Bool.false_eq_true, if_false]
      exact ih _ _ _
    · simp only [ISIMPOINT.EmitSliceEnd_loop, if_true]
      have h := ih (upd blocks block ((blocks block).EmitSliceEnd tid).2)
        (if key.Contains em = true then mc + (blocks block).GlobalBlockCount tid else mc)
        (out ++ ((blocks block).EmitSliceEnd tid).1)
      by_cases hp : p = block
      · subst hp
        rw [upd_same, (BLOCK_EmitSliceEnd_snd (blocks p) tid).2.2.2.2.2.1] at h
        rcases h with h | h
        · exact Or.inr h
        · exact Or.inr h
      · rw [upd_other _ _ _ _ hp] at h
        exact h

/-- A slice boundary keeps the two modes in step: both write the same
records, the bodies agreeing up to block ids. -/
theorem ModeRel_CountBlock_Then (s t : ISIMPOINT) (tid block : Nat) (h : ModeRel s t tid) :
    ModeRel (s.CountBlock_Then block tid) (t.CountBlock_Then block tid) tid := by
  have cs := CountBlock_Then_sameConfig s block tid
  have ct := CountBlock_Then_sameConfig t block tid
  have fs := CountBlock_Then_fields s block tid
  have ft := CountBlock_Then_fields t block tid
  have gs := CountBlock_Then_first s block tid
  have gt := CountBlock_Then_first t block tid
  have hemit : (!(t.profiles tid).first || t.KnobEmitFirstSlice) =
      (!(s.profiles tid).first || s.KnobEmitFirstSlice) := by rw [h.first, h.emitFirst]
  have hloop := EmitSliceEnd_loop_rel tid (s.blocks block)._key._end
    (!(s.profiles tid).first || s.KnobEmitFirstSlice)
    (fun p => (s.blocks p)._id) (fun p => (t.blocks p)._id) s.block_map
    s.blocks t.blocks 0 [] []
    (fun p => ⟨rfl, rfl, h.static p, h.slice p, h.global p⟩) h.executed (pairsRel_nil _ _)
  have hbs : ∀ p, (s.CountBlock_Then block tid).blocks p =
      (ISIMPOINT.EmitSliceEnd_loop tid (s.blocks block)._key._end
        (!(s.profiles tid).first || s.KnobEmitFirstSlice) s.block_map s.blocks 0 []).1 p := by
    intro p
    rw [CountBlock_Then_eq]
    show (ISIMPOINT.EmitSliceEnd_loop tid (s.blocks block)._key._end
      (!((s.withNextBudget tid).profiles tid).first || s.KnobEmitFirstSlice)
      s.block_map s.blocks 0 []).1 p = _
    rw [(withNextBudget_profile s tid).1]
  have hbt : ∀ p, (t.CountBlock_Then block tid).blocks p =
      (ISIMPOINT.EmitSliceEnd_loop tid (s.blocks block)._key._end
        (!(s.profiles tid).first || s.KnobEmitFirstSlice) s.block_map t.blocks 0 []).1 p := by
    intro p
    rw [CountBlock_Then_eq]
    show (ISIMPOINT.EmitSliceEnd_loop tid (t.blocks block)._key._end
      (!((t.withNextBudget tid).profiles tid).first || t.KnobEmitFirstSlice)
      t.block_map t.blocks 0 []).1 p = _
    rw [(withNextBudget_profile t tid).1, hemit, h.key, h.block_map]
  exact
    { plain := cs.prevCounts.trans h.plain
      tracking := ct.prevCounts.trans h.tracking
      maxThreads := by rw [ct.maxThreads]; exact h.maxThreads
      nextId := by rw [CountBlock_Then_currentId]; exact h.nextId
      block_map := by rw [ct.block_map, cs.block_map, h.block_map]
      commandLine := by rw [ct.commandLine, cs.commandLine, h.commandLine]
      img_manager := by rw [ct.img_manager, cs.img_manager, h.img_manager]
      sliceSize := by rw [ct.sliceSize, cs.sliceSize, h.sliceSize]
      noSymbolic := by rw [ct.noSymbolic, cs.noSymbolic, h.noSymbolic]
      emitFirst := by rw [ct.emitFirst, cs.emitFirst, h.emitFirst]
      emitLast := by rw [ct.emitLast, cs.emitLast, h.emitLast]
      static := fun p => by rw [ct.static, cs.static, h.static]
      key := fun p => by rw [ct.key, cs.key, h.key]
      imgId := fun p => by rw [ct.imgId, cs.imgId, h.imgId]
      slice := fun p => by rw [hbs, hbt]; exact (hloop.2.2 p).1
      global := fun p => by rw [hbs, hbt]; exact (hloop.2.2 p).2
      gic := by rw [ft.2.2.1, fs.2.2.1, h.gic, h.budget, h.timer]
      first_eip := by rw [gt.2, gs.2, h.first_eip]
      first := by rw [gt.1, gs.1]
      active := by rw [ft.2.2.2.2.2, fs.2.2.2.2.2, h.active]
      timer := by rw [ft.1, fs.1, h.length_queue, h.sliceSize]
      budget := by rw [ft.2.1, fs.2.1, h.length_queue, h.sliceSize]
      last_block := by rw [ft.2.2.2.2.1, fs.2.2.2.2.1, h.last_block]
      length_queue := by rw [ft.2.2.2.1, fs.2.2.2.1, h.length_queue]
      executed := by
        intro p hne
        rw [CountBlock_Then_id]
        rw [hbt] at hne
        rcases EmitSliceEnd_loop_slice tid (s.blocks block)._key._end
          (!(s.profiles tid).first || s.KnobEmitFirstSlice) s.block_map t.blocks 0 [] p
          with hsame | hzero
        · rw [hsame] at hne
          exact h.executed p hne
        · exact absurd hzero hne
      lines := by
        rw [CountBlock_Then_BbFile_general, CountBlock_Then_BbFile_general]
        have hcongr : ∀ a b,
            LineRel (fun p => (s.blocks p)._id) (fun p => (t.blocks p)._id) a b →
            LineRel (fun p => ((s.CountBlock_Then block tid).blocks p)._id)
              (fun p => ((t.CountBlock_Then block tid).blocks p)._id) a b :=
          fun a b hab => LineRel_congr _ _ _ _ (fun p => CountBlock_Then_id s block tid p)
            (fun p _ => CountBlock_Then_id t block tid p) a b hab
        have hpre : t.preamble tid (t.blocks block)._imgId =
            s.preamble tid (s.blocks block)._imgId := by
          unfold ISIMPOINT.preamble
          rw [h.first, h.commandLine, h.first_eip, h.imgId,
            EmitSliceStartInfo_congr s t h.img_manager]
        have hbody : (t.withNextBudget tid).loopBody (t.blocks block)._key._end tid =
            (ISIMPOINT.EmitSliceEnd_loop tid (s.blocks block)._key._end
              (!(s.profiles tid).first || s.KnobEmitFirstSlice) s.block_map t.blocks 0 []).2.2 := by
          show (ISIMPOINT.EmitSliceEnd_loop tid (t.blocks block)._key._end
            (!((t.withNextBudget tid).profiles tid).first || t.KnobEmitFirstSlice)
            t.block_map t.blocks 0 []).2.2 = _
          rw [(withNextBudget_profile t tid).1, hemit, h.key, h.block_map]
        have hbodys : (s.withNextBudget tid).loopBody (s.blocks block)._key._end tid =
            (ISIMPOINT.EmitSliceEnd_loop tid (s.blocks block)._key._end
              (!(s.profiles tid).first || s.KnobEmitFirstSlice) s.block_map s.blocks 0 []).2.2 := by
          show (ISIMPOINT.EmitSliceEnd_loop tid (s.blocks block)._key._end
            (!((s.withNextBudget tid).profiles tid).first || s.KnobEmitFirstSlice)
            s.block_map s.blocks 0 []).2.2 = _
          rw [(withNextBudget_profile s tid).1]
        have hmark : (t.withNextBudget tid).markerCount (t.blocks block)._key._end tid =
            (s.withNextBudget tid).markerCount (s.blocks block)._key._end tid := by
          show (ISIMPOINT.EmitSliceEnd_loop tid (t.blocks block)._key._end
            (!((t.withNextBudget tid).profiles tid).first || t.KnobEmitFirstSlice)
            t.block_map t.blocks 0 []).2.1 =
            (ISIMPOINT.EmitSliceEnd_loop tid (s.blocks block)._key._end
            (!((s.withNextBudget tid).profiles tid).first || s.KnobEmitFirstSlice)
            s.block_map s.blocks 0 []).2.1
          rw [(withNextBudget_profile t tid).1, (withNextBudget_profile s tid).1, hemit, h.key,
            h.block_map]
          exact hloop.1
        have hclose : t.closingMarker (t.blocks block)._key._end
              ((t.withNextBudget tid).markerCount (t.blocks block)._key._end tid)
              (t.blocks block)._imgId tid =
            s.closingMarker (s.blocks block)._key._end
              ((s.withNextBudget tid).markerCount (s.blocks block)._key._end tid)
              (s.blocks block)._imgId tid := by
          rw [hmark]
          unfold ISIMPOINT.closingMarker
          rw [h.active, h.noSymbolic, h.key, h.imgId,
            EmitSliceStartInfo_congr s t h.img_manager]
        rw [hpre, hclose, hemit, h.gic, h.budget, h.timer, hbody, hbodys]
        refine List.rel_append (List.rel_append (List.rel_append (List.rel_append
          (List.Forall₂.imp hcongr h.lines) (LinesRel_refl _ _ _ (preamble_plain s tid _)))
          (LinesRel_refl _ _ [Line.SliceEnding _] (fun a ha => by
            rw [List.mem_singleton] at ha
            rw [ha]
            rfl))) ?_)
          (LinesRel_refl _ _ _ (closingMarker_plain s _ _ _ tid))
        split_ifs
        · exact List.Forall₂.cons (hcongr _ _ hloop.2.1) List.Forall₂.nil
        · exact List.Forall₂.nil }

theorem ModeRel_onBlockExecuted (s t : ISIMPOINT) (tid block : Nat) (h : ModeRel s t tid) :
    ∃ s1 t1, s.onBlockExecuted block tid = some s1 ∧
      t.onBlockExecuted block tid = some t1 ∧ ModeRel s1 t1 tid := by
  obtain ⟨s1, t1, fire, hs, ht, hrel⟩ := ModeRel_countIf s t tid block h
  cases fire
  · refine ⟨s1, t1, ?_, ?_, hrel⟩
    · simp [ISIMPOINT.onBlockExecuted, hs]
    · simp [ISIMPOINT.onBlockExecuted, ht]
  · refine ⟨s1.CountBlock_Then block tid, t1.CountBlock_Then block tid, ?_, ?_,
      ModeRel_CountBlock_Then s1 t1 tid block hrel⟩
    · simp [ISIMPOINT.onBlockExecuted, hs]
    · simp [ISIMPOINT.onBlockExecuted, ht]

theorem ModeRel_runThread (tid : Nat) (trace : List Nat) :
    ∀ s t : ISIMPOINT, ModeRel s t tid →
      ∃ s1 t1, s.runThread tid trace = some s1 ∧ t.runThread tid trace = some t1 ∧
        ModeRel s1 t1 tid := by
  induction trace with
  | nil => exact fun s t h => ⟨s, t, rfl, rfl, h⟩
  | cons block rest ih =>
    intro s t h
    obtain ⟨s1, t1, hs, ht, hrel⟩ := ModeRel_onBlockExecuted s t tid block h
    obtain ⟨s2, t2, hs2, ht2, hrel2⟩ := ih s1 t1 hrel
    refine ⟨s2, t2, ?_, ?_, hrel2⟩
    · simp only [ISIMPOINT.runThread, hs, Option.some_bind]
      exact hs2
    · simp only [ISIMPOINT.runThread, ht, Option.some_bind]
      exact ht2

/-- The forced last slice happens in both modes or in neither, and keeps
them in step. -/
theorem ModeRel_lastSlice (s t : ISIMPOINT) (tid : Nat) (h : ModeRel s t tid) :
    (s.lastSlice tid = none ∧ t.lastSlice tid = none) ∨
    ∃ s1 t1, s.lastSlice tid = some s1 ∧ t.lastSlice tid = some t1 ∧ ModeRel s1 t1 tid := by
  unfold ISIMPOINT.lastSlice
  rw [h.emitLast, h.timer, h.budget, h.last_block]
  split_ifs
  · cases hl : (s.profiles tid).last_block with
    | none => exact Or.inl ⟨rfl, rfl⟩
    | some b => exact Or.inr ⟨_, _, rfl, rfl, ModeRel_CountBlock_Then s t tid b h⟩
  · exact Or.inr ⟨s, t, rfl, rfl, h⟩

theorem ThreadFini_lastSlice (s : ISIMPOINT) (tid : Nat) :
    s.ThreadFini tid = (s.lastSlice tid).map fun s1 => s1.finishThread tid := rfl

theorem exampleModeRel : ModeRel exampleEngine exampleTracking 0 :=
  { plain := rfl
    tracking := rfl
    maxThreads := by decide
    nextId := by decide
    block_map := rfl
    commandLine := rfl
    img_manager := rfl
    sliceSize := rfl
    noSymbolic := rfl
    emitFirst := rfl
    emitLast := rfl
    static := fun _ => rfl
    key := fun _ => rfl
    imgId := fun _ => rfl
    slice := fun _ => rfl
    global := fun _ => rfl
    gic := rfl
    first_eip := rfl
    first := rfl
    active := rfl
    timer := rfl
    budget := rfl
    last_block := rfl
    length_queue := rfl
    executed := fun p hne => by
      exfalso
      apply hne
      match p with
      | 0 => rfl
      | 1 => rfl
      | _ + 2 => rfl
    lines := List.Forall₂.nil }

/-- C12: with previous-block tracking switched on or off, the same run of a
thread from states that agree produces streams that agree record by record
up to the block ids inside the slice bodies: every run succeeds in both
modes, the next executed block triggers a boundary in one mode exactly when
it does in the other, the cumulative counts reported at the boundaries and the end-marker
addresses are the same lists, the streams have the same length and every
slice body lists the same blocks (same address range, same static data)
with the same dynamic instruction counts in the same order; the counters
of every block agree afterwards, and the forced last slice happens in both
modes or in neither and keeps the agreement. -/
theorem C12_modes_agree_up_to_block_ids (s t : ISIMPOINT) (tid : Nat) (trace : List Nat)
    (h : ModeRel s t tid) :
    ∃ s1 t1, s.runThread tid trace = some s1 ∧ t.runThread tid trace = some t1 ∧
      ModeRel s1 t1 tid ∧
      sliceEndings (t1.profiles tid).BbFile = sliceEndings (s1.profiles tid).BbFile ∧
      markerAddresses (t1.profiles tid).BbFile = markerAddresses (s1.profiles tid).BbFile ∧
      (t1.profiles tid).BbFile.length = (s1.profiles tid).BbFile.length ∧
      List.Forall₂ (LineRel (fun p => (s1.blocks p)._id) (fun p => (t1.blocks p)._id))
        (s1.profiles tid).BbFile (t1.profiles tid).BbFile ∧
      (∀ p, (t1.blocks p)._key = (s1.blocks p)._key ∧
        (t1.blocks p)._sliceBlockCount tid = (s1.blocks p)._sliceBlockCount tid ∧
        (t1.blocks p)._globalBlockCount tid = (s1.blocks p)._globalBlockCount tid) ∧
      (∀ block, (t1.countIf block tid).map Prod.snd = (s1.countIf block tid).map Prod.snd) ∧
      ((s1.lastSlice tid = none ∧ t1.lastSlice tid = none) ∨
        ∃ s2 t2, s1.lastSlice tid = some s2 ∧ t1.lastSlice tid = some t2 ∧
          ModeRel s2 t2 tid ∧
          sliceEndings (t2.profiles tid).BbFile = sliceEndings (s2.profiles tid).BbFile ∧
          markerAddresses (t2.profiles tid).BbFile =
            markerAddresses (s2.profiles tid).BbFile) := by
  obtain ⟨s1, t1, hs, ht, hrel⟩ := ModeRel_runThread tid trace s t h
  have hr := LinesRel_readings _ _ _ _ hrel.lines
  refine ⟨s1, t1, hs, ht, hrel, hr.1.symm, hr.2.1.symm, hr.2.2.2.symm, hrel.lines,
    fun p => ⟨hrel.key p, hrel.slice p, hrel.global p⟩, ?_, ?_⟩
  · intro block
    obtain ⟨s2, t2, fire, hs2, ht2, _⟩ := ModeRel_countIf s1 t1 tid block hrel
    rw [hs2, ht2]
    rfl
  rcases ModeRel_lastSlice s1 t1 tid hrel with hnone | ⟨s2, t2, hs2, ht2, hrel2⟩
  · exact Or.inl hnone
  · have hr2 := LinesRel_readings _ _ _ _ hrel2.lines
    exact Or.inr ⟨s2, t2, hs2, ht2, hrel2, hr2.1.symm, hr2.2.1.symm⟩

/-- The example engine and its tracking twin agree at the start, hence after
thread 0 has run blocks 0, 1, 0, 2. -/
theorem C12_modes_agree_up_to_block_ids_witness :
    ModeRel exampleEngine exampleTracking 0 ∧
    ∃ s1 t1, exampleEngine.runThread 0 [0, 1, 0, 2] = some s1 ∧
      exampleTracking.runThread 0 [0, 1, 0, 2] = some t1 ∧
      ModeRel s1 t1 0 ∧
      sliceEndings (t1.profiles 0).BbFile = sliceEndings (s1.profiles 0).BbFile ∧
      markerAddresses (t1.profiles 0).BbFile = markerAddresses (s1.profiles 0).BbFile ∧
      (t1.profiles 0).BbFile.length = (s1.profiles 0).BbFile.length ∧
      List.Forall₂ (LineRel (fun p => (s1.blocks p)._id) (fun p => (t1.blocks p)._id))
        (s1.profiles 0).BbFile (t1.profiles 0).BbFile ∧
      (∀ p, (t1.blocks p)._key = (s1.blocks p)._key ∧
        (t1.blocks p)._sliceBlockCount 0 = (s1.blocks p)._sliceBlockCount 0 ∧
        (t1.blocks p)._globalBlockCount 0 = (s1.blocks p)._globalBlockCount 0) ∧
      (∀ block, (t1.countIf block 0).map Prod.snd = (s1.countIf block 0).map Prod.snd) ∧
      ((s1.lastSlice 0 = none ∧ t1.lastSlice 0 = none) ∨
        ∃ s2 t2, s1.lastSlice 0 = some s2 ∧ t1.lastSlice 0 = some t2 ∧
          ModeRel s2 t2 0 ∧
          sliceEndings (t2.profiles 0).BbFile = sliceEndings (s2.profiles 0).BbFile ∧
          markerAddresses (t2.profiles 0).BbFile =
            markerAddresses (s2.profiles 0).BbFile) :=
  ⟨exampleModeRel, C12_modes_agree_up_to_block_ids exampleEngine exampleTracking 0 [0, 1, 0, 2]
    exampleModeRel⟩

/-! ### Every execution is reported in one slice body -/

theorem runThreadToEnd_cons (s : ISIMPOINT) (tid b : Nat) (rest : List Nat) :
    s.runThreadToEnd tid (b :: rest) =
      (s.onBlockExecuted b tid).bind fun s1 => s1.runThreadToEnd tid rest := by
  unfold ISIMPOINT.runThreadToEnd
  simp only [ISIMPOINT.runThread]
  cases s.onBlockExecuted b tid with
  | none => rfl
  | some s1 => rfl

theorem filter_isT_plain (l : List Line) (h : ∀ a ∈ l, a.isT = false) :
    l.filter Line.isT = [] := by
  rw [List.filter_eq_nil_iff]
  intro a ha
  rw [h a ha]
  exact Bool.false_ne_true

/-- A boundary that emits adds one slice body to the stream: the pairs of
the blocks of the map in the state the `If` routine has left. -/
theorem CountBlock_Then_filter_isT (s : ISIMPOINT) (block tid : Nat) (hnd : s.pointers.Nodup)
    (hemit : (!(s.profiles tid).first || s.KnobEmitFirstSlice) = true) :
    ((s.CountBlock_Then block tid).profiles tid).BbFile.filter Line.isT =
      (s.profiles tid).BbFile.filter Line.isT ++ [Line.T (s.sliceBody tid)] := by
  have hbody : (s.withNextBudget tid).loopBody (s.blocks block)._key._end tid =
      s.sliceBody tid := by
    have h := (EmitSliceEnd_loop_emit tid (s.blocks block)._key._end s.block_map s.blocks 0 []
      hnd).2
    simp only [List.nil_append] at h
    unfold ISIMPOINT.loopBody ISIMPOINT.sliceBody ISIMPOINT.pointers
    rw [(withNextBudget_profile s tid).1]
    show (ISIMPOINT.EmitSliceEnd_loop tid _ (!(s.profiles tid).first || s.KnobEmitFirstSlice)
      s.block_map s.blocks 0 []).2.2 = _
    rw [hemit]
    exact h
  rw [CountBlock_Then_BbFile_general, if_pos hemit, hbody]
  simp only [List.filter_append, filter_isT_plain _ (preamble_plain s tid _),
    filter_isT_plain _ (closingMarker_plain s _ _ _ tid), List.append_nil]
  have h1 : ∀ n : Int, [Line.SliceEnding n].filter Line.isT = [] := fun _ => rfl
  have h2 : ∀ pairs, [Line.T pairs].filter Line.isT = [Line.T pairs] := fun _ => rfl
  rw [h1, h2, List.append_nil]

theorem finishThread_filter_isT (s : ISIMPOINT) (tid : Nat) :
    ((s.finishThread tid).profiles tid).BbFile.filter Line.isT =
      (s.profiles tid).BbFile.filter Line.isT := by
  obtain ⟨extra, h1, h2⟩ := finishThread_BbFile s tid
  rw [h1, List.filter_append, filter_isT_plain extra (fun a ha => (h2 a ha).1),
    List.append_nil]

/-- When the products are representable, the counts of the pairs that a
block writes at a slice end add up to its static count times its pending
executions. -/
theorem pairsTotal_EmitSliceEnd (s : ISIMPOINT) (tid p : Nat)
    (hfit : s.productsFit tid = true) (hp : p ∈ s.pointers) :
    pairsTotal ((s.blocks p).EmitSliceEnd tid).1 =
      (s.blocks p)._staticInstructionCount * (s.blocks p)._sliceBlockCount tid := by
  obtain ⟨h1, h2⟩ := (productsFit_iff s tid).mp hfit p hp
  rw [BLOCK_EmitSliceEnd_fst, wrapINT32_of_fits _ h1 h2]
  by_cases h0 : (s.blocks p)._sliceBlockCount tid = 0
  · rw [if_pos h0, h0]
    simp [pairsTotal]
  · rw [if_neg h0, Int.mul_comm]
    simp [pairsTotal]

/-- The slice bodies of a run to thread end, block by block: the run
returns, the slice bodies it has added to the stream are those of the states
of `sliceEnds`, in order, and the counts of the pairs that a block of the map
writes in them add up to its static count times its executions, those
pending at the start included. -/
theorem sliceEnds_spec (tid : Nat) (rest : List Nat) :
    ∀ (s : ISIMPOINT) (pre : List Nat), SliceInv s tid pre →
      (∀ b ∈ rest, b ∈ s.pointers) → s.noOverflow tid rest = true →
      s.KnobEmitLastSlice = true →
      ∃ s1, s.runThreadToEnd tid rest = some s1 ∧
        (s1.profiles tid).BbFile.filter Line.isT =
          (s.profiles tid).BbFile.filter Line.isT ++
            (s.sliceEnds tid rest).map (fun st => Line.T (st.sliceBody tid)) ∧
        ∀ p ∈ s.pointers,
          ((s.sliceEnds tid rest).map fun st =>
            pairsTotal ((st.blocks p).EmitSliceEnd tid).1).sum =
          (s.blocks p)._staticInstructionCount *
            ((rest.count p : Int) + (s.blocks p)._sliceBlockCount tid) := by
  induction rest with
  | nil =>
    intro s pre inv _ hfit hlast
    have hemit : (!(s.profiles tid).first || s.KnobEmitFirstSlice) = true := by
      simp [inv.emitFirst]
    have hrun : s.runThreadToEnd tid [] = s.ThreadFini tid := rfl
    rw [hrun, ThreadFini_eq]
    by_cases hne : (s.profiles tid).SliceTimer = (s.profiles tid).CurrentSliceSize
    · rw [if_neg (fun h => h.2 hne)]
      have hends : s.sliceEnds tid [] = [] := by
        simp only [ISIMPOINT.sliceEnds]
        rw [if_neg (fun h => h.2.1 hne)]
      refine ⟨_, rfl, ?_, ?_⟩
      · rw [hends, finishThread_filter_isT]
        simp
      · intro p hp
        rw [hends, inv.timerEq hne p hp]
        simp
    · rw [if_pos ⟨hlast, hne⟩]
      have hends : s.sliceEnds tid [] = [s] := by
        simp only [ISIMPOINT.sliceEnds]
        rw [if_pos ⟨hlast, hne, inv.timerLt hne, hemit⟩]
      have hprod : s.productsFit tid = true := by
        simp only [ISIMPOINT.noOverflow] at hfit
        rw [if_pos ⟨hlast, hne, inv.timerLt hne, hemit⟩] at hfit
        exact hfit
      cases hlb : (s.profiles tid).last_block with
      | none => exact absurd hlb (inv.timerLt hne)
      | some b =>
        refine ⟨_, rfl, ?_, ?_⟩
        · rw [hends, finishThread_filter_isT, CountBlock_Then_filter_isT s b tid inv.nodup hemit]
          rfl
        · intro p hp
          rw [hends]
          simp only [List.map_cons, List.map_nil, List.sum_cons, List.sum_nil, add_zero,
            List.count_nil, Nat.cast_zero, zero_add]
          exact pairsTotal_EmitSliceEnd s tid p hprod hp
  | cons b rest ih =>
    intro s pre inv hmem hfit hlast
    have hb : b ∈ s.pointers := hmem b (List.mem_cons_self _ _)
    simp only [ISIMPOINT.noOverflow, Bool.and_eq_true, decide_eq_true_eq] at hfit
    obtain ⟨hcnt, hrest⟩ := hfit
    obtain ⟨s1, heq, hcfg, inv1, -, hsl1, hout1⟩ := SliceInv_countIf s b tid pre inv hb hcnt
    have hptr : s1.pointers = s.pointers := pointers_eq _ _ hcfg.block_map
    have hemit1 : (!(s1.profiles tid).first || s1.KnobEmitFirstSlice) = true := by
      simp [inv1.emitFirst]
    have hcons : ∀ p, ((b :: rest).count p : Int) =
        (if p = b then 1 else 0) + (rest.count p : Int) := by
      intro p
      rw [List.count_cons]
      by_cases hp : p = b
      · subst hp
        simp
        ring
      · have : ¬ (b == p) = true := by
          simp only [beq_iff_eq]
          exact fun h => hp h.symm
        simp [hp, this]
    rw [runThreadToEnd_cons]
    by_cases hneg : (s.profiles tid).SliceTimer - (s.blocks b)._staticInstructionCount < 0
    · rw [decide_eq_true hneg] at heq
      rw [heq] at hrest
      simp only [hemit1, if_true, Bool.and_eq_true] at hrest
      obtain ⟨inv2, hz2⟩ := SliceInv_CountBlock_Then s1 b tid _ inv1 hrest.1
      have hcfg2 := SameConfig.trans hcfg (CountBlock_Then_sameConfig s1 b tid)
      have hptr2 : (s1.CountBlock_Then b tid).pointers = s.pointers :=
        pointers_eq _ _ hcfg2.block_map
      obtain ⟨s3, heq3, hT3, hsum3⟩ := ih (s1.CountBlock_Then b tid) (pre ++ [b]) inv2
        (fun x hx => by
          rw [hptr2]
          exact hmem x (List.mem_cons_of_mem _ hx))
        hrest.2 (by rw [hcfg2.emitLast]; exact hlast)
      have hends : s.sliceEnds tid (b :: rest) =
          s1 :: (s1.CountBlock_Then b tid).sliceEnds tid rest := by
        simp only [ISIMPOINT.sliceEnds, heq, hemit1, if_true]
        rfl
      refine ⟨s3, ?_, ?_, ?_⟩
      · simp only [ISIMPOINT.onBlockExecuted, heq, Option.map_some', if_true,
          Option.some_bind]
        exact heq3
      · rw [hT3, CountBlock_Then_filter_isT s1 b tid inv1.nodup hemit1, hout1, hends]
        simp
      · intro p hp
        rw [hends, List.map_cons, List.sum_cons,
          hsum3 p (by rw [hptr2]; exact hp), hz2 p (by rw [hptr]; exact hp),
          pairsTotal_EmitSliceEnd s1 tid p hrest.1 (by rw [hptr]; exact hp), hsl1,
          hcfg.static, hcfg2.static, hcons]
        ring
    · rw [decide_eq_false hneg] at heq
      rw [heq] at hrest
      simp only at hrest
      obtain ⟨s3, heq3, hT3, hsum3⟩ := ih s1 (pre ++ [b]) inv1
        (fun x hx => by
          rw [hptr]
          exact hmem x (List.mem_cons_of_mem _ hx))
        hrest (by rw [hcfg.emitLast]; exact hlast)
      have hends : s.sliceEnds tid (b :: rest) = s1.sliceEnds tid rest := by
        simp only [ISIMPOINT.sliceEnds, heq]
      refine ⟨s3, ?_, ?_, ?_⟩
      · simp only [ISIMPOINT.onBlockExecuted, heq, Option.map_some', Bool.false_eq_true,
          if_false, Option.some_bind]
        exact heq3
      · rw [hT3, hout1, hends]
      · intro p hp
        rw [hends, hsum3 p (by rw [hptr]; exact hp), hsl1, hcfg.static, hcons]
        ring


/-- The states of `sliceEnds` have the block map of the start, so their slice
body is the concatenation, over the blocks of that map, of the pairs each
block writes. -/
theorem sliceEnds_pointers (tid : Nat) (rest : List Nat) :
    ∀ (s st : ISIMPOINT), (s.KnobEmitPrevBlockCounts = true → tid < s.PIN_MAX_THREADS) →
      st ∈ s.sliceEnds tid rest →
      st.sliceBody tid = s.pointers.flatMap fun p => ((st.blocks p).EmitSliceEnd tid).1 := by
  induction rest with
  | nil =>
    intro s st _ hst
    simp only [ISIMPOINT.sliceEnds] at hst
    split_ifs at hst
    · rw [List.mem_singleton] at hst
      rw [hst]
      rfl
    · cases hst
  | cons b rest ih =>
    intro s st hok hst
    obtain ⟨s1, heq, cfg, -⟩ := countIf_spec s b tid hok
    have hptr : s1.pointers = s.pointers := pointers_eq _ _ cfg.block_map
    have hok1 : s1.KnobEmitPrevBlockCounts = true → tid < s1.PIN_MAX_THREADS := by
      rw [cfg.prevCounts, cfg.maxThreads]
      exact hok
    simp only [ISIMPOINT.sliceEnds, heq] at hst
    by_cases hneg : (s.profiles tid).SliceTimer - (s.blocks b)._staticInstructionCount < 0
    · rw [decide_eq_true hneg] at hst
      simp only [List.mem_append] at hst
      rcases hst with h | h
      · split_ifs at h
        · rw [List.mem_singleton] at h
          rw [h, ← hptr]
          rfl
        · cases h
      · have cfg2 := CountBlock_Then_sameConfig s1 b tid
        have := ih (s1.CountBlock_Then b tid) st (by
          rw [cfg2.prevCounts, cfg2.maxThreads]
          exact hok1) h
        rw [pointers_eq _ _ cfg2.block_map, hptr] at this
        exact this
    · rw [decide_eq_false hneg] at hst
      simp only at hst
      rw [← hptr]
      exact ih s1 st hok1 hst

theorem filter_isT_of_no_T (out : List Line) (h : ∀ l ∈ out, ∀ pairs, l ≠ Line.T pairs) :
    out.filter Line.isT = [] := by
  apply filter_isT_plain
  intro a ha
  cases a with
  | T pairs => exact absurd rfl (h _ ha pairs)
  | _ => rfl

/-- C1: thread `tid` starts with an empty pending state (counter equal to
the budget, all its per-slice counters zero, no slice body written yet), the
first and the last slice are emitted, static counts are positive, the
executed blocks are blocks of the map, and no 32-bit value overflows during
the run.  With previous-block tracking the thread is below the maximum and
its next id is at least 1; the ids that other threads have already given to
blocks are arbitrary.  Then the run followed by thread end returns a state
such that:
the slice bodies in the stream of the thread are those written in the states
of `sliceEnds`, in order, each the concatenation over the blocks of the map
of the pairs the block writes, and for every block of the map the counts of
the pairs it writes in them add up to its static count times the number of
its executions;
every id that was set at the start is unchanged (every id, when ids are
assigned at creation);
read by id, the counts reported under an id over all slice bodies add up to
the static count times the executions, summed over the blocks of the map
that hold the id at the end; so for every block of the map whose id is held
by no other block that the thread has executed, the counts reported under
its id add up to its static count times the number of its executions. -/
theorem C1_slice_bodies_account_for_every_execution (s : ISIMPOINT) (tid : Nat)
    (trace : List Nat)
    (hfirst : s.KnobEmitFirstSlice = true) (hlast : s.KnobEmitLastSlice = true)
    (hnd : s.pointers.Nodup)
    (hstatic : ∀ p ∈ s.pointers, 0 < (s.blocks p)._staticInstructionCount)
    (htrace : ∀ b ∈ trace, b ∈ s.pointers)
    (htimer : (s.profiles tid).SliceTimer = (s.profiles tid).CurrentSliceSize)
    (hslice : ∀ p ∈ s.pointers, (s.blocks p)._sliceBlockCount tid = 0)
    (hout : ∀ l ∈ (s.profiles tid).BbFile, ∀ pairs, l ≠ Line.T pairs)
    (htrack : s.KnobEmitPrevBlockCounts = true →
      tid < s.PIN_MAX_THREADS ∧ 1 ≤ s._currentId tid)
    (hfit : s.noOverflow tid trace = true) :
    ∃ s1, s.runThreadToEnd tid trace = some s1 ∧ s1.pointers = s.pointers ∧
      (s1.profiles tid).BbFile.filter Line.isT =
        (s.sliceEnds tid trace).map (fun st => Line.T (st.sliceBody tid)) ∧
      (∀ st ∈ s.sliceEnds tid trace,
        st.sliceBody tid = s.pointers.flatMap fun p => ((st.blocks p).EmitSliceEnd tid).1) ∧
      (∀ p ∈ s.pointers,
        ((s.sliceEnds tid trace).map fun st =>
          pairsTotal ((st.blocks p).EmitSliceEnd tid).1).sum =
        (s.blocks p)._staticInstructionCount * (trace.count p : Int)) ∧
      (∀ p, s.KnobEmitPrevBlockCounts = false ∨ (s.blocks p)._id ≠ 0 →
        (s1.blocks p)._id = (s.blocks p)._id) ∧
      (∀ i : Int,
        emittedCount i (s1.profiles tid).BbFile =
          (s.pointers.map fun p =>
            if (s1.blocks p)._id = i then
              (s.blocks p)._staticInstructionCount * (trace.count p : Int)
            else 0).sum) ∧
      ∀ p ∈ s.pointers,
        (∀ q ∈ s.pointers, (s1.blocks q)._id = (s1.blocks p)._id → q ≠ p →
          trace.count q = 0) →
        emittedCount (s1.blocks p)._id (s1.profiles tid).BbFile =
          (s.blocks p)._staticInstructionCount * (trace.count p : Int) := by
  have inv0 : SliceInv s tid [] := by
    constructor
    · exact hfirst
    · exact hnd
    · exact hstatic
    · intro i
      rw [emittedCount_eq_zero _ _ hout]
      symm
      apply sum_map_eq_zero
      intro p hp
      rw [hslice p hp]
      simp
    · intro p hp
      rw [hslice p hp]
      simp
    · rw [htimer]
    · exact fun _ => hslice
    · exact fun h => absurd htimer h
    · intro hk
      obtain ⟨h1, h2⟩ := htrack hk
      exact ⟨h1, h2, fun _ _ _ => rfl⟩
  obtain ⟨s1, hrun, hcfg, inv1, hfit1, hkeep⟩ :=
    SliceInv_runThread tid trace s [] inv0 htrace hfit
  have hptr : s1.pointers = s.pointers := pointers_eq _ _ hcfg.block_map
  simp only [List.nil_append] at inv1
  obtain ⟨s2, hfini, hptr2, hid2, hsum⟩ := SliceInv_ThreadFini s1 tid trace inv1
    (by rw [hcfg.emitLast]; exact hlast) hfit1
  have hrun2 : s.runThreadToEnd tid trace = some s2 := by
    simp only [ISIMPOINT.runThreadToEnd, hrun, Option.some_bind]
    exact hfini
  obtain ⟨s3, hrun3, hT, hP⟩ := sliceEnds_spec tid trace s [] inv0 htrace hfit hlast
  have h23 : s3 = s2 := by
    rw [hrun2] at hrun3
    exact (Option.some.inj hrun3).symm
  rw [h23] at hT
  have hall : ∀ i : Int,
      emittedCount i (s2.profiles tid).BbFile =
        (s.pointers.map fun p =>
          if (s2.blocks p)._id = i then
            (s.blocks p)._staticInstructionCount * (trace.count p : Int)
          else 0).sum := by
    intro i
    rw [hsum i, hptr]
    congr 1
    apply List.map_congr_left
    intro p _
    rw [hid2, hcfg.static]
  refine ⟨s2, hrun2, hptr2.trans hptr, ?_, ?_, ?_, fun p hp => (hid2 p).trans (hkeep p hp),
    hall, ?_⟩
  · rw [hT, filter_isT_of_no_T _ hout, List.nil_append]
  · intro st hst
    exact sliceEnds_pointers tid trace s st (fun hk => (htrack hk).1) hst
  · intro p hp
    rw [hP p hp, hslice p hp, add_zero]
  · intro p hp huniq
    rw [hall, sum_map_eq_single s.pointers _ p hnd hp]
    · rw [if_pos rfl]
    · intro q hq hqp
      split_ifs with h
      · rw [huniq q hq h hqp]
        simp
      · rfl

theorem C1_slice_bodies_account_for_every_execution_witness :
    ∃ s1, exampleTrackingLater.runThreadToEnd 1 [1, 2, 1] = some s1 ∧
      s1.pointers = exampleTrackingLater.pointers ∧
      (s1.profiles 1).BbFile.filter Line.isT =
        (exampleTrackingLater.sliceEnds 1 [1, 2, 1]).map (fun st => Line.T (st.sliceBody 1)) ∧
      (∀ st ∈ exampleTrackingLater.sliceEnds 1 [1, 2, 1],
        st.sliceBody 1 =
          exampleTrackingLater.pointers.flatMap fun p => ((st.blocks p).EmitSliceEnd 1).1) ∧
      (∀ p ∈ exampleTrackingLater.pointers,
        ((exampleTrackingLater.sliceEnds 1 [1, 2, 1]).map fun st =>
          pairsTotal ((st.blocks p).EmitSliceEnd 1).1).sum =
        (exampleTrackingLater.blocks p)._staticInstructionCount *
          (([1, 2, 1] : List Nat).count p : Int)) ∧
      (∀ p, exampleTrackingLater.KnobEmitPrevBlockCounts = false ∨
          (exampleTrackingLater.blocks p)._id ≠ 0 →
        (s1.blocks p)._id = (exampleTrackingLater.blocks p)._id) ∧
      (∀ i : Int,
        emittedCount i (s1.profiles 1).BbFile =
          (exampleTrackingLater.pointers.map fun p =>
            if (s1.blocks p)._id = i then
              (exampleTrackingLater.blocks p)._staticInstructionCount *
                (([1, 2, 1] : List Nat).count p : Int)
            else 0).sum) ∧
      ∀ p ∈ exampleTrackingLater.pointers,
        (∀ q ∈ exampleTrackingLater.pointers, (s1.blocks q)._id = (s1.blocks p)._id → q ≠ p →
          ([1, 2, 1] : List Nat).count q = 0) →
        emittedCount (s1.blocks p)._id (s1.profiles 1).BbFile =
          (exampleTrackingLater.blocks p)._staticInstructionCount *
            (([1, 2, 1] : List Nat).count p : Int) :=
  C1_slice_bodies_account_for_every_execution exampleTrackingLater 1 [1, 2, 1]
    (by decide) (by decide) (by decide) (by decide) (by decide) (by decide) (by decide)
    (fun l hl => absurd hl (List.not_mem_nil l)) (by decide) (by decide)

/-! ### The loop tracker -/

/-- The run of the tracker against the visits read off the events, from any
state that is consistent with the events seen so far. -/
theorem LoopInfo_run_visits (events : List LoopEvent) :
    ∀ (li : LoopInfo) (count : Nat) (current : Option (Nat × Nat)),
      li.entryCounter = count → count + events.length < UINT64_MOD →
      li.startCounter ≤ li.endCounter → li.endCounter ≤ count →
      (match current with
        | none => li.insideLoop = false
        | some (f, k) => li.insideLoop = true ∧ li.tempEntryCounter = f ∧ count + 1 = f + k ∧
            1 ≤ k) →
      (∀ v ∈ loopVisits count current events,
        v.executions - 1 ≤ (li.run events).endCounter - (li.run events).startCounter) ∧
      li.endCounter - li.startCounter ≤
        (li.run events).endCounter - (li.run events).startCounter ∧
      (li.run events).startCounter ≤ (li.run events).endCounter ∧
      (((li.run events).startCounter = li.startCounter ∧
          (li.run events).endCounter = li.endCounter) ∨
        ∃ v ∈ loopVisits count current events,
          (li.run events).startCounter = v.first ∧ (li.run events).endCounter = v.last ∧
            v.last + 1 = v.first + v.executions ∧ 2 ≤ v.executions) := by
  induction events with
  | nil =>
    intro li count current _ _ hse _ _
    refine ⟨?_, le_refl _, hse, Or.inl ⟨rfl, rfl⟩⟩
    intro v hv
    simp [loopVisits] at hv
  | cons e rest ih =>
    intro li count current hc hlen hse hec hcur
    simp only [List.length_cons] at hlen
    cases e with
    | enter =>
      have hmod : (li.entryCounter + 1) % UINT64_MOD = count + 1 := by
        rw [hc]
        exact Nat.mod_eq_of_lt (by omega)
      cases current with
      | none =>
        simp only at hcur
        have hstep : LoopEvent.apply li LoopEvent.enter =
            { li with entryCounter := count + 1, tempEntryCounter := count + 1,
                      insideLoop := true } := by
          simp [LoopEvent.apply, LOOP_TRACKER.enterLoop, hcur, hmod]
        have h := ih (LoopEvent.apply li LoopEvent.enter) (count + 1) (some (count + 1, 1))
          (by rw [hstep]) (by omega) (by rw [hstep]; exact hse) (by rw [hstep]; simp only; omega)
          (by rw [hstep]; exact ⟨rfl, rfl, rfl, le_refl _⟩)
        simp only [LoopInfo.run, List.foldl_cons, loopVisits] at h ⊢
        rw [hstep] at h ⊢
        exact h
      | some fk =>
        obtain ⟨f, k⟩ := fk
        simp only at hcur
        have hstep : LoopEvent.apply li LoopEvent.enter =
            { li with entryCounter := count + 1 } := by
          simp [LoopEvent.apply, LOOP_TRACKER.enterLoop, hcur.1, hmod]
        have h := ih (LoopEvent.apply li LoopEvent.enter) (count + 1) (some (f, k + 1))
          (by rw [hstep]) (by omega) (by rw [hstep]; exact hse) (by rw [hstep]; simp only; omega)
          (by rw [hstep]; exact ⟨hcur.1, hcur.2.1, by omega, by omega⟩)
        simp only [LoopInfo.run, List.foldl_cons, loopVisits] at h ⊢
        rw [hstep] at h ⊢
        exact h
    | exitSink =>
      cases current with
      | none =>
        simp only at hcur
        have hstep : LoopEvent.apply li LoopEvent.exitSink = li := by
          simp [LoopEvent.apply, LOOP_TRACKER.enterLoopExitSink, hcur]
        have h := ih li count none hc (by omega) hse hec hcur
        simp only [LoopInfo.run, List.foldl_cons, loopVisits] at h ⊢
        rw [hstep]
        exact h
      | some fk =>
        obtain ⟨f, k⟩ := fk
        simp only at hcur
        obtain ⟨hin, htemp, hfk, hk⟩ := hcur
        have hd1 : (li.endCounter + UINT64_MOD - li.startCounter) % UINT64_MOD =
            li.endCounter - li.startCounter := by
          simp only [UINT64_MOD] at *
          omega
        have hd2 : (li.entryCounter + UINT64_MOD - li.tempEntryCounter) % UINT64_MOD =
            k - 1 := by
          simp only [UINT64_MOD] at *
          omega
        by_cases hlt : li.endCounter - li.startCounter < k - 1
        · have hstep : LoopEvent.apply li LoopEvent.exitSink =
              { li with insideLoop := false, startCounter := f, endCounter := count,
                        startEntrySourceInfo := li.lastEntrySourceInfo } := by
            rw [← htemp, ← hc]
            simp [LoopEvent.apply, LOOP_TRACKER.enterLoopExitSink, hin, hd1, hd2, hlt]
          have h := ih (LoopEvent.apply li LoopEvent.exitSink) count none
            (by rw [hstep]; exact hc) (by omega) (by rw [hstep]; simp only; omega)
            (by rw [hstep]) (by rw [hstep])
          simp only [LoopInfo.run, List.foldl_cons, loopVisits] at h ⊢
          rw [hstep] at h ⊢
          simp only at h
          obtain ⟨h1, h2, h3, h4⟩ := h
          refine ⟨?_, by omega, h3, ?_⟩
          · intro v hv
            rcases List.mem_cons.mp hv with rfl | hv
            · simp only
              omega
            · exact h1 v hv
          · rcases h4 with ⟨e1, e2⟩ | ⟨v, hv, e⟩
            · exact Or.inr ⟨⟨f, count, k⟩, List.mem_cons_self _ _, e1, e2, by simp only; omega,
                by simp only; omega⟩
            · exact Or.inr ⟨v, List.mem_cons_of_mem _ hv, e⟩
        · have hstep : LoopEvent.apply li LoopEvent.exitSink =
              { li with insideLoop := false } := by
            simp [LoopEvent.apply, LOOP_TRACKER.enterLoopExitSink, hin, hd1, hd2, hlt]
          have h := ih (LoopEvent.apply li LoopEvent.exitSink) count none
            (by rw [hstep]; exact hc) (by omega) (by rw [hstep]; exact hse)
            (by rw [hstep]; exact hec) (by rw [hstep])
          simp only [LoopInfo.run, List.foldl_cons, loopVisits] at h ⊢
          rw [hstep] at h ⊢
          simp only at h
          obtain ⟨h1, h2, h3, h4⟩ := h
          refine ⟨?_, h2, h3, ?_⟩
          · intro v hv
            rcases List.mem_cons.mp hv with rfl | hv
            · simp only
              omega
            · exact h1 v hv
          · rcases h4 with h4 | ⟨v, hv, e⟩
            · exact Or.inl h4
            · exact Or.inr ⟨v, List.mem_cons_of_mem _ hv, e⟩
    | entrySource bi =>
      have hstep : LoopEvent.apply li (LoopEvent.entrySource bi) =
          { li with lastEntrySourceInfo := some bi } := rfl
      have h := ih (LoopEvent.apply li (LoopEvent.entrySource bi)) count current
        (by rw [hstep]; exact hc) (by omega) (by rw [hstep]; exact hse)
        (by rw [hstep]; exact hec)
        (by
          rw [hstep]
          cases current with
          | none => exact hcur
          | some fk => exact hcur)
      simp only [LoopInfo.run, List.foldl_cons] at h ⊢
      rw [hstep] at h ⊢
      have hv : loopVisits count current (LoopEvent.entrySource bi :: rest) =
          loopVisits count current rest := by
        cases current with
        | none => rfl
        | some fk => rfl
      rw [hv]
      exact h

/-- Every completed visit read off the events has executed the entry block
at least once, and its `last` value is its `first` value plus the further
executions. -/
theorem loopVisits_wf (events : List LoopEvent) :
    ∀ (count : Nat) (current : Option (Nat × Nat)),
      (∀ f k, current = some (f, k) → count + 1 = f + k ∧ 1 ≤ k) →
      ∀ v ∈ loopVisits count current events,
        1 ≤ v.executions ∧ v.last + 1 = v.first + v.executions := by
  induction events with
  | nil =>
    intro count current _ v hv
    simp [loopVisits] at hv
  | cons e rest ih =>
    intro count current hcur v hv
    cases e with
    | enter =>
      cases current with
      | none =>
        exact ih (count + 1) (some (count + 1, 1))
          (fun f k h => by
            simp only [Option.some.injEq, Prod.mk.injEq] at h
            omega) v hv
      | some fk =>
        obtain ⟨f, k⟩ := fk
        have := hcur f k rfl
        exact ih (count + 1) (some (f, k + 1))
          (fun f1 k1 h => by
            simp only [Option.some.injEq, Prod.mk.injEq] at h
            omega) v hv
    | exitSink =>
      cases current with
      | none => exact ih count none (fun f k h => by cases h) v hv
      | some fk =>
        obtain ⟨f, k⟩ := fk
        have := hcur f k rfl
        simp only [loopVisits] at hv
        rcases List.mem_cons.mp hv with rfl | hv
        · simp only
          omega
        · exact ih count none (fun f k h => by cases h) v hv
    | entrySource bi =>
      have hv1 : v ∈ loopVisits count current rest := by
        cases current with
        | none => exact hv
        | some fk => exact hv
      exact ih count current hcur v hv1

/-- The record kept by the tracker is that of the first visit whose
executions exceed everything before it: either the two counters are as they
were and no visit read off the events has more further executions than the
difference the record started with, or the visits split into those before a
visit `v`, all with fewer executions, `v` itself, and those after it, none
with more, and the counters are the `first` and `last` values of `v`. -/
theorem LoopInfo_run_first_longest (events : List LoopEvent) :
    ∀ (li : LoopInfo) (count : Nat) (current : Option (Nat × Nat)),
      li.entryCounter = count → count + events.length < UINT64_MOD →
      li.startCounter ≤ li.endCounter → li.endCounter ≤ count →
      (match current with
        | none => li.insideLoop = false
        | some (f, k) => li.insideLoop = true ∧ li.tempEntryCounter = f ∧ count + 1 = f + k ∧
            1 ≤ k) →
      (((li.run events).startCounter = li.startCounter ∧
          (li.run events).endCounter = li.endCounter ∧
          ∀ v ∈ loopVisits count current events,
            v.executions - 1 ≤ li.endCounter - li.startCounter) ∨
        ∃ (before : List LoopVisit) (v : LoopVisit) (after : List LoopVisit),
          loopVisits count current events = before ++ v :: after ∧
          (∀ u ∈ before, u.executions < v.executions) ∧
          (∀ u ∈ after, u.executions ≤ v.executions) ∧
          li.endCounter - li.startCounter < v.executions - 1 ∧
          (li.run events).startCounter = v.first ∧ (li.run events).endCounter = v.last ∧
          v.last + 1 = v.first + v.executions) := by
  induction events with
  | nil =>
    intro li count current _ _ hse _ _
    refine Or.inl ⟨rfl, rfl, ?_⟩
    intro v hv
    simp [loopVisits] at hv
  | cons e rest ih =>
    intro li count current hc hlen hse hec hcur
    simp only [List.length_cons] at hlen
    cases e with
    | enter =>
      have hmod : (li.entryCounter + 1) % UINT64_MOD = count + 1 := by
        rw [hc]
        exact Nat.mod_eq_of_lt (by omega)
      cases current with
      | none =>
        simp only at hcur
        have hstep : LoopEvent.apply li LoopEvent.enter =
            { li with entryCounter := count + 1, tempEntryCounter := count + 1,
                      insideLoop := true } := by
          simp [LoopEvent.apply, LOOP_TRACKER.enterLoop, hcur, hmod]
        have h := ih (LoopEvent.apply li LoopEvent.enter) (count + 1) (some (count + 1, 1))
          (by rw [hstep]) (by omega) (by rw [hstep]; exact hse) (by rw [hstep]; simp only; omega)
          (by rw [hstep]; exact ⟨rfl, rfl, rfl, le_refl _⟩)
        simp only [LoopInfo.run, List.foldl_cons, loopVisits] at h ⊢
        rw [hstep] at h ⊢
        exact h
      | some fk =>
        obtain ⟨f, k⟩ := fk
        simp only at hcur
        have hstep : LoopEvent.apply li LoopEvent.enter =
            { li with entryCounter := count + 1 } := by
          simp [LoopEvent.apply, LOOP_TRACKER.enterLoop, hcur.1, hmod]
        have h := ih (LoopEvent.apply li LoopEvent.enter) (count + 1) (some (f, k + 1))
          (by rw [hstep]) (by omega) (by rw [hstep]; exact hse) (by rw [hstep]; simp only; omega)
          (by rw [hstep]; exact ⟨hcur.1, hcur.2.1, by omega, by omega⟩)
        simp only [LoopInfo.run, List.foldl_cons, loopVisits] at h ⊢
        rw [hstep] at h ⊢
        exact h
    | exitSink =>
      cases current with
      | none =>
        simp only at hcur
        have hstep : LoopEvent.apply li LoopEvent.exitSink = li := by
          simp [LoopEvent.apply, LOOP_TRACKER.enterLoopExitSink, hcur]
        have h := ih li count none hc (by omega) hse hec hcur
        simp only [LoopInfo.run, List.foldl_cons, loopVisits] at h ⊢
        rw [hstep]
        exact h
      | some fk =>
        obtain ⟨f, k⟩ := fk
        simp only at hcur
        obtain ⟨hin, htemp, hfk, hk⟩ := hcur
        have hd1 : (li.endCounter + UINT64_MOD - li.startCounter) % UINT64_MOD =
            li.endCounter - li.startCounter := by
          simp only [UINT64_MOD] at *
          omega
        have hd2 : (li.entryCounter + UINT64_MOD - li.tempEntryCounter) % UINT64_MOD =
            k - 1 := by
          simp only [UINT64_MOD] at *
          omega
        by_cases hlt : li.endCounter - li.startCounter < k - 1
        · have hstep : LoopEvent.apply li LoopEvent.exitSink =
              { li with insideLoop := false, startCounter := f, endCounter := count,
                        startEntrySourceInfo := li.lastEntrySourceInfo } := by
            rw [← htemp, ← hc]
            simp [LoopEvent.apply, LOOP_TRACKER.enterLoopExitSink, hin, hd1, hd2, hlt]
          have h := ih (LoopEvent.apply li LoopEvent.exitSink) count none
            (by rw [hstep]; exact hc) (by omega) (by rw [hstep]; simp only; omega)
            (by rw [hstep]) (by rw [hstep])
          simp only [LoopInfo.run, List.foldl_cons, loopVisits] at h ⊢
          rw [hstep] at h ⊢
          simp only at h
          right
          rcases h with ⟨e1, e2, e3⟩ | ⟨before, v, after, hv, hb, ha, hd, e1, e2, e3⟩
          · refine ⟨[], ⟨f, count, k⟩, loopVisits count none rest, rfl, ?_, ?_, hlt, e1, e2, ?_⟩
            · intro u hu
              cases hu
            · intro u hu
              have := e3 u hu
              simp only
              omega
            · simp only
              omega
          · refine ⟨⟨f, count, k⟩ :: before, v, after, by rw [hv]; rfl, ?_, ha, by omega,
              e1, e2, e3⟩
            intro u hu
            rcases List.mem_cons.mp hu with rfl | hu
            · simp only
              omega
            · exact hb u hu
        · have hstep : LoopEvent.apply li LoopEvent.exitSink =
              { li with insideLoop := false } := by
            simp [LoopEvent.apply, LOOP_TRACKER.enterLoopExitSink, hin, hd1, hd2, hlt]
          have h := ih (LoopEvent.apply li LoopEvent.exitSink) count none
            (by rw [hstep]; exact hc) (by omega) (by rw [hstep]; exact hse)
            (by rw [hstep]; exact hec) (by rw [hstep])
          simp only [LoopInfo.run, List.foldl_cons, loopVisits] at h ⊢
          rw [hstep] at h ⊢
          simp only at h
          rcases h with ⟨e1, e2, e3⟩ | ⟨before, v, after, hv, hb, ha, hd, e1, e2, e3⟩
          · refine Or.inl ⟨e1, e2, ?_⟩
            intro u hu
            rcases List.mem_cons.mp hu with rfl | hu
            · simp only
              omega
            · exact e3 u hu
          · refine Or.inr ⟨⟨f, count, k⟩ :: before, v, after, by rw [hv]; rfl, ?_, ha, hd,
              e1, e2, e3⟩
            intro u hu
            rcases List.mem_cons.mp hu with rfl | hu
            · simp only
              omega
            · exact hb u hu
    | entrySource bi =>
      have hstep : LoopEvent.apply li (LoopEvent.entrySource bi) =
          { li with lastEntrySourceInfo := some bi } := rfl
      have h := ih (LoopEvent.apply li (LoopEvent.entrySource bi)) count current
        (by rw [hstep]; exact hc) (by omega) (by rw [hstep]; exact hse)
        (by rw [hstep]; exact hec)
        (by
          rw [hstep]
          cases current with
          | none => exact hcur
          | some fk => exact hcur)
      simp only [LoopInfo.run, List.foldl_cons] at h ⊢
      rw [hstep] at h ⊢
      have hv : loopVisits count current (LoopEvent.entrySource bi :: rest) =
          loopVisits count current rest := by
        cases current with
        | none => rfl
        | some fk => rfl
      rw [hv]
      exact h

/-- C25 fails as stated: a visit that executes the loop entry block once and
leaves (`enterLoop`, `enterLoopExitSink`) is a completed visit with one
execution of the entry block, yet `endCounter - startCounter` stays 0; and
after a visit with three executions the difference is 2, with
`startCounter = 1` and `endCounter = 3`. -/
theorem C25_difference_is_one_less_than_executions :
    loopVisits 0 none [LoopEvent.enter, LoopEvent.exitSink] = [⟨1, 1, 1⟩] ∧
    ((LOOP_TRACKER.newLoopInfo 0).run [LoopEvent.enter, LoopEvent.exitSink]).startCounter = 0 ∧
    ((LOOP_TRACKER.newLoopInfo 0).run [LoopEvent.enter, LoopEvent.exitSink]).endCounter = 0 ∧
    loopVisits 0 none [LoopEvent.enter, LoopEvent.enter, LoopEvent.enter, LoopEvent.exitSink] =
      [⟨1, 3, 3⟩] ∧
    ((LOOP_TRACKER.newLoopInfo 0).run
      [LoopEvent.enter, LoopEvent.enter, LoopEvent.enter, LoopEvent.exitSink]).startCounter = 1 ∧
    ((LOOP_TRACKER.newLoopInfo 0).run
      [LoopEvent.enter, LoopEvent.enter, LoopEvent.enter, LoopEvent.exitSink]).endCounter = 3 := by
  decide

/-- C25 (amended): from a fresh loop record, after any sequence of fewer
than 2^64 events, `endCounter - startCounter` is the largest value, over the
completed visits, of the executions of the entry block during the visit
minus one (0 when no visit has more than one execution): it is at least
that value for every completed visit, and either both counters are still 0
and no completed visit has more than one execution, or the completed visits
split as `before ++ v :: after` where `v` has at least two executions, every
visit before `v` has strictly fewer executions and no visit after it has
more, so that `v` is the first visit attaining the maximum, `startCounter`
being the value of `entryCounter` at the first execution of the entry block
in `v` and `endCounter` its value when `v` left the loop. -/
theorem C25_counters_delimit_first_longest_visit (temp : Nat) (events : List LoopEvent)
    (hlen : events.length < UINT64_MOD) :
    (∀ v ∈ loopVisits 0 none events,
      1 ≤ v.executions ∧ v.last + 1 = v.first + v.executions ∧
      v.executions - 1 ≤
        ((LOOP_TRACKER.newLoopInfo temp).run events).endCounter -
          ((LOOP_TRACKER.newLoopInfo temp).run events).startCounter) ∧
    ((LOOP_TRACKER.newLoopInfo temp).run events).startCounter ≤
      ((LOOP_TRACKER.newLoopInfo temp).run events).endCounter ∧
    ((((LOOP_TRACKER.newLoopInfo temp).run events).startCounter = 0 ∧
        ((LOOP_TRACKER.newLoopInfo temp).run events).endCounter = 0 ∧
        ∀ v ∈ loopVisits 0 none events, v.executions ≤ 1) ∨
      ∃ (before : List LoopVisit) (v : LoopVisit) (after : List LoopVisit),
        loopVisits 0 none events = before ++ v :: after ∧
        (∀ u ∈ before, u.executions < v.executions) ∧
        (∀ u ∈ after, u.executions ≤ v.executions) ∧
        2 ≤ v.executions ∧
        ((LOOP_TRACKER.newLoopInfo temp).run events).startCounter = v.first ∧
        ((LOOP_TRACKER.newLoopInfo temp).run events).endCounter = v.last ∧
        ((LOOP_TRACKER.newLoopInfo temp).run events).endCounter -
          ((LOOP_TRACKER.newLoopInfo temp).run events).startCounter = v.executions - 1) := by
  have h := LoopInfo_run_visits events (LOOP_TRACKER.newLoopInfo temp) 0 none rfl
    (by omega) (le_refl _) (le_refl _) rfl
  have hf := LoopInfo_run_first_longest events (LOOP_TRACKER.newLoopInfo temp) 0 none rfl
    (by omega) (le_refl _) (le_refl _) rfl
  have hwf := loopVisits_wf events 0 none (fun f k hc => by cases hc)
  have h1 := h.1
  have h3 := h.2.2.1
  clear h
  refine ⟨fun v hv => ⟨(hwf v hv).1, (hwf v hv).2, h1 v hv⟩, h3, ?_⟩
  have e0 : (LOOP_TRACKER.newLoopInfo temp).endCounter -
      (LOOP_TRACKER.newLoopInfo temp).startCounter = 0 := rfl
  rcases hf with ⟨e1, e2, e3⟩ | ⟨before, v, after, hv, hb, ha, hd, e1, e2, e3⟩
  · refine Or.inl ⟨e1, e2, ?_⟩
    intro v hv
    have := e3 v hv
    omega
  · exact Or.inr ⟨before, v, after, hv, hb, ha, by omega, e1, e2, by omega⟩

theorem C25_counters_delimit_first_longest_visit_witness :
    [LoopEvent.enter, LoopEvent.enter, LoopEvent.enter, LoopEvent.exitSink,
      LoopEvent.entrySource 7, LoopEvent.enter, LoopEvent.enter, LoopEvent.enter,
      LoopEvent.exitSink].length < UINT64_MOD ∧
    loopVisits 0 none
      [LoopEvent.enter, LoopEvent.enter, LoopEvent.enter, LoopEvent.exitSink,
        LoopEvent.entrySource 7, LoopEvent.enter, LoopEvent.enter, LoopEvent.enter,
        LoopEvent.exitSink] = [⟨1, 3, 3⟩, ⟨4, 6, 3⟩] ∧
    ((LOOP_TRACKER.newLoopInfo 0).run
      [LoopEvent.enter, LoopEvent.enter, LoopEvent.enter, LoopEvent.exitSink,
        LoopEvent.entrySource 7, LoopEvent.enter, LoopEvent.enter, LoopEvent.enter,
        LoopEvent.exitSink]).startCounter = 1 ∧
    ((LOOP_TRACKER.newLoopInfo 0).run
      [LoopEvent.enter, LoopEvent.enter, LoopEvent.enter, LoopEvent.exitSink,
        LoopEvent.entrySource 7, LoopEvent.enter, LoopEvent.enter, LoopEvent.enter,
        LoopEvent.exitSink]).endCounter = 3 ∧
    ((LOOP_TRACKER.newLoopInfo 0).run
      [LoopEvent.enter, LoopEvent.enter, LoopEvent.enter, LoopEvent.exitSink,
        LoopEvent.entrySource 7, LoopEvent.enter, LoopEvent.enter, LoopEvent.enter,
        LoopEvent.exitSink]).startCounter ≤
    ((LOOP_TRACKER.newLoopInfo 0).run
      [LoopEvent.enter, LoopEvent.enter, LoopEvent.enter, LoopEvent.exitSink,
        LoopEvent.entrySource 7, LoopEvent.enter, LoopEvent.enter, LoopEvent.enter,
        LoopEvent.exitSink]).endCounter :=
  ⟨by decide, by decide, by decide, by decide,
    (C25_counters_delimit_first_longest_visit 0
      [LoopEvent.enter, LoopEvent.enter, LoopEvent.enter, LoopEvent.exitSink,
        LoopEvent.entrySource 7, LoopEvent.enter, LoopEvent.enter, LoopEvent.enter,
        LoopEvent.exitSink] (by decide)).2.1⟩

/-! ### Lookup by id -/

/-- The `If` routine with previous-block tracking: the ids of the blocks and
the id counters of all threads afterwards. -/
theorem countIf_tracking_ids (s : ISIMPOINT) (b tid : Nat)
    (hk : s.KnobEmitPrevBlockCounts = true) (hlt : tid < s.PIN_MAX_THREADS) :
    ∃ s1 fire, s.countIf b tid = some (s1, fire) ∧
      (∀ p, (s1.blocks p)._id =
        if p = b ∧ (s.blocks p)._id = 0 then (s._currentId tid : Int) else (s.blocks p)._id) ∧
      (∀ t, s1._currentId t =
        if t = tid ∧ (s.blocks b)._id = 0 then s._currentId t + 1 else s._currentId t) := by
  by_cases hid : (s.blocks b)._id = 0
  · simp only [ISIMPOINT.countIf, hk, ISIMPOINT.CountBlockAndTrackPrevious_If,
      ISIMPOINT.BLOCK_Execute, ISIMPOINT.getNextCurrentId, upd_same, BLOCK.Execute, hid,
      hlt, and_self, if_true, Option.map_some', BLOCK.StaticInstructionCount]
    refine ⟨_, _, rfl, ?_, ?_⟩
    · intro p
      simp only [upd_apply]
      split_ifs with h <;> simp_all
    · intro t
      simp only [upd_apply, and_true]
      split_ifs with h
      · rw [h]
      · rfl
  · simp only [ISIMPOINT.countIf, hk, ISIMPOINT.CountBlockAndTrackPrevious_If,
      ISIMPOINT.BLOCK_Execute, upd_same, BLOCK.Execute, hid,
      if_true, if_false, Option.map_some', BLOCK.StaticInstructionCount]
    refine ⟨_, _, rfl, ?_, ?_⟩
    · intro p
      by_cases hp : p = b
      · subst hp
        simp [hid]
      · simp [upd_apply, hp]
    · intro t
      simp

theorem IdsHeld_onBlockExecuted (s : ISIMPOINT) (b tid : Nat) (inv : IdsHeld s)
    (hlt : tid < s.PIN_MAX_THREADS) (hb : b ∈ s.pointers) :
    ∃ s1, s.onBlockExecuted b tid = some s1 ∧ IdsHeld s1 ∧
      s1.PIN_MAX_THREADS = s.PIN_MAX_THREADS ∧ s1.block_map = s.block_map := by
  obtain ⟨s1, fire, heq, hid, hcur⟩ := countIf_tracking_ids s b tid inv.tracking hlt
  obtain ⟨s1', heq', cfg, -⟩ := countIf_spec s b tid (fun _ => hlt)
  have hs : s1' = s1 := by
    rw [heq] at heq'
    simp only [Option.some.injEq, Prod.mk.injEq] at heq'
    exact heq'.1.symm
  rw [hs] at cfg
  have hptr : s1.pointers = s.pointers := pointers_eq _ _ cfg.block_map
  have inv1 : IdsHeld s1 :=
    { tracking := cfg.prevCounts.trans inv.tracking
      held := by
        intro t i hi1 hi2
        rw [hcur] at hi2
        have hold : i < s._currentId t → ∃ p ∈ s1.pointers, (s1.blocks p)._id = (i : Int) := by
          intro hlt2
          obtain ⟨p, hp, hpi⟩ := inv.held t i hi1 hlt2
          refine ⟨p, by rw [hptr]; exact hp, ?_⟩
          rw [hid, if_neg, hpi]
          intro hc
          rw [hc.2] at hpi
          omega
        by_cases hc : t = tid ∧ (s.blocks b)._id = 0
        · rw [if_pos hc] at hi2
          by_cases hlt2 : i < s._currentId t
          · exact hold hlt2
          · have hi : i = s._currentId tid := by
              rw [← hc.1]
              omega
            refine ⟨b, by rw [hptr]; exact hb, ?_⟩
            rw [hid, if_pos ⟨rfl, hc.2⟩, hi]
        · rw [if_neg hc] at hi2
          exact hold hi2 }
  have hstep : s.onBlockExecuted b tid =
      some (if fire = true then s1.CountBlock_Then b tid else s1) := by
    simp [ISIMPOINT.onBlockExecuted, heq]
  refine ⟨_, hstep, ?_, ?_, ?_⟩
  · split_ifs
    · have cfg2 := CountBlock_Then_sameConfig s1 b tid
      exact
        { tracking := cfg2.prevCounts.trans inv1.tracking
          held := by
            intro t i hi1 hi2
            rw [CountBlock_Then_currentId] at hi2
            obtain ⟨p, hp, hpi⟩ := inv1.held t i hi1 hi2
            exact ⟨p, by rw [pointers_eq _ _ cfg2.block_map]; exact hp,
              by rw [CountBlock_Then_id]; exact hpi⟩ }
    · exact inv1
  · split_ifs
    · exact (CountBlock_Then_sameConfig s1 b tid).maxThreads.trans cfg.maxThreads
    · exact cfg.maxThreads
  · split_ifs
    · exact (CountBlock_Then_sameConfig s1 b tid).block_map.trans cfg.block_map
    · exact cfg.block_map

theorem IdsHeld_LookupBlock (s : ISIMPOINT) (bbl : BBL) (inv : IdsHeld s) :
    IdsHeld (s.LookupBlock bbl).2 := by
  obtain ⟨hmap, hk, -, -, hblocks, htr⟩ := LookupBlock_spec s bbl
  obtain ⟨hcur, -, -⟩ := htr inv.tracking
  exact
    { tracking := hk.trans inv.tracking
      held := by
        intro t i hi1 hi2
        rw [hcur] at hi2
        obtain ⟨p, hp, hpi⟩ := inv.held t i hi1 hi2
        refine ⟨p, ?_, ?_⟩
        · unfold ISIMPOINT.pointers
          rw [hmap]
          exact (lookupMap_pointers s.block_map bbl).2 p hp
        · rw [hblocks p (fun hc => freshPointer_not_mem s.block_map (hc ▸ hp))]
          exact hpi }

/-- With previous-block tracking, any interleaving of discoveries and of
executions of blocks of the map by threads below the maximum returns, and
every id below a thread's next id is held by a block of the map. -/
theorem IdsHeld_runSteps (steps : List Step) :
    ∀ s : ISIMPOINT, IdsHeld s →
      knownSteps s.PIN_MAX_THREADS s.block_map steps = true →
      ∃ s1, s.runSteps steps = some s1 ∧ IdsHeld s1 := by
  induction steps with
  | nil => exact fun s inv _ => ⟨s, rfl, inv⟩
  | cons st rest ih =>
    intro s inv hknown
    cases st with
    | discover bbl =>
      obtain ⟨hmap, -, hmaxT, -, -, -⟩ := LookupBlock_spec s bbl
      simp only [knownSteps] at hknown
      exact ih (s.LookupBlock bbl).2 (IdsHeld_LookupBlock s bbl inv)
        (by rw [hmap, hmaxT]; exact hknown)
    | execute t b =>
      simp only [knownSteps, Bool.and_eq_true, decide_eq_true_eq] at hknown
      obtain ⟨⟨hlt, hb⟩, hrest⟩ := hknown
      obtain ⟨s1, h1, inv1, c1, c2⟩ := IdsHeld_onBlockExecuted s b t inv hlt hb
      obtain ⟨s2, h2, inv2⟩ := ih s1 inv1 (by rw [c1, c2]; exact hrest)
      refine ⟨s2, ?_, inv2⟩
      simp only [ISIMPOINT.runSteps, h1, Option.some_bind]
      exact h2

/-- The entry that `find?` returns satisfies the test and is the first to do
so. -/
theorem find?_first {α : Type} (l : List α) (p : α → Bool) (e : α)
    (h : l.find? p = some e) :
    p e = true ∧ ∃ before after, l = before ++ e :: after ∧ ∀ x ∈ before, p x = false := by
  induction l with
  | nil => cases h
  | cons a rest ih =>
    by_cases ha : p a = true
    · simp only [List.find?_cons, ha, Option.some.injEq] at h
      subst h
      exact ⟨ha, [], rest, rfl, fun x hx => by cases hx⟩
    · have ha2 : p a = false := by
        cases hp : p a
        · rfl
        · exact absurd hp ha
      simp only [List.find?_cons, ha2] at h
      obtain ⟨h1, before, after, h2, h3⟩ := ih h
      refine ⟨h1, a :: before, after, by rw [h2]; rfl, ?_⟩
      intro x hx
      rcases List.mem_cons.mp hx with rfl | hx
      · exact ha2
      · exact h3 x hx

/-- C22 fails as stated: after thread 0 of the tracking example has executed
blocks 0 and 1, which got the ids 1 and 2, no block holds id 3, and
`LookupBlock(3)` returns `block_map.end()`: the lookup of an id that was
never assigned returns normally. -/
theorem C22_lookup_of_unassigned_id_returns_end :
    ((exampleTracking.runThread 0 [0, 1]).map fun s1 =>
      ((s1.blocks 0)._id, (s1.blocks 1)._id, (s1.blocks 2)._id, s1._currentId 0)) =
      some (1, 2, 0, 3) ∧
    ((exampleTracking.runThread 0 [0, 1]).map fun s1 => s1.LookupBlock_id 3) = some none := by
  decide

/-- C22 (amended): `LookupBlock(id)` never aborts: it returns
`block_map.end()` exactly when no block of the map holds the id, and
otherwise the first entry of the map whose block holds it (no entry before
it holds the id).  With previous-block tracking `EmitProgramEnd` writes the
two header records and then the records of the blocks found for the ids from
1 up to the thread's next id, an id for which the lookup returns
`block_map.end()` contributing nothing.  That case does not arise in a run:
from an engine with tracking in which every thread's next id is 1, after any
interleaving of block discoveries and of executions of blocks of the map by
threads below the maximum, the lookup finds an entry for every id from 1 up
to any thread's next id. -/
theorem C22_LookupBlock_id_returns_first_holder (s : ISIMPOINT) (id : Int) (tid : Nat) :
    (s.LookupBlock_id id = none ↔ ∀ e ∈ s.block_map, (s.blocks e.2).Id ≠ id) ∧
    (∀ e, s.LookupBlock_id id = some e →
      (s.blocks e.2).Id = id ∧
      ∃ before after, s.block_map = before ++ e :: after ∧
        ∀ x ∈ before, (s.blocks x.2).Id ≠ id) ∧
    (s.KnobEmitPrevBlockCounts = true →
      ((s.EmitProgramEnd tid).profiles tid).BbFile =
        (s.profiles tid).BbFile ++
          [Line.DynamicInstructionCount (s.profiles tid).GlobalInstructionCount,
            Line.SliceSize s.KnobSliceSize] ++
          ((List.range' 1 (s._currentId tid - 1)).filterMap fun (i : Nat) =>
            s.LookupBlock_id (i : Int)).flatMap fun bi =>
              (s.blocks bi.2).EmitProgramEnd bi.1 tid true) ∧
    (s.KnobEmitPrevBlockCounts = true → (∀ t, s._currentId t = 1) →
      ∀ steps, knownSteps s.PIN_MAX_THREADS s.block_map steps = true →
        ∃ s1, s.runSteps steps = some s1 ∧
          ∀ (t i : Nat), 1 ≤ i → i < s1._currentId t →
            ∃ e, s1.LookupBlock_id (i : Int) = some e) := by
  refine ⟨?_, ?_, ?_, ?_⟩
  · unfold ISIMPOINT.LookupBlock_id
    rw [List.find?_eq_none]
    simp
  · intro e he
    unfold ISIMPOINT.LookupBlock_id at he
    obtain ⟨h1, before, after, h2, h3⟩ := find?_first _ _ e he
    refine ⟨by simpa using h1, before, after, h2, ?_⟩
    intro x hx
    simpa using h3 x hx
  · intro hk
    simp only [ISIMPOINT.EmitProgramEnd, upd_same, hk, if_true]
    congr 1
    generalize List.range' 1 (s._currentId tid - 1) = l
    induction l with
    | nil => rfl
    | cons a rest ih =>
      rw [List.flatMap_cons, ih]
      cases h : s.LookupBlock_id (a : Int) with
      | none => simp [List.filterMap_cons, h]
      | some b => simp [List.filterMap_cons, h]
  · intro hk hcur steps hknown
    have inv0 : IdsHeld s :=
      { tracking := hk
        held := by
          intro t i hi1 hi2
          rw [hcur t] at hi2
          omega }
    obtain ⟨s1, hrun, inv1⟩ := IdsHeld_runSteps steps s inv0 hknown
    refine ⟨s1, hrun, ?_⟩
    intro t i hi1 hi2
    obtain ⟨p, hp, hpi⟩ := inv1.held t i hi1 hi2
    cases hl : s1.LookupBlock_id (i : Int) with
    | some e => exact ⟨e, rfl⟩
    | none =>
      exfalso
      unfold ISIMPOINT.LookupBlock_id at hl
      rw [List.find?_eq_none] at hl
      obtain ⟨e, he, hep⟩ := List.mem_map.mp hp
      have := hl e he
      rw [hep] at this
      simp only [decide_eq_true_eq] at this
      exact this hpi

theorem C22_LookupBlock_id_returns_first_holder_witness :
    exampleTracking.KnobEmitPrevBlockCounts = true ∧
    (∀ t, exampleTracking._currentId t = 1) ∧
    knownSteps exampleTracking.PIN_MAX_THREADS exampleTracking.block_map
      [Step.execute 0 0, Step.execute 1 1, Step.execute 0 2] = true ∧
    ∃ s1, exampleTracking.runSteps [Step.execute 0 0, Step.execute 1 1, Step.execute 0 2] =
        some s1 ∧
      ∀ (t i : Nat), 1 ≤ i → i < s1._currentId t →
        ∃ e, s1.LookupBlock_id (i : Int) = some e :=
  ⟨rfl, fun _ => rfl, by decide,
    (C22_LookupBlock_id_returns_first_holder exampleTracking 1 0).2.2.2 rfl (fun _ => rfl)
      [Step.execute 0 0, Step.execute 1 1, Step.execute 0 2] (by decide)⟩

/-! ### The image of a block -/

/-- The loop of `FindImgInfoId` from index `i` down to 1 returns the highest
index between 1 and `i` whose image has the low address, and 0 when there is
none; index 0 is not looked at. -/
theorem FindImgInfoId_loop_spec (m : IMG_MANAGER) (low : Nat) (i : Nat) :
    (m.FindImgInfoId_loop low i = 0 ∧
      ∀ k, 1 ≤ k → k ≤ i → (m.img_info k).LowAddress ≠ low) ∨
    (1 ≤ m.FindImgInfoId_loop low i ∧ m.FindImgInfoId_loop low i ≤ i ∧
      (m.img_info (m.FindImgInfoId_loop low i)).LowAddress = low ∧
      ∀ k, m.FindImgInfoId_loop low i < k → k ≤ i → (m.img_info k).LowAddress ≠ low) := by
  induction i with
  | zero =>
    left
    exact ⟨rfl, fun k h1 h2 => by omega⟩
  | succ i ih =>
    unfold IMG_MANAGER.FindImgInfoId_loop
    by_cases h : (m.img_info (i + 1)).LowAddress = low
    · rw [if_pos h]
      right
      exact ⟨by omega, le_refl _, h, fun k h1 h2 => by omega⟩
    · rw [if_neg h]
      rcases ih with ⟨h0, hn⟩ | ⟨h1, h2, h3, h4⟩
      · left
        refine ⟨h0, fun k hk1 hk2 => ?_⟩
        by_cases hk : k = i + 1
        · rw [hk]
          exact h
        · exact hn k hk1 (by omega)
      · right
        refine ⟨h1, by omega, h3, fun k hk1 hk2 => ?_⟩
        by_cases hk : k = i + 1
        · rw [hk]
          exact h
        · exact h4 k hk1 (by omega)

/-- The registry after a sequence of loads: the images sit at consecutive
indices from the old `_currentImgId` on, in load order. -/
theorem addImages_spec (imgs : List IMG) :
    ∀ m : IMG_MANAGER, m._currentImgId + imgs.length ≤ ISIMPOINT_MAX_IMAGES - 1 →
      ∃ m1, m.addImages imgs = some m1 ∧
        m1._currentImgId = m._currentImgId + imgs.length ∧
        (∀ k, k < m._currentImgId → m1.img_info k = m.img_info k) ∧
        ∀ i img, imgs.get? i = some img →
          m1.img_info (m._currentImgId + i) = IMG_INFO.new img ((m._currentImgId + i : Nat) : Int) := by
  induction imgs with
  | nil =>
    intro m _
    exact ⟨m, rfl, rfl, fun _ _ => rfl, fun i img h => by simp at h⟩
  | cons img rest ih =>
    intro m hlen
    simp only [List.length_cons] at hlen
    have hadd : m.AddImage img = some
        { img_info := upd m.img_info m._currentImgId (IMG_INFO.new img m._currentImgId)
          _currentImgId := m._currentImgId + 1 } := by
      unfold IMG_MANAGER.AddImage
      rw [if_pos (by omega)]
    obtain ⟨m1, h1, h2, h3, h4⟩ := ih
      { img_info := upd m.img_info m._currentImgId (IMG_INFO.new img m._currentImgId)
        _currentImgId := m._currentImgId + 1 } (by simp only; omega)
    refine ⟨m1, ?_, ?_, ?_, ?_⟩
    · simp only [IMG_MANAGER.addImages, hadd, Option.some_bind]
      exact h1
    · rw [h2]
      simp only [List.length_cons]
      omega
    · intro k hk
      rw [h3 k (by simp only; omega)]
      exact upd_other _ _ _ _ (by omega)
    · intro i img1 hi
      cases i with
      | zero =>
        simp only [List.get?_cons_zero, Option.some.injEq] at hi
        rw [h3 _ (by simp only; omega), add_zero, ← hi]
        exact upd_same _ _ _
      | succ j =>
        simp only [List.get?_cons_succ] at hi
        have := h4 j img1 hi
        simp only at this
        rw [show m._currentImgId + (j + 1) = m._currentImgId + 1 + j by omega]
        exact this

theorem FindImgInfoId_start (n : Nat) (h1 : 1 ≤ n) (h2 : n ≤ ISIMPOINT_MAX_IMAGES - 1) :
    (n + 2 ^ 32 - 1) % 2 ^ 32 = n - 1 := by
  simp only [ISIMPOINT_MAX_IMAGES] at h2
  omega

/-- After the loads `imgs` into an empty registry, `FindImgInfoId` on the
low address of a loaded image answers the highest index from 1 on that
holds such an image, and 0 when only index 0 does. -/
theorem FindImgInfoId_after_loads (imgs : List IMG) (m : IMG_MANAGER)
    (hlen : imgs.length ≤ ISIMPOINT_MAX_IMAGES - 1)
    (hm : IMG_MANAGER.zeroed.addImages imgs = some m) (i : Nat) (img : IMG)
    (hi : imgs.get? i = some img)
    (hlater : ∀ j img1, i < j → imgs.get? j = some img1 → img1.lowAddress ≠ img.lowAddress) :
    m.FindImgInfoId (some img.lowAddress) = i ∧
    (1 ≤ i → m.img_info i = IMG_INFO.new img (i : Int)) := by
  obtain ⟨m1, h1, h2, -, h4⟩ := addImages_spec imgs IMG_MANAGER.zeroed
    (by simp only [IMG_MANAGER.zeroed, zero_add]; exact hlen)
  rw [hm] at h1
  cases h1
  simp only [IMG_MANAGER.zeroed, zero_add] at h2 h4
  have hin : i < imgs.length := by
    rw [List.get?_eq_some] at hi
    exact hi.1
  have hinfo : ∀ k, k < imgs.length → ∃ img1, imgs.get? k = some img1 ∧
      (m.img_info k).LowAddress = img1.lowAddress := by
    intro k hk
    refine ⟨imgs.get ⟨k, hk⟩, List.get?_eq_get hk, ?_⟩
    rw [h4 k _ (List.get?_eq_get hk)]
    rfl
  refine ⟨?_, fun _ => h4 i img hi⟩
  unfold IMG_MANAGER.FindImgInfoId
  simp only
  rw [h2, FindImgInfoId_start imgs.length (by omega) hlen]
  rcases FindImgInfoId_loop_spec m img.lowAddress (imgs.length - 1) with
    ⟨h0, hn⟩ | ⟨hj1, hj2, hj3, hj4⟩
  · rw [h0]
    by_cases hi0 : i = 0
    · exact hi0.symm
    · exfalso
      apply hn i (by omega) (by omega)
      rw [h4 i img hi]
      rfl
  · obtain ⟨img1, hg, hl⟩ := hinfo (m.FindImgInfoId_loop img.lowAddress (imgs.length - 1))
      (by omega)
    by_contra hne
    rcases Nat.lt_or_gt_of_ne hne with hlt | hgt
    · apply hj4 i hlt (by omega)
      rw [h4 i img hi]
      rfl
    · apply hlater _ img1 hgt hg
      rw [← hl, hj3]

/-- C21: after any sequence of image loads into the empty registry, a block
discovered in a registered image that sits at an index from 1 on gets that
index as its image id and the closing marker written for it is the symbolic
record naming the image, its low address and the offset of the end marker
from it; but a block discovered in the image loaded first, which sits at
index 0, gets image id 0 and its closing marker is the `no_image` record.
With the program image at 4096 loaded first and a library at 8192 loaded
second, the boundary triggered by the block at 4100..4110 of the program
image is closed by `M: 4110 1 no_image`, the one triggered by the library
block at 8200..8210 by `S: 8210 1 libc.so 8192 + 18`. -/
theorem C21_first_image_reported_as_no_image (imgs : List IMG) (s : ISIMPOINT)
    (endMarker : Nat) (markerCount : Int)
    (hlen : imgs.length ≤ ISIMPOINT_MAX_IMAGES - 1) :
    (∃ m, IMG_MANAGER.zeroed.addImages imgs = some m ∧
      (∀ i img, 1 ≤ i → imgs.get? i = some img →
        (∀ j img1, i < j → imgs.get? j = some img1 → img1.lowAddress ≠ img.lowAddress) →
        m.FindImgInfoId (some img.lowAddress) = i ∧
        ({ s with img_manager := m } : ISIMPOINT).EmitSliceStartInfo endMarker markerCount
            (m.FindImgInfoId (some img.lowAddress)) =
          Line.S endMarker markerCount img.name img.lowAddress
            ((endMarker + ADDRINT_MOD - img.lowAddress) % ADDRINT_MOD) ∧
        (img.lowAddress ≤ endMarker → endMarker < ADDRINT_MOD →
          img.lowAddress + (endMarker + ADDRINT_MOD - img.lowAddress) % ADDRINT_MOD =
            endMarker)) ∧
      (∀ img, imgs.get? 0 = some img →
        (∀ j img1, 0 < j → imgs.get? j = some img1 → img1.lowAddress ≠ img.lowAddress) →
        m.FindImgInfoId (some img.lowAddress) = 0 ∧
        ({ s with img_manager := m } : ISIMPOINT).EmitSliceStartInfo endMarker markerCount
            (m.FindImgInfoId (some img.lowAddress)) =
          Line.M_no_image endMarker markerCount)) ∧
    (∀ bbl, BLOCK_MAP_find s.block_map ⟨bbl.head, bbl.tail, bbl.size⟩ = none →
      ((s.LookupBlock bbl).2.blocks (s.LookupBlock bbl).1)._imgId =
        s.img_manager.FindImgInfoId bbl.img) ∧
    (exampleLoaded.map fun s1 =>
        ((s1.img_manager.img_info 0).Name, (s1.img_manager.img_info 0).LowAddress)) =
      some ("a.out", 4096) ∧
    (exampleLoaded.map fun s1 => ((s1.blocks 1)._key, (s1.blocks 1)._imgId)) =
      some (⟨4100, 4110, 14⟩, 0) ∧
    (exampleLoaded.map fun s1 => ((s1.blocks 2)._key, (s1.blocks 2)._imgId)) =
      some (⟨8200, 8210, 14⟩, 1) ∧
    ((exampleLoaded.bind fun s1 => s1.runThread 0 [1, 2]).map fun s1 =>
        (s1.profiles 0).BbFile) =
      some [Line.G "a.out" 4096 0, Line.G "libc.so" 8192 0, Line.I0, Line.P 0, Line.C "",
        Line.M_no_image 0 1, Line.SliceEnding 70, Line.T [(1, 70)], Line.M_no_image 4110 1,
        Line.SliceEnding 140, Line.T [(2, 70)], Line.S 8210 1 "libc.so" 8192 18] := by
  refine ⟨?_, ?_, by decide, by decide, by decide, by decide⟩
  · obtain ⟨m, hm, -⟩ := addImages_spec imgs IMG_MANAGER.zeroed
      (by simp only [IMG_MANAGER.zeroed, zero_add]; exact hlen)
    refine ⟨m, hm, ?_, ?_⟩
    · intro i img hi1 hi hlater
      obtain ⟨hf, hinfo⟩ := FindImgInfoId_after_loads imgs m hlen hm i img hi hlater
      refine ⟨hf, ?_, ?_⟩
      · rw [hf]
        unfold ISIMPOINT.EmitSliceStartInfo
        rw [if_neg (by omega)]
        simp only [IMG_MANAGER.GetImageInfo, hinfo hi1]
        rfl
      · intro h1 h2
        simp only [ADDRINT_MOD] at *
        omega
    · intro img hi hlater
      obtain ⟨hf, -⟩ := FindImgInfoId_after_loads imgs m hlen hm 0 img hi hlater
      refine ⟨hf, ?_⟩
      rw [hf]
      rfl
  · intro bbl hfind
    by_cases hk : s.KnobEmitPrevBlockCounts = true
    · rw [(LookupBlock_miss_tracking s bbl hfind hk).1]
      simp only [upd_same]
      rfl
    · rw [(LookupBlock_miss_plain s bbl hfind hk).1]
      simp only [upd_same]
      rfl

theorem C21_first_image_reported_as_no_image_witness :
    exampleImages.length ≤ ISIMPOINT_MAX_IMAGES - 1 ∧
    ∃ m, IMG_MANAGER.zeroed.addImages exampleImages = some m ∧
      m.FindImgInfoId (some 4096) = 0 ∧
      ({ exampleEmpty with img_manager := m } : ISIMPOINT).EmitSliceStartInfo 4110 1
        (m.FindImgInfoId (some 4096)) = Line.M_no_image 4110 1 := by
  refine ⟨by decide, ?_⟩
  obtain ⟨m, hm, -, h0⟩ :=
    (C21_first_image_reported_as_no_image exampleImages exampleEmpty 4110 1 (by decide)).1
  exact ⟨m, hm, h0 ⟨"a.out", 4096, 0⟩ rfl (fun j img1 hj hg => by
    cases j with
    | zero => omega
    | succ j =>
      cases j with
      | zero =>
        simp only [exampleImages, List.get?_cons_succ, List.get?_cons_zero,
          Option.some.injEq] at hg
        rw [← hg]
        decide
      | succ j => simp [exampleImages] at hg)⟩

/-! ### Insert-or-get -/

theorem keyEquiv_range (k1 k2 : BLOCK_KEY) (h1 : k1.IsPoint = false)
    (h2 : k2.IsPoint = false) :
    keyEquiv k1 k2 = true ↔ (k1._start = k2._start ∧ k1._end = k2._end) := by
  simp only [keyEquiv, operator_lt_eq, h1, h2]
  simp only [Bool.false_eq_true, if_false]
  split_ifs <;> simp <;> omega

theorem operator_lt_range_trans (a b c : BLOCK_KEY) (ha : a.IsPoint = false)
    (hb : b.IsPoint = false) (hc : c.IsPoint = false)
    (hab : operator_lt a b = true) (hbc : operator_lt b c = true) :
    operator_lt a c = true := by
  simp only [operator_lt_eq, ha, hb, hc] at *
  simp only [Bool.false_eq_true, if_false] at *
  split_ifs at * <;> simp at * <;> omega

theorem operator_lt_range_ne (a b : BLOCK_KEY) (ha : a.IsPoint = false)
    (hb : b.IsPoint = false) (hab : operator_lt a b = true) :
    ¬ (a._start = b._start ∧ a._end = b._end) := by
  simp only [operator_lt_eq, ha, hb] at hab
  simp only [Bool.false_eq_true, if_false] at hab
  split_ifs at hab <;> simp at hab <;> omega

theorem BLOCK_MAP_find_none (m : List (BLOCK_KEY × Nat)) (key : BLOCK_KEY) :
    BLOCK_MAP_find m key = none ↔ ∀ e ∈ m, keyEquiv key e.1 = false := by
  unfold BLOCK_MAP_find
  rw [List.find?_eq_none]
  simp

theorem BLOCK_MAP_insert_mem (e : BLOCK_KEY × Nat) (m : List (BLOCK_KEY × Nat)) :
    ∀ x ∈ BLOCK_MAP_insert e m, x = e ∨ x ∈ m := by
  induction m with
  | nil =>
    intro x hx
    simp only [BLOCK_MAP_insert, List.mem_singleton] at hx
    exact Or.inl hx
  | cons y rest ih =>
    intro x hx
    unfold BLOCK_MAP_insert at hx
    split_ifs at hx with h1 h2
    · rcases List.mem_cons.mp hx with h | h
      · exact Or.inl h
      · exact Or.inr h
    · rcases List.mem_cons.mp hx with h | h
      · exact Or.inr (by rw [h]; exact List.mem_cons_self _ _)
      · rcases ih x h with h3 | h3
        · exact Or.inl h3
        · exact Or.inr (List.mem_cons_of_mem _ h3)
    · exact Or.inr hx

/-- Inserting a key that no entry is equivalent to adds exactly one entry. -/
theorem BLOCK_MAP_insert_perm (e : BLOCK_KEY × Nat) (m : List (BLOCK_KEY × Nat))
    (hne : ∀ x ∈ m, keyEquiv e.1 x.1 = false) : (BLOCK_MAP_insert e m).Perm (e :: m) := by
  induction m with
  | nil => exact List.Perm.refl _
  | cons y rest ih =>
    unfold BLOCK_MAP_insert
    split_ifs with h1 h2
    · exact List.Perm.refl _
    · exact ((ih fun x hx => hne x (List.mem_cons_of_mem _ hx)).cons y).trans
        (List.Perm.swap e y rest)
    · exfalso
      have := hne y (List.mem_cons_self _ _)
      simp only [keyEquiv] at this
      simp [h1, h2] at this

/-- Inserting a range key keeps a map of range keys in strict key order. -/
theorem BLOCK_MAP_insert_rangeMap (e : BLOCK_KEY × Nat) (m : List (BLOCK_KEY × Nat))
    (he : e.1.IsPoint = false) (hm : rangeMap m) : rangeMap (BLOCK_MAP_insert e m) := by
  induction m with
  | nil =>
    refine ⟨fun x hx => ?_, ?_⟩
    · simp only [BLOCK_MAP_insert, List.mem_singleton] at hx
      rw [hx]
      exact he
    · simp [BLOCK_MAP_insert]
  | cons y rest ih =>
    obtain ⟨hp, hs⟩ := hm
    have hy := hp y (List.mem_cons_self _ _)
    have hrest : rangeMap rest :=
      ⟨fun x hx => hp x (List.mem_cons_of_mem _ hx), (List.pairwise_cons.mp hs).2⟩
    have hylt := (List.pairwise_cons.mp hs).1
    unfold BLOCK_MAP_insert
    split_ifs with h1 h2
    · refine ⟨fun x hx => ?_, ?_⟩
      · rcases List.mem_cons.mp hx with h | h
        · rw [h]
          exact he
        · exact hp x h
      · refine List.pairwise_cons.mpr ⟨fun x hx => ?_, hs⟩
        rcases List.mem_cons.mp hx with h | h
        · rw [h]
          exact h1
        · exact operator_lt_range_trans e.1 y.1 x.1 he hy
            (hp x (List.mem_cons_of_mem _ h)) h1 (hylt x h)
    · have ih1 := ih hrest
      refine ⟨fun x hx => ?_, ?_⟩
      · rcases List.mem_cons.mp hx with h | h
        · rw [h]
          exact hy
        · exact ih1.1 x h
      · refine List.pairwise_cons.mpr ⟨fun x hx => ?_, ih1.2⟩
        rcases BLOCK_MAP_insert_mem e rest x hx with h | h
        · rw [h]
          exact h2
        · exact hylt x h
    · exact ⟨hp, hs⟩

/-- In a map of range keys in strict order no two entries have the same
bounds. -/
theorem rangeMap_distinct (m : List (BLOCK_KEY × Nat)) (hm : rangeMap m) :
    m.Pairwise fun a b => ¬ (a.1._start = b.1._start ∧ a.1._end = b.1._end) := by
  obtain ⟨hp, hs⟩ := hm
  induction m with
  | nil => exact List.Pairwise.nil
  | cons y rest ih =>
    have hy := hp y (List.mem_cons_self _ _)
    refine List.pairwise_cons.mpr ⟨fun x hx => ?_, ?_⟩
    · exact operator_lt_range_ne y.1 x.1 hy (hp x (List.mem_cons_of_mem _ hx))
        ((List.pairwise_cons.mp hs).1 x hx)
    · exact ih (fun x hx => hp x (List.mem_cons_of_mem _ hx)) (List.pairwise_cons.mp hs).2

/-- In a map of range keys in strict order, a find with a range key returns
the entry with the same bounds. -/
theorem BLOCK_MAP_find_range (m : List (BLOCK_KEY × Nat)) (hm : rangeMap m)
    (key : BLOCK_KEY) (hkey : key.IsPoint = false) (e : BLOCK_KEY × Nat) (he : e ∈ m)
    (hs : e.1._start = key._start) (hend : e.1._end = key._end) :
    BLOCK_MAP_find m key = some e := by
  induction m with
  | nil => cases he
  | cons y rest ih =>
    have hdist := rangeMap_distinct (y :: rest) hm
    obtain ⟨hp, hsort⟩ := hm
    have hy := hp y (List.mem_cons_self _ _)
    unfold BLOCK_MAP_find
    rcases List.mem_cons.mp he with h | h
    · have hpos : keyEquiv key y.1 = true := by
        rw [← h]
        exact (keyEquiv_range key e.1 hkey (hp e he)).mpr ⟨hs.symm, hend.symm⟩
      simp only [List.find?_cons, hpos, h]
    · have hney : ¬ keyEquiv key y.1 = true := by
        rw [keyEquiv_range key y.1 hkey hy]
        intro hc
        exact (List.pairwise_cons.mp hdist).1 e h ⟨hc.1.symm.trans hs.symm, hc.2.symm.trans hend.symm⟩
      have hneg : keyEquiv key y.1 = false := by simpa using hney
      simp only [List.find?_cons, hneg]
      exact ih ⟨fun x hx => hp x (List.mem_cons_of_mem _ hx), (List.pairwise_cons.mp hsort).2⟩ h

/-- The key of a basic block whose last instruction does not lie below its
first one is not a point, unless the block spans the whole address space. -/
theorem BBL_key_not_point (bbl : BBL) (h1 : bbl.head ≤ bbl.tail)
    (h3 : bbl.tail - bbl.head ≠ ADDRINT_MOD - 1) :
    (BLOCK_KEY.mk bbl.head bbl.tail bbl.size).IsPoint = false := by
  unfold BLOCK_KEY.IsPoint
  simp only [ADDRINT_MOD, beq_eq_false_iff_ne, ne_eq] at *
  omega

/-- What `LookupBlock` does on a miss, in either identifier mode. -/
theorem LookupBlock_miss (s : ISIMPOINT) (bbl : BBL)
    (h : BLOCK_MAP_find s.block_map ⟨bbl.head, bbl.tail, bbl.size⟩ = none) :
    (s.LookupBlock bbl).1 = freshPointer s.block_map ∧
    (s.LookupBlock bbl).2.block_map =
      BLOCK_MAP_insert (⟨bbl.head, bbl.tail, bbl.size⟩, freshPointer s.block_map)
        s.block_map ∧
    ((s.LookupBlock bbl).2.blocks (freshPointer s.block_map))._key =
      ⟨bbl.head, bbl.tail, bbl.size⟩ ∧
    ((s.LookupBlock bbl).2.blocks (freshPointer s.block_map))._staticInstructionCount =
      bbl.numIns := by
  by_cases hk : s.KnobEmitPrevBlockCounts = true
  · rw [(LookupBlock_miss_tracking s bbl h hk).1]
    refine ⟨rfl, rfl, ?_, ?_⟩ <;> simp only [upd_same] <;> rfl
  · rw [(LookupBlock_miss_plain s bbl h hk).1]
    refine ⟨rfl, rfl, ?_, ?_⟩ <;> simp only [upd_same] <;> rfl

/-- C23: on a map of range keys in key order, `LookupBlock` of a basic
block whose bounds equal those of an entry returns the block of that entry
and changes nothing (map, blocks and id counters are the same); when no
entry has these bounds it returns a new block, the map gains exactly the
entry of that block under the key of the basic block, and the blocks of
the old entries are untouched.  Afterwards the map is again a map of range
keys in key order with no two entries of equal bounds, and a second lookup
of the same bounds returns the same block and changes nothing. -/
theorem C23_LookupBlock_insert_or_get (s : ISIMPOINT) (bbl : BBL)
    (hmap : rangeMap s.block_map)
    (hkey : (BLOCK_KEY.mk bbl.head bbl.tail bbl.size).IsPoint = false) :
    (∀ e ∈ s.block_map, e.1._start = bbl.head → e.1._end = bbl.tail →
      s.LookupBlock bbl = (e.2, s)) ∧
    ((∀ e ∈ s.block_map, ¬ (e.1._start = bbl.head ∧ e.1._end = bbl.tail)) →
      (s.LookupBlock bbl).1 ∉ s.pointers ∧
      (s.LookupBlock bbl).2.block_map.Perm
        ((⟨bbl.head, bbl.tail, bbl.size⟩, (s.LookupBlock bbl).1) :: s.block_map) ∧
      ((s.LookupBlock bbl).2.blocks (s.LookupBlock bbl).1)._key =
        ⟨bbl.head, bbl.tail, bbl.size⟩ ∧
      ∀ p ∈ s.pointers, (s.LookupBlock bbl).2.blocks p = s.blocks p) ∧
    rangeMap (s.LookupBlock bbl).2.block_map ∧
    ((s.LookupBlock bbl).2.block_map.Pairwise fun a b =>
      ¬ (a.1._start = b.1._start ∧ a.1._end = b.1._end)) ∧
    (∀ bbl2 : BBL, bbl2.head = bbl.head → bbl2.tail = bbl.tail →
      (s.LookupBlock bbl).2.LookupBlock bbl2 =
        ((s.LookupBlock bbl).1, (s.LookupBlock bbl).2)) := by
  have hhit : ∀ e ∈ s.block_map, e.1._start = bbl.head → e.1._end = bbl.tail →
      s.LookupBlock bbl = (e.2, s) := by
    intro e he hs hend
    exact (LookupBlock_hit s bbl e
      (BLOCK_MAP_find_range s.block_map hmap _ hkey e he hs hend)).1
  have hnone : (∀ e ∈ s.block_map, ¬ (e.1._start = bbl.head ∧ e.1._end = bbl.tail)) →
      BLOCK_MAP_find s.block_map ⟨bbl.head, bbl.tail, bbl.size⟩ = none := by
    intro hno
    rw [BLOCK_MAP_find_none]
    intro e he
    cases hq : keyEquiv ⟨bbl.head, bbl.tail, bbl.size⟩ e.1 with
    | false => rfl
    | true =>
      exfalso
      have := (keyEquiv_range _ e.1 hkey (hmap.1 e he)).mp hq
      exact hno e he ⟨this.1.symm, this.2.symm⟩
  have hrange : rangeMap (s.LookupBlock bbl).2.block_map := by
    cases hfind : BLOCK_MAP_find s.block_map ⟨bbl.head, bbl.tail, bbl.size⟩ with
    | some bi =>
      rw [(LookupBlock_hit s bbl bi hfind).1]
      exact hmap
    | none =>
      rw [(LookupBlock_miss s bbl hfind).2.1]
      exact BLOCK_MAP_insert_rangeMap _ _ hkey hmap
  have hentry : ∃ e ∈ (s.LookupBlock bbl).2.block_map,
      e.1._start = bbl.head ∧ e.1._end = bbl.tail ∧ e.2 = (s.LookupBlock bbl).1 := by
    cases hfind : BLOCK_MAP_find s.block_map ⟨bbl.head, bbl.tail, bbl.size⟩ with
    | some bi =>
      rw [(LookupBlock_hit s bbl bi hfind).1]
      have hmem : bi ∈ s.block_map := List.mem_of_find?_eq_some hfind
      have hq : keyEquiv ⟨bbl.head, bbl.tail, bbl.size⟩ bi.1 = true := by
        simpa using List.find?_some hfind
      have := (keyEquiv_range _ bi.1 hkey (hmap.1 bi hmem)).mp hq
      exact ⟨bi, hmem, this.1.symm, this.2.symm, rfl⟩
    | none =>
      obtain ⟨h1, h2, -, -⟩ := LookupBlock_miss s bbl hfind
      rw [h1, h2]
      refine ⟨(⟨bbl.head, bbl.tail, bbl.size⟩, freshPointer s.block_map), ?_, rfl, rfl, rfl⟩
      exact (BLOCK_MAP_insert_perm _ _ ((BLOCK_MAP_find_none _ _).mp hfind)).mem_iff.mpr
        (List.mem_cons_self _ _)
  refine ⟨hhit, ?_, hrange, rangeMap_distinct _ hrange, ?_⟩
  · intro hno
    have hfind := hnone hno
    obtain ⟨h1, h2, h3, -⟩ := LookupBlock_miss s bbl hfind
    refine ⟨?_, ?_, ?_, ?_⟩
    · rw [h1]
      exact freshPointer_not_mem s.block_map
    · rw [h1, h2]
      exact BLOCK_MAP_insert_perm _ _ ((BLOCK_MAP_find_none _ _).mp hfind)
    · rw [h1]
      exact h3
    · intro p hp
      apply (LookupBlock_spec s bbl).2.2.2.2.1 p
      intro hc
      rw [hc] at hp
      exact freshPointer_not_mem s.block_map hp
  · intro bbl2 hh ht
    obtain ⟨e, he, hs, hend, hptr⟩ := hentry
    have hkey2 : (BLOCK_KEY.mk bbl2.head bbl2.tail bbl2.size).IsPoint = false := by
      unfold BLOCK_KEY.IsPoint at hkey ⊢
      simp only [hh, ht]
      exact hkey
    rw [← hptr]
    exact (LookupBlock_hit (s.LookupBlock bbl).2 bbl2 e
      (BLOCK_MAP_find_range _ hrange _ hkey2 e he (hs.trans hh.symm) (hend.trans ht.symm))).1

theorem C23_LookupBlock_insert_or_get_witness :
    rangeMap exampleEngine.block_map ∧
    (BLOCK_KEY.mk 2000 2029 30).IsPoint = false ∧
    exampleEngine.LookupBlock ⟨2000, 2029, 30, 30, none⟩ = (1, exampleEngine) :=
  ⟨by decide, by decide,
    (C23_LookupBlock_insert_or_get exampleEngine ⟨2000, 2029, 30, 30, none⟩ (by decide)
      (by decide)).1 (⟨2000, 2029, 30⟩, 1) (by decide) rfl rfl⟩

/-! ### Instructions accounted for -/

/-- One block execution: the thread's instruction total grows by the static
count of the block, the block becomes the last executed block, and a
boundary, if one fires, reports the new total. -/
theorem onBlockExecuted_account (s : ISIMPOINT) (b tid : Nat)
    (hok : s.KnobEmitPrevBlockCounts = true → tid < s.PIN_MAX_THREADS) :
    ∃ s1, s.onBlockExecuted b tid = some s1 ∧ SameConfig s s1 ∧
      (s1.profiles tid).last_block = some b ∧
      (s1.profiles tid).GlobalInstructionCount +
          ((s1.profiles tid).CurrentSliceSize - (s1.profiles tid).SliceTimer) =
        (s.profiles tid).GlobalInstructionCount +
          ((s.profiles tid).CurrentSliceSize - (s.profiles tid).SliceTimer) +
          (s.blocks b)._staticInstructionCount ∧
      sliceEndings (s1.profiles tid).BbFile =
        sliceEndings (s.profiles tid).BbFile ++
          (if (s.profiles tid).SliceTimer - (s.blocks b)._staticInstructionCount < 0 then
            [(s.profiles tid).GlobalInstructionCount +
              ((s.profiles tid).CurrentSliceSize - (s.profiles tid).SliceTimer) +
              (s.blocks b)._staticInstructionCount]
          else []) := by
  obtain ⟨s1, heq, hcfg, -, -, -, -, hprof, -, -⟩ := countIf_spec s b tid hok
  by_cases hneg : (s.profiles tid).SliceTimer - (s.blocks b)._staticInstructionCount < 0
  · refine ⟨s1.CountBlock_Then b tid, ?_, SameConfig.trans hcfg
      (CountBlock_Then_sameConfig s1 b tid), ?_, ?_, ?_⟩
    · simp [ISIMPOINT.onBlockExecuted, heq, hneg]
    · rw [(CountBlock_Then_fields s1 b tid).2.2.2.2.1, hprof]
    · obtain ⟨f1, f2, f3, -⟩ := CountBlock_Then_fields s1 b tid
      rw [f1, f2, f3, hprof]
      simp only
      ring
    · rw [(CountBlock_Then_counts s1 b tid).2.2.2.2.1, hprof, if_pos hneg]
      simp only
      congr 2
      ring
  · refine ⟨s1, ?_, hcfg, ?_, ?_, ?_⟩
    · simp [ISIMPOINT.onBlockExecuted, heq, hneg]
    · rw [hprof]
    · rw [hprof]
      simp only
      ring
    · rw [hprof, if_neg hneg, List.append_nil]

/-- A run of block executions: it returns, the thread's instruction total
grows by the static counts of the blocks run, and after a non-empty run the
last executed block is the last block of the run. -/
theorem runThread_account (tid : Nat) (trace : List Nat) :
    ∀ s : ISIMPOINT, (s.KnobEmitPrevBlockCounts = true → tid < s.PIN_MAX_THREADS) →
      ∃ s1, s.runThread tid trace = some s1 ∧ SameConfig s s1 ∧
        (trace = [] → s1 = s) ∧
        (trace ≠ [] → (s1.profiles tid).last_block = trace.getLast?) ∧
        (s1.profiles tid).GlobalInstructionCount +
            ((s1.profiles tid).CurrentSliceSize - (s1.profiles tid).SliceTimer) =
          (s.profiles tid).GlobalInstructionCount +
            ((s.profiles tid).CurrentSliceSize - (s.profiles tid).SliceTimer) +
            s.staticSum trace := by
  induction trace with
  | nil =>
    intro s _
    exact ⟨s, rfl, SameConfig.refl s, fun _ => rfl, fun h => absurd rfl h,
      by simp [ISIMPOINT.staticSum]⟩
  | cons b rest ih =>
    intro s hok
    obtain ⟨s1, h1, c1, l1, a1, -⟩ := onBlockExecuted_account s b tid hok
    obtain ⟨s2, h2, c2, e2, l2, a2⟩ := ih s1 (by
      rw [c1.prevCounts, c1.maxThreads]
      exact hok)
    refine ⟨s2, ?_, SameConfig.trans c1 c2, fun h => absurd h (List.cons_ne_nil _ _),
      fun _ => ?_, ?_⟩
    · simp only [ISIMPOINT.runThread, h1, Option.some_bind]
      exact h2
    · cases rest with
      | nil =>
        rw [e2 rfl, l1]
        rfl
      | cons c rest1 =>
        rw [l2 (by simp), List.getLast?_cons_cons]
    · rw [a2, a1]
      have hs : s1.staticSum rest = s.staticSum rest := by
        unfold ISIMPOINT.staticSum
        congr 1
        apply List.map_congr_left
        intro p _
        exact c1.static p
      rw [hs]
      simp only [ISIMPOINT.staticSum, List.map_cons, List.sum_cons]
      ring

/-- C26: a thread starts with `GlobalInstructionCount` 0 and its counter
equal to its budget.  After it has run the blocks of `pre`, after the `If`
routine of the next block `b`, and after the whole event of `b`, the value
`GlobalInstructionCount + (CurrentSliceSize - SliceTimer)` is the sum of
the static counts of the blocks executed so far; when the event of `b`
fires a boundary, the count written after `# Slice ending at` is that sum
up to and including `b`, and a forced last slice after `b` reports the same
sum.  The budgets may come from the fixed slice size or from the queue. -/
theorem C26_instruction_total_is_accounted (s : ISIMPOINT) (tid : Nat) (pre : List Nat)
    (b : Nat)
    (hok : s.KnobEmitPrevBlockCounts = true → tid < s.PIN_MAX_THREADS)
    (hgic : (s.profiles tid).GlobalInstructionCount = 0)
    (htimer : (s.profiles tid).SliceTimer = (s.profiles tid).CurrentSliceSize) :
    ∃ s1 s2 s3 fire, s.runThread tid pre = some s1 ∧ s1.countIf b tid = some (s2, fire) ∧
      s.runThread tid (pre ++ [b]) = some s3 ∧
      (s1.profiles tid).GlobalInstructionCount +
          ((s1.profiles tid).CurrentSliceSize - (s1.profiles tid).SliceTimer) =
        s.staticSum pre ∧
      (s2.profiles tid).GlobalInstructionCount +
          ((s2.profiles tid).CurrentSliceSize - (s2.profiles tid).SliceTimer) =
        s.staticSum (pre ++ [b]) ∧
      (s3.profiles tid).GlobalInstructionCount +
          ((s3.profiles tid).CurrentSliceSize - (s3.profiles tid).SliceTimer) =
        s.staticSum (pre ++ [b]) ∧
      (fire = true →
        sliceEndings (s3.profiles tid).BbFile =
          sliceEndings (s1.profiles tid).BbFile ++ [s.staticSum (pre ++ [b])]) ∧
      (fire = false →
        sliceEndings (s3.profiles tid).BbFile = sliceEndings (s1.profiles tid).BbFile) ∧
      (∀ lb, sliceEndings ((s3.CountBlock_Then lb tid).profiles tid).BbFile =
        sliceEndings (s3.profiles tid).BbFile ++ [s.staticSum (pre ++ [b])]) := by
  obtain ⟨s1, h1, c1, -, -, a1⟩ := runThread_account tid pre s hok
  have hok1 : s1.KnobEmitPrevBlockCounts = true → tid < s1.PIN_MAX_THREADS := by
    rw [c1.prevCounts, c1.maxThreads]
    exact hok
  obtain ⟨s2, h2, -, -, -, -, -, p2, -, -⟩ := countIf_spec s1 b tid hok1
  obtain ⟨s3, h3, -, -, a3, e3⟩ := onBlockExecuted_account s1 b tid hok1
  have hsum : s.staticSum (pre ++ [b]) =
      s.staticSum pre + (s1.blocks b)._staticInstructionCount := by
    simp [ISIMPOINT.staticSum, c1.static b]
  have hbase : (s1.profiles tid).GlobalInstructionCount +
      ((s1.profiles tid).CurrentSliceSize - (s1.profiles tid).SliceTimer) =
      s.staticSum pre := by
    rw [a1, hgic, htimer]
    ring
  refine ⟨s1, s2, s3, _, h1, h2, ?_, hbase, ?_, ?_, ?_, ?_, ?_⟩
  · rw [runThread_append, h1]
    simp only [Option.some_bind, ISIMPOINT.runThread, h3]
  · rw [p2, hsum, ← hbase]
    simp only
    ring
  · rw [a3, hsum, hbase]
  · intro hf
    rw [e3, if_pos (by simpa using hf), hsum, hbase]
  · intro hf
    rw [e3, if_neg (by simpa using hf), List.append_nil]
  · intro lb
    rw [(CountBlock_Then_counts s3 lb tid).2.2.2.2.1, a3, hsum, hbase]

theorem C26_instruction_total_is_accounted_witness :
    ∃ s1 s2 s3 fire, exampleEngine.runThread 0 [0] = some s1 ∧
      s1.countIf 1 0 = some (s2, fire) ∧
      exampleEngine.runThread 0 ([0] ++ [1]) = some s3 ∧
      (s1.profiles 0).GlobalInstructionCount +
          ((s1.profiles 0).CurrentSliceSize - (s1.profiles 0).SliceTimer) =
        exampleEngine.staticSum [0] ∧
      (s2.profiles 0).GlobalInstructionCount +
          ((s2.profiles 0).CurrentSliceSize - (s2.profiles 0).SliceTimer) =
        exampleEngine.staticSum ([0] ++ [1]) ∧
      (s3.profiles 0).GlobalInstructionCount +
          ((s3.profiles 0).CurrentSliceSize - (s3.profiles 0).SliceTimer) =
        exampleEngine.staticSum ([0] ++ [1]) ∧
      (fire = true →
        sliceEndings (s3.profiles 0).BbFile =
          sliceEndings (s1.profiles 0).BbFile ++ [exampleEngine.staticSum ([0] ++ [1])]) ∧
      (fire = false →
        sliceEndings (s3.profiles 0).BbFile = sliceEndings (s1.profiles 0).BbFile) ∧
      (∀ lb, sliceEndings ((s3.CountBlock_Then lb 0).profiles 0).BbFile =
        sliceEndings (s3.profiles 0).BbFile ++ [exampleEngine.staticSum ([0] ++ [1])]) :=
  C26_instruction_total_is_accounted exampleEngine 0 [0] 1 (by decide) rfl rfl

/-! ### The forced last slice has a block -/

/-- C27: a thread starts with its counter equal to its budget.  After any
run of block executions the run has returned; if the counter then differs
from the budget, the run was not empty and `last_block` is the last block
executed, so it is not null; hence `ThreadFini` returns, whatever the
emit-last knob. -/
theorem C27_ThreadFini_has_last_block (s : ISIMPOINT) (tid : Nat) (trace : List Nat)
    (hok : s.KnobEmitPrevBlockCounts = true → tid < s.PIN_MAX_THREADS)
    (htimer : (s.profiles tid).SliceTimer = (s.profiles tid).CurrentSliceSize) :
    ∃ s1, s.runThread tid trace = some s1 ∧
      ((s1.profiles tid).SliceTimer ≠ (s1.profiles tid).CurrentSliceSize →
        trace ≠ [] ∧ ∃ b, trace.getLast? = some b ∧ (s1.profiles tid).last_block = some b) ∧
      (∃ s2, s1.ThreadFini tid = some s2) ∧
      ∃ s2, s.runThreadToEnd tid trace = some s2 := by
  obtain ⟨s1, h1, -, e1, l1, -⟩ := runThread_account tid trace s hok
  have hlast : (s1.profiles tid).SliceTimer ≠ (s1.profiles tid).CurrentSliceSize →
      trace ≠ [] ∧ ∃ b, trace.getLast? = some b ∧ (s1.profiles tid).last_block = some b := by
    intro hne
    have hnil : trace ≠ [] := by
      intro hc
      rw [e1 hc] at hne
      exact hne htimer
    refine ⟨hnil, trace.getLast hnil, List.getLast?_eq_getLast _ hnil, ?_⟩
    rw [l1 hnil, List.getLast?_eq_getLast _ hnil]
  have hfini : ∃ s2, s1.ThreadFini tid = some s2 := by
    rw [ThreadFini_eq]
    by_cases hc : s1.KnobEmitLastSlice = true ∧
        (s1.profiles tid).SliceTimer ≠ (s1.profiles tid).CurrentSliceSize
    · obtain ⟨-, b, -, hb⟩ := hlast hc.2
      rw [if_pos hc, hb]
      exact ⟨_, rfl⟩
    · rw [if_neg hc]
      exact ⟨_, rfl⟩
  refine ⟨s1, h1, hlast, hfini, ?_⟩
  obtain ⟨s2, h2⟩ := hfini
  exact ⟨s2, by simp only [ISIMPOINT.runThreadToEnd, h1, Option.some_bind, h2]⟩

theorem C27_ThreadFini_has_last_block_witness :
    ∃ s1, exampleEngine.runThread 0 [0, 1, 2] = some s1 ∧
      ((s1.profiles 0).SliceTimer ≠ (s1.profiles 0).CurrentSliceSize →
        [0, 1, 2] ≠ [] ∧
          ∃ b, [0, 1, 2].getLast? = some b ∧ (s1.profiles 0).last_block = some b) ∧
      (∃ s2, s1.ThreadFini 0 = some s2) ∧
      ∃ s2, exampleEngine.runThreadToEnd 0 [0, 1, 2] = some s2 :=
  C27_ThreadFini_has_last_block exampleEngine 0 [0, 1, 2] (by decide) rfl

/-! ### The total block count -/

theorem BLOCK_EmitSliceEnd_GlobalBlockCount (b : BLOCK) (tid : Nat) :
    (b.EmitSliceEnd tid).2.GlobalBlockCount tid = b.GlobalBlockCount tid := by
  obtain ⟨-, -, -, -, -, h1, h2, -⟩ := BLOCK_EmitSliceEnd_snd b tid
  unfold BLOCK.GlobalBlockCount
  rw [h1, h2, add_zero]

theorem markerSum_congr (b1 b2 : Nat → BLOCK) (tid em : Nat) (m : List (BLOCK_KEY × Nat))
    (h : ∀ p, (b1 p).GlobalBlockCount tid = (b2 p).GlobalBlockCount tid) :
    markerSum b1 tid em m = markerSum b2 tid em m := by
  unfold markerSum
  congr 1
  apply List.map_congr_left
  intro e _
  rw [h]

/-- The loop of `EmitSliceEnd` leaves every total block count as it was and
adds to `markerCount` the total counts of the entries that contain the end
marker, whether it folds the slice counters or not. -/
theorem EmitSliceEnd_loop_markerCount (tid em : Nat) (emit : Bool)
    (entries : List (BLOCK_KEY × Nat)) :
    ∀ (blocks : Nat → BLOCK) (mc : Int) (out : List (Int × Int)),
      (∀ p, ((ISIMPOINT.EmitSliceEnd_loop tid em emit entries blocks mc out).1 p).GlobalBlockCount
          tid = (blocks p).GlobalBlockCount tid) ∧
      (ISIMPOINT.EmitSliceEnd_loop tid em emit entries blocks mc out).2.1 =
        mc + markerSum blocks tid em entries := by
  induction entries with
  | nil =>
    intro blocks mc out
    exact ⟨fun _ => rfl, by simp [ISIMPOINT.EmitSliceEnd_loop, markerSum]⟩
  | cons e rest ih =>
    intro blocks mc out
    obtain ⟨key, block⟩ := e
    have hsum : markerSum blocks tid em ((key, block) :: rest) =
        (if key.Contains em = true then (blocks block).GlobalBlockCount tid else 0) +
          markerSum blocks tid em rest := by
      simp [markerSum]
    cases emit
    · simp only [ISIMPOINT.EmitSliceEnd_loop, Bool.false_eq_true, if_false]
      obtain ⟨h1, h2⟩ := ih blocks
        (if key.Contains em = true then mc + (blocks block).GlobalBlockCount tid else mc) out
      refine ⟨h1, ?_⟩
      rw [h2, hsum]
      split_ifs <;> ring
    · simp only [ISIMPOINT.EmitSliceEnd_loop, if_true]
      have hpres : ∀ p, (upd blocks block ((blocks block).EmitSliceEnd tid).2 p).GlobalBlockCount
          tid = (blocks p).GlobalBlockCount tid := by
        intro p
        by_cases hp : p = block
        · rw [hp, upd_same]
          exact BLOCK_EmitSliceEnd_GlobalBlockCount _ _
        · rw [upd_other _ _ _ _ hp]
      obtain ⟨h1, h2⟩ := ih (upd blocks block ((blocks block).EmitSliceEnd tid).2)
        (if key.Contains em = true then mc + (blocks block).GlobalBlockCount tid else mc)
        (out ++ ((blocks block).EmitSliceEnd tid).1)
      refine ⟨fun p => (h1 p).trans (hpres p), ?_⟩
      rw [h2, hsum, markerSum_congr _ blocks tid em rest hpres]
      split_ifs <;> ring

/-- With pairwise disjoint ranges only one entry contains an address of its
own range. -/
theorem markerSum_disjoint (blocks : Nat → BLOCK) (tid em : Nat)
    (m : List (BLOCK_KEY × Nat)) (hd : disjointRanges m) (e : BLOCK_KEY × Nat) (he : e ∈ m)
    (hc : e.1.Contains em = true) :
    markerSum blocks tid em m = (blocks e.2).GlobalBlockCount tid := by
  have hin : e.1._start ≤ em ∧ em ≤ e.1._end := by
    simpa [BLOCK_KEY.Contains] using hc
  have hzero : ∀ l : List (BLOCK_KEY × Nat),
      (∀ x ∈ l, x.1._end < e.1._start ∨ e.1._end < x.1._start) →
      markerSum blocks tid em l = 0 := by
    intro l hl
    unfold markerSum
    apply List.sum_eq_zero
    intro v hv
    obtain ⟨x, hx, rfl⟩ := List.mem_map.mp hv
    have hnc : x.1.Contains em = false := by
      have := hl x hx
      simp only [BLOCK_KEY.Contains]
      rcases this with h | h
      · simp
        intro _
        omega
      · simp
        intro _
        omega
    simp [hnc]
  unfold disjointRanges at hd
  induction m with
  | nil => cases he
  | cons y rest ih =>
    obtain ⟨hy, hrest⟩ := List.pairwise_cons.mp hd
    have hsum : markerSum blocks tid em (y :: rest) =
        (if y.1.Contains em = true then (blocks y.2).GlobalBlockCount tid else 0) +
          markerSum blocks tid em rest := by
      simp [markerSum]
    rw [hsum]
    rcases List.mem_cons.mp he with h | h
    · rw [← h, if_pos hc, hzero rest (fun x hx => by
        have := hy x hx
        rw [← h] at this
        omega), add_zero]
    · have hny : y.1.Contains em = false := by
        have := hy e h
        simp only [BLOCK_KEY.Contains]
        rcases this with h1 | h1
        · simp
          intro _
          omega
        · simp
          intro _
          omega
      rw [ih hrest h]
      simp [hny]

/-- A slice boundary leaves a per-slice counter alone or clears it. -/
theorem CountBlock_Then_slice (s : ISIMPOINT) (b tid p : Nat) :
    ((s.CountBlock_Then b tid).blocks p)._sliceBlockCount tid =
        (s.blocks p)._sliceBlockCount tid ∨
    ((s.CountBlock_Then b tid).blocks p)._sliceBlockCount tid = 0 := by
  rw [CountBlock_Then_eq]
  exact EmitSliceEnd_loop_slice tid _ _ s.block_map s.blocks 0 [] p

/-- One block execution during which the per-slice counter of `b` does not
overflow adds to the total block count of `b` one when the block executed
is `b` and nothing otherwise, and leaves the counter an `INT32` value. -/
theorem onBlockExecuted_GlobalBlockCount (s : ISIMPOINT) (x tid b : Nat)
    (hok : s.KnobEmitPrevBlockCounts = true → tid < s.PIN_MAX_THREADS)
    (hlow : -(2 ^ 31) ≤ (s.blocks b)._sliceBlockCount tid)
    (hfit : x = b → (s.blocks b)._sliceBlockCount tid < 2 ^ 31 - 1) :
    ∃ s1 s2, s.countIf x tid = some (s1, decide ((s.profiles tid).SliceTimer -
          (s.blocks x)._staticInstructionCount < 0)) ∧
      s.onBlockExecuted x tid = some s2 ∧ SameConfig s s1 ∧ SameConfig s s2 ∧
      (s1.blocks b).GlobalBlockCount tid =
        (s.blocks b).GlobalBlockCount tid + (if b = x then 1 else 0) ∧
      (s2.blocks b).GlobalBlockCount tid =
        (s.blocks b).GlobalBlockCount tid + (if b = x then 1 else 0) ∧
      -(2 ^ 31) ≤ (s2.blocks b)._sliceBlockCount tid := by
  obtain ⟨s1, heq, hcfg, hsl, -, hgl, -, -, -, -⟩ := countIf_spec s x tid hok
  have hsl1 : (s1.blocks b)._sliceBlockCount tid =
      (s.blocks b)._sliceBlockCount tid + (if b = x then 1 else 0) := by
    rw [hsl]
    by_cases hb : b = x
    · have := hfit hb.symm
      rw [if_pos hb, if_pos hb, wrapINT32_of_fits _ (by omega) (by omega)]
    · rw [if_neg hb, if_neg hb, add_zero]
  have hcount : (s1.blocks b).GlobalBlockCount tid =
      (s.blocks b).GlobalBlockCount tid + (if b = x then 1 else 0) := by
    unfold BLOCK.GlobalBlockCount
    rw [hsl1, hgl]
    ring
  have hlow1 : -(2 ^ 31) ≤ (s1.blocks b)._sliceBlockCount tid := by
    rw [hsl1]
    split_ifs <;> omega
  have hthen : ((s1.CountBlock_Then x tid).blocks b).GlobalBlockCount tid =
      (s1.blocks b).GlobalBlockCount tid := by
    rw [CountBlock_Then_eq]
    exact (EmitSliceEnd_loop_markerCount tid _ _ _ _ 0 []).1 b
  by_cases hneg : (s.profiles tid).SliceTimer - (s.blocks x)._staticInstructionCount < 0
  · refine ⟨s1, s1.CountBlock_Then x tid, heq, by simp [ISIMPOINT.onBlockExecuted, heq, hneg],
      hcfg, SameConfig.trans hcfg (CountBlock_Then_sameConfig s1 x tid), hcount, ?_, ?_⟩
    · rw [hthen, hcount]
    · rcases CountBlock_Then_slice s1 x tid b with h | h
      · rw [h]
        exact hlow1
      · rw [h]
        omega
  · exact ⟨s1, s1, heq, by simp [ISIMPOINT.onBlockExecuted, heq, hneg], hcfg, hcfg, hcount,
      hcount, hlow1⟩

/-- A run of block executions during which the per-slice counter of `b`
does not overflow adds to the total block count of `b` the number of times
the run executes it. -/
theorem runThread_GlobalBlockCount (tid b : Nat) (trace : List Nat) :
    ∀ s : ISIMPOINT, (s.KnobEmitPrevBlockCounts = true → tid < s.PIN_MAX_THREADS) →
      -(2 ^ 31) ≤ (s.blocks b)._sliceBlockCount tid →
      s.counterFits tid b trace = true →
      ∃ s1, s.runThread tid trace = some s1 ∧ SameConfig s s1 ∧
        (s1.blocks b).GlobalBlockCount tid =
          (s.blocks b).GlobalBlockCount tid + (trace.count b : Int) ∧
        -(2 ^ 31) ≤ (s1.blocks b)._sliceBlockCount tid := by
  induction trace with
  | nil =>
    intro s _ hlow _
    exact ⟨s, rfl, SameConfig.refl s, by simp, hlow⟩
  | cons x rest ih =>
    intro s hok hlow hfit
    simp only [ISIMPOINT.counterFits, Bool.and_eq_true, Bool.or_eq_true, decide_eq_true_eq]
      at hfit
    obtain ⟨hx, hrest⟩ := hfit
    obtain ⟨s1, s2, -, h2, -, c2, -, g2, l2⟩ := onBlockExecuted_GlobalBlockCount s x tid b hok
      hlow (fun h => by
        rcases hx with hx | hx
        · exact absurd h hx
        · exact hx)
    rw [h2] at hrest
    obtain ⟨s3, h3, c3, g3, l3⟩ := ih s2 (by
      rw [c2.prevCounts, c2.maxThreads]
      exact hok) l2 hrest
    refine ⟨s3, ?_, SameConfig.trans c2 c3, ?_, l3⟩
    · simp only [ISIMPOINT.runThread, h2, Option.some_bind]
      exact h3
    · rw [g3, g2, List.count_cons]
      by_cases hp : b = x
      · simp [hp]
        ring
      · have : ¬ (x == b) = true := by
          simp only [beq_iff_eq]
          exact fun h => hp h.symm
        simp [hp, this]

/-- When the counter does not overflow during a run it does not overflow
during a first part of it, nor during the rest from the state reached. -/
theorem counterFits_append (tid b : Nat) (l1 l2 : List Nat) :
    ∀ s : ISIMPOINT, s.counterFits tid b (l1 ++ l2) = true →
      s.counterFits tid b l1 = true ∧
      ∀ s1, s.runThread tid l1 = some s1 → s1.counterFits tid b l2 = true := by
  induction l1 with
  | nil =>
    intro s h
    refine ⟨rfl, ?_⟩
    intro s1 h1
    simp only [ISIMPOINT.runThread, Option.some.injEq] at h1
    rw [← h1]
    exact h
  | cons x rest ih =>
    intro s h
    simp only [List.cons_append, ISIMPOINT.counterFits, Bool.and_eq_true] at h ⊢
    obtain ⟨hx, hrest⟩ := h
    cases hstep : s.onBlockExecuted x tid with
    | none =>
      refine ⟨⟨hx, rfl⟩, ?_⟩
      intro s1 h1
      simp [ISIMPOINT.runThread, hstep] at h1
    | some s2 =>
      rw [hstep] at hrest
      obtain ⟨i1, i2⟩ := ih s2 hrest
      refine ⟨⟨hx, i1⟩, ?_⟩
      intro s1 h1
      simp only [ISIMPOINT.runThread, hstep, Option.some_bind] at h1
      exact i2 s1 h1

theorem staticSum_replicate (s : ISIMPOINT) (k p : Nat) :
    s.staticSum (List.replicate k p) = (k : Int) * (s.blocks p)._staticInstructionCount := by
  induction k with
  | zero => simp [ISIMPOINT.staticSum]
  | succ k ih =>
    unfold ISIMPOINT.staticSum at ih ⊢
    rw [List.replicate_succ, List.map_cons, List.sum_cons, ih]
    push_cast
    ring

/-- The value `markerCount` of a boundary at the end of block `b`, when the
ranges of the map are disjoint and the map holds `b` under its key. -/
theorem markerCount_eq (s : ISIMPOINT) (tid b : Nat)
    (hmem : ((s.blocks b)._key, b) ∈ s.block_map) (hdisj : disjointRanges s.block_map)
    (horder : (s.blocks b)._key._start ≤ (s.blocks b)._key._end) :
    (s.withNextBudget tid).markerCount (s.blocks b)._key._end tid =
      (s.blocks b).GlobalBlockCount tid := by
  have h := (EmitSliceEnd_loop_markerCount tid (s.blocks b)._key._end
    (!((s.withNextBudget tid).profiles tid).first || s.KnobEmitFirstSlice)
    s.block_map s.blocks 0 []).2
  have hc : ((s.blocks b)._key, b).1.Contains (s.blocks b)._key._end = true := by
    simp [BLOCK_KEY.Contains, horder]
  rw [markerSum_disjoint s.blocks tid _ s.block_map hdisj _ hmem hc, zero_add] at h
  exact h

theorem exampleBlocks_fresh (p tid : Nat) : (exampleBlocks p).GlobalBlockCount tid = 0 := by
  match p with
  | 0 => rfl
  | 1 => rfl
  | _ + 2 => rfl

/-! ### The first slice when it is not emitted -/

/-- While the counter of remaining instructions stays non-negative the run
only counts: the profile changes in its counter and its last block alone,
and no cumulative block count changes. -/
theorem runThread_quiet (tid : Nat) (l : List Nat) :
    ∀ s : ISIMPOINT, (s.KnobEmitPrevBlockCounts = true → tid < s.PIN_MAX_THREADS) →
      (∀ j, 1 ≤ j → j ≤ l.length →
        s.staticSum (l.take j) ≤ (s.profiles tid).SliceTimer) →
      ∃ s1, s.runThread tid l = some s1 ∧ SameConfig s s1 ∧
        (∀ p, (s1.blocks p)._sliceBlockCount tid =
          if l.count p = 0 then (s.blocks p)._sliceBlockCount tid
          else wrapINT32 ((s.blocks p)._sliceBlockCount tid + (l.count p : Int))) ∧
        (∀ p, (s1.blocks p)._globalBlockCount = (s.blocks p)._globalBlockCount) ∧
        s1.profiles tid =
          { s.profiles tid with
            SliceTimer := (s.profiles tid).SliceTimer - s.staticSum l
            last_block := (l.getLast?).orElse fun _ => (s.profiles tid).last_block } := by
  induction l with
  | nil =>
    intro s _ _
    refine ⟨s, rfl, SameConfig.refl s, by simp, fun _ => rfl, ?_⟩
    simp [ISIMPOINT.staticSum]
  | cons b rest ih =>
    intro s hmax hpos
    obtain ⟨s1, heq, hcfg, hslice, -, hgl, -, hprof, -, -⟩ := countIf_spec s b tid hmax
    have h1 := hpos 1 (le_refl _) (by simp)
    simp only [List.take_succ_cons, List.take_zero, ISIMPOINT.staticSum, List.map_cons,
      List.map_nil, List.sum_cons, List.sum_nil, Int.add_zero] at h1
    have hnf : ¬ (s.profiles tid).SliceTimer - (s.blocks b)._staticInstructionCount < 0 := by
      omega
    have hstep : s.onBlockExecuted b tid = some s1 := by
      simp [ISIMPOINT.onBlockExecuted, heq, hnf]
    obtain ⟨s2, h2, c2, sl2, gl2, p2⟩ := ih s1
      (by rw [hcfg.prevCounts, hcfg.maxThreads]; exact hmax)
      (by
        intro j hj1 hj2
        have := hpos (j + 1) (by omega) (by simp only [List.length_cons]; omega)
        rw [staticSum_congr s s1 hcfg, hprof]
        simp only [List.take_succ_cons, ISIMPOINT.staticSum, List.map_cons,
          List.sum_cons] at this ⊢
        omega)
    refine ⟨s2, ?_, SameConfig.trans hcfg c2, fun p => ?_, fun p => (gl2 p).trans (hgl p), ?_⟩
    · simp only [ISIMPOINT.runThread, hstep, Option.some_bind]
      exact h2
    · rw [sl2, hslice]
      exact sliceCount_cons _ p b rest
    · rw [p2, hprof, staticSum_congr s s1 hcfg]
      have hsum : s.staticSum (b :: rest) =
          (s.blocks b)._staticInstructionCount + s.staticSum rest := by
        simp [ISIMPOINT.staticSum]
      rw [hsum]
      cases rest with
      | nil => simp [ISIMPOINT.staticSum]
      | cons c rest1 =>
        simp only [List.getLast?_cons_cons]
        congr 1
        ring

/-- A run that stays within the budget until its last block, which exceeds
it: the state after the `If` routine of that block, from which the `Then`
routine takes the run to its end. -/
theorem runThread_to_boundary (s : ISIMPOINT) (tid : Nat) (pre : List Nat) (b : Nat)
    (hmax : s.KnobEmitPrevBlockCounts = true → tid < s.PIN_MAX_THREADS)
    (hbelow : ∀ j, 1 ≤ j → j ≤ pre.length →
      s.staticSum (pre.take j) ≤ (s.profiles tid).SliceTimer)
    (habove : (s.profiles tid).SliceTimer < s.staticSum (pre ++ [b])) :
    ∃ s1, s.runThread tid (pre ++ [b]) = some (s1.CountBlock_Then b tid) ∧
      SameConfig s s1 ∧
      (∀ p, (s1.blocks p)._sliceBlockCount tid =
        if (pre ++ [b]).count p = 0 then (s.blocks p)._sliceBlockCount tid
        else wrapINT32 ((s.blocks p)._sliceBlockCount tid + ((pre ++ [b]).count p : Int))) ∧
      (∀ p, (s1.blocks p)._globalBlockCount = (s.blocks p)._globalBlockCount) ∧
      s1.profiles tid =
        { s.profiles tid with
          SliceTimer := (s.profiles tid).SliceTimer - s.staticSum (pre ++ [b])
          last_block := some b } := by
  obtain ⟨sk, hrun, hcfg, hsl, hgl, hprof⟩ := runThread_quiet tid pre s hmax hbelow
  obtain ⟨s1, heq, hcfg1, hsl1, -, hgl1, -, hprof1, -, -⟩ := countIf_spec sk b tid
    (by rw [hcfg.prevCounts, hcfg.maxThreads]; exact hmax)
  have hsum : s.staticSum (pre ++ [b]) =
      s.staticSum pre + (s.blocks b)._staticInstructionCount := by
    simp [ISIMPOINT.staticSum]
  have hfire : decide ((sk.profiles tid).SliceTimer -
      (sk.blocks b)._staticInstructionCount < 0) = true := by
    simp only [decide_eq_true_eq]
    rw [hprof, hcfg.static]
    simp only
    omega
  rw [hfire] at heq
  refine ⟨s1, ?_, SameConfig.trans hcfg hcfg1, fun p => ?_, fun p => (hgl1 p).trans (hgl p), ?_⟩
  · rw [runThread_append, hrun]
    simp [ISIMPOINT.runThread, ISIMPOINT.onBlockExecuted, heq]
  · rw [hsl1, hsl]
    exact sliceCount_snoc _ p b pre
  · rw [hprof1, hprof, hsum, hcfg.static]
    simp only
    congr 1
    ring

/-- In the engine with the long slice, thread 0 executes block 0 `n + 1 =
2^31` times: the last execution is the first to exceed the budget, the
per-slice counter of the block has wrapped to -2^31, and that is the
`markerCount` which the boundary computes and writes. -/
theorem exampleLongSlice_boundary (n : Nat) (hn : (n : Int) + 1 = 2 ^ 31) :
    ∃ s1 : ISIMPOINT, exampleLongSlice.runThread 0 (List.replicate n 0 ++ [0]) =
        some (s1.CountBlock_Then 0 0) ∧
      (((List.replicate n 0 ++ [0]).count 0 : Nat) : Int) = 2 ^ 31 ∧
      (s1.withNextBudget 0).markerCount (s1.blocks 0)._key._end 0 = -(2 ^ 31) ∧
      ((s1.CountBlock_Then 0 0).profiles 0).BbFile.getLast? =
        some (Line.M_no_image 1039 (-(2 ^ 31))) := by
  have hcnt : (List.replicate n 0 ++ [0]).count 0 = n + 1 := by
    rw [List.count_append, List.count_replicate_self]
    rfl
  have hstat : (exampleLongSlice.blocks 0)._staticInstructionCount = 40 := rfl
  have htim : (exampleLongSlice.profiles 0).SliceTimer = 2 ^ 31 * 40 - 1 := rfl
  obtain ⟨s1, hrun, c1, sl1, gl1, p1⟩ :=
    runThread_to_boundary exampleLongSlice 0 (List.replicate n 0) 0 (by decide)
      (by
        intro j _ _
        rw [List.take_replicate, staticSum_replicate, hstat, htim]
        have : ((min j n : Nat) : Int) ≤ (n : Int) := by
          exact_mod_cast Nat.min_le_right j n
        omega)
      (by
        have h1 : List.replicate n 0 ++ [0] = List.replicate (n + 1) 0 := by
          rw [List.replicate_succ']
        rw [h1, staticSum_replicate, hstat, htim]
        push_cast
        omega)
  have hslice : (s1.blocks 0)._sliceBlockCount 0 = -(2 ^ 31) := by
    rw [sl1, hcnt, if_neg (by omega)]
    have h0 : (exampleLongSlice.blocks 0)._sliceBlockCount 0 = 0 := rfl
    rw [h0, zero_add]
    push_cast
    rw [hn]
    unfold wrapINT32
    omega
  have hglob : (s1.blocks 0)._globalBlockCount 0 = 0 := by
    rw [gl1]
    rfl
  have hkey : (s1.blocks 0)._key = ⟨1000, 1039, 40⟩ := by
    rw [c1.key]
    rfl
  have hmc : (s1.withNextBudget 0).markerCount (s1.blocks 0)._key._end 0 = -(2 ^ 31) := by
    rw [markerCount_eq s1 0 0 (by rw [hkey, c1.block_map]; decide)
      (by rw [c1.block_map]; decide) (by rw [hkey]; decide)]
    unfold BLOCK.GlobalBlockCount
    rw [hglob, hslice, zero_add]
  refine ⟨s1, hrun, ?_, hmc, ?_⟩
  · rw [hcnt]
    push_cast
    exact hn
  · rw [CountBlock_Then_BbFile_general, hmc]
    have hact : (s1.profiles 0).active = true := by
      rw [p1]
      rfl
    have himg : (s1.blocks 0)._imgId = 0 := by
      rw [c1.imgId]
      rfl
    have hsym : s1.KnobNoSymbolic = false := by
      rw [c1.noSymbolic]
      rfl
    have hcl : s1.closingMarker (s1.blocks 0)._key._end (-(2 ^ 31)) (s1.blocks 0)._imgId 0 =
        [Line.M_no_image 1039 (-(2 ^ 31))] := by
      simp [ISIMPOINT.closingMarker, hact, hsym, himg, hkey, ISIMPOINT.EmitSliceStartInfo]
    rw [hcl, List.getLast?_append]
    rfl

/-- C30 fails as stated: with a slice size of 2^31 * 40 - 1 instructions
(ranges of the map pairwise disjoint), thread 0 executes block 0 2^31 times;
the last execution is the first to exceed the budget, and the boundary it
triggers computes and writes `markerCount` -2^31, the value of the wrapped
per-slice counter, where the block has been executed 2^31 times. -/
theorem C30_marker_count_wraps_with_slice_counter :
    disjointRanges exampleLongSlice.block_map ∧
    ∃ s1 : ISIMPOINT, exampleLongSlice.runThread 0 (List.replicate (2 ^ 31 - 1) 0 ++ [0]) =
        some (s1.CountBlock_Then 0 0) ∧
      (((List.replicate (2 ^ 31 - 1) 0 ++ [0]).count 0 : Nat) : Int) = 2 ^ 31 ∧
      (s1.withNextBudget 0).markerCount (s1.blocks 0)._key._end 0 = -(2 ^ 31) ∧
      ((s1.CountBlock_Then 0 0).profiles 0).BbFile.getLast? =
        some (Line.M_no_image 1039 (-(2 ^ 31))) :=
  ⟨by decide, exampleLongSlice_boundary (2 ^ 31 - 1) (by norm_num)⟩

/-- C30 (amended): the total block count of thread `tid` is 0 for every
block, the per-slice counter of block `b` holds an `INT32` value and does
not overflow while the thread runs the blocks of `pre` and then `b` (every
`++` on it finds it below 2^31 - 1), the ranges of the map are pairwise
disjoint and the map holds `b` under its key, whose bounds are in order.
After the thread has run the blocks of `pre` and the `If` routine of `b`,
the `markerCount` that the boundary at `b` computes, and writes in its
closing marker, is the number of executions of `b` so far, which is at
least 1; a forced last slice after the event of `b` computes the same
number.  `BLOCK::EmitSliceEnd` leaves `GlobalBlockCount(tid)` of a block
unchanged. -/
theorem C30_marker_count_is_execution_count (s : ISIMPOINT) (tid : Nat) (pre : List Nat)
    (b : Nat)
    (hok : s.KnobEmitPrevBlockCounts = true → tid < s.PIN_MAX_THREADS)
    (hzero : ∀ p, (s.blocks p).GlobalBlockCount tid = 0)
    (hint32 : -(2 ^ 31) ≤ (s.blocks b)._sliceBlockCount tid ∧
      (s.blocks b)._sliceBlockCount tid < 2 ^ 31)
    (hfits : s.counterFits tid b (pre ++ [b]) = true)
    (hmem : ((s.blocks b)._key, b) ∈ s.block_map) (hdisj : disjointRanges s.block_map)
    (horder : (s.blocks b)._key._start ≤ (s.blocks b)._key._end) :
    (∃ s1 s2 fire, s.runThread tid pre = some s1 ∧ s1.countIf b tid = some (s2, fire) ∧
      (s2.withNextBudget tid).markerCount (s2.blocks b)._key._end tid =
        ((pre ++ [b]).count b : Int) ∧
      ((s2.CountBlock_Then b tid).profiles tid).BbFile =
        (s2.profiles tid).BbFile ++ s2.preamble tid (s2.blocks b)._imgId ++
          [Line.SliceEnding ((s2.profiles tid).GlobalInstructionCount +
            ((s2.profiles tid).CurrentSliceSize - (s2.profiles tid).SliceTimer))] ++
          (if (!(s2.profiles tid).first || s2.KnobEmitFirstSlice) = true then
            [Line.T ((s2.withNextBudget tid).loopBody (s2.blocks b)._key._end tid)]
          else []) ++
          s2.closingMarker (s2.blocks b)._key._end ((pre ++ [b]).count b : Int)
            (s2.blocks b)._imgId tid) ∧
    (∃ s3, s.runThread tid (pre ++ [b]) = some s3 ∧
      (s3.profiles tid).last_block = some b ∧
      (s3.withNextBudget tid).markerCount (s3.blocks b)._key._end tid =
        ((pre ++ [b]).count b : Int)) ∧
    1 ≤ ((pre ++ [b]).count b : Int) ∧
    (∀ blk : BLOCK, (blk.EmitSliceEnd tid).2.GlobalBlockCount tid =
      blk.GlobalBlockCount tid) := by
  obtain ⟨hf1, hf2⟩ := counterFits_append tid b pre [b] s hfits
  refine ⟨?_, ?_, ?_, fun blk => BLOCK_EmitSliceEnd_GlobalBlockCount blk tid⟩
  · obtain ⟨s1, h1, c1, g1, l1⟩ := runThread_GlobalBlockCount tid b pre s hok hint32.1 hf1
    have hf3 := hf2 s1 h1
    simp only [ISIMPOINT.counterFits, Bool.and_eq_true, Bool.or_eq_true, decide_eq_true_eq]
      at hf3
    obtain ⟨s2, -, h2, -, c2, -, g2, -, -⟩ := onBlockExecuted_GlobalBlockCount s1 b tid b (by
      rw [c1.prevCounts, c1.maxThreads]
      exact hok) l1 (fun _ => by
        rcases hf3.1 with h | h
        · exact absurd rfl h
        · exact h)
    have c12 := SameConfig.trans c1 c2
    have hcount : (s2.blocks b).GlobalBlockCount tid = ((pre ++ [b]).count b : Int) := by
      rw [g2, g1, hzero b, if_pos rfl]
      simp only [List.count_append, List.count_singleton_self, Nat.cast_add, Nat.cast_one]
      ring
    have hmc : (s2.withNextBudget tid).markerCount (s2.blocks b)._key._end tid =
        ((pre ++ [b]).count b : Int) := by
      rw [markerCount_eq s2 tid b (by rw [c12.key, c12.block_map]; exact hmem)
        (by rw [c12.block_map]; exact hdisj) (by rw [c12.key]; exact horder), hcount]
    refine ⟨s1, s2, _, h1, h2, hmc, ?_⟩
    rw [CountBlock_Then_BbFile_general, hmc]
  · obtain ⟨s3, h3, c3, g3, -⟩ :=
      runThread_GlobalBlockCount tid b (pre ++ [b]) s hok hint32.1 hfits
    obtain ⟨s4, h4, -, -, l4, -⟩ := runThread_account tid (pre ++ [b]) s hok
    rw [h3] at h4
    cases h4
    refine ⟨s3, h3, ?_, ?_⟩
    · rw [l4 (by simp)]
      simp
    · rw [markerCount_eq s3 tid b (by rw [c3.key, c3.block_map]; exact hmem)
        (by rw [c3.block_map]; exact hdisj) (by rw [c3.key]; exact horder), g3, hzero b,
        zero_add]
  · simp only [List.count_append, List.count_singleton_self, Nat.cast_add, Nat.cast_one]
    omega

theorem C30_marker_count_is_execution_count_witness :
    ∃ s3, exampleEngine.runThread 0 ([0, 1, 0] ++ [0]) = some s3 ∧
      (s3.profiles 0).last_block = some 0 ∧
      (s3.withNextBudget 0).markerCount (s3.blocks 0)._key._end 0 =
        ((([0, 1, 0] ++ [0]).count 0 : Nat) : Int) :=
  (C30_marker_count_is_execution_count exampleEngine 0 [0, 1, 0] 0 (by decide)
    (fun p => exampleBlocks_fresh p 0) (by decide) (by decide) (by decide) (by decide)
    (by decide)).2.1

/-! ### The predecessor histogram -/

theorem blockCountMap_get_incr (m : List (Int × Int)) (k k1 : Int) :
    blockCountMap_get (blockCountMap_incr m k) k1 =
      blockCountMap_get m k1 + if k = k1 then 1 else 0 := by
  induction m with
  | nil =>
    simp [blockCountMap_get, blockCountMap_incr]
  | cons x rest ih =>
    obtain ⟨a, v⟩ := x
    unfold blockCountMap_incr
    split_ifs with h1 h2 h3 h4 h5
    all_goals
      simp only [blockCountMap_get, List.map_cons, List.sum_cons] at ih ⊢
      split_ifs <;> omega

/-- The `If` routine with previous-block tracking: no id counter goes
down, only the histogram of the executed block for the executing thread
changes, and when the thread's last block carries a nonzero id that
histogram gains one count under this id (under 0 when there is no last
block). -/
theorem countIf_blockCountMap (s : ISIMPOINT) (b tid : Nat)
    (hk : s.KnobEmitPrevBlockCounts = true) (hlt : tid < s.PIN_MAX_THREADS) :
    ∃ s1 fire, s.countIf b tid = some (s1, fire) ∧
      (∀ t, s._currentId t ≤ s1._currentId t) ∧
      (∀ p t, (p ≠ b ∨ t ≠ tid) →
        (s1.blocks p)._blockCountMap t = (s.blocks p)._blockCountMap t) ∧
      ((∀ pb, (s.profiles tid).last_block = some pb → (s.blocks pb)._id ≠ 0) →
        (s1.blocks b)._blockCountMap tid =
          blockCountMap_incr ((s.blocks b)._blockCountMap tid)
            (match (s.profiles tid).last_block with
              | some pb => (s.blocks pb)._id
              | none => 0)) := by
  by_cases hid : (s.blocks b)._id = 0
  · simp only [ISIMPOINT.countIf, hk, ISIMPOINT.CountBlockAndTrackPrevious_If,
      ISIMPOINT.BLOCK_Execute, ISIMPOINT.getNextCurrentId, upd_same, BLOCK.Execute, hid,
      hlt, and_self, if_true, Option.map_some', BLOCK.StaticInstructionCount]
    refine ⟨_, _, rfl, ?_, ?_, ?_⟩
    · intro t
      simp only [upd_apply]
      split_ifs with h
      · rw [h]
        omega
      · exact le_refl _
    · intro p t hpt
      simp only [upd_apply]
      split_ifs with h <;> simp_all [upd_apply]
    · intro hlast
      simp only [upd_same]
      cases hl : (s.profiles tid).last_block with
      | none => rfl
      | some pb =>
        have hne : pb ≠ b := by
          intro hc
          exact hlast pb hl (by rw [hc]; exact hid)
        simp [upd_apply, hne]
  · simp only [ISIMPOINT.countIf, hk, ISIMPOINT.CountBlockAndTrackPrevious_If,
      ISIMPOINT.BLOCK_Execute, upd_same, BLOCK.Execute, hid,
      if_true, if_false, Option.map_some', BLOCK.StaticInstructionCount]
    refine ⟨_, _, rfl, fun t => le_refl _, ?_, ?_⟩
    · intro p t hpt
      simp only [upd_apply]
      split_ifs with h <;> simp_all [upd_apply]
    · intro _
      simp only [upd_same]
      cases hl : (s.profiles tid).last_block with
      | none => rfl
      | some pb =>
        by_cases hpb : pb = b
        · simp [upd_apply, hpb]
        · simp [upd_apply, hpb]

/-- The loop of `EmitSliceEnd` never touches a predecessor histogram. -/
theorem EmitSliceEnd_loop_blockCountMap (tid em : Nat) (emit : Bool)
    (entries : List (BLOCK_KEY × Nat)) (blocks : Nat → BLOCK) (mc : Int)
    (out : List (Int × Int)) (p : Nat) :
    ((ISIMPOINT.EmitSliceEnd_loop tid em emit entries blocks mc out).1 p)._blockCountMap =
      (blocks p)._blockCountMap := by
  induction entries generalizing blocks mc out with
  | nil => rfl
  | cons e rest ih =>
    obtain ⟨key, block⟩ := e
    cases emit
    · simp only [ISIMPOINT.EmitSliceEnd_loop, Bool.false_eq_true, if_false]
      exact ih _ _ _
    · simp only [ISIMPOINT.EmitSliceEnd_loop, if_true]
      rw [ih]
      by_cases hp : p = block
      · rw [hp, upd_same]
        exact (BLOCK_EmitSliceEnd_snd (blocks block) tid).2.2.2.2.1
      · rw [upd_other _ _ _ _ hp]

theorem CountBlock_Then_blockCountMap (s : ISIMPOINT) (block tid p : Nat) :
    ((s.CountBlock_Then block tid).blocks p)._blockCountMap = (s.blocks p)._blockCountMap := by
  rw [CountBlock_Then_eq]
  exact EmitSliceEnd_loop_blockCountMap tid _ _ s.block_map s.blocks 0 [] p

/-- A slice boundary of any thread keeps the invariant of thread `tid`. -/
theorem PrevInv_CountBlock_Then (s : ISIMPOINT) (tid : Nat) (pre : List Nat) (b t : Nat)
    (inv : PrevInv s tid pre) : PrevInv (s.CountBlock_Then b t) tid pre := by
  have cfg := CountBlock_Then_sameConfig s b t
  have hlb : ((s.CountBlock_Then b t).profiles tid).last_block =
      (s.profiles tid).last_block := by
    by_cases ht : tid = t
    · rw [ht]
      exact (CountBlock_Then_fields s b t).2.2.2.2.1
    · rw [CountBlock_Then_profiles_other s b t tid ht]
  exact
    { tracking := cfg.prevCounts.trans inv.tracking
      nextIds := fun t1 => by rw [CountBlock_Then_currentId]; exact inv.nextIds t1
      last := hlb.trans inv.last
      lastId := fun b1 h1 => by
        rw [CountBlock_Then_id]
        exact inv.lastId b1 (hlb.symm.trans h1)
      known := fun b1 h1 => by
        rw [pointers_eq _ _ cfg.block_map]
        exact inv.known b1 h1
      zero := fun p => by
        rw [CountBlock_Then_blockCountMap]
        exact inv.zero p }

/-- An execution by thread `tid` itself extends its trace. -/
theorem PrevInv_execute_own (s : ISIMPOINT) (tid : Nat) (pre : List Nat) (b : Nat)
    (inv : PrevInv s tid pre) (hlt : tid < s.PIN_MAX_THREADS) (hb : b ∈ s.pointers) :
    ∃ s1, s.onBlockExecuted b tid = some s1 ∧ PrevInv s1 tid (pre ++ [b]) := by
  obtain ⟨s1, heq, cfg, -, -, -, -, hprof, hids, -⟩ := countIf_spec s b tid (fun _ => hlt)
  obtain ⟨s2, fire, heq2, hcur, hother, hown⟩ := countIf_blockCountMap s b tid inv.tracking hlt
  rw [heq] at heq2
  simp only [Option.some.injEq, Prod.mk.injEq] at heq2
  obtain ⟨e1, -⟩ := heq2
  subst e1
  have hidb : (s1.blocks b)._id ≠ 0 := by
    rw [hids]
    by_cases h0 : (s.blocks b)._id = 0
    · rw [if_pos ⟨inv.tracking, rfl, h0⟩]
      have := inv.nextIds tid
      omega
    · rw [if_neg (fun hc => h0 hc.2.2)]
      exact h0
  have inv1 : PrevInv s1 tid (pre ++ [b]) :=
    { tracking := cfg.prevCounts.trans inv.tracking
      nextIds := fun t => le_trans (inv.nextIds t) (hcur t)
      last := by
        rw [hprof]
        simp
      lastId := fun b1 h1 => by
        rw [hprof] at h1
        simp only [Option.some.injEq] at h1
        rw [← h1]
        exact hidb
      known := fun b1 h1 => by
        rw [pointers_eq _ _ cfg.block_map]
        rcases List.mem_append.mp h1 with h | h
        · exact inv.known b1 h
        · rw [List.mem_singleton] at h
          rw [h]
          exact hb
      zero := fun p => by
        by_cases hp : p = b
        · rw [hp, hown inv.lastId, blockCountMap_get_incr, inv.zero]
          cases pre with
          | nil =>
            have hl : (s.profiles tid).last_block = none := inv.last
            rw [hl]
            simp
          | cons a rest =>
            have hl := inv.last
            obtain ⟨pb, hpb⟩ : ∃ pb, (a :: rest).getLast? = some pb :=
              ⟨_, List.getLast?_eq_getLast _ (List.cons_ne_nil _ _)⟩
            rw [hpb] at hl
            have hne := inv.lastId pb hl
            rw [hl]
            simp [hne]
        · rw [hother p tid (Or.inl hp), inv.zero]
          cases pre with
          | nil =>
            have : ¬ b = p := fun h => hp h.symm
            simp [this]
          | cons a rest => simp }
  by_cases hneg : (s.profiles tid).SliceTimer - (s.blocks b)._staticInstructionCount < 0
  · exact ⟨s1.CountBlock_Then b tid, by simp [ISIMPOINT.onBlockExecuted, heq, hneg],
      PrevInv_CountBlock_Then s1 tid _ b tid inv1⟩
  · exact ⟨s1, by simp [ISIMPOINT.onBlockExecuted, heq, hneg], inv1⟩

/-- An execution by another thread leaves the invariant of thread `tid`. -/
theorem PrevInv_execute_other (s : ISIMPOINT) (tid : Nat) (pre : List Nat) (b t : Nat)
    (inv : PrevInv s tid pre) (hlt : t < s.PIN_MAX_THREADS) (ht : t ≠ tid) :
    ∃ s1, s.onBlockExecuted b t = some s1 ∧ PrevInv s1 tid pre := by
  obtain ⟨s1, heq, cfg, -, -, -, hprofs, -, hids, -⟩ := countIf_spec s b t (fun _ => hlt)
  obtain ⟨s2, fire, heq2, hcur, hother, -⟩ := countIf_blockCountMap s b t inv.tracking hlt
  rw [heq] at heq2
  simp only [Option.some.injEq, Prod.mk.injEq] at heq2
  obtain ⟨e1, -⟩ := heq2
  subst e1
  have hpr : s1.profiles tid = s.profiles tid := hprofs tid (fun h => ht h.symm)
  have inv1 : PrevInv s1 tid pre :=
    { tracking := cfg.prevCounts.trans inv.tracking
      nextIds := fun t1 => le_trans (inv.nextIds t1) (hcur t1)
      last := by rw [hpr]; exact inv.last
      lastId := fun b1 h1 => by
        rw [hpr] at h1
        have hne := inv.lastId b1 h1
        rw [hids, if_neg (fun hc => hne hc.2.2)]
        exact hne
      known := fun b1 h1 => by
        rw [pointers_eq _ _ cfg.block_map]
        exact inv.known b1 h1
      zero := fun p => by
        rw [hother p tid (Or.inr (fun h => ht h.symm))]
        exact inv.zero p }
  by_cases hneg : (s.profiles t).SliceTimer - (s.blocks b)._staticInstructionCount < 0
  · exact ⟨s1.CountBlock_Then b t, by simp [ISIMPOINT.onBlockExecuted, heq, hneg],
      PrevInv_CountBlock_Then s1 tid _ b t inv1⟩
  · exact ⟨s1, by simp [ISIMPOINT.onBlockExecuted, heq, hneg], inv1⟩

/-- The discovery of a basic block keeps the invariant of thread `tid`. -/
theorem PrevInv_LookupBlock (s : ISIMPOINT) (tid : Nat) (pre : List Nat) (bbl : BBL)
    (inv : PrevInv s tid pre) : PrevInv (s.LookupBlock bbl).2 tid pre := by
  obtain ⟨hmap, hk, -, hprof, hblocks, htr⟩ := LookupBlock_spec s bbl
  obtain ⟨hcur, hnew, hsame⟩ := htr inv.tracking
  have hptr : ∀ p ∈ s.pointers, p ∈ (s.LookupBlock bbl).2.pointers := by
    intro p hp
    unfold ISIMPOINT.pointers
    rw [hmap]
    exact (lookupMap_pointers s.block_map bbl).2 p hp
  have hold : ∀ p ∈ s.pointers, (s.LookupBlock bbl).2.blocks p = s.blocks p := by
    intro p hp
    apply hblocks
    intro hc
    rw [hc] at hp
    exact freshPointer_not_mem s.block_map hp
  exact
    { tracking := hk.trans inv.tracking
      nextIds := fun t => by rw [hcur]; exact inv.nextIds t
      last := by rw [hprof]; exact inv.last
      lastId := fun b h => by
        rw [hprof] at h
        have hmem : b ∈ pre := by
          rw [inv.last] at h
          exact List.mem_of_getLast?_eq_some h
        rw [hold b (inv.known b hmem)]
        exact inv.lastId b h
      known := fun b h => hptr b (inv.known b h)
      zero := fun p => by
        by_cases hp : p = freshPointer s.block_map
        · cases hfind : BLOCK_MAP_find s.block_map ⟨bbl.head, bbl.tail, bbl.size⟩ with
          | none =>
            rw [hp, (hnew hfind).2]
            have hh : ¬ pre.head? = some (freshPointer s.block_map) := by
              intro hc
              exact freshPointer_not_mem s.block_map
                (inv.known _ (List.mem_of_mem_head? hc))
            rw [if_neg hh]
            rfl
          | some bi =>
            rw [hsame (by rw [hfind]; exact Option.some_ne_none bi)]
            exact inv.zero p
        · rw [hblocks p hp]
          exact inv.zero p }

/-- Any interleaving of discoveries and executions by any threads: the run
returns and the invariant of thread `tid` holds for the blocks it executed. -/
theorem PrevInv_runSteps (tid : Nat) (steps : List Step) :
    ∀ (s : ISIMPOINT) (pre : List Nat), PrevInv s tid pre →
      knownSteps s.PIN_MAX_THREADS s.block_map steps = true →
      ∃ s1, s.runSteps steps = some s1 ∧ PrevInv s1 tid (pre ++ threadTrace tid steps) := by
  induction steps with
  | nil =>
    intro s pre inv _
    exact ⟨s, rfl, by simpa [threadTrace] using inv⟩
  | cons st rest ih =>
    intro s pre inv hknown
    cases st with
    | discover bbl =>
      obtain ⟨hmap, -, hmaxT, -, -, -⟩ := LookupBlock_spec s bbl
      simp only [knownSteps] at hknown
      exact ih (s.LookupBlock bbl).2 pre (PrevInv_LookupBlock s tid pre bbl inv)
        (by rw [hmap, hmaxT]; exact hknown)
    | execute t b =>
      simp only [knownSteps, Bool.and_eq_true, decide_eq_true_eq] at hknown
      obtain ⟨⟨hlt, hb⟩, hrest⟩ := hknown
      by_cases ht : t = tid
      · subst ht
        obtain ⟨s1, h1, inv1⟩ := PrevInv_execute_own s t pre b inv hlt hb
        have cfg : s1.PIN_MAX_THREADS = s.PIN_MAX_THREADS ∧ s1.block_map = s.block_map := by
          obtain ⟨s2, h2, c2, -⟩ := onBlockExecuted_account s b t (fun _ => hlt)
          rw [h1] at h2
          cases h2
          exact ⟨c2.maxThreads, c2.block_map⟩
        obtain ⟨s3, h3, inv3⟩ := ih s1 (pre ++ [b]) inv1 (by rw [cfg.1, cfg.2]; exact hrest)
        refine ⟨s3, ?_, ?_⟩
        · simp only [ISIMPOINT.runSteps, h1, Option.some_bind]
          exact h3
        · simpa [threadTrace] using inv3
      · obtain ⟨s1, h1, inv1⟩ := PrevInv_execute_other s tid pre b t inv hlt ht
        have cfg : s1.PIN_MAX_THREADS = s.PIN_MAX_THREADS ∧ s1.block_map = s.block_map := by
          obtain ⟨s2, h2, c2, -⟩ := onBlockExecuted_account s b t (fun _ => hlt)
          rw [h1] at h2
          cases h2
          exact ⟨c2.maxThreads, c2.block_map⟩
        obtain ⟨s3, h3, inv3⟩ := ih s1 pre inv1 (by rw [cfg.1, cfg.2]; exact hrest)
        refine ⟨s3, ?_, ?_⟩
        · simp only [ISIMPOINT.runSteps, h1, Option.some_bind]
          exact h3
        · simpa [threadTrace, ht] using inv3

/-- C24: with previous-block tracking, start from a state in which thread
`tid` has no last block and no histogram holds a count for it under
predecessor id 0, every id counter being at least 1.  After any
interleaving of block discoveries and of block executions by any threads
(each execution of a block of the map, by a thread below the maximum) the
run has returned, and if thread `tid` has executed at least one block then
the histogram of the first block it executed holds count 1 under
predecessor id 0 for this thread and the histogram of every other block
holds 0, so the counts under id 0 over the blocks of the map sum to 1; if
the thread has executed nothing, all these counts are 0. -/
theorem C24_no_predecessor_counted_once (s : ISIMPOINT) (tid : Nat) (steps : List Step)
    (hk : s.KnobEmitPrevBlockCounts = true)
    (hids : ∀ t, 1 ≤ s._currentId t)
    (hlast : (s.profiles tid).last_block = none)
    (hzero : ∀ p, blockCountMap_get ((s.blocks p)._blockCountMap tid) 0 = 0)
    (hknown : knownSteps s.PIN_MAX_THREADS s.block_map steps = true) :
    ∃ s1, s.runSteps steps = some s1 ∧
      (∀ first, (threadTrace tid steps).head? = some first →
        blockCountMap_get ((s1.blocks first)._blockCountMap tid) 0 = 1 ∧
        (∀ p, p ≠ first → blockCountMap_get ((s1.blocks p)._blockCountMap tid) 0 = 0) ∧
        first ∈ s1.pointers ∧
        (s1.pointers.Nodup →
          (s1.pointers.map fun p =>
            blockCountMap_get ((s1.blocks p)._blockCountMap tid) 0).sum = 1)) ∧
      (threadTrace tid steps = [] →
        ∀ p, blockCountMap_get ((s1.blocks p)._blockCountMap tid) 0 = 0) := by
  have inv0 : PrevInv s tid [] :=
    { tracking := hk
      nextIds := hids
      last := hlast
      lastId := fun b h => by rw [hlast] at h; cases h
      known := fun b h => by cases h
      zero := fun p => by
        rw [hzero p]
        simp }
  obtain ⟨s1, h1, inv1⟩ := PrevInv_runSteps tid steps s [] inv0 hknown
  rw [List.nil_append] at inv1
  refine ⟨s1, h1, ?_, ?_⟩
  · intro first hfirst
    have hone : blockCountMap_get ((s1.blocks first)._blockCountMap tid) 0 = 1 := by
      rw [inv1.zero, if_pos hfirst]
    have hothers : ∀ p, p ≠ first →
        blockCountMap_get ((s1.blocks p)._blockCountMap tid) 0 = 0 := by
      intro p hp
      rw [inv1.zero, if_neg]
      rw [hfirst]
      intro hc
      exact hp (Option.some.inj hc).symm
    have hmem : first ∈ s1.pointers := inv1.known first (List.mem_of_mem_head? hfirst)
    refine ⟨hone, hothers, hmem, fun hnd => ?_⟩
    rw [sum_map_eq_single s1.pointers _ first hnd hmem (fun x _ hx => hothers x hx), hone]
  · intro hnil p
    rw [inv1.zero, hnil]
    simp

theorem C24_no_predecessor_counted_once_witness :
    ∃ s1, exampleTracking.runSteps
        [Step.execute 0 0, Step.execute 1 1, Step.execute 0 1, Step.execute 1 0,
          Step.execute 1 1] = some s1 ∧
      (∀ first, (threadTrace 1
          [Step.execute 0 0, Step.execute 1 1, Step.execute 0 1, Step.execute 1 0,
            Step.execute 1 1]).head? = some first →
        blockCountMap_get ((s1.blocks first)._blockCountMap 1) 0 = 1 ∧
        (∀ p, p ≠ first → blockCountMap_get ((s1.blocks p)._blockCountMap 1) 0 = 0) ∧
        first ∈ s1.pointers ∧
        (s1.pointers.Nodup →
          (s1.pointers.map fun p =>
            blockCountMap_get ((s1.blocks p)._blockCountMap 1) 0).sum = 1)) ∧
      (threadTrace 1
          [Step.execute 0 0, Step.execute 1 1, Step.execute 0 1, Step.execute 1 0,
            Step.execute 1 1] = [] →
        ∀ p, blockCountMap_get ((s1.blocks p)._blockCountMap 1) 0 = 0) :=
  C24_no_predecessor_counted_once exampleTracking 1
    [Step.execute 0 0, Step.execute 1 1, Step.execute 0 1, Step.execute 1 0, Step.execute 1 1]
    rfl (fun _ => le_refl _) rfl
    (fun p => by
      match p with
      | 0 => rfl
      | 1 => rfl
      | _ + 2 => rfl)
    (by decide)

/-! ### Uniqueness of block ids -/

theorem PlainIds_LookupBlock (s : ISIMPOINT) (bbl : BBL) (inv : PlainIds s) :
    PlainIds (s.LookupBlock bbl).2 := by
  cases hfind : BLOCK_MAP_find s.block_map ⟨bbl.head, bbl.tail, bbl.size⟩ with
  | some bi =>
    rw [(LookupBlock_hit s bbl bi hfind).1]
    exact inv
  | none =>
    have hk : ¬ s.KnobEmitPrevBlockCounts = true := by
      rw [inv.plain]
      exact Bool.false_ne_true
    obtain ⟨h1, -⟩ := LookupBlock_miss_plain s bbl hfind hk
    rw [h1]
    have hmem : ∀ p, p ∈ (BLOCK_MAP_insert (⟨bbl.head, bbl.tail, bbl.size⟩,
        freshPointer s.block_map) s.block_map).map Prod.snd →
        p = freshPointer s.block_map ∨ p ∈ s.pointers :=
      (BLOCK_MAP_insert_pointers _ s.block_map).1
    have hfresh : freshPointer s.block_map ∉ s.pointers := freshPointer_not_mem s.block_map
    have hid : ∀ p, p ∈ (BLOCK_MAP_insert (⟨bbl.head, bbl.tail, bbl.size⟩,
        freshPointer s.block_map) s.block_map).map Prod.snd →
        ((upd s.blocks (freshPointer s.block_map)
          (BLOCK.new ⟨bbl.head, bbl.tail, bbl.size⟩ bbl.numIns (s._currentId 0)
            (s.img_manager.FindImgInfoId bbl.img)) p)._id =
          if p = freshPointer s.block_map then (s._currentId 0 : Int) else (s.blocks p)._id) := by
      intro p _
      by_cases hp : p = freshPointer s.block_map
      · rw [hp, upd_same, if_pos rfl]
        rfl
      · rw [upd_other _ _ _ _ hp, if_neg hp]
    have hold : ∀ p, p ∈ s.pointers → p ≠ freshPointer s.block_map := by
      intro p hp hc
      rw [hc] at hp
      exact hfresh hp
    exact
      { plain := inv.plain
        nextId := by
          show 1 ≤ upd s._currentId 0 (s._currentId 0 + 1) 0
          rw [upd_same]
          omega
        ids := by
          intro p hp
          show 1 ≤ (upd s.blocks _ _ p)._id ∧
            (upd s.blocks _ _ p)._id < ((upd s._currentId 0 (s._currentId 0 + 1) 0 : Nat) : Int)
          rw [hid p hp, upd_same]
          have hn := inv.nextId
          rcases hmem p hp with h | h
          · rw [if_pos h]
            push_cast
            omega
          · rw [if_neg (hold p h)]
            have := inv.ids p h
            push_cast
            omega
        distinct := by
          intro p hp q hq
          show (upd s.blocks _ _ p)._id = (upd s.blocks _ _ q)._id → p = q
          rw [hid p hp, hid q hq]
          intro heq
          rcases hmem p hp with h | h <;> rcases hmem q hq with h' | h'
          · rw [h, h']
          · rw [if_pos h, if_neg (hold q h')] at heq
            have := inv.ids q h'
            omega
          · rw [if_neg (hold p h), if_pos h'] at heq
            have := inv.ids p h
            omega
          · rw [if_neg (hold p h), if_neg (hold q h')] at heq
            exact inv.distinct p h q h' heq }

theorem PlainIds_onBlockExecuted (s : ISIMPOINT) (b tid : Nat) (inv : PlainIds s) :
    ∃ s1, s.onBlockExecuted b tid = some s1 ∧ PlainIds s1 := by
  have hok : s.KnobEmitPrevBlockCounts = true → tid < s.PIN_MAX_THREADS := by
    intro h
    rw [inv.plain] at h
    cases h
  obtain ⟨s1, heq, cfg, -, -, -, -, -, hids, -⟩ := countIf_spec s b tid hok
  have hplain : s.countIf b tid = some (s.CountBlock_If b tid) := by
    simp [ISIMPOINT.countIf, inv.plain]
  have hcur : s1._currentId = s._currentId := by
    rw [heq] at hplain
    simp only [Option.some.injEq] at hplain
    have : s1 = (s.CountBlock_If b tid).1 := by rw [← hplain]
    rw [this]
    rfl
  have hid1 : ∀ p, (s1.blocks p)._id = (s.blocks p)._id := by
    intro p
    rw [hids, inv.plain]
    simp
  have inv1 : PlainIds s1 :=
    { plain := cfg.prevCounts.trans inv.plain
      nextId := by rw [hcur]; exact inv.nextId
      ids := fun p hp => by
        rw [hid1, hcur]
        exact inv.ids p (by rw [← pointers_eq _ _ cfg.block_map]; exact hp)
      distinct := fun p hp q hq => by
        rw [hid1, hid1]
        rw [pointers_eq _ _ cfg.block_map] at hp hq
        exact inv.distinct p hp q hq }
  by_cases hneg : (s.profiles tid).SliceTimer - (s.blocks b)._staticInstructionCount < 0
  · refine ⟨s1.CountBlock_Then b tid, by simp [ISIMPOINT.onBlockExecuted, heq, hneg], ?_⟩
    have cfg2 := CountBlock_Then_sameConfig s1 b tid
    exact
      { plain := cfg2.prevCounts.trans inv1.plain
        nextId := by rw [CountBlock_Then_currentId]; exact inv1.nextId
        ids := fun p hp => by
          rw [CountBlock_Then_id, CountBlock_Then_currentId]
          exact inv1.ids p (by rw [← pointers_eq _ _ cfg2.block_map]; exact hp)
        distinct := fun p hp q hq => by
          rw [CountBlock_Then_id, CountBlock_Then_id]
          rw [pointers_eq _ _ cfg2.block_map] at hp hq
          exact inv1.distinct p hp q hq }
  · exact ⟨s1, by simp [ISIMPOINT.onBlockExecuted, heq, hneg], inv1⟩

/-- Without previous-block tracking any interleaving of discoveries and of
executions by any threads returns and keeps the ids of the map distinct. -/
theorem PlainIds_runSteps (steps : List Step) :
    ∀ s : ISIMPOINT, PlainIds s → ∃ s1, s.runSteps steps = some s1 ∧ PlainIds s1 := by
  induction steps with
  | nil => exact fun s inv => ⟨s, rfl, inv⟩
  | cons st rest ih =>
    intro s inv
    cases st with
    | discover bbl => exact ih _ (PlainIds_LookupBlock s bbl inv)
    | execute t b =>
      obtain ⟨s1, h1, inv1⟩ := PlainIds_onBlockExecuted s b t inv
      obtain ⟨s2, h2, inv2⟩ := ih s1 inv1
      refine ⟨s2, ?_, inv2⟩
      simp only [ISIMPOINT.runSteps, h1, Option.some_bind]
      exact h2

theorem examplePlainIds : PlainIds exampleEngine :=
  { plain := rfl
    nextId := by decide
    ids := by decide
    distinct := by decide }

/-- C28: without previous-block tracking, any interleaving of block
discoveries and of block executions by any threads keeps the ids of the
blocks of the map pairwise distinct; with tracking and a single thread the
nonzero ids are pairwise distinct as well.  With tracking and two threads
they are not: after thread 0 has executed block 0 and thread 1 has executed
block 1 of the example engine, both blocks carry id 1 (each thread numbers
from its own counter), `LookupBlock(1)` finds block 0 only, the slice body
of thread 1 names its block at 2000..2029 by the id under which thread 0
reports the block at 1000..1039, and the summary of thread 1 lists no
block. -/
theorem C28_ids_collide_across_tracking_threads (s : ISIMPOINT) (steps : List Step)
    (tid : Nat) (events : List Event) :
    (PlainIds s →
      ∃ s1, s.runSteps steps = some s1 ∧
        ∀ p ∈ s1.pointers, ∀ q ∈ s1.pointers,
          (s1.blocks p)._id = (s1.blocks q)._id → p = q) ∧
    (s.KnobEmitPrevBlockCounts = true → tid < s.PIN_MAX_THREADS →
      (∀ p ∈ s.pointers, (s.blocks p)._id = 0) → s._currentId tid = 1 →
      knownBlocks s.block_map events = true →
      ∃ s1, s.runEvents tid events = some s1 ∧
        ∀ p ∈ s1.pointers, ∀ q ∈ s1.pointers,
          (s1.blocks p)._id = (s1.blocks q)._id → (s1.blocks p)._id ≠ 0 → p = q) ∧
    knownSteps exampleTracking.PIN_MAX_THREADS exampleTracking.block_map
      [Step.execute 0 0, Step.execute 1 1] = true ∧
    ((exampleTracking.runSteps [Step.execute 0 0, Step.execute 1 1]).map fun s1 =>
        (s1.pointers, (s1.blocks 0)._id, (s1.blocks 1)._id, s1.LookupBlock_id 1)) =
      some ([0, 1, 2], 1, 1, some (⟨1000, 1039, 40⟩, 0)) ∧
    (((exampleTracking.runSteps [Step.execute 0 0, Step.execute 1 1]).bind fun s1 =>
        s1.ThreadFini 0).map fun s1 => (s1.profiles 0).BbFile) =
      some [Line.I0, Line.P 0, Line.C "", Line.M_no_image 0 1, Line.SliceEnding 40,
        Line.T [(1, 40)], Line.M_no_image 1039 1, Line.DynamicInstructionCount 40,
        Line.SliceSize 60, Line.BlockSummary 1 1000 1039 40 1 40 (some [(0, 1)]),
        Line.EndOfBb] ∧
    (((exampleTracking.runSteps [Step.execute 0 0, Step.execute 1 1]).bind fun s1 =>
        s1.ThreadFini 1).map fun s1 => (s1.profiles 1).BbFile) =
      some [Line.I0, Line.P 1, Line.C "", Line.M_no_image 0 1, Line.SliceEnding 30,
        Line.T [(1, 30)], Line.M_no_image 2029 1, Line.DynamicInstructionCount 30,
        Line.SliceSize 60, Line.EndOfBb] := by
  refine ⟨?_, ?_, by decide, by decide, by decide, by decide⟩
  · intro inv
    obtain ⟨s1, h1, inv1⟩ := PlainIds_runSteps steps s inv
    exact ⟨s1, h1, inv1.distinct⟩
  · intro hk hmax hids hcur hknown
    have inv0 : IdInv s tid [] :=
      { tracking := hk
        maxThreads := hmax
        nextId := by rw [hcur]; rfl
        executedKnown := fun p hp => by cases hp
        ids := fun p hp => by rw [hids p hp]; rfl }
    obtain ⟨s1, hrun, inv1⟩ := IdInv_runEvents tid events s [] inv0 hknown
    refine ⟨s1, hrun, ?_⟩
    intro p hp q hq heq hne
    have hp1 := inv1.ids p hp
    have hq1 := inv1.ids q hq
    have hpm : p ∈ firstExecuted ([] ++ executions events) := by
      by_contra hc
      rw [if_neg hc] at hp1
      exact hne hp1
    have hqm : q ∈ firstExecuted ([] ++ executions events) := by
      by_contra hc
      rw [if_neg hc] at hq1
      exact hne (heq.trans hq1)
    rw [if_pos hpm] at hp1
    rw [if_pos hqm] at hq1
    rw [hp1, hq1] at heq
    have hidx : (firstExecuted ([] ++ executions events)).indexOf p =
        (firstExecuted ([] ++ executions events)).indexOf q := by
      omega
    exact (List.indexOf_inj hpm hqm).mp hidx

theorem C28_ids_collide_across_tracking_threads_witness :
    PlainIds exampleEngine ∧
    ∃ s1, exampleEngine.runSteps
        [Step.execute 0 0, Step.discover ⟨4000, 4009, 10, 5, none⟩, Step.execute 1 1] =
          some s1 ∧
      ∀ p ∈ s1.pointers, ∀ q ∈ s1.pointers,
        (s1.blocks p)._id = (s1.blocks q)._id → p = q :=
  ⟨examplePlainIds,
    (C28_ids_collide_across_tracking_threads exampleEngine
      [Step.execute 0 0, Step.discover ⟨4000, 4009, 10, 5, none⟩, Step.execute 1 1] 0 []).1
      examplePlainIds⟩

end ISimPoint
